import Mathlib

/-!
# FreeImage-Adv codec core: a shallow embedding and its checked properties

The development follows these parts of the library:

* `Source/Utilities.h`: the row-stride helpers `CalculateLine` and `CalculatePitch`, and the
  progress stepping of `FIProgress`;
* `FreeImage/trunk/Source/FreeImage/PluginJPEG.cpp`: the ICC profile splitter
  `jpeg_write_icc_profile` and the reassembler `jpeg_read_icc_profile` (with `marker_is_icc`);
* `Source/FreeImage/PluginBMP.cpp`: the RLE-8 encoder `RLEEncodeLine`, the pixel-stream part
  of `Save`, the RLE-8 decoder `LoadPixelDataRLE8`, the raw loader `LoadPixelData`, the header
  check `CheckBitmapInfoHeader`, and the loaders `LoadWindowsBMP` and `LoadAdv`.

Bytes are natural numbers below 256, C arrays are lists, `unsigned` arithmetic is arithmetic
modulo `2 ^ 32`, and a `(BYTE)` cast is a reduction modulo 256. All definitions come first,
the lemmas and the claims `C1`, `C2`, ... follow.
-/

set_option autoImplicit false

namespace FreeImage

/-! ## Row stride (`Source/Utilities.h`) -/

/-- The helper `CalculateLine(width, bitdepth)`:
`(unsigned)( ((unsigned long long)width * bitdepth + 7) / 8 )`.
The product and the sum are taken in 64 bits, the result is truncated to 32 bits. -/
def CalculateLine (width bitdepth : Nat) : Nat :=
  ((width * bitdepth + 7) % 2 ^ 64 / 8) % 2 ^ 32

/-- The helper `CalculatePitch(line)`: `(line + 3) & ~3` on `unsigned`; the sum wraps modulo `2 ^ 32`
and `~3` is the mask `0xFFFFFFFC`. -/
def CalculatePitch (line : Nat) : Nat :=
  ((line + 3) % 2 ^ 32) &&& 0xFFFFFFFC

/-! ## ICC profile markers (`Source/FreeImage/PluginJPEG.cpp`) -/

/-- Marker code of `APP0` in the JPEG library (`JPEG_APP0`). -/
def JPEG_APP0 : Nat := 0xE0

/-- Macro `#define ICC_MARKER (JPEG_APP0+2)`: the ICC profile marker. -/
def ICC_MARKER : Nat := JPEG_APP0 + 2

/-- Macro `#define ICC_HEADER_SIZE 14`: size of the non-profile data in an APP2 marker. -/
def ICC_HEADER_SIZE : Nat := 14

/-- Macro `#define MAX_BYTES_IN_MARKER 65533L`: maximum data length of a JPEG marker. -/
def MAX_BYTES_IN_MARKER : Nat := 65533

/-- Macro `#define MAX_DATA_BYTES_IN_MARKER 65519L`: maximum profile bytes in one APP2 marker. -/
def MAX_DATA_BYTES_IN_MARKER : Nat := 65519

/-- A saved marker of the decompressor (`jpeg_saved_marker_ptr`): its marker code and its
data bytes; `data_length` is the length of `data`. The same record describes a marker handed
to `jpeg_write_marker`. -/
structure SavedMarker where
  marker : Nat
  data : List Nat
deriving DecidableEq, Repr

/-- The field `data_length` of a saved marker. -/
def SavedMarker.data_length (m : SavedMarker) : Nat := m.data.length

/-- The identifying string `"ICC_PROFILE"` with its terminating zero. -/
def icc_signature : List Nat :=
  [0x49, 0x43, 0x43, 0x5F, 0x50, 0x52, 0x4F, 0x46, 0x49, 0x4C, 0x45, 0x00]

/-- Macro `GETJOCTET(value)`: the value of a data byte as a number in `0..255`. -/
def GETJOCTET (value : Nat) : Nat := value % 256

/-- Function `marker_is_icc`: the marker is an APP2 marker of at least 14 data bytes that starts with
the 12-byte ICC signature. -/
def marker_is_icc (m : SavedMarker) : Bool :=
  if m.marker = ICC_MARKER then
    if m.data_length ≥ ICC_HEADER_SIZE then
      if m.data.take 12 = icc_signature then true else false
    else false
  else false

/-- The local arrays of `jpeg_read_icc_profile` filled by its first pass: `num_markers`,
`marker_present[]` and `data_length[]` (indexed by sequence number). -/
structure IccScan where
  num_markers : Nat
  marker_present : Nat → Bool
  data_length : Nat → Nat

/-- State before the first pass: `num_markers = 0`, `marker_present` cleared by `memset`. -/
def IccScan.init : IccScan := ⟨0, fun _ => false, fun _ => 0⟩

/-- First pass of `jpeg_read_icc_profile` over the saved markers: discovers the ICC markers and
verifies the consistency of their numbering. `none` is an early `return FALSE`. -/
def icc_first_pass : List SavedMarker → IccScan → Option IccScan
  | [], st => some st
  | m :: rest, st =>
    if marker_is_icc m then
      if st.num_markers ≠ 0 ∧ st.num_markers ≠ GETJOCTET (m.data.getD 13 0) then
        none -- inconsistent num_markers fields
      else
        let num_markers :=
          if st.num_markers = 0 then GETJOCTET (m.data.getD 13 0) else st.num_markers
        let seq_no := GETJOCTET (m.data.getD 12 0)
        if seq_no ≤ 0 ∨ seq_no > num_markers then
          none -- bogus sequence number
        else if st.marker_present seq_no then
          none -- duplicate sequence numbers
        else
          icc_first_pass rest
            { num_markers := num_markers
              marker_present := Function.update st.marker_present seq_no true
              data_length :=
                Function.update st.data_length seq_no (m.data_length - ICC_HEADER_SIZE) }
    else icc_first_pass rest st

/-- Second pass of `jpeg_read_icc_profile`, for `seq_no` running through the given sequence
numbers: checks for missing markers and computes `data_offset[]` and `total_length`. -/
def icc_second_pass (st : IccScan) :
    List Nat → (Nat → Nat) × Nat → Option ((Nat → Nat) × Nat)
  | [], acc => some acc
  | seq_no :: rest, (data_offset, total_length) =>
    if st.marker_present seq_no = false then
      none -- missing sequence number
    else
      icc_second_pass st rest
        (Function.update data_offset seq_no total_length, total_length + st.data_length seq_no)

/-- The copy loop `while (length--) *dst_ptr++ = *src_ptr++`, writing into `icc_data` from
position `pos` on. -/
def icc_copy (icc_data : List Nat) (pos : Nat) (src : List Nat) : Nat → List Nat
  | 0 => icc_data
  | length + 1 => icc_copy (icc_data.set pos (src.headD 0)) (pos + 1) src.tail length

/-- Third pass of `jpeg_read_icc_profile`: every ICC marker's payload is copied to its offset
in the assembled data. -/
def icc_third_pass (st : IccScan) (data_offset : Nat → Nat) :
    List SavedMarker → List Nat → List Nat
  | [], icc_data => icc_data
  | m :: rest, icc_data =>
    if marker_is_icc m then
      let seq_no := GETJOCTET (m.data.getD 12 0)
      icc_third_pass st data_offset rest
        (icc_copy icc_data (data_offset seq_no) (m.data.drop ICC_HEADER_SIZE)
          (st.data_length seq_no))
    else icc_third_pass st data_offset rest icc_data

/-- What `jpeg_read_icc_profile` hands back: its `BOOL` result and the two out-parameters
`*icc_data_ptr` (`none` is `NULL`) and `*icc_data_len`. -/
structure IccResult where
  found : Bool
  icc_data_ptr : Option (List Nat)
  icc_data_len : Nat
deriving DecidableEq, Repr

/-- The `return FALSE` of `jpeg_read_icc_profile`: the out-parameters keep the values
`NULL` and `0` stored at entry. -/
def IccResult.notFound : IccResult := ⟨false, none, 0⟩

/-- Function `jpeg_read_icc_profile` on the list of saved markers `cinfo->marker_list`. The assembled
buffer is allocated with `total_length` bytes (allocation is taken to succeed; its initial
content is modelled as zeros). A saved marker holds at most 65533 data bytes, so the sum of
at most 255 lengths does not wrap in `unsigned`. -/
def jpeg_read_icc_profile (marker_list : List SavedMarker) : IccResult :=
  match icc_first_pass marker_list IccScan.init with
  | none => IccResult.notFound
  | some st =>
    if st.num_markers = 0 then IccResult.notFound
    else
      match icc_second_pass st (List.range' 1 st.num_markers) (fun _ => 0, 0) with
      | none => IccResult.notFound
      | some (data_offset, total_length) =>
        if total_length ≤ 0 then IccResult.notFound -- found only empty markers
        else
          let icc_data :=
            icc_third_pass st data_offset marker_list (List.replicate total_length 0)
          ⟨true, some icc_data, total_length⟩

/-- The `for` loop of `jpeg_write_icc_profile`, from offset `i` on: one APP2 marker per
iteration, made of the signature, the sequence number `profile[12]`, the number of markers
`profile[13]` and `length` profile bytes. The result lists the markers passed to
`jpeg_write_marker`, in order. (`long` holds every `DWORD` size.) -/
def icc_write_loop (data : List Nat) (size : Nat) (i : Nat) : List SavedMarker :=
  if i < size then
    let length := min (size - i) MAX_DATA_BYTES_IN_MARKER
    let profile12 := (i / MAX_DATA_BYTES_IN_MARKER + 1) % 256
    let profile13 := (size / MAX_DATA_BYTES_IN_MARKER + 1) % 256
    ⟨ICC_MARKER, icc_signature ++ [profile12, profile13] ++ (data.drop i).take length⟩ ::
      icc_write_loop data size (i + MAX_DATA_BYTES_IN_MARKER)
  else []
termination_by size - i
decreasing_by
  simp only [MAX_DATA_BYTES_IN_MARKER]
  omega

/-- Function `jpeg_write_icc_profile` for the profile bytes attached to the bitmap (`iccProfile->size`
is the length of the list): the `BOOL` result and the markers written. -/
def jpeg_write_icc_profile (iccProfile : List Nat) : Bool × List SavedMarker :=
  if iccProfile.length ≠ 0 then
    (true, icc_write_loop iccProfile iccProfile.length 0)
  else (false, [])

/-- The marker written for the chunk that starts at offset `j` of a profile of `size` bytes. -/
def icc_marker_at (data : List Nat) (size j : Nat) : SavedMarker :=
  ⟨ICC_MARKER,
    icc_signature ++
      [(j / MAX_DATA_BYTES_IN_MARKER + 1) % 256, (size / MAX_DATA_BYTES_IN_MARKER + 1) % 256] ++
      (data.drop j).take (min (size - j) MAX_DATA_BYTES_IN_MARKER)⟩

/-! ## RLE-8 encoder (`Source/FreeImage/PluginBMP.cpp`) -/

/-- Constant `RLE_COMMAND = 0`: first byte of an escape. -/
def RLE_COMMAND : Nat := 0

/-- Constant `RLE_ENDOFLINE = 0`. -/
def RLE_ENDOFLINE : Nat := 0

/-- Constant `RLE_ENDOFBITMAP = 1`. -/
def RLE_ENDOFBITMAP : Nat := 1

/-- Constant `RLE_DELTA = 2`. -/
def RLE_DELTA : Nat := 2

/-- The `switch (buffer_size)` of `RLEEncodeLine` that writes the pooled bytes before a solid
block and at the end of the line. `out` holds `target[0 .. target_pos)`; `target` is the content
of the target buffer at entry, which a skipped pad position keeps. -/
def RLE_flush (target : Nat → Nat) (buffer out : List Nat) : List Nat :=
  if buffer.length = 0 then out
  else if buffer.length = RLE_DELTA then
    out ++ [1, buffer.getD 0 0, 1, buffer.getD 1 0]
  else if buffer.length = RLE_ENDOFBITMAP then
    out ++ [buffer.length % 256, buffer.getD 0 0]
  else
    let out1 := out ++ [RLE_COMMAND, buffer.length % 256] ++ buffer
    if buffer.length % 2 = 1 then out1 ++ [target out1.length] else out1

/-- The block "write what we have" run when `buffer_size == 254`: an absolute run of the whole
pool, after which `buffer_size` is reset to 0. -/
def RLE_flush_full (buffer out : List Nat) : List Nat × List Nat :=
  if buffer.length = 254 then ([], out ++ [RLE_COMMAND, buffer.length % 256] ++ buffer)
  else (buffer, out)

/-- The inner `while` of `RLEEncodeLine`, which extends a solid block:
`while ((j < size - 1) && (j < jmax) && (source[j] == source[j + 1])) ++j`. -/
def RLE_scan (source : List Nat) (size jmax : Nat) : Nat → Nat → Nat
  | 0, j => j
  | fuel + 1, j =>
    if j + 1 < size ∧ j < jmax ∧ source.getD j 0 = source.getD (j + 1) 0 then
      RLE_scan source size jmax fuel (j + 1)
    else j

/-- The loop `for (k = 0; k < (j - i) + 1; ++k)` of `RLEEncodeLine` that puts a short block
into the pool; `n` counts the iterations left. -/
def RLE_pool (source : List Nat) (i : Nat) : Nat → Nat → List Nat → List Nat → List Nat × List Nat
  | 0, _, buffer, out => (buffer, out)
  | n + 1, k, buffer, out =>
    let r := RLE_flush_full (buffer ++ [source.getD (i + k) 0]) out
    RLE_pool source i n (k + 1) r.1 r.2

/-- One iteration of the main `for` loop of `RLEEncodeLine` at index `i < size`: the value of
`i` at the end of the body, the pool and the bytes written so far. -/
def RLE_iter (target : Nat → Nat) (source : List Nat) (size i : Nat)
    (buffer out : List Nat) : Nat × List Nat × List Nat :=
  let r : Nat × List Nat × List Nat :=
    if i + 1 < size ∧ source.getD i 0 = source.getD (i + 1) 0 then
      let j := RLE_scan source size (254 + i) size (i + 1)
      if (j - i) + 1 > 3 then
        (j, [], RLE_flush target buffer out ++ [((j - i) + 1) % 256, source.getD i 0])
      else
        let p := RLE_pool source i ((j - i) + 1) 0 buffer out
        (j, p.1, p.2)
    else (i, buffer ++ [source.getD i 0], out)
  let f := RLE_flush_full r.2.1 r.2.2
  (r.1, f.1, f.2)

/-- The main loop `for (int i = 0; i < size; ++i)` of `RLEEncodeLine`. -/
def RLEEncodeLine_loop (target : Nat → Nat) (source : List Nat) (size : Nat) :
    Nat → Nat → List Nat → List Nat → List Nat × List Nat
  | 0, _, buffer, out => (buffer, out)
  | fuel + 1, i, buffer, out =>
    if i < size then
      let r := RLE_iter target source size i buffer out
      RLEEncodeLine_loop target source size fuel (r.1 + 1) r.2.1 r.2.2
    else (buffer, out)

/-- Function `RLEEncodeLine(target, source, size)`: the bytes `target[0 .. n)` where `n` is the
returned size. The `int` indices do not overflow for a line of fewer than `2^31 - 255` bytes. -/
def RLEEncodeLine (target : Nat → Nat) (source : List Nat) (size : Nat) : List Nat :=
  let r := RLEEncodeLine_loop target source size size 0 [] []
  RLE_flush target r.1 r.2 ++ [RLE_COMMAND, RLE_ENDOFLINE]

/-! ## Progress reporting (`Source/Utilities.h`) -/

/-- The callback wrapper `FreeImageCBWrapper`: the flag `shouldContinue` and the user's
`onProgress` callback, if one is installed. The callback is an oracle: `onProgressCb k` is its
answer to the call number `k`; `calls` counts the calls made. -/
structure FreeImageCBWrapper where
  shouldContinue : Bool
  onProgressCb : Option (Nat → Bool)
  calls : Nat

/-- Method `FreeImageCBWrapper::onProgress`: without a callback the flag is returned, otherwise
the callback is asked and its answer is stored in the flag. -/
def FreeImageCBWrapper.onProgress (w : FreeImageCBWrapper) : Bool × FreeImageCBWrapper :=
  match w.onProgressCb with
  | none => (w.shouldContinue, w)
  | some f => (f w.calls, { w with shouldContinue := f w.calls, calls := w.calls + 1 })

/-- The fields of `FIProgress` that progress stepping uses; `fi_progress_t` is `UINT64`. -/
structure FIProgress where
  _progress : Nat
  _steps : Nat
  _cb : FreeImageCBWrapper

/-- The fields of `FIProgress::Step` (its two pointers refer to the owning `FIProgress`). -/
structure Step where
  _step : Nat
  _sdelta : Nat
  _pdelta : Nat

/-- Method `FIProgress::getStepProgress(stepsTotal, endProgress)`, where `endProgress_` is the
converted target `fi_progress_t(FI_MAX_PROGRESS * endProgress)`. -/
def FIProgress.getStepProgress (p : FIProgress) (stepsTotal endProgress_ : Nat) : Step :=
  let sdelta := if stepsTotal > p._steps then stepsTotal / p._steps else 1
  let range := endProgress_ - p._progress
  let pdelta := range / (stepsTotal / sdelta)
  ⟨0, sdelta, pdelta⟩

/-- Method `FIProgress::Step::progress()`: every `_sdelta`-th call adds `_pdelta` to the
progress and asks the callback; the other calls answer `true`. -/
def Step.progress (s : Step) (p : FIProgress) : Bool × Step × FIProgress :=
  let step := (s._step + 1) % 2 ^ 64
  if s._sdelta = step then
    let r := p._cb.onProgress
    (r.1, { s with _step := 0 },
      { p with _progress := (p._progress + s._pdelta) % 2 ^ 64, _cb := r.2 })
  else (true, { s with _step := step }, p)

/-- Constant `FI_MAX_PROGRESS = 1 << 53`. -/
def FI_MAX_PROGRESS : Nat := 2 ^ 53

/-! ## RLE-8 decoder (`Source/FreeImage/PluginBMP.cpp`) -/

/-- What the BMP loaders throw: the two RLE messages `errmsg` and the `FI_MSG_ERROR_*`
messages of `Utilities.h`. -/
inductive BmpThrow where
  | errmsgRLE8
  | errmsgRLE4
  | FI_MSG_ERROR_MEMORY
  | FI_MSG_ERROR_DIB_MEMORY
  | FI_MSG_ERROR_INVALID_FORMAT
  | FI_MSG_ERROR_UNSUPPORTED_COMPRESSION
deriving DecidableEq, Repr

/-- Result of a pixel loader: `error e` is `throw e`, `ok none` is `return NULL`, and
`ok (some bits)` is the returned bitmap, given by its pixel bytes. -/
abbrev PixelResult := Except BmpThrow (Option (List Nat))

/-- The loop `while(delta_y) { if(! step.progress()) return NULL; delta_y--; }` of the delta
escape; `none` is the `return NULL`. -/
def RLE8_delta_steps : Nat → Step → FIProgress → Option (Step × FIProgress)
  | 0, step, progress => some (step, progress)
  | delta_y + 1, step, progress =>
    let r := step.progress progress
    if r.1 = false then none else RLE8_delta_steps delta_y r.2.1 r.2.2

/-- The loop `for (i = 0; i < count; i++) { *(sline + bits) = second_byte; bits++; }` of an
encoded run, on the pixel bytes of the bitmap; `pos` is the offset of `sline + bits`. -/
def RLE8_fill (dib : List Nat) (pos : Nat) (second_byte : Nat) : Nat → List Nat
  | 0 => dib
  | count + 1 => RLE8_fill (dib.set pos second_byte) (pos + 1) second_byte count

/-- The read `read_proc(sline + bits, count, 1, handle)` of an absolute run, on the pixel bytes
of the bitmap: the bytes `src` go to the offsets from `pos` on. -/
def RLE8_store (dib : List Nat) (pos : Nat) : List Nat → List Nat
  | [] => dib
  | b :: src => RLE8_store (dib.set pos b) (pos + 1) src

/-- The value of an `int` expression: signed 32-bit arithmetic, which wraps around. -/
def int32 (x : Int) : Int := (x + 2 ^ 31) % 2 ^ 32 - 2 ^ 31

/-- A store of the bytes `src` at the addresses from `addr` on, relative to the start of the
buffer `dib` (`addr` is the offset of `sline + bits`, which `CalculateScanLine` and the
pointer addition compute without reduction). The buffer is all the memory that is held here:
a byte that goes to an address outside of it leaves the buffer as it is. -/
def RLE8_store_at (dib : List Nat) (addr : Int) (src : List Nat) : List Nat :=
  RLE8_store dib addr.toNat (src.drop (-addr).toNat)

/-- A store of `count` copies of `second_byte` at the addresses from `addr` on, relative to
the start of the buffer `dib`; see `RLE8_store_at`. -/
def RLE8_fill_at (dib : List Nat) (addr : Int) (second_byte : Nat) (count : Nat) : List Nat :=
  RLE8_fill dib addr.toNat second_byte (count - (-addr).toNat)

/-- The `while(scanline < height)` loop of `LoadPixelDataRLE8`. `stream` holds the bytes still
to be read, `dib` the pixel bytes of the bitmap, whose scanline `s` starts at offset
`pitch * s`; `scanline` and `bits` are the `int` variables of the source. Every iteration
reads a byte or leaves the loop, so `fuel` above the stream length is never used up. A read of
`count` bytes as one item fails when `count` is 0. -/
def LoadPixelDataRLE8_loop (width : Int) (height pitch : Nat) :
    Nat → List Nat → Int → Int → List Nat → Step → FIProgress → PixelResult
  | 0, _, _, _, _, _, _ => .error .errmsgRLE8
  | fuel + 1, stream, scanline, bits, dib, step, progress =>
    if scanline < height then
      match stream with
      | [] => .error .errmsgRLE8
      | status_byte :: stream1 =>
        if status_byte = RLE_COMMAND then
          match stream1 with
          | [] => .error .errmsgRLE8
          | status_byte :: stream2 =>
            if status_byte = RLE_ENDOFLINE then
              let r := step.progress progress
              if r.1 = false then .ok none
              else LoadPixelDataRLE8_loop width height pitch fuel stream2 (int32 (scanline + 1))
                0 dib r.2.1 r.2.2
            else if status_byte = RLE_ENDOFBITMAP then .ok (some dib)
            else if status_byte = RLE_DELTA then
              match stream2 with
              | delta_x :: delta_y :: stream3 =>
                match RLE8_delta_steps delta_y step progress with
                | none => .ok none
                | some r =>
                  LoadPixelDataRLE8_loop width height pitch fuel stream3
                    (int32 (scanline + delta_y)) (int32 (bits + delta_x)) dib r.1 r.2
              | _ => .error .errmsgRLE8
            else
              -- absolute mode
              let count : Int := min (status_byte : Int) (int32 (width - bits))
              if count < 0 then .error .errmsgRLE8
              else if count = 0 ∨ stream2.length < count.toNat then .error .errmsgRLE8
              else
                let dib1 := RLE8_store_at dib (pitch * scanline + bits) (stream2.take count.toNat)
                let stream3 := stream2.drop count.toNat
                if status_byte % 2 = 1 then
                  match stream3 with
                  | [] => .error .errmsgRLE8
                  | _ :: stream4 =>
                    LoadPixelDataRLE8_loop width height pitch fuel stream4 scanline
                      (int32 (bits + status_byte)) dib1 step progress
                else
                  LoadPixelDataRLE8_loop width height pitch fuel stream3 scanline
                    (int32 (bits + status_byte)) dib1 step progress
        else
          let count : Int := min (status_byte : Int) (int32 (width - bits))
          if count < 0 then .error .errmsgRLE8
          else
            match stream1 with
            | [] => .error .errmsgRLE8
            | second_byte :: stream2 =>
              LoadPixelDataRLE8_loop width height pitch fuel stream2 scanline
                (int32 (bits + count))
                (RLE8_fill_at dib (pitch * scanline + bits) second_byte count.toNat) step progress
    else .ok (some dib)

/-- Function `LoadPixelDataRLE8(io, handle, width, height, bit_count, dib_storage, progress)`:
`stream` holds the bytes from the read position on, `dib` the pixel bytes of the allocated
bitmap and `pitch` its row stride. -/
def LoadPixelDataRLE8 (stream : List Nat) (width height : Int) (bit_count : Nat)
    (dib : List Nat) (pitch : Nat) (progress : FIProgress) : PixelResult :=
  if 8 ≠ bit_count then .error .errmsgRLE8
  else
    let height := height.natAbs
    let step := progress.getStepProgress height FI_MAX_PROGRESS
    LoadPixelDataRLE8_loop width height pitch (stream.length + 1) stream 0 0 dib step progress

/-- The pixel stream that `Save` writes with the RLE flag for an 8-bit bitmap: `lines` are the
scanlines left to encode (`FreeImage_GetLine` bytes each), `buffer` is the content of the
encoding buffer, reused from line to line, and `out` the bytes written so far. After the last
line the end-of-bitmap pair is written. -/
def Save_RLE (buffer : Nat → Nat) : List (List Nat) → List Nat → List Nat
  | [], out => out ++ [RLE_COMMAND, RLE_ENDOFBITMAP]
  | line :: lines, out =>
    let enc := RLEEncodeLine buffer line line.length
    Save_RLE (fun p => if p < enc.length then enc.getD p 0 else buffer p) lines (out ++ enc)

/-! ## BMP headers and loaders (`Source/FreeImage/PluginBMP.cpp`) -/

/-- Constant `BI_RGB = 0`: no compression. -/
def BI_RGB : Nat := 0

/-- Constant `BI_RLE8 = 1`: RLE, 8 bits per pixel. -/
def BI_RLE8 : Nat := 1

/-- Constant `BI_RLE4 = 2`: RLE, 4 bits per pixel. -/
def BI_RLE4 : Nat := 2

/-- Constant `BI_BITFIELDS = 3`: bit fields. -/
def BI_BITFIELDS : Nat := 3

/-- Constant `BI_JPEG = 4`. -/
def BI_JPEG : Nat := 4

/-- Constant `BI_PNG = 5`. -/
def BI_PNG : Nat := 5

/-- Constant `BI_ALPHABITFIELDS = 6`. -/
def BI_ALPHABITFIELDS : Nat := 6

/-- Modelled from the spec: the Windows info header `BITMAPINFOHEADER`, declared outside the
sources at hand. Its fields in file order: header size (4 bytes), width and height (4 bytes,
signed), planes and bit depth (2 bytes), compression, image size (4 bytes), resolution
(4 bytes, signed), colours used and important colours (4 bytes); 40 bytes in all. -/
structure BITMAPINFOHEADER where
  biSize : Nat
  biWidth : Int
  biHeight : Int
  biPlanes : Nat
  biBitCount : Nat
  biCompression : Nat
  biSizeImage : Nat
  biXPelsPerMeter : Int
  biYPelsPerMeter : Int
  biClrUsed : Nat
  biClrImportant : Nat
deriving DecidableEq, Repr

/-- Modelled from the spec: `sizeof(BITMAPINFOHEADER)`, the base info header of 40 bytes. -/
def sizeof_BITMAPINFOHEADER : Nat := 40

/-- The size of the packed `BITMAPFILEHEADER`: 2 + 4 + 2 + 2 + 4 bytes. -/
def sizeof_BITMAPFILEHEADER : Nat := 14

/-- Function `CheckBitmapInfoHeader(bih)`. -/
def CheckBitmapInfoHeader (bih : BITMAPINFOHEADER) : Bool :=
  if bih.biSize ≠ sizeof_BITMAPINFOHEADER then
    if bih.biSize = 0 ∧ bih.biCompression ≠ BI_RGB then false
    else if bih.biCompression = BI_JPEG ∨ bih.biCompression = BI_PNG then false
    else false
  else if bih.biWidth < 0 then false
  else if bih.biHeight < 0 ∧ (bih.biCompression ≠ BI_RGB ∧ bih.biCompression ≠ BI_BITFIELDS) then
    false
  else if bih.biPlanes ≠ 1 then false
  else if bih.biBitCount = 0 then false
  else if ¬ (bih.biBitCount = 1 ∨ bih.biBitCount = 4 ∨ bih.biBitCount = 8 ∨
      bih.biBitCount = 16 ∨ bih.biBitCount = 24 ∨ bih.biBitCount = 32) then false
  else if bih.biCompression = BI_RGB ∨ bih.biCompression = BI_RLE8 ∨
      bih.biCompression = BI_RLE4 ∨ bih.biCompression = BI_BITFIELDS then true
  else false

/-- Function `CalculateUsedPaletteEntries(bit_count)` of `Utilities.h`. -/
def CalculateUsedPaletteEntries (bit_count : Nat) : Nat :=
  if bit_count ≥ 1 ∧ bit_count ≤ 8 then 1 <<< bit_count else 0

/-- Modelled from the spec: the byte stream behind `FreeImageIO` and its handle, a sequential,
seekable source with a read position. -/
structure Stream where
  data : List Nat
  pos : Nat
deriving DecidableEq, Repr

/-- Modelled from the spec: `read_proc(buffer, size, count, handle)` transfers the bytes that
are available, up to `size * count`, advances the position by as many, and returns the
number of complete items read; a short read is signalled by a smaller count. The result
holds the bytes transferred, the returned count and the stream. -/
def read_proc (io : Stream) (size count : Nat) : List Nat × Nat × Stream :=
  let n := min (size * count) (io.data.length - io.pos)
  ((io.data.drop io.pos).take n, if size = 0 then 0 else n / size, { io with pos := io.pos + n })

/-- Modelled from the spec: `seek_proc(handle, offset, SEEK_SET)`. -/
def seek_set (io : Stream) (offset : Nat) : Stream := { io with pos := offset }

/-- Modelled from the spec: `seek_proc(handle, offset, SEEK_CUR)`. -/
def seek_cur (io : Stream) (offset : Int) : Stream := { io with pos := ((io.pos : Int) + offset).toNat }

/-- A little-endian `WORD` at offset `off` of a buffer (absent bytes keep the zero of the
preceding `memset`). -/
def le16 (b : List Nat) (off : Nat) : Nat :=
  b.getD off 0 + 256 * b.getD (off + 1) 0

/-- A little-endian `DWORD` at offset `off` of a buffer. -/
def le32 (b : List Nat) (off : Nat) : Nat :=
  b.getD off 0 + 256 * b.getD (off + 1) 0 + 65536 * b.getD (off + 2) 0 +
    16777216 * b.getD (off + 3) 0

/-- A 32-bit value read as a signed `LONG` (or `int`). -/
def toLONG (v : Nat) : Int :=
  if v % 2 ^ 32 < 2 ^ 31 then ((v % 2 ^ 32 : Nat) : Int) else ((v % 2 ^ 32 : Nat) : Int) - 2 ^ 32

/-- The `BITMAPINFOHEADER` held by a buffer of 40 bytes on a little-endian host. -/
def BITMAPINFOHEADER.ofBytes (b : List Nat) : BITMAPINFOHEADER :=
  { biSize := le32 b 0
    biWidth := toLONG (le32 b 4)
    biHeight := toLONG (le32 b 8)
    biPlanes := le16 b 12
    biBitCount := le16 b 14
    biCompression := le32 b 16
    biSizeImage := le32 b 20
    biXPelsPerMeter := toLONG (le32 b 24)
    biYPelsPerMeter := toLONG (le32 b 28)
    biClrUsed := le32 b 32
    biClrImportant := le32 b 36 }

/-- Modelled from the spec: the in-memory bitmap `FIBITMAP` as far as the loaders use it:
geometry, resolution, colour masks, palette bytes, pixel bytes (none in header-only mode),
the transparency flag, and whether `FreeImage_Unload` has released it. -/
structure FIBITMAP where
  header_only : Bool
  width : Int
  height : Int
  bpp : Nat
  masks : Nat × Nat × Nat
  dotsX : Int
  dotsY : Int
  palette : List Nat
  bits : List Nat
  transparent : Bool
  unloaded : Bool
deriving DecidableEq, Repr

/-- The collaborators of the BMP loaders that lie outside the sources at hand:
`FreeImage_AllocateHeader` (`none` is `NULL`), the default colour masks, the colour-type test
`FreeImage_GetColorType(dib) == FIC_RGBALPHA`, and the part of `LoadOS22XBMP` after its
header check. -/
structure BmpEnv where
  AllocateHeader : Bool → Int → Int → Nat → Nat × Nat × Nat → Option FIBITMAP
  FI16_555_MASKS : Nat × Nat × Nat
  FI_RGBA_MASKS : Nat × Nat × Nat
  isRGBALPHA : FIBITMAP → Bool
  LoadOS22XBMP_rest : BITMAPINFOHEADER → Stream → Bool → Nat → FIProgress →
    Except BmpThrow (Option FIBITMAP)

/-- The row-by-row loop of `LoadPixelData` for a top-down bitmap:
`for (c = 0; c < positiveHeight; ++c)`, reading `pitch` bytes into scanline
`positiveHeight - c - 1`. The result holds the pixel bytes, `ok`, and whether the loop left
by `return NULL` after a cancelled step. -/
def LoadPixelData_rows (positiveHeight pitch : Nat) :
    Nat → Nat → Stream → List Nat → Step → FIProgress → List Nat × Bool × Bool
  | 0, _, _, dib, _, _ => (dib, true, false)
  | n + 1, c, io, dib, step, progress =>
    let r := read_proc io pitch 1
    let dib1 := RLE8_store dib (pitch * (positiveHeight - c - 1)) r.1
    if r.2.1 ≠ 1 then (dib1, false, false)
    else
      let s := step.progress progress
      if s.1 = false then (dib1, true, true)
      else LoadPixelData_rows positiveHeight pitch n (c + 1) r.2.2 dib1 s.2.1 s.2.2

/-- Function `LoadPixelData(io, handle, dib, height, pitch, bit_count, progress)` on a
little-endian host with BGR colour order (no swapping pass). `none` is `return NULL` (the
bitmap has been unloaded); otherwise the pixel bytes of the returned bitmap come with the
flag `ok`, which only selects a message. -/
def LoadPixelData (io : Stream) (dib : List Nat) (height : Int) (pitch : Nat) (_bit_count : Nat)
    (progress : FIProgress) : Option (List Nat × Bool) :=
  if height > 0 then
    let r := read_proc io ((height.toNat * pitch) % 2 ^ 32) 1
    some (RLE8_store dib 0 r.1, decide (r.2.1 = 1))
  else
    let positiveHeight := height.natAbs
    let step := progress.getStepProgress positiveHeight FI_MAX_PROGRESS
    let r := LoadPixelData_rows positiveHeight pitch positiveHeight 0 io dib step progress
    if r.2.2 then none else some (r.1, r.2.1)

/-- The sample that the run byte `second_byte` gives at the index `i` of its run:
`(BYTE)((i & 0x01) ? (second_byte & 0x0f) : ((second_byte >> 4) & 0x0f))`. -/
def RLE4_sample (second_byte i : Nat) : Nat :=
  if i % 2 = 1 then second_byte % 16 else (second_byte / 16) % 16

/-- The store `*q = value` into the scratch buffer `pixels` of `LoadPixelDataRLE4`; `q` is the
offset of the pointer from the start of the buffer. The buffer is all the memory that is held
here: a store outside of it leaves the buffer as it is. -/
def RLE4_put (pixels : List Nat) (q : Int) (value : Nat) : List Nat :=
  if 0 ≤ q then pixels.set q.toNat value else pixels

/-- The read `src[cols]` from the scratch buffer; outside the buffer it stands as 0. -/
def RLE4_get (pixels : List Nat) (q : Int) : Nat :=
  if 0 ≤ q then pixels.getD q.toNat 0 else 0

/-- The loop `for (i = 0; i < status_byte; i++) *q++ = ...` of the encoded mode of
`LoadPixelDataRLE4`: `n` turns are left, `i` is the index. -/
def RLE4_fill (second_byte : Nat) : Nat → Nat → Int → List Nat → List Nat
  | 0, _, _, pixels => pixels
  | n + 1, i, q, pixels =>
    RLE4_fill second_byte n (i + 1) (q + 1) (RLE4_put pixels q (RLE4_sample second_byte i))

/-- The loop `for (i = 0; i < status_byte; i++)` of the absolute mode of `LoadPixelDataRLE4`,
which reads a byte at every even index; `none` is the `throw` after a failed read. The result
holds the scratch buffer and the bytes still to be read. -/
def RLE4_absolute : Nat → Nat → Int → Nat → List Nat → List Nat → Option (List Nat × List Nat)
  | 0, _, _, _, stream, pixels => some (pixels, stream)
  | n + 1, i, q, second_byte, stream, pixels =>
    if i % 2 = 0 then
      match stream with
      | [] => none
      | second_byte :: stream1 =>
        RLE4_absolute n (i + 1) (q + 1) second_byte stream1
          (RLE4_put pixels q (RLE4_sample second_byte i))
    else
      RLE4_absolute n (i + 1) (q + 1) second_byte stream
        (RLE4_put pixels q (RLE4_sample second_byte i))

/-- The `for (int scanline = 0; scanline < height; )` loop of `LoadPixelDataRLE4`. `stream`
holds the bytes still to be read, `pixels` the scratch buffer of one byte per pixel, `q` the
offset of the write pointer from its start and `end_` the offset of `end`; `scanline` and
`bits` are the `int` variables of the source. `ok (some pixels)` is the end of the loop. Every
iteration reads a byte or leaves the loop, or follows an end-of-bitmap pair, so `fuel` above
the stream length is never used up. -/
def LoadPixelDataRLE4_loop (width : Int) (height : Nat) (end_ : Int) :
    Nat → List Nat → Int → Int → Int → List Nat → Step → FIProgress → PixelResult
  | 0, _, _, _, _, _, _, _ => .error .errmsgRLE4
  | fuel + 1, stream, scanline, bits, q, pixels, step, progress =>
    if scanline < height then
      if q ≥ end_ then
        let r := step.progress progress
        if r.1 = false then .ok none else .ok (some pixels)
      else
        match stream with
        | [] => .error .errmsgRLE4
        | status_byte :: stream1 =>
          if status_byte ≠ 0 then
            let status_byte : Int := min (status_byte : Int) (end_ - q)
            -- Encoded mode
            match stream1 with
            | [] => .error .errmsgRLE4
            | second_byte :: stream2 =>
              LoadPixelDataRLE4_loop width height end_ fuel stream2 scanline
                (int32 (bits + status_byte)) (q + status_byte)
                (RLE4_fill second_byte status_byte.toNat 0 q pixels) step progress
          else
            -- Escape mode
            match stream1 with
            | [] => .error .errmsgRLE4
            | status_byte :: stream2 =>
              if status_byte = RLE_ENDOFLINE then
                let r := step.progress progress
                if r.1 = false then .ok none
                else
                  LoadPixelDataRLE4_loop width height end_ fuel stream2 (int32 (scanline + 1)) 0
                    (int32 (int32 (scanline + 1) * width)) pixels r.2.1 r.2.2
              else if status_byte = RLE_ENDOFBITMAP then
                LoadPixelDataRLE4_loop width height end_ fuel stream2 scanline bits end_ pixels
                  step progress
              else if status_byte = RLE_DELTA then
                match stream2 with
                | delta_x :: delta_y :: stream3 =>
                  match RLE8_delta_steps delta_y step progress with
                  | none => .ok none
                  | some r =>
                    LoadPixelDataRLE4_loop width height end_ fuel stream3
                      (int32 (scanline + delta_y)) (int32 (bits + delta_x))
                      (int32 (int32 (scanline + delta_y) * width) + int32 (bits + delta_x))
                      pixels r.1 r.2
                | _ => .error .errmsgRLE4
              else
                -- Absolute mode
                let status_byte : Int := min (status_byte : Int) (end_ - q)
                match RLE4_absolute status_byte.toNat 0 q 0 stream2 pixels with
                | none => .error .errmsgRLE4
                | some (pixels1, stream3) =>
                  if status_byte % 4 = 1 ∨ status_byte % 4 = 2 then
                    -- Read pad byte
                    match stream3 with
                    | [] => .error .errmsgRLE4
                    | _ :: stream4 =>
                      LoadPixelDataRLE4_loop width height end_ fuel stream4 scanline
                        (int32 (bits + status_byte)) (q + status_byte) pixels1 step progress
                  else
                    LoadPixelDataRLE4_loop width height end_ fuel stream3 scanline
                      (int32 (bits + status_byte)) (q + status_byte) pixels1 step progress
    else .ok (some pixels)

/-- The inner loop `for (cols = 0; cols < width; cols++)` of the conversion to 4 bits, for
one row: `src` is the offset of the row in the scratch buffer, `dst` the offset of the
scanline in the bitmap; `hinibble` is `TRUE` at the even columns. -/
def RLE4_convert_cols (pixels : List Nat) (src : Int) (dst : Nat) :
    Nat → Nat → List Nat → List Nat
  | 0, _, dib => dib
  | n + 1, cols, dib =>
    RLE4_convert_cols pixels src dst n (cols + 1)
      (if cols % 2 = 0 then dib.set (dst + cols / 2) ((RLE4_get pixels (src + cols) * 16) % 256)
       else
        dib.set (dst + cols / 2) (dib.getD (dst + cols / 2) 0 ||| RLE4_get pixels (src + cols)))

/-- The loop `for (y = 0; y < height; y++)` of the conversion to 4 bits: `n` rows are left. -/
def RLE4_convert (pixels : List Nat) (width : Int) (pitch : Nat) :
    Nat → Nat → List Nat → List Nat
  | 0, _, dib => dib
  | n + 1, y, dib =>
    RLE4_convert pixels width pitch n (y + 1)
      (RLE4_convert_cols pixels (int32 (y * width)) (pitch * y) width.toNat 0 dib)

/-- Function `LoadPixelDataRLE4(io, handle, width, height, bit_count, dib_storage, progress)`:
`stream` holds the bytes from the read position on, `dib` the pixel bytes of the allocated
bitmap and `pitch` its row stride. The scratch buffer of `width * height` bytes is taken to
be allocated, unless that `int` is negative (a size that `malloc` cannot serve). The target
of the progress steps is `fi_progress_t(FI_MAX_PROGRESS * .99)`. -/
def LoadPixelDataRLE4 (stream : List Nat) (width height : Int) (bit_count : Nat)
    (dib : List Nat) (pitch : Nat) (progress : FIProgress) : PixelResult :=
  if 4 ≠ bit_count then .error .errmsgRLE4
  else
    let height := height.natAbs
    let step := progress.getStepProgress height 8917127262193582
    let size := int32 (width * height)
    if size < 0 then .error .FI_MSG_ERROR_MEMORY
    else
      let pixels := List.replicate size.toNat 0
      match LoadPixelDataRLE4_loop width height size (stream.length + 1) stream 0 0 0 pixels
          step progress with
      | .error e => .error e
      | .ok none => .ok none
      | .ok (some pixels) => .ok (some (RLE4_convert pixels width pitch height 0 dib))

/-- What a loader hands back: `result` is its outcome (`error e` for `throw e`, `ok none` for
`NULL`, `ok (some dib)` for a bitmap), and `io` is the stream as the loader's own reads and
seeks left it when it threw, returned, or passed the stream on to a pixel loader. -/
structure LoadResult where
  result : Except BmpThrow (Option FIBITMAP)
  io : Stream

/-- The bitmap returned by a pixel loader, as a loader outcome. -/
def pixelOutcome (dib : FIBITMAP) (r : PixelResult) : Except BmpThrow (Option FIBITMAP) :=
  match r with
  | .error e => .error e
  | .ok none => .ok none
  | .ok (some bits) => .ok (some { dib with bits := bits })

/-- The choice of `use_bitfields` in the 16-, 24- and 32-bit branches of `LoadWindowsBMP`. -/
def use_bitfields (bih : BITMAPINFOHEADER) (type : Nat) : Nat :=
  if bih.biCompression = BI_BITFIELDS then 3
  else if bih.biCompression = BI_ALPHABITFIELDS then 4
  else if type = 52 then 3
  else if type ≥ 56 then 4
  else 0

/-- Function `LoadWindowsBMP(io, handle, flags, bitmap_bits_offset, type, progress)`;
`header_only` is the test of the flag `FIF_LOAD_NOPIXELS`. -/
def LoadWindowsBMP (env : BmpEnv) (io : Stream) (header_only : Bool) (bitmap_bits_offset : Nat)
    (type : Nat) (progress : FIProgress) : LoadResult :=
  -- load the info header
  let r := read_proc io sizeof_BITMAPINFOHEADER 1
  let io := r.2.2
  if r.2.1 ≠ 1 then ⟨.error .FI_MSG_ERROR_INVALID_FORMAT, io⟩
  else
    let bih := BITMAPINFOHEADER.ofBytes r.1
    if CheckBitmapInfoHeader bih = false then ⟨.error .FI_MSG_ERROR_INVALID_FORMAT, io⟩
    else
      let used_colors := bih.biClrUsed
      let width := bih.biWidth
      let height := bih.biHeight
      let bit_count := bih.biBitCount
      let compression := bih.biCompression
      let pitch := CalculatePitch (CalculateLine width.toNat bit_count)
      if bit_count = 1 ∨ bit_count = 4 ∨ bit_count = 8 then
        let used_colors :=
          if used_colors = 0 ∨ used_colors > CalculateUsedPaletteEntries bit_count then
            CalculateUsedPaletteEntries bit_count
          else used_colors
        match env.AllocateHeader header_only width height bit_count (0, 0, 0) with
        | none => ⟨.error .FI_MSG_ERROR_DIB_MEMORY, io⟩
        | some dib =>
          let dib := { dib with dotsX := bih.biXPelsPerMeter, dotsY := bih.biYPelsPerMeter }
          -- seek to the end of the header
          let io :=
            if type = 52 ∨ type = 56 ∨ type = 108 ∨ type = 124 then
              seek_cur io ((type : Int) - sizeof_BITMAPINFOHEADER)
            else io
          -- load the palette
          let p := read_proc io ((used_colors * 4) % 2 ^ 32) 1
          let dib := { dib with palette := p.1 }
          let io := p.2.2
          if header_only then ⟨.ok (some dib), io⟩
          else
            -- seek to the actual pixel data
            let io := seek_set io bitmap_bits_offset
            if compression = BI_RGB then
              match LoadPixelData io dib.bits height pitch bit_count progress with
              | none => ⟨.ok none, io⟩
              | some b => ⟨.ok (some { dib with bits := b.1 }), io⟩
            else if compression = BI_RLE4 then
              ⟨pixelOutcome dib (LoadPixelDataRLE4 (io.data.drop io.pos) width height
                bit_count dib.bits pitch progress), io⟩
            else if compression = BI_RLE8 then
              ⟨pixelOutcome dib (LoadPixelDataRLE8 (io.data.drop io.pos) width height
                bit_count dib.bits pitch progress), io⟩
            else ⟨.error .FI_MSG_ERROR_UNSUPPORTED_COMPRESSION, io⟩
      else if bit_count = 16 ∨ bit_count = 24 ∨ bit_count = 32 then
        let n := use_bitfields bih type
        let b := read_proc io (n * 4) 1
        let io := if n > 0 then b.2.2 else io
        let masks :=
          if n > 0 then (le32 b.1 0, le32 b.1 4, le32 b.1 8)
          else if bit_count = 16 then env.FI16_555_MASKS else env.FI_RGBA_MASKS
        match env.AllocateHeader header_only width height bit_count masks with
        | none => ⟨.error .FI_MSG_ERROR_DIB_MEMORY, io⟩
        | some dib =>
          let dib := { dib with dotsX := bih.biXPelsPerMeter, dotsY := bih.biYPelsPerMeter }
          if header_only then ⟨.ok (some dib), io⟩
          else
            -- seek to the actual pixel data
            let io := seek_set io bitmap_bits_offset
            if bit_count = 16 then
              match LoadPixelData io dib.bits height pitch bit_count progress with
              | none => ⟨.ok none, io⟩
              | some b => ⟨.ok (some { dib with bits := b.1 }), io⟩
            else
              -- 24 and 32 bits: the result of `LoadPixelData` is not looked at
              let dib :=
                match LoadPixelData io dib.bits height pitch bit_count progress with
                | none => { dib with unloaded := true }
                | some b => { dib with bits := b.1 }
              ⟨.ok (some { dib with transparent := env.isRGBALPHA dib }), io⟩
      else ⟨.ok none, io⟩

/-- The OS/2 1.x info header `BITMAPINFOOS2_1X_HEADER`, packed: the header size (4 bytes),
then width, height, planes and bit depth (2 bytes each, unsigned). -/
structure BITMAPINFOOS2_1X_HEADER where
  biSize : Nat
  biWidth : Nat
  biHeight : Nat
  biPlanes : Nat
  biBitCount : Nat
deriving DecidableEq, Repr

/-- The size of the packed `BITMAPINFOOS2_1X_HEADER`: 4 + 2 + 2 + 2 + 2 bytes. -/
def sizeof_BITMAPINFOOS2_1X_HEADER : Nat := 12

/-- The `BITMAPINFOOS2_1X_HEADER` held by a buffer of 12 bytes on a little-endian host. -/
def BITMAPINFOOS2_1X_HEADER.ofBytes (b : List Nat) : BITMAPINFOOS2_1X_HEADER :=
  { biSize := le32 b 0
    biWidth := le16 b 4
    biHeight := le16 b 6
    biPlanes := le16 b 8
    biBitCount := le16 b 10 }

/-- The palette loop of `LoadOS21XBMP`: `for (count = 0; count < used_colors; count++)`, each
turn reading one `FILE_BGR` of three bytes and storing it as an `RGBQUAD` (blue, green, red,
reserved). The palette is given by its bytes; a byte that the stream no longer holds, and the
reserved byte, stand as 0. -/
def LoadOS21XBMP_palette : Nat → Stream → List Nat → List Nat × Stream
  | 0, io, pal => (pal, io)
  | n + 1, io, pal =>
    let r := read_proc io 3 1
    LoadOS21XBMP_palette n r.2.2 (pal ++ [r.1.getD 0 0, r.1.getD 1 0, r.1.getD 2 0, 0])

/-- Function `LoadOS21XBMP(io, handle, flags, bitmap_bits_offset, progress)`; `header_only`
is the test of the flag `FIF_LOAD_NOPIXELS`. -/
def LoadOS21XBMP (env : BmpEnv) (io : Stream) (header_only : Bool) (bitmap_bits_offset : Nat)
    (progress : FIProgress) : LoadResult :=
  -- load the info header
  let r := read_proc io sizeof_BITMAPINFOOS2_1X_HEADER 1
  let io := r.2.2
  if r.2.1 ≠ 1 then ⟨.error .FI_MSG_ERROR_INVALID_FORMAT, io⟩
  else
    let bios2_1x := BITMAPINFOOS2_1X_HEADER.ofBytes r.1
    let width := bios2_1x.biWidth
    let height := bios2_1x.biHeight
    let bit_count := bios2_1x.biBitCount
    let pitch := CalculatePitch (CalculateLine width bit_count)
    if bit_count = 1 ∨ bit_count = 4 ∨ bit_count = 8 then
      let used_colors := CalculateUsedPaletteEntries bit_count
      match env.AllocateHeader header_only width height bit_count (0, 0, 0) with
      | none => ⟨.error .FI_MSG_ERROR_DIB_MEMORY, io⟩
      | some dib =>
        let dib := { dib with dotsX := 2835, dotsY := 2835 }
        -- load the palette
        let p := LoadOS21XBMP_palette used_colors io []
        let dib := { dib with palette := p.1 }
        let io := p.2
        if header_only then ⟨.ok (some dib), io⟩
        else
          let io := seek_set io bitmap_bits_offset
          match LoadPixelData io dib.bits height pitch bit_count progress with
          | none => ⟨.ok none, io⟩
          | some b => ⟨.ok (some { dib with bits := b.1 }), io⟩
    else if bit_count = 16 then
      match env.AllocateHeader header_only width height bit_count env.FI16_555_MASKS with
      | none => ⟨.error .FI_MSG_ERROR_DIB_MEMORY, io⟩
      | some dib =>
        let dib := { dib with dotsX := 2835, dotsY := 2835 }
        if header_only then ⟨.ok (some dib), io⟩
        else
          match LoadPixelData io dib.bits height pitch bit_count progress with
          | none => ⟨.ok none, io⟩
          | some b => ⟨.ok (some { dib with bits := b.1 }), io⟩
    else if bit_count = 24 ∨ bit_count = 32 then
      match env.AllocateHeader header_only width height bit_count env.FI_RGBA_MASKS with
      | none => ⟨.error .FI_MSG_ERROR_DIB_MEMORY, io⟩
      | some dib =>
        let dib := { dib with dotsX := 2835, dotsY := 2835 }
        if header_only then ⟨.ok (some dib), io⟩
        else
          -- the result of `LoadPixelData` is not looked at
          let dib :=
            match LoadPixelData io dib.bits height pitch bit_count progress with
            | none => { dib with unloaded := true }
            | some b => { dib with bits := b.1 }
          ⟨.ok (some { dib with transparent := env.isRGBALPHA dib }), io⟩
    else ⟨.ok none, io⟩

/-- Function `LoadOS22XBMP`: the read and check of the info header, followed by the rest of
the function, which is a collaborator here. -/
def LoadOS22XBMP (env : BmpEnv) (io : Stream) (header_only : Bool) (bitmap_bits_offset : Nat)
    (progress : FIProgress) : LoadResult :=
  let r := read_proc io sizeof_BITMAPINFOHEADER 1
  let io := r.2.2
  if r.2.1 ≠ 1 then ⟨.error .FI_MSG_ERROR_INVALID_FORMAT, io⟩
  else
    let bih := BITMAPINFOHEADER.ofBytes r.1
    if CheckBitmapInfoHeader bih = false then ⟨.error .FI_MSG_ERROR_INVALID_FORMAT, io⟩
    else ⟨env.LoadOS22XBMP_rest bih io header_only bitmap_bits_offset progress, io⟩

/-- The user callbacks `FreeImageCB` that the loaders consult: the answer of `onStarted`, if
that callback is installed, and the `onProgress` oracle. -/
structure FreeImageCB where
  onStarted : Option Bool
  onProgress : Option (Nat → Bool)

/-- The constructor `FIProgress(cbOption, cb, op, which)`: progress 0, `cbOption & 0xFF` steps
(20 when that is 0), and the callback wrapper after its `onStarted` call. -/
def FIProgress.create (cbOption : Nat) (cb : Option FreeImageCB) : FIProgress :=
  { _progress := 0
    _steps := if cbOption % 256 ≠ 0 then cbOption % 256 else 20
    _cb :=
      match cb with
      | none => ⟨true, none, 0⟩
      | some c =>
        match c.onStarted with
        | none => ⟨true, c.onProgress, 0⟩
        | some a => ⟨a, c.onProgress, 0⟩ }

/-- Method `FIProgress::isCanceled()`. -/
def FIProgress.isCanceled (p : FIProgress) : Bool := ! p._cb.shouldContinue

/-- The variant loader that `LoadAdv` calls. -/
inductive Loader where
  | OS21X
  | OS22X
  | Windows (type : Nat)
deriving DecidableEq, Repr

/-- The first part of `LoadAdv`, up to the `switch (type)`: `none` when `LoadAdv` returns
`NULL` itself, otherwise the loader it calls, the stream it passes, and the value of
`offset_in_file + bitmapfileheader.bfOffBits` as `unsigned`. -/
def LoadAdv_select (handle : Option Stream) (progress : FIProgress) :
    Option (Loader × Stream × Nat) :=
  match handle with
  | none => none
  | some io =>
    if progress.isCanceled then none
    else
      let offset_in_file := io.pos
      -- read the fileheader
      let r := read_proc io sizeof_BITMAPFILEHEADER 1
      if r.2.1 ≠ 1 then none
      else
        let bfType := le16 r.1 0
        let bfOffBits := le32 r.1 10
        -- check the signature
        if bfType ≠ 0x4D42 ∧ bfType ≠ 0x4142 then none
        else
          -- read the first byte of the infoheader
          let t := read_proc r.2.2 4 1
          let io := seek_cur t.2.2 (0 - 4)
          let type := le32 t.1 0
          let bits_offset := (offset_in_file + bfOffBits) % 2 ^ 32
          if type = 12 then some (Loader.OS21X, io, bits_offset)
          else if type = 64 then some (Loader.OS22X, io, bits_offset)
          else if type = 40 ∨ type = 52 ∨ type = 56 ∨ type = 108 ∨ type = 124 then
            some (Loader.Windows type, io, bits_offset)
          else none

/-- The `catch(const char *message)` of `LoadAdv`: every message thrown gives `NULL`. -/
def catchMessage (r : Except BmpThrow (Option FIBITMAP)) : Option FIBITMAP :=
  match r with
  | .error _ => none
  | .ok d => d

/-- Function `LoadAdv(io, handle, page, args, data)`: `header_only` is the flag
`FIF_LOAD_NOPIXELS` of `args->flags`, `cbOption` and `cb` are the callback arguments. -/
def LoadAdv (env : BmpEnv) (handle : Option Stream) (header_only : Bool) (cbOption : Nat)
    (cb : Option FreeImageCB) : Option FIBITMAP :=
  let progress := FIProgress.create cbOption cb
  match LoadAdv_select handle progress with
  | none => none
  | some (Loader.OS21X, io, bits_offset) =>
    catchMessage (LoadOS21XBMP env io header_only bits_offset progress).result
  | some (Loader.OS22X, io, bits_offset) =>
    catchMessage (LoadOS22XBMP env io header_only bits_offset progress).result
  | some (Loader.Windows type, io, bits_offset) =>
    catchMessage (LoadWindowsBMP env io header_only bits_offset type progress).result

/-- Modelled from the spec: the allocation of the bitmap buffer, `FreeImage_AllocateHeader`:
a bitmap of the requested geometry whose pixel storage of `pitch * |height|` bytes is
initialised to zero, and which has no pixel storage in header-only mode. -/
def AllocateHeader_zero (header_only : Bool) (width height : Int) (bpp : Nat)
    (masks : Nat × Nat × Nat) : Option FIBITMAP :=
  some
    { header_only := header_only
      width := width
      height := height.natAbs
      bpp := bpp
      masks := masks
      dotsX := 0
      dotsY := 0
      palette := []
      bits :=
        if header_only then []
        else List.replicate (CalculatePitch (CalculateLine width.toNat bpp) * height.natAbs) 0
      transparent := false
      unloaded := false }

/-- A sample environment: allocation always succeeds, the usual 555 and RGBA masks, and the
collaborators that are not embedded return `NULL`. -/
def BmpEnv.sample : BmpEnv :=
  { AllocateHeader := AllocateHeader_zero
    FI16_555_MASKS := (0x7C00, 0x03E0, 0x001F)
    FI_RGBA_MASKS := (0x00FF0000, 0x0000FF00, 0x000000FF)
    isRGBALPHA := fun dib => decide (dib.bpp = 32)
    LoadOS22XBMP_rest := fun _ _ _ _ _ => .ok none }

/-! ## Auxiliary notions for the RLE-8 encoder -/

/-- Auxiliary: the pool and the output after the bytes `xs` have been put into the pool one by
one, the pool being written out as an absolute run of 254 bytes each time it gets full. -/
def RLE_push (st : List Nat × List Nat) (xs : List Nat) : List Nat × List Nat :=
  xs.foldl (fun s x => RLE_flush_full (s.1 ++ [x]) s.2) st

/-- Auxiliary: the scanline has no run of four or more identical consecutive bytes. -/
def NoRun4 (s : List Nat) : Prop :=
  ∀ i, i + 3 < s.length →
    ¬ (s.getD i 0 = s.getD (i + 1) 0 ∧ s.getD (i + 1) 0 = s.getD (i + 2) 0 ∧
      s.getD (i + 2) 0 = s.getD (i + 3) 0)

/-! ## Auxiliary notions for the ICC markers -/

/-- Auxiliary: the sequence number of a marker, its byte `data[12]`. -/
def icc_seq_no (m : SavedMarker) : Nat := GETJOCTET (m.data.getD 12 0)

/-- Auxiliary: the total count declared by a marker, its byte `data[13]`. -/
def icc_count (m : SavedMarker) : Nat := GETJOCTET (m.data.getD 13 0)

/-- Auxiliary: the payload of a marker, its data from byte 14 on. -/
def icc_payload (m : SavedMarker) : List Nat := m.data.drop ICC_HEADER_SIZE

/-- Auxiliary: the ICC markers of a marker list, in discovery order. -/
def icc_markers (ms : List SavedMarker) : List SavedMarker := ms.filter marker_is_icc

/-- Auxiliary: the first ICC marker of the list that carries the sequence number `s`. -/
def icc_find (ms : List SavedMarker) (s : Nat) : Option SavedMarker :=
  (icc_markers ms).find? (fun m => icc_seq_no m == s)

/-- Auxiliary: the payloads of the ICC markers ordered by sequence number `1..n`,
concatenated. -/
def icc_in_order (ms : List SavedMarker) (n : Nat) : List Nat :=
  (List.range' 1 n).flatMap (fun s => ((icc_find ms s).map icc_payload).getD [])

/-- Auxiliary: the total payload length of the ICC markers of a list. -/
def icc_total (ms : List SavedMarker) : Nat :=
  ((icc_markers ms).map (fun m => (icc_payload m).length)).sum

/-! ## Auxiliary notions for the RLE-8 round trip -/

/-- Auxiliary: `RLE_tokens bytes pixels` says that `bytes` is a sequence of repeat tokens
`(count, value)` with `1 <= count <= 255` and of absolute-run tokens `(0, n)` followed by `n`
literal bytes, `3 <= n <= 254`, and by one pad byte when `n` is odd, and that `pixels` are the
pixels these tokens stand for. -/
inductive RLE_tokens : List Nat → List Nat → Prop where
  | nil : RLE_tokens [] []
  | run (c v : Nat) (t p : List Nat) (h1 : 1 ≤ c) (h2 : c ≤ 255) (h : RLE_tokens t p) :
      RLE_tokens (c :: v :: t) (List.replicate c v ++ p)
  | abs (bs pad t p : List Nat) (h3 : 3 ≤ bs.length) (h254 : bs.length ≤ 254)
      (hpad : pad.length = bs.length % 2) (h : RLE_tokens t p) :
      RLE_tokens (0 :: bs.length :: (bs ++ pad ++ t)) (bs ++ p)

/-- Auxiliary: the progress callback never asks to stop: the flag `shouldContinue` is set and
the user callback, if there is one, answers `true` to every call. -/
def FIProgress.neverCancels (p : FIProgress) : Prop :=
  p._cb.shouldContinue = true ∧ ∀ f, p._cb.onProgressCb = some f → ∀ k, f k = true
/-- Auxiliary: the pixel bytes of a bitmap after the scanlines `lines` have been stored in
the rows `r, r + 1, ...`, each at the start of its row. -/
def RLE8_rows (pitch : Nat) : List (List Nat) → Nat → List Nat → List Nat
  | [], _, dib => dib
  | line :: lines, r, dib => RLE8_rows pitch lines (r + 1) (RLE8_store dib (pitch * r) line)

/-! ## Signature check (`Source/FreeImage/PluginBMP.cpp`) -/

/-- Function `Validate(io, handle)`: a read of two items of one byte into the zeroed array
`signature`, which is then compared with `bmp_signature1` and `bmp_signature2`. The result
comes with the stream as the read left it. -/
def Validate (io : Stream) : Bool × Stream :=
  let bmp_signature1 := [0x42, 0x4D]
  let bmp_signature2 := [0x42, 0x41]
  let r := read_proc io 1 2
  let signature := [r.1.getD 0 0, r.1.getD 1 0]
  if signature = bmp_signature1 then (true, r.2.2)
  else if signature = bmp_signature2 then (true, r.2.2)
  else (false, r.2.2)

/-! ## Auxiliary notions for the token stream of an encoded line -/

/-- Auxiliary: the tokens of an RLE-8 stream: a repeat token `(count, value)`, an absolute run
`(0, n, literals, pad)` given by its literals, and the escapes end-of-line `(0, 0)`,
end-of-bitmap `(0, 1)` and delta `(0, 2, dx, dy)`. -/
inductive RLE_token where
  | repeat (count value : Nat)
  | absolute (literals : List Nat)
  | endOfLine
  | endOfBitmap
  | delta (dx dy : Nat)
deriving DecidableEq, Repr

/-- Auxiliary: the parse of a byte sequence, from its start, into tokens; `none` when the bytes
end inside a token. A first byte other than 0 opens a repeat token; after a 0 the second byte
selects the escape or, from 3 on, gives the length `n` of an absolute run of `n` literals,
followed by one pad byte when `n` is odd. Every token takes two bytes or more, so a `fuel` of
the number of bytes is enough. -/
def RLE_parse : Nat → List Nat → Option (List RLE_token)
  | _, [] => some []
  | 0, _ :: _ => none
  | _ + 1, [_] => none
  | fuel + 1, c :: v :: t =>
    if c ≠ 0 then (RLE_parse fuel t).map (fun l => RLE_token.repeat c v :: l)
    else if v = 0 then (RLE_parse fuel t).map (fun l => RLE_token.endOfLine :: l)
    else if v = 1 then (RLE_parse fuel t).map (fun l => RLE_token.endOfBitmap :: l)
    else if v = 2 then
      match t with
      | dx :: dy :: t2 => (RLE_parse fuel t2).map (fun l => RLE_token.delta dx dy :: l)
      | _ => none
    else if t.length < v + v % 2 then none
    else (RLE_parse fuel (t.drop (v + v % 2))).map (fun l => RLE_token.absolute (t.take v) :: l)

/-- Auxiliary: a token that stands for pixels: a repeat token with a count from 1 to 255, or
an absolute run of 3 to 254 literals. -/
def RLE_token.isRun : RLE_token → Prop
  | .repeat count _ => 1 ≤ count ∧ count ≤ 255
  | .absolute literals => 3 ≤ literals.length ∧ literals.length ≤ 254
  | _ => False

/-! ## Auxiliary notions for the RLE decoders -/

/-- Auxiliary: the bytes of `n` delta escapes `(0, 2, 255, 0)` in a row, each of which moves
the cursor 255 columns to the right. -/
def RLE8_deltas : Nat → List Nat
  | 0 => []
  | n + 1 => 0 :: 2 :: 255 :: 0 :: RLE8_deltas n

/-- Auxiliary: the ways in which the bytes left for `LoadPixelDataRLE8` end inside a token:
before the status byte, before the run value or the escape code, inside the operands of a
delta, inside the literals of an absolute run, or before its pad byte; `room` is the value
of `width - bits` that the literal count is cut to. -/
inductive RLE8_cut (room : Int) : List Nat → Prop where
  | status : RLE8_cut room []
  | second (c : Nat) : RLE8_cut room [c]
  | delta_x : RLE8_cut room [0, 2]
  | delta_y (dx : Nat) : RLE8_cut room [0, 2, dx]
  | literal (n : Nat) (lits : List Nat) (h3 : 3 ≤ n)
      (h : lits.length < (min (n : Int) room).toNat) : RLE8_cut room (0 :: n :: lits)
  | pad (n : Nat) (lits : List Nat) (h3 : 3 ≤ n) (hodd : n % 2 = 1)
      (h : lits.length = (min (n : Int) room).toNat) : RLE8_cut room (0 :: n :: lits)

/-- Auxiliary: the ways in which the bytes left for `LoadPixelDataRLE4` end inside a token;
`room` is the value of `end - q` that the run is cut to, and a run of `m` samples takes
`(m + 1) / 2` literal bytes. -/
inductive RLE4_cut (room : Int) : List Nat → Prop where
  | status : RLE4_cut room []
  | second (c : Nat) : RLE4_cut room [c]
  | delta_x : RLE4_cut room [0, 2]
  | delta_y (dx : Nat) : RLE4_cut room [0, 2, dx]
  | literal (n : Nat) (lits : List Nat) (h3 : 3 ≤ n)
      (h : lits.length < ((min (n : Int) room).toNat + 1) / 2) : RLE4_cut room (0 :: n :: lits)
  | pad (n : Nat) (lits : List Nat) (h3 : 3 ≤ n)
      (hodd : (((min (n : Int) room).toNat + 1) / 2) % 2 = 1)
      (h : lits.length = ((min (n : Int) room).toNat + 1) / 2) : RLE4_cut room (0 :: n :: lits)

/-- Auxiliary: every entry of the scratch buffer is a 4-bit sample. -/
def RLE4_small (pixels : List Nat) : Prop := ∀ k, pixels.getD k 0 < 16

/-- Auxiliary: the 4-bit sample at column `x` of row `y` of a 4-bit bitmap with row stride
`pitch`: two pixels per byte, the even column in the high nibble. -/
def RLE4_pixel (bits : List Nat) (pitch x y : Nat) : Nat :=
  if x % 2 = 0 then bits.getD (pitch * y + x / 2) 0 / 16 else bits.getD (pitch * y + x / 2) 0 % 16

/-- Auxiliary: the state of the RLE-4 decoding loop for an image of `w` by `h` pixels after a
token has written the scratch buffer up to the offset `L` of one row: the cursor is at row
`sn`, column `bn`, the write pointer stands at `sn * w + bn` (or at `end`), not before `L`,
the next row starts at `L` or later, and the scratch buffer holds 4-bit samples and agrees
with `P0` below `L`. -/
def RLE4_kept (w h L : Nat) (P0 : List Nat) (s b q : Int) (px : List Nat) : Prop :=
  ∃ sn bn : Nat, s = sn ∧ b = bn ∧
    (q = ((sn * w + bn : Nat) : Int) ∨ q = ((w * h : Nat) : Int)) ∧
    (L : Int) ≤ q ∧ L ≤ (sn + 1) * w ∧ px.length = w * h ∧ RLE4_small px ∧
    ∀ k, k < L → px.getD k 0 = P0.getD k 0

/-- Auxiliary: the number of bytes that a token takes in the stream: two for a repeat token,
an end-of-line and an end-of-bitmap pair, four for a delta, and for an absolute run the pair
`(0, n)`, its `n` literals and the pad byte of an odd `n`. -/
def RLE_token.bytes : RLE_token → Nat
  | .repeat _ _ => 2
  | .absolute literals => 2 + literals.length + literals.length % 2
  | .endOfLine => 2
  | .endOfBitmap => 2
  | .delta _ _ => 4

/-! ## Comment, IPTC and XMP markers (`Source/FreeImage/PluginJPEG.cpp`) -/

/-- Modelled from the spec: marker code `JPEG_COM` of the JPEG library, the comment marker. -/
def JPEG_COM : Nat := 0xFE

/-- Macro `#define EXIF_MARKER (JPEG_APP0+1)`: the EXIF / Adobe XMP marker. -/
def EXIF_MARKER : Nat := JPEG_APP0 + 1

/-- Macro `#define IPTC_MARKER (JPEG_APP0+13)`: the IPTC / BIM marker. -/
def IPTC_MARKER : Nat := JPEG_APP0 + 13

/-- The `for` loop of `jpeg_write_comment`, from offset `i` on: one `JPEG_COM` marker per
iteration, holding `MIN(strlen(tag_value + i), MAX_BYTES_IN_MARKER)` bytes of the string.
`tag_value` holds the bytes of the string before its terminating zero and `size` is its
`strlen`. (`long` holds every length.) -/
def comment_write_loop (tag_value : List Nat) (size : Nat) (i : Nat) : List SavedMarker :=
  if i < size then
    let length := min (size - i) MAX_BYTES_IN_MARKER
    ⟨JPEG_COM, (tag_value.drop i).take length⟩ ::
      comment_write_loop tag_value size (i + MAX_BYTES_IN_MARKER)
  else []
termination_by size - i
decreasing_by
  simp only [MAX_BYTES_IN_MARKER]
  omega

/-- Function `jpeg_write_comment`: `tag_value` is the value of the tag `Comment` of the
bitmap, `none` when there is no such tag or its value is `NULL`. The result holds the `BOOL`
returned and the markers written. -/
def jpeg_write_comment (tag_value : Option (List Nat)) : Bool × List SavedMarker :=
  match tag_value with
  | some tag_value => (true, comment_write_loop tag_value tag_value.length 0)
  | none => (false, [])

/-- The bytes of `"Photoshop 3.0\x0"` (14 bytes) followed by those of
`"8BIM\x04\x04\x0\x0\x0\x0"` (10 bytes), which `jpeg_write_iptc_profile` copies to the start
of a marker. -/
def iptc_header : List Nat :=
  [0x50, 0x68, 0x6F, 0x74, 0x6F, 0x73, 0x68, 0x6F, 0x70, 0x20, 0x33, 0x2E, 0x30, 0x00,
   0x38, 0x42, 0x49, 0x4D, 0x04, 0x04, 0x00, 0x00, 0x00, 0x00]

/-- The `for` loop of `jpeg_write_iptc_profile`, from offset `i` on: one APP13 marker per
iteration, made of the 24 header bytes, the two bytes `(BYTE)(length >> 8)` and
`(BYTE)(length & 0xFF)`, `length` profile bytes and a zero byte when `length` is odd. The
data length passed to `jpeg_write_marker` is `length + roundup + tag_length`, which is the
length of the buffer. (Allocation is taken to succeed.) -/
def iptc_write_loop (profile : List Nat) (profile_size : Nat) (i : Nat) : List SavedMarker :=
  if i < profile_size then
    let length := min (profile_size - i) 65517
    let roundup := length % 2
    let iptc_profile :=
      iptc_header ++ [(length / 256) % 256, length % 256] ++ (profile.drop i).take length ++
        (if roundup ≠ 0 then [0] else [])
    ⟨IPTC_MARKER, iptc_profile⟩ :: iptc_write_loop profile profile_size (i + 65517)
  else []
termination_by profile_size - i
decreasing_by omega

/-- Function `jpeg_write_iptc_profile`: `count` is `FreeImage_GetMetadataCount(FIMD_IPTC, dib)`
and `profile` the binary profile that `write_iptc_profile` creates from the metadata (`none`
when it fails). The result holds the `BOOL` returned and the markers written. -/
def jpeg_write_iptc_profile (count : Nat) (profile : Option (List Nat)) :
    Bool × List SavedMarker :=
  if count ≠ 0 then
    match profile with
    | some profile => (true, iptc_write_loop profile profile.length 0)
    | none => (false, [])
  else (false, [])

/-- The identifying string `"http://ns.adobe.com/xap/1.0/"` with its terminating zero: the
`xmp_header_size = 29` bytes at the start of an XMP marker. -/
def xmp_signature : List Nat :=
  [0x68, 0x74, 0x74, 0x70, 0x3A, 0x2F, 0x2F, 0x6E, 0x73, 0x2E, 0x61, 0x64, 0x6F, 0x62, 0x65,
   0x2E, 0x63, 0x6F, 0x6D, 0x2F, 0x78, 0x61, 0x70, 0x2F, 0x31, 0x2E, 0x30, 0x2F, 0x00]

/-- The loop `for(DWORD i = 0; i < tag_length; i += 65504L)` of `jpeg_write_xmp_profile`, from
the index `i` on: one APP1 marker per iteration, made of the signature and `length` bytes of
the packet. The index is a `DWORD`, so the addition is reduced modulo `2 ^ 32`; `fuel` bounds
the number of iterations and `none` says that it has run out. -/
def xmp_write_loop (tag_value : List Nat) (tag_length : Nat) :
    Nat → Nat → Option (List SavedMarker)
  | 0, _ => none
  | fuel + 1, i =>
    if i < tag_length then
      let length := min (tag_length - i) 65504
      (xmp_write_loop tag_value tag_length fuel ((i + 65504) % 2 ^ 32)).map
        (fun l => ⟨EXIF_MARKER, xmp_signature ++ (tag_value.drop i).take length⟩ :: l)
    else some []

/-- Function `jpeg_write_xmp_profile`: `tag_value` is the value of the XMP tag of the bitmap,
`none` when there is no such tag or its value is `NULL`; its length is the `DWORD` that
`FreeImage_GetTagLength` returns. The result holds the `BOOL` returned and the markers
written; `none` says that the loop has not ended within `fuel` iterations. (Allocation is
taken to succeed.) -/
def jpeg_write_xmp_profile (fuel : Nat) (tag_value : Option (List Nat)) :
    Option (Bool × List SavedMarker) :=
  match tag_value with
  | some tag_value =>
    (xmp_write_loop tag_value (tag_value.length % 2 ^ 32) fuel 0).map (fun l => (true, l))
  | none => some (false, [])

/-- Auxiliary, in the words of the specification: the number of palette entries of a bitmap
of depth `d` whose header declares `c` colours used: all `2 ^ d` entries when `c = 0`, and
`min (c, 2 ^ d)` otherwise. -/
def palette_count_spec (c d : Nat) : Nat :=
  if c = 0 then 2 ^ d else min c (2 ^ d)

/-! ## Minimum and maximum of an array (`Source/Utilities.h`) -/

/-- The loop `for (i = j; i < n; i += 2)` of `MAXMIN`: each turn reads `L[i]` and `L[i + 1]`,
puts the smaller of the two into `x1` and the larger into `x2` (the read of `L[k2]` after the
exchange is the read of `L[i]` again) and compares `x1` with `min` and `x2` with `max`. A read
at an index outside `[0, n)` or outside the array gives `none`; `fuel` bounds the number of
turns. The indices `i1`, `i2` of the source are written and never read. -/
def MAXMIN_loop {α : Type} [LinearOrder α] (L : List α) (n : Nat) :
    Nat → Nat → α → α → Option (α × α)
  | 0, i, max, min => if i < n then none else some (max, min)
  | fuel + 1, i, max, min =>
    if i < n then
      if i + 1 < n then
        match L[i]?, L[i + 1]? with
        | some a, some b =>
          let x1 := if a > b then b else a
          let x2 := if a > b then a else b
          let min := if x1 < min then x1 else min
          let max := if x2 > max then x2 else max
          MAXMIN_loop L n fuel (i + 2) max min
        | _, _ => none
      else none
    else some (max, min)

/-- Function template `MAXMIN(L, n, max, min)`: the values left in `max` and `min`, or `none`
when an index outside `[0, n)` is read. -/
def MAXMIN {α : Type} [LinearOrder α] (L : List α) (n : Nat) : Option (α × α) :=
  if 0 < n then
    match L[0]? with
    | some x => MAXMIN_loop L n n (if n % 2 ≠ 0 then 1 else 0) x x
    | none => none
  else none

/-- Auxiliary: `k` calls of `Step::progress()` in a row, whatever the callback answers; the
result holds the step counter and the progress object after the calls. -/
def Step.progress_calls : Nat → Step → FIProgress → Step × FIProgress
  | 0, s, p => (s, p)
  | k + 1, s, p => Step.progress_calls k (s.progress p).2.1 (s.progress p).2.2

/-! # Properties -/

/-! ### Lemmas on the stride helpers -/

/-- Masking a 32-bit value with `0xFFFFFFFC` clears its two low bits. -/
theorem land_mask_eq (x : Nat) (h : x < 2 ^ 32) : x &&& 0xFFFFFFFC = x / 4 * 4 := by
  apply Nat.eq_of_testBit_eq
  intro i
  have e1 : (0xFFFFFFFC : Nat) = 2 ^ 2 * (2 ^ 30 - 1) := by norm_num
  have e2 : x / 4 * 4 = 2 ^ 2 * (x >>> 2) := by
    rw [Nat.shiftRight_eq_div_pow]; norm_num [Nat.mul_comm]
  rw [Nat.testBit_land, e1, e2, Nat.testBit_mul_pow_two, Nat.testBit_mul_pow_two,
    Nat.testBit_two_pow_sub_one, Nat.testBit_shiftRight]
  by_cases h2 : i ≥ 2
  · have e : 2 + (i - 2) = i := by omega
    by_cases h32 : i < 32
    · have : i - 2 < 30 := by omega
      simp [h2, this, e]
    · have hx : x.testBit i = false := by
        apply Nat.testBit_lt_two_pow
        calc x < 2 ^ 32 := h
          _ ≤ 2 ^ i := Nat.pow_le_pow_right (by norm_num) (by omega)
      simp [hx, e]
  · simp [h2]

/-- The arithmetic reading of `CalculatePitch`. -/
theorem CalculatePitch_eq (line : Nat) :
    CalculatePitch line = (line + 3) % 2 ^ 32 / 4 * 4 := by
  unfold CalculatePitch
  exact land_mask_eq _ (Nat.mod_lt _ (by norm_num))

/-- Without wrap-around the pitch is the line rounded up to a multiple of four. -/
theorem CalculatePitch_of_le (line : Nat) (h : line + 3 < 2 ^ 32) :
    CalculatePitch line = (line + 3) / 4 * 4 := by
  rw [CalculatePitch_eq, Nat.mod_eq_of_lt h]

/-- Without wrap-around the pitch is at least the line. -/
theorem le_CalculatePitch (line : Nat) (h : line + 3 < 2 ^ 32) :
    line ≤ CalculatePitch line := by
  rw [CalculatePitch_of_le line h]; omega

/-! ### Claims on the stride helpers -/

/-- C9: `CalculatePitch(line)` is a multiple of 4 for every line length, and so is the stride
`CalculatePitch(CalculateLine(width, depth))` for every width and depth. -/
theorem C9_pitch_multiple_of_four :
    (∀ line : Nat, CalculatePitch line % 4 = 0) ∧
    (∀ width depth : Nat, CalculatePitch (CalculateLine width depth) % 4 = 0) := by
  have h : ∀ line : Nat, CalculatePitch line % 4 = 0 := by
    intro line
    rw [CalculatePitch_eq]
    exact Nat.mul_mod_left _ _
  exact ⟨h, fun width depth => h _⟩

/-- C10, as stated, fails: for width `4294967295` and depth 8 the minimal row size is
`4294967295` bytes, the line plus 3 wraps around and the stride is 0. -/
theorem C10_counterexample :
    CalculateLine 4294967295 8 = 4294967295 ∧
    CalculatePitch (CalculateLine 4294967295 8) = 0 ∧
    ¬ ((4294967295 * 8 + 7) / 8 ≤ CalculatePitch (CalculateLine 4294967295 8)) := by
  decide

/-- C10, amended: when the minimal row size `ceil(width*depth/8)` is at most `2^32 - 4`, the
stride `CalculatePitch(CalculateLine(width, depth))` is at least that size. -/
theorem C10_stride_lower_bound (width depth : Nat)
    (h : (width * depth + 7) / 8 ≤ 4294967292) :
    (width * depth + 7) / 8 ≤ CalculatePitch (CalculateLine width depth) := by
  have h64 : width * depth + 7 < 2 ^ 64 := by
    have : width * depth + 7 < 8 * 4294967293 := by omega
    omega
  have hline : CalculateLine width depth = (width * depth + 7) / 8 := by
    unfold CalculateLine
    rw [Nat.mod_eq_of_lt h64, Nat.mod_eq_of_lt (by omega)]
  rw [hline]
  exact le_CalculatePitch _ (by omega)

/-- C10 witness: an 8-bit row of 5 pixels needs 5 bytes and gets a stride of 8. -/
theorem C10_stride_lower_bound_witness :
    (5 * 8 + 7) / 8 ≤ 4294967292 ∧
    (5 * 8 + 7) / 8 ≤ CalculatePitch (CalculateLine 5 8) :=
  ⟨by decide, C10_stride_lower_bound 5 8 (by decide)⟩

/-! ### The markers written by `jpeg_write_icc_profile` -/

theorem icc_write_loop_eq (data : List Nat) (size i : Nat) :
    icc_write_loop data size i =
      (List.range ((size - i + (MAX_DATA_BYTES_IN_MARKER - 1)) / MAX_DATA_BYTES_IN_MARKER)).map
        (fun k => icc_marker_at data size (i + k * MAX_DATA_BYTES_IN_MARKER)) := by
  generalize h : size - i = d
  induction d using Nat.strong_induction_on generalizing i with
  | _ d ih =>
    subst h
    rw [icc_write_loop]
    by_cases hlt : i < size
    · have hrec := ih (size - (i + MAX_DATA_BYTES_IN_MARKER))
        (by simp only [MAX_DATA_BYTES_IN_MARKER]; omega) (i + MAX_DATA_BYTES_IN_MARKER) rfl
      rw [if_pos hlt, hrec]
      have hn : (size - i + (MAX_DATA_BYTES_IN_MARKER - 1)) / MAX_DATA_BYTES_IN_MARKER =
          (size - (i + MAX_DATA_BYTES_IN_MARKER) + (MAX_DATA_BYTES_IN_MARKER - 1)) /
            MAX_DATA_BYTES_IN_MARKER + 1 := by
        simp only [MAX_DATA_BYTES_IN_MARKER]; omega
      rw [hn, List.range_succ_eq_map, List.map_cons, List.map_map]
      simp only [icc_marker_at, Nat.zero_mul, Nat.add_zero]
      congr 1
      apply List.map_congr_left
      intro k _
      simp only [Function.comp, Nat.succ_eq_add_one]
      have e : i + MAX_DATA_BYTES_IN_MARKER + k * MAX_DATA_BYTES_IN_MARKER =
          i + (k + 1) * MAX_DATA_BYTES_IN_MARKER := by ring
      rw [e]
    · rw [if_neg hlt]
      have hn : (size - i + (MAX_DATA_BYTES_IN_MARKER - 1)) / MAX_DATA_BYTES_IN_MARKER = 0 := by
        simp only [MAX_DATA_BYTES_IN_MARKER]; omega
      rw [hn]; rfl


theorem icc_marker_at_data_take (data : List Nat) (size j : Nat) :
    (icc_marker_at data size j).data.take 12 = icc_signature := by
  simp [icc_marker_at, icc_signature]

theorem icc_marker_at_payload (data : List Nat) (size j : Nat) :
    (icc_marker_at data size j).data.drop 14 =
      (data.drop j).take (min (size - j) MAX_DATA_BYTES_IN_MARKER) := by
  simp [icc_marker_at, icc_signature]

/-- Consecutive chunks of `m` elements concatenate to a prefix. -/
theorem flatMap_chunks (l : List Nat) (m n : Nat) :
    (List.range n).flatMap (fun k => (l.drop (k * m)).take m) = l.take (n * m) := by
  induction n with
  | zero => simp
  | succ n ih =>
    rw [List.range_succ, List.flatMap_append, ih]
    simp only [List.flatMap_cons, List.flatMap_nil, List.append_nil]
    rw [Nat.succ_mul, List.take_add]

theorem write_markers_eq (data : List Nat) :
    (jpeg_write_icc_profile data).2 =
      (List.range ((data.length + (MAX_DATA_BYTES_IN_MARKER - 1)) / MAX_DATA_BYTES_IN_MARKER)).map
        (fun k => icc_marker_at data data.length (k * MAX_DATA_BYTES_IN_MARKER)) := by
  unfold jpeg_write_icc_profile
  by_cases h : data.length = 0
  · simp [h, MAX_DATA_BYTES_IN_MARKER]
  · simp only [ne_eq, h, not_false_eq_true, if_true]
    rw [icc_write_loop_eq]
    simp


/-- C6: for a profile of `len` bytes `jpeg_write_icc_profile` writes exactly
`ceil(len / 65519)` markers, and for the empty profile it writes no marker and returns
`FALSE`. -/
theorem C6_icc_split_count (iccProfile : List Nat) :
    (jpeg_write_icc_profile iccProfile).2.length = (iccProfile.length + 65518) / 65519 ∧
    jpeg_write_icc_profile [] = (false, []) := by
  constructor
  · rw [write_markers_eq]
    simp [MAX_DATA_BYTES_IN_MARKER]
  · rfl

/-- C8: the marker written at 1-based position `i` (0-based `i - 1` below) consists of the
12-byte signature, two tag bytes, and exactly the profile bytes at offsets
`[(i-1) * 65519, min (i * 65519) len)`; the payloads in write order concatenate to the
profile. -/
theorem C8_icc_split_slicing (iccProfile : List Nat) :
    (∀ (i : Nat) (m : SavedMarker), (jpeg_write_icc_profile iccProfile).2[i]? = some m →
      m.data.take 12 = icc_signature ∧
      m.data.length = 12 + 2 + (min ((i + 1) * 65519) iccProfile.length - i * 65519) ∧
      m.data.drop 14 =
        (iccProfile.drop (i * 65519)).take
          (min ((i + 1) * 65519) iccProfile.length - i * 65519)) ∧
    (jpeg_write_icc_profile iccProfile).2.flatMap (fun m => m.data.drop 14) = iccProfile := by
  constructor
  · intro i m hm
    rw [write_markers_eq] at hm
    simp only [MAX_DATA_BYTES_IN_MARKER] at hm
    rw [List.getElem?_map] at hm
    cases hk : (List.range ((iccProfile.length + (65519 - 1)) / 65519))[i]? with
    | none => rw [hk] at hm; simp at hm
    | some k =>
      rw [hk] at hm
      simp only [Option.map_some', Option.some.injEq] at hm
      rw [List.getElem?_eq_some_iff] at hk
      obtain ⟨h1, h2⟩ := hk
      rw [List.getElem_range] at h2
      rw [List.length_range] at h1
      subst h2 hm
      have hlen : i * 65519 < iccProfile.length := by omega
      have hmin : min (iccProfile.length - i * 65519) MAX_DATA_BYTES_IN_MARKER =
          min ((i + 1) * 65519) iccProfile.length - i * 65519 := by
        simp only [MAX_DATA_BYTES_IN_MARKER]; omega
      refine ⟨icc_marker_at_data_take _ _ _, ?_, ?_⟩
      · simp only [icc_marker_at, icc_signature, List.length_append, List.length_cons,
          List.length_nil, List.length_take, List.length_drop, hmin]
        omega
      · rw [icc_marker_at_payload, hmin]
  · rw [write_markers_eq, List.flatMap_map]
    have h : ∀ k, (icc_marker_at iccProfile iccProfile.length
        (k * MAX_DATA_BYTES_IN_MARKER)).data.drop 14 =
        (iccProfile.drop (k * MAX_DATA_BYTES_IN_MARKER)).take MAX_DATA_BYTES_IN_MARKER := by
      intro k
      rw [icc_marker_at_payload]
      rw [List.take_eq_take]
      simp only [List.length_drop]
      omega
    simp only [Function.comp, h]
    rw [flatMap_chunks]
    apply List.take_of_length_le
    simp only [MAX_DATA_BYTES_IN_MARKER]
    omega

/-! ### Header validation -/

/-- A header whose size field is not 40 is rejected. -/
theorem CheckBitmapInfoHeader_size (bih : BITMAPINFOHEADER)
    (h : bih.biSize ≠ sizeof_BITMAPINFOHEADER) : CheckBitmapInfoHeader bih = false := by
  unfold CheckBitmapInfoHeader
  rw [if_pos h]
  split
  · rfl
  · split <;> rfl

/-- The conditions under which `CheckBitmapInfoHeader` accepts a header. -/
theorem CheckBitmapInfoHeader_eq_true_iff (bih : BITMAPINFOHEADER) :
    CheckBitmapInfoHeader bih = true ↔
      bih.biSize = 40 ∧ 0 ≤ bih.biWidth ∧
      (bih.biHeight < 0 → bih.biCompression = 0 ∨ bih.biCompression = 3) ∧
      bih.biPlanes = 1 ∧
      (bih.biBitCount = 1 ∨ bih.biBitCount = 4 ∨ bih.biBitCount = 8 ∨
        bih.biBitCount = 16 ∨ bih.biBitCount = 24 ∨ bih.biBitCount = 32) ∧
      (bih.biCompression = 0 ∨ bih.biCompression = 1 ∨ bih.biCompression = 2 ∨
        bih.biCompression = 3) := by
  unfold CheckBitmapInfoHeader
  simp only [sizeof_BITMAPINFOHEADER, BI_RGB, BI_RLE8, BI_RLE4, BI_BITFIELDS, BI_JPEG, BI_PNG]
  split_ifs with h1 h2 h3 h4 h5 h6 h7 h8 h9
  all_goals simp only [Bool.false_eq_true, false_iff, true_iff, not_and]
  all_goals first
    | (intro a b c d e f; omega)
    | (refine ⟨by omega, by omega, ?_, by omega, h8, h9⟩
       intro hh
       by_contra hc
       exact h5 ⟨hh, by omega, by omega⟩)

/-- C11: a 40-byte info header that is otherwise valid and has a negative height is accepted
by `CheckBitmapInfoHeader` if and only if its compression is `BI_RGB` or `BI_BITFIELDS`. -/
theorem C11_negative_height (bih : BITMAPINFOHEADER)
    (hsize : bih.biSize = 40) (hwidth : 0 ≤ bih.biWidth) (hplanes : bih.biPlanes = 1)
    (hdepth : bih.biBitCount ∈ [1, 4, 8, 16, 24, 32]) (hheight : bih.biHeight < 0) :
    CheckBitmapInfoHeader bih = true ↔
      (bih.biCompression = BI_RGB ∨ bih.biCompression = BI_BITFIELDS) := by
  rw [CheckBitmapInfoHeader_eq_true_iff]
  simp only [List.mem_cons, List.mem_singleton, List.mem_nil_iff, or_false] at hdepth
  simp only [BI_RGB, BI_BITFIELDS]
  constructor
  · intro h
    exact h.2.2.1 hheight
  · intro h
    exact ⟨hsize, hwidth, fun _ => h, hplanes, hdepth, by omega⟩

/-- C11 witness: a top-down 2x2 8-bit header with bit-field compression. -/
theorem C11_negative_height_witness :
    CheckBitmapInfoHeader ⟨40, 2, -2, 1, 8, 3, 0, 0, 0, 0, 0⟩ = true ↔
      ((⟨40, 2, -2, 1, 8, 3, 0, 0, 0, 0, 0⟩ : BITMAPINFOHEADER).biCompression = BI_RGB ∨
       (⟨40, 2, -2, 1, 8, 3, 0, 0, 0, 0, 0⟩ : BITMAPINFOHEADER).biCompression = BI_BITFIELDS) :=
  C11_negative_height ⟨40, 2, -2, 1, 8, 3, 0, 0, 0, 0, 0⟩ rfl (by decide) rfl (by decide)
    (by decide)

/-- A successful read of one item of `size > 0` bytes: the item is the next `size` bytes and
the position moves past them. -/
theorem read_proc_one (io : Stream) (size : Nat) (hsize : 0 < size)
    (h : (read_proc io size 1).2.1 = 1) :
    io.pos + size ≤ io.data.length ∧
    (read_proc io size 1).1 = (io.data.drop io.pos).take size ∧
    (read_proc io size 1).2.2 = { io with pos := io.pos + size } := by
  unfold read_proc at h ⊢
  simp only [Nat.mul_one] at h ⊢
  have hne : size ≠ 0 := by omega
  rw [if_neg hne] at h
  have hle : size ≤ io.data.length - io.pos := by
    by_contra hc
    have hlt : min size (io.data.length - io.pos) < size := by omega
    have : min size (io.data.length - io.pos) / size = 0 := Nat.div_eq_of_lt hlt
    omega
  have hmin : min size (io.data.length - io.pos) = size := by omega
  rw [hmin]
  exact ⟨by omega, rfl, rfl⟩

/-- A header rejected by `CheckBitmapInfoHeader` makes `LoadWindowsBMP` throw the
invalid-format message with only the 40 header bytes consumed. -/
theorem LoadWindowsBMP_rejected (env : BmpEnv) (io : Stream) (header_only : Bool)
    (bitmap_bits_offset type : Nat) (progress : FIProgress)
    (hread : (read_proc io sizeof_BITMAPINFOHEADER 1).2.1 = 1)
    (hcheck : CheckBitmapInfoHeader
      (BITMAPINFOHEADER.ofBytes ((io.data.drop io.pos).take 40)) = false) :
    (LoadWindowsBMP env io header_only bitmap_bits_offset type progress).result =
        .error .FI_MSG_ERROR_INVALID_FORMAT ∧
    (LoadWindowsBMP env io header_only bitmap_bits_offset type progress).io =
        { io with pos := io.pos + 40 } := by
  obtain ⟨_, h2, h3⟩ := read_proc_one io sizeof_BITMAPINFOHEADER (by decide) hread
  simp only [sizeof_BITMAPINFOHEADER] at h2 h3 hread
  unfold LoadWindowsBMP
  simp only [sizeof_BITMAPINFOHEADER, hread, h2, h3, hcheck, ne_eq, not_true_eq_false,
    if_false, if_true]
  refine ⟨?_, ?_⟩ <;> first | rfl | trivial

/-- C12: `CheckBitmapInfoHeader` returns `FALSE` for every header whose plane count is not 1,
whose bit count is not one of 1, 4, 8, 16, 24, 32, or whose compression is outside
`{0, 1, 2, 3}` (so for `BI_JPEG` and `BI_PNG`); and for a header rejected by the check
`LoadWindowsBMP` throws the invalid-format message when only the 40 header bytes have been
read. -/
theorem C12_header_rejection :
    (∀ bih : BITMAPINFOHEADER, bih.biPlanes ≠ 1 → CheckBitmapInfoHeader bih = false) ∧
    (∀ bih : BITMAPINFOHEADER, bih.biBitCount ∉ [1, 4, 8, 16, 24, 32] →
      CheckBitmapInfoHeader bih = false) ∧
    (∀ bih : BITMAPINFOHEADER, bih.biCompression ∉ [0, 1, 2, 3] →
      CheckBitmapInfoHeader bih = false) ∧
    (∀ bih : BITMAPINFOHEADER, bih.biCompression = BI_JPEG ∨ bih.biCompression = BI_PNG →
      CheckBitmapInfoHeader bih = false) ∧
    (∀ (env : BmpEnv) (io : Stream) (header_only : Bool) (bitmap_bits_offset type : Nat)
      (progress : FIProgress),
      (read_proc io sizeof_BITMAPINFOHEADER 1).2.1 = 1 →
      CheckBitmapInfoHeader (BITMAPINFOHEADER.ofBytes ((io.data.drop io.pos).take 40)) = false →
      (LoadWindowsBMP env io header_only bitmap_bits_offset type progress).result =
          .error .FI_MSG_ERROR_INVALID_FORMAT ∧
      (LoadWindowsBMP env io header_only bitmap_bits_offset type progress).io =
          { io with pos := io.pos + 40 }) := by
  have key : ∀ bih : BITMAPINFOHEADER, ¬ (CheckBitmapInfoHeader bih = true) →
      CheckBitmapInfoHeader bih = false := by
    intro bih h
    cases hc : CheckBitmapInfoHeader bih
    · rfl
    · exact absurd hc h
  refine ⟨?_, ?_, ?_, ?_, ?_⟩
  · intro bih h
    apply key
    rw [CheckBitmapInfoHeader_eq_true_iff]
    intro hc
    exact h hc.2.2.2.1
  · intro bih h
    apply key
    rw [CheckBitmapInfoHeader_eq_true_iff]
    intro hc
    apply h
    simp only [List.mem_cons, List.mem_singleton, List.mem_nil_iff, or_false]
    exact hc.2.2.2.2.1
  · intro bih h
    apply key
    rw [CheckBitmapInfoHeader_eq_true_iff]
    intro hc
    apply h
    simp only [List.mem_cons, List.mem_singleton, List.mem_nil_iff, or_false]
    exact hc.2.2.2.2.2
  · intro bih h
    apply key
    rw [CheckBitmapInfoHeader_eq_true_iff]
    intro hc
    simp only [BI_JPEG, BI_PNG] at h
    have := hc.2.2.2.2.2
    omega
  · intro env io header_only bitmap_bits_offset type progress hread hcheck
    exact LoadWindowsBMP_rejected env io header_only bitmap_bits_offset type progress hread
      hcheck

/-- C13, as stated, fails: a 40-byte header of width 0 (height 1, one plane, 8 bits, no
compression) is accepted by `CheckBitmapInfoHeader`. -/
theorem C13_counterexample :
    (⟨40, 0, 1, 1, 8, 0, 0, 0, 0, 0, 0⟩ : BITMAPINFOHEADER).biWidth ≤ 0 ∧
    CheckBitmapInfoHeader ⟨40, 0, 1, 1, 8, 0, 0, 0, 0, 0, 0⟩ = true := by
  decide

/-- C13, amended: `CheckBitmapInfoHeader` returns `FALSE` whenever `biWidth < 0`. -/
theorem C13_width_validation (bih : BITMAPINFOHEADER) (h : bih.biWidth < 0) :
    CheckBitmapInfoHeader bih = false := by
  cases hc : CheckBitmapInfoHeader bih
  · rfl
  · rw [CheckBitmapInfoHeader_eq_true_iff] at hc
    omega

/-- C13 witness: a header of width -1 is rejected. -/
theorem C13_width_validation_witness :
    CheckBitmapInfoHeader ⟨40, -1, 1, 1, 8, 0, 0, 0, 0, 0, 0⟩ = false :=
  C13_width_validation ⟨40, -1, 1, 1, 8, 0, 0, 0, 0, 0, 0⟩ (by decide)

/-! ### Dispatch on the header size -/

/-- Reading through a prefix of at least `i + 1` bytes, or through the whole list. -/
theorem getD_take_min (l : List Nat) (n i : Nat) (h : i < n) :
    (l.take (min n l.length)).getD i 0 = l.getD i 0 := by
  simp only [List.getD_eq_getElem?_getD, List.getElem?_take]
  by_cases hi : i < l.length
  · have : i < min n l.length := by omega
    rw [if_pos this]
  · have hn : ¬ i < min n l.length := by omega
    rw [if_neg hn]
    rw [List.getElem?_eq_none (by omega)]

theorem getD_take_of_lt (l : List Nat) (n i : Nat) (h : i < n) :
    (l.take n).getD i 0 = l.getD i 0 := by
  simp only [List.getD_eq_getElem?_getD, List.getElem?_take, if_pos h]

/-- The `DWORD` at the start of a buffer only depends on its first four bytes. -/
theorem le32_take_min (l : List Nat) (n : Nat) (h : 4 ≤ n) :
    le32 (l.take (min n l.length)) 0 = le32 l 0 := by
  unfold le32
  rw [getD_take_min l n 0 (by omega), getD_take_min l n (0 + 1) (by omega),
    getD_take_min l n (0 + 2) (by omega), getD_take_min l n (0 + 3) (by omega)]

theorem le32_take (l : List Nat) (n : Nat) (h : 4 ≤ n) : le32 (l.take n) 0 = le32 l 0 := by
  unfold le32
  rw [getD_take_of_lt l n 0 (by omega), getD_take_of_lt l n (0 + 1) (by omega),
    getD_take_of_lt l n (0 + 2) (by omega), getD_take_of_lt l n (0 + 3) (by omega)]

/-- What `LoadAdv` passes to the loader it selects: the loader matches the header-size field,
the file header was read in full, and the stream is positioned four bytes before the end of
the read of the size field. -/
theorem LoadAdv_select_some (io : Stream) (progress : FIProgress) (ldr : Loader)
    (io1 : Stream) (off : Nat)
    (h : LoadAdv_select (some io) progress = some (ldr, io1, off)) :
    io.pos + 14 ≤ io.data.length ∧
    (ldr = Loader.OS21X ∧ le32 (io.data.drop (io.pos + 14)) 0 = 12 ∨
     ldr = Loader.OS22X ∧ le32 (io.data.drop (io.pos + 14)) 0 = 64 ∨
     ldr = Loader.Windows (le32 (io.data.drop (io.pos + 14)) 0) ∧
       le32 (io.data.drop (io.pos + 14)) 0 ∈ [40, 52, 56, 108, 124]) ∧
    io1.data = io.data ∧
    io1.pos = io.pos + 14 + min 4 (io.data.length - (io.pos + 14)) - 4 := by
  unfold LoadAdv_select at h
  simp only at h
  split_ifs at h with h1 h2 h3 h4 h5 h6
  all_goals
    have hr : (read_proc io sizeof_BITMAPFILEHEADER 1).2.1 = 1 := by
      by_contra hc; exact h2 hc
    obtain ⟨hlen, _, hio⟩ := read_proc_one io sizeof_BITMAPFILEHEADER (by decide) hr
    simp only [sizeof_BITMAPFILEHEADER] at hlen hio
    have htype : le32 (read_proc (read_proc io sizeof_BITMAPFILEHEADER 1).2.2 4 1).1 0 =
        le32 (io.data.drop (io.pos + 14)) 0 := by
      simp only [sizeof_BITMAPFILEHEADER, hio]
      unfold read_proc
      simp only [Nat.mul_one]
      have := le32_take_min (io.data.drop (io.pos + 14)) 4 (le_refl 4)
      rw [List.length_drop] at this
      exact this
    have hpos : (seek_cur (read_proc (read_proc io sizeof_BITMAPFILEHEADER 1).2.2 4 1).2.2
        (0 - 4)).pos = io.pos + 14 + min 4 (io.data.length - (io.pos + 14)) - 4 := by
      simp only [sizeof_BITMAPFILEHEADER, hio]
      unfold read_proc seek_cur
      simp only [Nat.mul_one]
      omega
    have hdata : (seek_cur (read_proc (read_proc io sizeof_BITMAPFILEHEADER 1).2.2 4 1).2.2
        (0 - 4)).data = io.data := by
      simp only [sizeof_BITMAPFILEHEADER, hio]
      unfold read_proc seek_cur
      rfl
    simp only [Option.some.injEq, Prod.mk.injEq] at h
    obtain ⟨hl, hio1, _⟩ := h
    subst hl hio1
    refine ⟨hlen, ?_, hdata, hpos⟩
    rw [← htype]
  · exact Or.inl ⟨rfl, h4⟩
  · exact Or.inr (Or.inl ⟨rfl, h5⟩)
  · refine Or.inr (Or.inr ⟨rfl, ?_⟩)
    simp only [List.mem_cons, List.mem_singleton, List.mem_nil_iff, or_false]
    exact h6

/-- C14: when the 4-byte header-size field that follows the file header is not one of 12, 40,
52, 56, 64, 108, 124, `LoadAdv` selects none of the variant loaders and returns no image. -/
theorem C14_unknown_header_size (io : Stream)
    (htype : le32 (io.data.drop (io.pos + 14)) 0 ∉ [12, 40, 52, 56, 64, 108, 124])
    (env : BmpEnv) (header_only : Bool) (cbOption : Nat) (cb : Option FreeImageCB) :
    LoadAdv_select (some io) (FIProgress.create cbOption cb) = none ∧
    LoadAdv env (some io) header_only cbOption cb = none := by
  have hsel : LoadAdv_select (some io) (FIProgress.create cbOption cb) = none := by
    cases hs : LoadAdv_select (some io) (FIProgress.create cbOption cb) with
    | none => rfl
    | some r =>
      obtain ⟨ldr, io1, off⟩ := r
      obtain ⟨_, hl, _, _⟩ := LoadAdv_select_some io _ ldr io1 off hs
      exfalso
      apply htype
      simp only [List.mem_cons, List.mem_singleton, List.mem_nil_iff, or_false] at hl ⊢
      omega
  refine ⟨hsel, ?_⟩
  unfold LoadAdv
  simp only [hsel]

/-- C14 witness: a stream with the signature `BM` and the header size 16. -/
theorem C14_unknown_header_size_witness :
    LoadAdv_select
      (some ⟨[0x42, 0x4D, 0, 0, 0, 0, 0, 0, 0, 0, 54, 0, 0, 0, 16, 0, 0, 0, 1, 2], 0⟩)
      (FIProgress.create 0 none) = none ∧
    LoadAdv BmpEnv.sample
      (some ⟨[0x42, 0x4D, 0, 0, 0, 0, 0, 0, 0, 0, 54, 0, 0, 0, 16, 0, 0, 0, 1, 2], 0⟩)
      false 0 none = none :=
  C14_unknown_header_size
    ⟨[0x42, 0x4D, 0, 0, 0, 0, 0, 0, 0, 0, 54, 0, 0, 0, 16, 0, 0, 0, 1, 2], 0⟩ (by decide)
    BmpEnv.sample false 0 none

/-- A loader that reads a 40-byte info header whose size field is not 40 throws. -/
theorem LoadWindowsBMP_size_ne (env : BmpEnv) (io : Stream) (header_only : Bool)
    (bitmap_bits_offset type : Nat) (progress : FIProgress)
    (h : io.pos + 40 ≤ io.data.length → le32 (io.data.drop io.pos) 0 ≠ 40) :
    (LoadWindowsBMP env io header_only bitmap_bits_offset type progress).result =
      .error .FI_MSG_ERROR_INVALID_FORMAT := by
  by_cases hread : (read_proc io sizeof_BITMAPINFOHEADER 1).2.1 = 1
  · obtain ⟨hlen, _, _⟩ := read_proc_one io sizeof_BITMAPINFOHEADER (by decide) hread
    refine (LoadWindowsBMP_rejected env io header_only bitmap_bits_offset type progress hread
      ?_).1
    apply CheckBitmapInfoHeader_size
    simp only [BITMAPINFOHEADER.ofBytes, sizeof_BITMAPINFOHEADER]
    rw [le32_take _ 40 (by norm_num)]
    exact h hlen
  · unfold LoadWindowsBMP
    simp only [hread, ne_eq, not_false_eq_true, if_true]

theorem LoadOS22XBMP_size_ne (env : BmpEnv) (io : Stream) (header_only : Bool)
    (bitmap_bits_offset : Nat) (progress : FIProgress)
    (h : io.pos + 40 ≤ io.data.length → le32 (io.data.drop io.pos) 0 ≠ 40) :
    (LoadOS22XBMP env io header_only bitmap_bits_offset progress).result =
      .error .FI_MSG_ERROR_INVALID_FORMAT := by
  by_cases hread : (read_proc io sizeof_BITMAPINFOHEADER 1).2.1 = 1
  · obtain ⟨hlen, h2, h3⟩ := read_proc_one io sizeof_BITMAPINFOHEADER (by decide) hread
    have hc : CheckBitmapInfoHeader
        (BITMAPINFOHEADER.ofBytes ((io.data.drop io.pos).take 40)) = false := by
      apply CheckBitmapInfoHeader_size
      simp only [BITMAPINFOHEADER.ofBytes, sizeof_BITMAPINFOHEADER]
      rw [le32_take _ 40 (by norm_num)]
      exact h hlen
    simp only [sizeof_BITMAPINFOHEADER] at h2 hread
    unfold LoadOS22XBMP
    simp only [sizeof_BITMAPINFOHEADER, hread, h2, hc, ne_eq, not_true_eq_false, if_false,
      if_true]
  · unfold LoadOS22XBMP
    simp only [hread, ne_eq, not_false_eq_true, if_true]

/-- C15: when the header-size field is 52, 56, 64, 108 or 124, `LoadAdv` returns no image
whatever the other header fields are, because `CheckBitmapInfoHeader` returns `FALSE` for
every `biSize` other than 40. -/
theorem C15_extended_header_sizes (io : Stream)
    (htype : le32 (io.data.drop (io.pos + 14)) 0 ∈ [52, 56, 64, 108, 124])
    (env : BmpEnv) (header_only : Bool) (cbOption : Nat) (cb : Option FreeImageCB) :
    LoadAdv env (some io) header_only cbOption cb = none ∧
    (∀ bih : BITMAPINFOHEADER, bih.biSize ≠ 40 → CheckBitmapInfoHeader bih = false) := by
  refine ⟨?_, fun bih h => CheckBitmapInfoHeader_size bih h⟩
  simp only [List.mem_cons, List.mem_singleton, List.mem_nil_iff, or_false] at htype
  unfold LoadAdv
  cases hs : LoadAdv_select (some io) (FIProgress.create cbOption cb) with
  | none => simp only [hs]
  | some r =>
    obtain ⟨ldr, io1, off⟩ := r
    obtain ⟨hlen, hl, hdata, hpos⟩ := LoadAdv_select_some io _ ldr io1 off hs
    have hsz : io1.pos + 40 ≤ io1.data.length → le32 (io1.data.drop io1.pos) 0 ≠ 40 := by
      intro h40
      rw [hdata] at h40 ⊢
      have hp : io1.pos = io.pos + 14 := by omega
      rw [hp]
      omega
    rcases hl with ⟨hl, ht⟩ | ⟨hl, ht⟩ | ⟨hl, ht⟩
    · omega
    · subst hl
      simp only [hs, LoadOS22XBMP_size_ne env io1 header_only off _ hsz, catchMessage]
    · subst hl
      simp only [hs, LoadWindowsBMP_size_ne env io1 header_only off _ _ hsz, catchMessage]

/-- C15 witness: a stream with the signature `BM` and the header size 52. -/
theorem C15_extended_header_sizes_witness :
    LoadAdv BmpEnv.sample
      (some ⟨[0x42, 0x4D, 0, 0, 0, 0, 0, 0, 0, 0, 66, 0, 0, 0, 52, 0, 0, 0, 1, 2], 0⟩)
      false 0 none = none ∧
    (∀ bih : BITMAPINFOHEADER, bih.biSize ≠ 40 → CheckBitmapInfoHeader bih = false) :=
  C15_extended_header_sizes
    ⟨[0x42, 0x4D, 0, 0, 0, 0, 0, 0, 0, 0, 66, 0, 0, 0, 52, 0, 0, 0, 1, 2], 0⟩ (by decide)
    BmpEnv.sample false 0 none

/-! ### Compression and depth -/

/-- C16, as stated, fails: in header-only mode a 40-byte header of depth 4 that declares
RLE-8 compression gives a (header-only) bitmap, and a header of depth 16 that declares RLE-8
gives a bitmap whose pixel bytes `AA BB 00 00` are taken raw from the stream. -/
theorem C16_counterexample :
    (LoadAdv BmpEnv.sample
      (some ⟨[0x42, 0x4D, 0, 0, 0, 0, 0, 0, 0, 0, 54, 0, 0, 0,
        40, 0, 0, 0, 1, 0, 0, 0, 1, 0, 0, 0, 1, 0, 4, 0, 1, 0, 0, 0, 0, 0, 0, 0, 0, 0, 0, 0,
        0, 0, 0, 0, 0, 0, 0, 0, 0, 0, 0, 0], 0⟩) true 0 none).isSome = true ∧
    (LoadAdv BmpEnv.sample
      (some ⟨[0x42, 0x4D, 0, 0, 0, 0, 0, 0, 0, 0, 54, 0, 0, 0,
        40, 0, 0, 0, 1, 0, 0, 0, 1, 0, 0, 0, 1, 0, 16, 0, 1, 0, 0, 0, 0, 0, 0, 0, 0, 0, 0, 0,
        0, 0, 0, 0, 0, 0, 0, 0, 0, 0, 0, 0, 0xAA, 0xBB, 0, 0], 0⟩) false 0 none).map
      (fun dib => dib.bits) = some [0xAA, 0xBB, 0, 0] := by
  decide

/-- C16, amended: for a 40-byte header of depth 1, 4 or 8 that declares RLE-4 with a depth
other than 4, or RLE-8 with a depth other than 8, `LoadWindowsBMP` asked for pixels (not
header-only) throws, so that the decode returns no image. -/
theorem C16_compression_depth (env : BmpEnv) (io : Stream) (bitmap_bits_offset type : Nat)
    (progress : FIProgress)
    (hdepth : (BITMAPINFOHEADER.ofBytes ((io.data.drop io.pos).take 40)).biBitCount ∈
      [1, 4, 8])
    (hmis :
      ((BITMAPINFOHEADER.ofBytes ((io.data.drop io.pos).take 40)).biCompression = BI_RLE4 ∧
        (BITMAPINFOHEADER.ofBytes ((io.data.drop io.pos).take 40)).biBitCount ≠ 4) ∨
      ((BITMAPINFOHEADER.ofBytes ((io.data.drop io.pos).take 40)).biCompression = BI_RLE8 ∧
        (BITMAPINFOHEADER.ofBytes ((io.data.drop io.pos).take 40)).biBitCount ≠ 8)) :
    (∃ e, (LoadWindowsBMP env io false bitmap_bits_offset type progress).result = .error e) ∧
    catchMessage (LoadWindowsBMP env io false bitmap_bits_offset type progress).result =
      none := by
  have key : ∃ e,
      (LoadWindowsBMP env io false bitmap_bits_offset type progress).result = .error e := by
    by_cases hread : (read_proc io sizeof_BITMAPINFOHEADER 1).2.1 = 1
    · obtain ⟨_, h2, h3⟩ := read_proc_one io sizeof_BITMAPINFOHEADER (by decide) hread
      simp only [sizeof_BITMAPINFOHEADER] at h2 h3 hread
      generalize hb : BITMAPINFOHEADER.ofBytes ((io.data.drop io.pos).take 40) = bih at *
      simp only [List.mem_cons, List.mem_singleton, List.mem_nil_iff, or_false] at hdepth
      unfold LoadWindowsBMP
      simp only [sizeof_BITMAPINFOHEADER, hread, h2, h3, hb, ne_eq, not_true_eq_false,
        if_false]
      by_cases hc : CheckBitmapInfoHeader bih = false
      · simp only [hc, if_true]
        exact ⟨_, rfl⟩
      · simp only [hc, if_false, hdepth, if_true]
        cases ha : env.AllocateHeader false bih.biWidth bih.biHeight bih.biBitCount (0, 0, 0)
          with
        | none => exact ⟨_, rfl⟩
        | some dib =>
          simp only [Bool.false_eq_true, if_false]
          rcases hmis with ⟨h4, hne⟩ | ⟨h8, hne⟩
          · have e1 : ¬ bih.biCompression = BI_RGB := by rw [h4]; decide
            simp only [e1, if_false, h4, if_true, LoadPixelDataRLE4]
            have e2 : (4 : Nat) ≠ bih.biBitCount := fun h => hne h.symm
            simp only [ne_eq, e2, not_false_eq_true, if_true, pixelOutcome]
            exact ⟨_, rfl⟩
          · have e1 : ¬ bih.biCompression = BI_RGB := by rw [h8]; decide
            have e3 : ¬ bih.biCompression = BI_RLE4 := by rw [h8]; decide
            simp only [e1, e3, if_false, h8, if_true, LoadPixelDataRLE8]
            have e2 : (8 : Nat) ≠ bih.biBitCount := fun h => hne h.symm
            simp only [ne_eq, e2, not_false_eq_true, if_true, pixelOutcome]
            exact ⟨_, rfl⟩
    · unfold LoadWindowsBMP
      simp only [hread, ne_eq, not_false_eq_true, if_true]
      exact ⟨_, rfl⟩
  refine ⟨key, ?_⟩
  obtain ⟨e, he⟩ := key
  rw [he]
  rfl

/-- C16 witness: a 1x1 header of depth 4 that declares RLE-8. -/
theorem C16_compression_depth_witness :
    (∃ e, (LoadWindowsBMP BmpEnv.sample
      ⟨[40, 0, 0, 0, 1, 0, 0, 0, 1, 0, 0, 0, 1, 0, 4, 0, 1, 0, 0, 0, 0, 0, 0, 0, 0, 0, 0, 0,
        0, 0, 0, 0, 0, 0, 0, 0, 0, 0, 0, 0], 0⟩ false 40 40
      (FIProgress.create 0 none)).result = .error e) ∧
    catchMessage (LoadWindowsBMP BmpEnv.sample
      ⟨[40, 0, 0, 0, 1, 0, 0, 0, 1, 0, 0, 0, 1, 0, 4, 0, 1, 0, 0, 0, 0, 0, 0, 0, 0, 0, 0, 0,
        0, 0, 0, 0, 0, 0, 0, 0, 0, 0, 0, 0], 0⟩ false 40 40
      (FIProgress.create 0 none)).result = none :=
  C16_compression_depth BmpEnv.sample
    ⟨[40, 0, 0, 0, 1, 0, 0, 0, 1, 0, 0, 0, 1, 0, 4, 0, 1, 0, 0, 0, 0, 0, 0, 0, 0, 0, 0, 0,
      0, 0, 0, 0, 0, 0, 0, 0, 0, 0, 0, 0], 0⟩ 40 40 (FIProgress.create 0 none)
    (by decide) (by decide)

/-! ### The RLE-8 encoder -/

theorem RLE_scan_spec (source : List Nat) (size jmax : Nat) (fuel j0 : Nat) :
    j0 ≤ RLE_scan source size jmax fuel j0 ∧
    (j0 < size → RLE_scan source size jmax fuel j0 < size) ∧
    (j0 ≤ jmax → RLE_scan source size jmax fuel j0 ≤ jmax) ∧
    (∀ k, j0 ≤ k → k < RLE_scan source size jmax fuel j0 →
      source.getD k 0 = source.getD (k + 1) 0) := by
  induction fuel generalizing j0 with
  | zero =>
    simp only [RLE_scan]
    exact ⟨le_refl _, fun h => h, fun h => h, fun k h1 h2 => by omega⟩
  | succ fuel ih =>
    simp only [RLE_scan]
    split_ifs with hc
    · obtain ⟨h1, h2, h3, h4⟩ := ih (j0 + 1)
      refine ⟨by omega, fun _ => h2 hc.1, fun _ => h3 (by omega), ?_⟩
      intro k hk1 hk2
      by_cases hk : k = j0
      · subst hk; exact hc.2.2
      · exact h4 k (by omega) hk2
    · exact ⟨le_refl _, fun h => h, fun h => h, fun k h1 h2 => by omega⟩

/-- With enough fuel the scan stops only where the `while` condition fails. -/
theorem RLE_scan_stop (source : List Nat) (size jmax : Nat) (fuel j0 : Nat)
    (hfuel : size ≤ j0 + fuel + 1) :
    ¬ (RLE_scan source size jmax fuel j0 + 1 < size ∧
       RLE_scan source size jmax fuel j0 < jmax ∧
       source.getD (RLE_scan source size jmax fuel j0) 0 =
         source.getD (RLE_scan source size jmax fuel j0 + 1) 0) := by
  induction fuel generalizing j0 with
  | zero =>
    simp only [RLE_scan]
    intro h
    omega
  | succ fuel ih =>
    simp only [RLE_scan]
    split_ifs with hc
    · exact ih (j0 + 1) (by omega)
    · exact hc

/-- All bytes of a solid block equal its first byte. -/
theorem RLE_scan_block (source : List Nat) (size jmax : Nat) (fuel i : Nat)
    (h0 : source.getD i 0 = source.getD (i + 1) 0) (k : Nat) (hk1 : i ≤ k)
    (hk2 : k ≤ RLE_scan source size jmax fuel (i + 1)) :
    source.getD k 0 = source.getD i 0 := by
  obtain ⟨_, _, _, h4⟩ := RLE_scan_spec source size jmax fuel (i + 1)
  induction k with
  | zero =>
    have : i = 0 := by omega
    subst this; rfl
  | succ k ih =>
    by_cases hk : k + 1 = i
    · rw [hk]
    · by_cases hk' : k = i
      · subst hk'; exact h0.symm
      · rw [← h4 k (by omega) (by omega)]
        exact ih (by omega) (by omega)

theorem RLE_flush_full_of_ne (buffer out : List Nat) (h : buffer.length ≠ 254) :
    RLE_flush_full buffer out = (buffer, out) := by
  simp only [RLE_flush_full, if_neg h]

theorem RLE_flush_full_of_eq (buffer out : List Nat) (h : buffer.length = 254) :
    RLE_flush_full buffer out = ([], out ++ [0, 254] ++ buffer) := by
  unfold RLE_flush_full
  rw [if_pos h, h]
  rfl

theorem RLE_push_nil (st : List Nat × List Nat) : RLE_push st [] = st := rfl

theorem RLE_push_cons (st : List Nat × List Nat) (x : Nat) (xs : List Nat) :
    RLE_push st (x :: xs) = RLE_push (RLE_flush_full (st.1 ++ [x]) st.2) xs := rfl

theorem RLE_push_append (st : List Nat × List Nat) (xs ys : List Nat) :
    RLE_push st (xs ++ ys) = RLE_push (RLE_push st xs) ys := by
  simp only [RLE_push, List.foldl_append]

/-- The pool stays below 254 bytes. -/
theorem RLE_push_length_lt (st : List Nat × List Nat) (xs : List Nat)
    (h : st.1.length < 254) : (RLE_push st xs).1.length < 254 := by
  induction xs generalizing st with
  | nil => exact h
  | cons x xs ih =>
    rw [RLE_push_cons]
    apply ih
    by_cases h254 : (st.1 ++ [x]).length = 254
    · rw [RLE_flush_full_of_eq _ _ h254]; simp
    · rw [RLE_flush_full_of_ne _ _ h254]
      simp only [List.length_append, List.length_singleton] at h254 ⊢
      omega

/-- The pooling loop puts the bytes `source[i + k ..]` into the pool one by one. -/
theorem RLE_pool_eq (source : List Nat) (i n k : Nat) (buffer out : List Nat) :
    RLE_pool source i n k buffer out =
      RLE_push (buffer, out) ((List.range' k n).map (fun t => source.getD (i + t) 0)) := by
  induction n generalizing k buffer out with
  | zero => rfl
  | succ n ih =>
    simp only [RLE_pool, List.range'_succ, List.map_cons, RLE_push_cons]
    rw [ih]

/-- The three shapes of one iteration of the main loop, for a pool below 254 bytes. -/
theorem RLE_iter_eq (target : Nat → Nat) (source : List Nat) (size i : Nat)
    (buffer out : List Nat) (hb : buffer.length < 254) :
    RLE_iter target source size i buffer out =
      if i + 1 < size ∧ source.getD i 0 = source.getD (i + 1) 0 then
        if (RLE_scan source size (254 + i) size (i + 1) - i) + 1 > 3 then
          (RLE_scan source size (254 + i) size (i + 1), [],
            RLE_flush target buffer out ++
              [((RLE_scan source size (254 + i) size (i + 1) - i) + 1) % 256,
                source.getD i 0])
        else
          (RLE_scan source size (254 + i) size (i + 1),
            RLE_push (buffer, out)
              ((List.range' 0 ((RLE_scan source size (254 + i) size (i + 1) - i) + 1)).map
                (fun t => source.getD (i + t) 0)))
      else (i, RLE_push (buffer, out) [source.getD i 0]) := by
  unfold RLE_iter
  by_cases h1 : i + 1 < size ∧ source.getD i 0 = source.getD (i + 1) 0
  · rw [if_pos h1, if_pos h1]
    by_cases h2 : (RLE_scan source size (254 + i) size (i + 1) - i) + 1 > 3
    · rw [if_pos h2, if_pos h2]
      simp only [RLE_flush_full_of_ne [] _ (by decide : ([] : List Nat).length ≠ 254)]
    · rw [if_neg h2, if_neg h2]
      simp only [RLE_pool_eq]
      have hlt := RLE_push_length_lt (buffer, out)
        ((List.range' 0 ((RLE_scan source size (254 + i) size (i + 1) - i) + 1)).map
          (fun t => source.getD (i + t) 0)) hb
      rw [RLE_flush_full_of_ne _ _ (by omega)]
  · rw [if_neg h1, if_neg h1]
    rfl

theorem RLEEncodeLine_loop_exit (target : Nat → Nat) (source : List Nat) (size fuel i : Nat)
    (buffer out : List Nat) (h : ¬ i < size) :
    RLEEncodeLine_loop target source size fuel i buffer out = (buffer, out) := by
  cases fuel with
  | zero => rfl
  | succ fuel => simp only [RLEEncodeLine_loop, if_neg h]

theorem RLE_iter_fst_eq (target : Nat → Nat) (source : List Nat) (size i : Nat)
    (buffer out : List Nat) :
    (RLE_iter target source size i buffer out).1 =
      if i + 1 < size ∧ source.getD i 0 = source.getD (i + 1) 0 then
        RLE_scan source size (254 + i) size (i + 1)
      else i := by
  unfold RLE_iter
  by_cases h1 : i + 1 < size ∧ source.getD i 0 = source.getD (i + 1) 0
  · simp only [if_pos h1]
    by_cases h2 : (RLE_scan source size (254 + i) size (i + 1) - i) + 1 > 3
    · simp only [if_pos h2]
    · simp only [if_neg h2]
  · simp only [if_neg h1]

/-- The index grows in every iteration and stays below `size`. -/
theorem RLE_iter_fst (target : Nat → Nat) (source : List Nat) (size i : Nat)
    (buffer out : List Nat) (hi : i < size) :
    i ≤ (RLE_iter target source size i buffer out).1 ∧
    (RLE_iter target source size i buffer out).1 < size := by
  rw [RLE_iter_fst_eq]
  obtain ⟨h1, h2, _, _⟩ := RLE_scan_spec source size (254 + i) size (i + 1)
  split_ifs with hc
  · exact ⟨by omega, h2 hc.1⟩
  · exact ⟨le_refl _, hi⟩

/-- Invariants of the main loop: a property of the index, the pool and the output that holds
at the start and is kept by every iteration holds when the loop is left, with the index at
`size`. -/
theorem RLEEncodeLine_loop_inv (target : Nat → Nat) (source : List Nat) (size : Nat)
    (P : Nat → List Nat → List Nat → Prop)
    (hstep : ∀ i buffer out, i < size → P i buffer out →
      P ((RLE_iter target source size i buffer out).1 + 1)
        (RLE_iter target source size i buffer out).2.1
        (RLE_iter target source size i buffer out).2.2)
    (fuel i : Nat) (buffer out : List Nat) (hfuel : size ≤ i + fuel) (hi : i ≤ size)
    (h : P i buffer out) :
    P size (RLEEncodeLine_loop target source size fuel i buffer out).1
      (RLEEncodeLine_loop target source size fuel i buffer out).2 := by
  induction fuel generalizing i buffer out with
  | zero =>
    have : i = size := by omega
    subst this
    exact h
  | succ fuel ih =>
    by_cases hlt : i < size
    · simp only [RLEEncodeLine_loop, if_pos hlt]
      obtain ⟨h1, h2⟩ := RLE_iter_fst target source size i buffer out hlt
      exact ih _ _ _ (by omega) (by omega) (hstep i buffer out hlt h)
    · rw [RLEEncodeLine_loop_exit _ _ _ _ _ _ _ hlt]
      have : i = size := by omega
      subst this
      exact h

/-! ### Size of the encoded line -/

theorem RLE_flush_length_le (target : Nat → Nat) (buffer out : List Nat) :
    (RLE_flush target buffer out).length ≤ out.length + 2 * buffer.length := by
  unfold RLE_flush
  simp only [RLE_DELTA, RLE_ENDOFBITMAP]
  split_ifs with h0 h2 h1 hodd <;>
    (try simp only [List.length_append, List.length_cons, List.length_nil]) <;> omega

theorem RLE_flush_full_measure (buffer out : List Nat) :
    (RLE_flush_full buffer out).2.length + 2 * (RLE_flush_full buffer out).1.length ≤
      out.length + 2 * buffer.length := by
  by_cases h : buffer.length = 254
  · rw [RLE_flush_full_of_eq _ _ h]
    simp only [List.length_append, List.length_cons, List.length_nil]
    omega
  · rw [RLE_flush_full_of_ne _ _ h]

theorem RLE_push_measure (st : List Nat × List Nat) (xs : List Nat) :
    (RLE_push st xs).2.length + 2 * (RLE_push st xs).1.length ≤
      st.2.length + 2 * st.1.length + 2 * xs.length := by
  induction xs generalizing st with
  | nil => simp [RLE_push_nil]
  | cons x xs ih =>
    rw [RLE_push_cons]
    have h1 := ih (RLE_flush_full (st.1 ++ [x]) st.2)
    have h2 := RLE_flush_full_measure (st.1 ++ [x]) st.2
    simp only [List.length_append, List.length_cons, List.length_nil] at h2 ⊢
    omega

/-- C17: for every scanline of `n` bytes the length returned by `RLEEncodeLine` is at most
`2 * n + 2`. -/
theorem C17_encoded_size_bound (target : Nat → Nat) (source : List Nat) :
    (RLEEncodeLine target source source.length).length ≤ 2 * source.length + 2 := by
  unfold RLEEncodeLine
  have hinv := RLEEncodeLine_loop_inv target source source.length
    (fun i buffer out => buffer.length < 254 ∧ out.length + 2 * buffer.length ≤ 2 * i)
    (by
      intro i buffer out hi ⟨hb, hm⟩
      obtain ⟨_, h2, _, _⟩ := RLE_scan_spec source source.length (254 + i) source.length (i + 1)
      have h1 := (RLE_scan_spec source source.length (254 + i) source.length (i + 1)).1
      rw [RLE_iter_eq _ _ _ _ _ _ hb]
      split_ifs with hc hr <;> dsimp only
      · refine ⟨by simp, ?_⟩
        have := RLE_flush_length_le target buffer out
        simp only [List.length_append, List.length_cons, List.length_nil]
        omega
      · refine ⟨RLE_push_length_lt _ _ hb, ?_⟩
        have := RLE_push_measure (buffer, out)
          ((List.range' 0 ((RLE_scan source source.length (254 + i) source.length (i + 1) - i)
            + 1)).map (fun t => source.getD (i + t) 0))
        simp only [List.length_map, List.length_range'] at this
        omega
      · refine ⟨RLE_push_length_lt _ _ hb, ?_⟩
        have := RLE_push_measure (buffer, out) [source.getD i 0]
        simp only [List.length_cons, List.length_nil] at this
        omega)
    source.length 0 [] [] (by omega) (by omega) (by simp)
  obtain ⟨_, hm⟩ := hinv
  have := RLE_flush_length_le target
    (RLEEncodeLine_loop target source source.length source.length 0 [] []).1
    (RLEEncodeLine_loop target source source.length source.length 0 [] []).2
  simp only [List.length_append, List.length_cons, List.length_nil]
  omega

/-- C18, on the code: for the one-byte source `[5]` the function returns 4, which is more
than the size 1 of the source buffer. -/
theorem C18_target_size_exceeded :
    RLEEncodeLine (fun _ => 0) [5] 1 = [1, 5, 0, 0] ∧
    ¬ ((RLEEncodeLine (fun _ => 0) [5] 1).length ≤ 1) := by
  decide
/-! ### The two scenarios: one solid block, one absolute run -/

theorem getD_replicate_lt (n v k : Nat) (h : k < n) : (List.replicate n v).getD k 0 = v := by
  simp [List.getD_eq_getElem?_getD, List.getElem?_replicate, h]

/-- On a line of `n <= 255` equal bytes the scan started at 1 runs to the last index. -/
theorem RLE_scan_replicate (n v : Nat) (h2 : 2 ≤ n) (h255 : n ≤ 255) :
    RLE_scan (List.replicate n v) n (254 + 0) n (0 + 1) = n - 1 := by
  obtain ⟨h1, hlt, _, _⟩ := RLE_scan_spec (List.replicate n v) n (254 + 0) n (0 + 1)
  have hstop := RLE_scan_stop (List.replicate n v) n (254 + 0) n (0 + 1) (by omega)
  have hj := hlt (by omega)
  by_contra hne
  apply hstop
  have hj1 : RLE_scan (List.replicate n v) n (254 + 0) n (0 + 1) + 1 < n := by omega
  refine ⟨hj1, by omega, ?_⟩
  rw [getD_replicate_lt n v _ hj, getD_replicate_lt n v _ hj1]

/-- C19: for every byte `v` and every `n` with `4 <= n <= 255`, `RLEEncodeLine` applied to
the scanline of `n` copies of `v` writes exactly the bytes `[n, v, 0, 0]` and returns 4. -/
theorem C19_repeat_run (target : Nat → Nat) (v n : Nat) (h4 : 4 ≤ n) (h255 : n ≤ 255) :
    RLEEncodeLine target (List.replicate n v) n = [n, v, 0, 0] ∧
    (RLEEncodeLine target (List.replicate n v) n).length = 4 := by
  have hscan := RLE_scan_replicate n v (by omega) h255
  have hiter : RLE_iter target (List.replicate n v) n 0 [] [] = (n - 1, [], [n, v]) := by
    rw [RLE_iter_eq _ _ _ _ _ _ (by simp)]
    have hc : 0 + 1 < n ∧ (List.replicate n v).getD 0 0 = (List.replicate n v).getD (0 + 1) 0 := by
      refine ⟨by omega, ?_⟩
      rw [getD_replicate_lt n v 0 (by omega), getD_replicate_lt n v (0 + 1) (by omega)]
    rw [if_pos hc, hscan]
    have hr : (n - 1 - 0) + 1 > 3 := by omega
    rw [if_pos hr]
    have e1 : ((n - 1 - 0) + 1) % 256 = n := by
      rw [Nat.mod_eq_of_lt (by omega)]; omega
    rw [e1, getD_replicate_lt n v 0 (by omega)]
    simp [RLE_flush]
  have hloop : RLEEncodeLine_loop target (List.replicate n v) n n 0 [] [] = ([], [n, v]) := by
    obtain ⟨m, rfl⟩ : ∃ m, n = m + 1 := ⟨n - 1, by omega⟩
    rw [RLEEncodeLine_loop]
    rw [if_pos (by omega)]
    simp only [hiter]
    rw [RLEEncodeLine_loop_exit _ _ _ _ _ _ _ (by omega)]
  have hres : RLEEncodeLine target (List.replicate n v) n = [n, v, 0, 0] := by
    unfold RLEEncodeLine
    simp only [hloop]
    simp [RLE_flush, RLE_COMMAND, RLE_ENDOFLINE]
  rw [hres]
  exact ⟨rfl, rfl⟩

/-- C19 witness: scenario A, the scanline `[5, 5, 5, 5]`. -/
theorem C19_repeat_run_witness :
    RLEEncodeLine (fun _ => 0) (List.replicate 4 5) 4 = [4, 5, 0, 0] ∧
    (RLEEncodeLine (fun _ => 0) (List.replicate 4 5) 4).length = 4 :=
  C19_repeat_run (fun _ => 0) 5 4 (by decide) (by decide)

theorem RLE_push_small (buffer out xs : List Nat) (h : buffer.length + xs.length < 254) :
    RLE_push (buffer, out) xs = (buffer ++ xs, out) := by
  induction xs generalizing buffer with
  | nil => simp [RLE_push_nil]
  | cons x xs ih =>
    rw [RLE_push_cons]
    simp only [List.length_cons] at h
    rw [RLE_flush_full_of_ne _ _ (by simp only [List.length_append, List.length_singleton]; omega)]
    rw [ih _ (by simp only [List.length_append, List.length_singleton]; omega)]
    simp

theorem RLE_push_exact (buffer out xs : List Nat) (h : buffer.length + xs.length = 254)
    (hx : xs ≠ []) :
    RLE_push (buffer, out) xs = ([], out ++ [0, 254] ++ (buffer ++ xs)) := by
  induction xs generalizing buffer with
  | nil => exact absurd rfl hx
  | cons x xs ih =>
    rw [RLE_push_cons]
    simp only [List.length_cons] at h
    by_cases hxs : xs = []
    · subst hxs
      simp only [List.length_nil] at h
      rw [RLE_flush_full_of_eq _ _ (by simp only [List.length_append, List.length_singleton]; omega)]
      rfl
    · rw [RLE_flush_full_of_ne _ _ (by
        simp only [List.length_append, List.length_singleton]
        have : 0 < xs.length := List.length_pos.mpr hxs
        omega)]
      rw [ih _ (by simp only [List.length_append, List.length_singleton]; omega) hxs]
      simp

/-- The bytes `s[i .. i + r)` follow the first `i` bytes. -/
theorem take_add_getD (s : List Nat) (i r : Nat) (h : i + r ≤ s.length) :
    s.take i ++ (List.range' 0 r).map (fun t => s.getD (i + t) 0) = s.take (i + r) := by
  induction r with
  | zero => simp
  | succ r ih =>
    rw [List.range'_concat, List.map_append, ← List.append_assoc, ih (by omega)]
    simp only [List.map_cons, List.map_nil, Nat.one_mul, Nat.zero_add]
    have hlt : i + r < s.length := by omega
    rw [← Nat.add_assoc, List.take_succ]
    congr 1
    rw [List.getD_eq_getElem?_getD, List.getElem?_eq_getElem hlt]
    rfl
/-- Without a run of four equal bytes, the pool and the output at the end of the main loop are
those obtained by pooling every byte of the line. -/
theorem RLEEncodeLine_loop_noRun (target : Nat → Nat) (s : List Nat) (hno : NoRun4 s) :
    RLEEncodeLine_loop target s s.length s.length 0 [] [] = RLE_push ([], []) s := by
  have hinv := RLEEncodeLine_loop_inv target s s.length
    (fun i buffer out => i ≤ s.length ∧ (buffer, out) = RLE_push ([], []) (s.take i))
    (by
      intro i buffer out hi ⟨_, hst⟩
      have hb : buffer.length < 254 := by
        have := RLE_push_length_lt ([], []) (s.take i) (by simp)
        rw [← hst] at this
        exact this
      obtain ⟨h1, h2, _, h4⟩ := RLE_scan_spec s s.length (254 + i) s.length (i + 1)
      rw [RLE_iter_eq _ _ _ _ _ _ hb]
      split_ifs with hc hr <;> dsimp only
      · exfalso
        have hj := h2 hc.1
        apply hno i (by omega)
        exact ⟨hc.2, h4 (i + 1) (by omega) (by omega), h4 (i + 2) (by omega) (by omega)⟩
      · have hj := h2 hc.1
        refine ⟨by omega, ?_⟩
        rw [hst, ← RLE_push_append, take_add_getD s i _ (by omega)]
        have e : i + (RLE_scan s s.length (254 + i) s.length (i + 1) - i + 1) =
            RLE_scan s s.length (254 + i) s.length (i + 1) + 1 := by omega
        rw [e]
      · refine ⟨by omega, ?_⟩
        rw [hst, ← RLE_push_append]
        have := take_add_getD s i 1 (by omega)
        simp only [List.range'_one, List.map_cons, List.map_nil, Nat.add_zero] at this
        rw [this])
    s.length 0 [] [] (by omega) (by omega) ⟨by omega, by simp [RLE_push_nil]⟩
  obtain ⟨_, h⟩ := hinv
  rw [List.take_length] at h
  exact h

/-- C20: for every scanline `S` of `n` bytes, `3 <= n <= 254`, without a run of four or more
identical consecutive bytes, `RLEEncodeLine` writes `[0, n]`, the `n` bytes of `S`, one pad
position if `n` is odd (the target byte there is left as it was), and the end-of-line pair
`[0, 0]`; it returns `2 + n + (n mod 2) + 2`. -/
theorem C20_absolute_run (target : Nat → Nat) (s : List Nat)
    (h3 : 3 ≤ s.length) (h254 : s.length ≤ 254) (hno : NoRun4 s) :
    RLEEncodeLine target s s.length =
      [0, s.length] ++ s ++ (if s.length % 2 = 1 then [target (2 + s.length)] else []) ++
        [0, 0] ∧
    (RLEEncodeLine target s s.length).length = 2 + s.length + s.length % 2 + 2 := by
  have hres : RLEEncodeLine target s s.length =
      [0, s.length] ++ s ++ (if s.length % 2 = 1 then [target (2 + s.length)] else []) ++
        [0, 0] := by
    unfold RLEEncodeLine
    simp only [RLEEncodeLine_loop_noRun target s hno]
    by_cases hlt : s.length < 254
    · rw [RLE_push_small [] [] s (by simpa using hlt)]
      simp only [List.nil_append, RLE_flush, RLE_DELTA, RLE_ENDOFBITMAP, RLE_COMMAND,
        RLE_ENDOFLINE]
      rw [if_neg (by omega), if_neg (by omega), if_neg (by omega),
        Nat.mod_eq_of_lt (by omega : s.length < 256)]
      split_ifs with hodd
      simp only [List.length_append, List.length_cons, List.length_nil]
      have e : 0 + 1 + 1 + s.length = 2 + s.length := by omega
      simp [e]
    · have h : s.length = 254 := by omega
      have hne : s ≠ [] := by
        intro h0; rw [h0] at h3; simp at h3
      rw [RLE_push_exact [] [] s (by simpa using h) hne]
      simp only [List.nil_append, RLE_flush, List.length_nil, if_true, RLE_COMMAND,
        RLE_ENDOFLINE, h]
      simp
  refine ⟨hres, ?_⟩
  rw [hres]
  split_ifs with hodd <;>
    simp only [List.length_append, List.length_cons, List.length_nil] <;> omega

/-- C20 witness: scenario B, the scanline `[1, 2, 3]`. -/
theorem C20_absolute_run_witness :
    RLEEncodeLine (fun _ => 0) [1, 2, 3] [1, 2, 3].length =
      [0, [1, 2, 3].length] ++ [1, 2, 3] ++
        (if [1, 2, 3].length % 2 = 1 then [(fun _ => 0) (2 + [1, 2, 3].length)] else []) ++
        [0, 0] ∧
    (RLEEncodeLine (fun _ => 0) [1, 2, 3] [1, 2, 3].length).length =
      2 + [1, 2, 3].length + [1, 2, 3].length % 2 + 2 :=
  C20_absolute_run (fun _ => 0) [1, 2, 3] (by decide) (by decide)
    (by
      intro i hi
      simp only [List.length_cons, List.length_nil] at hi
      omega)

/-! ### Reassembly of the ICC profile: the first pass -/

theorem icc_first_pass_cons_icc (m : SavedMarker) (rest : List SavedMarker) (st : IccScan)
    (hm : marker_is_icc m = true) :
    icc_first_pass (m :: rest) st =
      if st.num_markers ≠ 0 ∧ st.num_markers ≠ icc_count m then none
      else if icc_seq_no m ≤ 0 ∨
          icc_seq_no m > (if st.num_markers = 0 then icc_count m else st.num_markers) then none
      else if st.marker_present (icc_seq_no m) = true then none
      else
        icc_first_pass rest
          { num_markers := if st.num_markers = 0 then icc_count m else st.num_markers
            marker_present := Function.update st.marker_present (icc_seq_no m) true
            data_length := Function.update st.data_length (icc_seq_no m) (icc_payload m).length } := by
  have e : m.data_length - ICC_HEADER_SIZE = (icc_payload m).length := by
    simp [icc_payload, SavedMarker.data_length]
  simp only [icc_first_pass, hm, if_true, e]
  rfl

theorem icc_first_pass_cons_other (m : SavedMarker) (rest : List SavedMarker) (st : IccScan)
    (hm : marker_is_icc m = false) :
    icc_first_pass (m :: rest) st = icc_first_pass rest st := by
  simp only [icc_first_pass, hm, Bool.false_eq_true, if_false]

/-- Where the first pass succeeds, every ICC marker it saw declares the final `num_markers`,
carries a sequence number in `1..num_markers` not seen before, and the sequence numbers are
pairwise distinct; the arrays record exactly the markers seen. -/
theorem icc_first_pass_some (ms : List SavedMarker) (st st1 : IccScan)
    (h : icc_first_pass ms st = some st1) :
    (∀ m ∈ icc_markers ms, icc_count m = st1.num_markers ∧ 1 ≤ icc_seq_no m ∧
      icc_seq_no m ≤ st1.num_markers ∧ st.marker_present (icc_seq_no m) = false) ∧
    ((icc_markers ms).map icc_seq_no).Nodup ∧
    (∀ s, st1.marker_present s =
      (st.marker_present s || decide (s ∈ (icc_markers ms).map icc_seq_no))) ∧
    (∀ m ∈ icc_markers ms, st1.data_length (icc_seq_no m) = (icc_payload m).length) ∧
    (∀ s, s ∉ (icc_markers ms).map icc_seq_no → st1.data_length s = st.data_length s) ∧
    (icc_markers ms = [] → st1.num_markers = st.num_markers) ∧
    (st.num_markers ≠ 0 → st1.num_markers = st.num_markers) := by
  induction ms generalizing st with
  | nil =>
    simp only [icc_first_pass, Option.some.injEq] at h
    subst h
    simp [icc_markers]
  | cons m rest ih =>
    by_cases hm : marker_is_icc m = true
    · have hf : icc_markers (m :: rest) = m :: icc_markers rest := by
        simp [icc_markers, List.filter_cons, hm]
      rw [icc_first_pass_cons_icc m rest st hm] at h
      by_cases h1 : st.num_markers ≠ 0 ∧ st.num_markers ≠ icc_count m
      · rw [if_pos h1] at h
        exact absurd h (by simp)
      rw [if_neg h1] at h
      have hnum : (if st.num_markers = 0 then icc_count m else st.num_markers) = icc_count m := by
        split_ifs with h0
        · rfl
        · by_contra hc
          exact h1 ⟨h0, hc⟩
      rw [hnum] at h
      by_cases h2 : icc_seq_no m ≤ 0 ∨ icc_seq_no m > icc_count m
      · rw [if_pos h2] at h
        exact absurd h (by simp)
      rw [if_neg h2] at h
      by_cases h3 : st.marker_present (icc_seq_no m) = true
      · rw [if_pos h3] at h
        exact absurd h (by simp)
      rw [if_neg h3] at h
      have hseq : 1 ≤ icc_seq_no m ∧ icc_seq_no m ≤ icc_count m := by omega
      obtain ⟨a1, a2, a3, a4, a5, a6, a7⟩ := ih _ h
      simp only at a1 a3 a4 a5 a6 a7
      have hcnt : st1.num_markers = icc_count m := a7 (by omega)
      have hnotin : icc_seq_no m ∉ (icc_markers rest).map icc_seq_no := by
        intro hin
        obtain ⟨m', hm', he⟩ := List.mem_map.mp hin
        have := (a1 m' hm').2.2.2
        rw [he] at this
        simp at this
      rw [hf]
      refine ⟨?_, ?_, ?_, ?_, ?_, ?_, ?_⟩
      · intro m' hm'
        rcases List.mem_cons.mp hm' with rfl | hm'
        · refine ⟨hcnt.symm, hseq.1, by omega, ?_⟩
          simpa using h3
        · obtain ⟨b1, b2, b3, b4⟩ := a1 m' hm'
          refine ⟨b1, b2, b3, ?_⟩
          by_cases he : icc_seq_no m' = icc_seq_no m
          · exfalso
            apply hnotin
            rw [← he]
            exact List.mem_map_of_mem _ hm'
          · rw [Function.update_noteq he] at b4
            exact b4
      · rw [List.map_cons, List.nodup_cons]
        exact ⟨hnotin, a2⟩
      · intro s
        rw [a3 s, List.map_cons]
        by_cases hs : s = icc_seq_no m
        · subst hs
          simp
        · rw [Function.update_noteq hs]
          simp [hs]
      · intro m' hm'
        rcases List.mem_cons.mp hm' with rfl | hm'
        · rw [a5 _ hnotin]
          simp
        · exact a4 m' hm'
      · intro s hs
        rw [List.map_cons, List.mem_cons, not_or] at hs
        rw [a5 s hs.2]
        rw [Function.update_noteq hs.1]
      · intro hnil
        exact absurd hnil (by simp)
      · intro h0
        rw [hcnt]
        by_contra hc
        exact h1 ⟨h0, fun e => hc e.symm⟩
    · have hm' : marker_is_icc m = false := by
        cases hmm : marker_is_icc m
        · rfl
        · exact absurd hmm hm
      have hf : icc_markers (m :: rest) = icc_markers rest := by
        simp [icc_markers, List.filter_cons, hm']
      rw [icc_first_pass_cons_other m rest st hm'] at h
      rw [hf]
      exact ih _ h
/-- The first pass succeeds on consistently numbered markers. -/
theorem icc_first_pass_ok (n : Nat) (ms : List SavedMarker) (st : IccScan)
    (hnum : st.num_markers = 0 ∨ st.num_markers = n)
    (hall : ∀ m ∈ icc_markers ms, icc_count m = n ∧ 1 ≤ icc_seq_no m ∧ icc_seq_no m ≤ n ∧
      st.marker_present (icc_seq_no m) = false)
    (hnodup : ((icc_markers ms).map icc_seq_no).Nodup) :
    ∃ st1, icc_first_pass ms st = some st1 := by
  induction ms generalizing st with
  | nil => exact ⟨st, rfl⟩
  | cons m rest ih =>
    by_cases hm : marker_is_icc m = true
    · have hf : icc_markers (m :: rest) = m :: icc_markers rest := by
        simp [icc_markers, List.filter_cons, hm]
      rw [hf] at hall hnodup
      obtain ⟨c1, c2, c3, c4⟩ := hall m (List.mem_cons_self _ _)
      rw [List.map_cons, List.nodup_cons] at hnodup
      rw [icc_first_pass_cons_icc m rest st hm]
      have h1 : ¬ (st.num_markers ≠ 0 ∧ st.num_markers ≠ icc_count m) := by
        rintro ⟨a, b⟩
        rcases hnum with h | h
        · exact a h
        · exact b (by rw [h, c1])
      have hn : (if st.num_markers = 0 then icc_count m else st.num_markers) = n := by
        split_ifs with h0
        · exact c1
        · rcases hnum with h | h
          · exact absurd h h0
          · exact h
      rw [if_neg h1, hn, if_neg (by omega), if_neg (by simp [c4])]
      apply ih
      · exact Or.inr rfl
      · intro m' hm'
        obtain ⟨d1, d2, d3, d4⟩ := hall m' (List.mem_cons_of_mem _ hm')
        refine ⟨d1, d2, d3, ?_⟩
        have hne : icc_seq_no m' ≠ icc_seq_no m := by
          intro he
          apply hnodup.1
          rw [← he]
          exact List.mem_map_of_mem _ hm'
        simp only
        rw [Function.update_noteq hne]
        exact d4
      · exact hnodup.2
    · have hm' : marker_is_icc m = false := by
        cases hmm : marker_is_icc m
        · rfl
        · exact absurd hmm hm
      have hf : icc_markers (m :: rest) = icc_markers rest := by
        simp [icc_markers, List.filter_cons, hm']
      rw [hf] at hall hnodup
      rw [icc_first_pass_cons_other m rest st hm']
      exact ih st hnum hall hnodup

/-! ### Reassembly of the ICC profile: the second pass -/

theorem icc_second_pass_none (st : IccScan) (l : List Nat) (acc : (Nat → Nat) × Nat)
    (h : ∃ s ∈ l, st.marker_present s = false) : icc_second_pass st l acc = none := by
  induction l generalizing acc with
  | nil => obtain ⟨s, hs, _⟩ := h; simp at hs
  | cons a l ih =>
    obtain ⟨off, t⟩ := acc
    simp only [icc_second_pass]
    by_cases ha : st.marker_present a = false
    · rw [if_pos ha]
    · rw [if_neg ha]
      apply ih
      obtain ⟨s, hs, hp⟩ := h
      rcases List.mem_cons.mp hs with rfl | hs
      · exact absurd hp ha
      · exact ⟨s, hs, hp⟩

/-- When every sequence number is present, the second pass gives the total of the recorded
lengths, and to every sequence number of the list the sum of the lengths before it. -/
theorem icc_second_pass_ok (st : IccScan) (l : List Nat) (off : Nat → Nat) (t : Nat)
    (hall : ∀ s ∈ l, st.marker_present s = true) (hnodup : l.Nodup) :
    ∃ off1, icc_second_pass st l (off, t) = some (off1, t + (l.map st.data_length).sum) ∧
      (∀ i, i < l.length →
        off1 (l.getD i 0) = t + ((l.take i).map st.data_length).sum) ∧
      (∀ s, s ∉ l → off1 s = off s) := by
  induction l generalizing off t with
  | nil => exact ⟨off, rfl, fun i hi => by simp at hi, fun s _ => rfl⟩
  | cons a l ih =>
    simp only [icc_second_pass]
    have ha : st.marker_present a = true := hall a (List.mem_cons_self _ _)
    rw [if_neg (by simp [ha])]
    rw [List.nodup_cons] at hnodup
    obtain ⟨off1, h1, h2, h3⟩ := ih (Function.update off a t) (t + st.data_length a)
      (fun s hs => hall s (List.mem_cons_of_mem _ hs)) hnodup.2
    refine ⟨off1, ?_, ?_, ?_⟩
    · rw [h1, List.map_cons, List.sum_cons, Nat.add_assoc]
    · intro i hi
      cases i with
      | zero =>
        simp only [List.getD_cons_zero, List.take_zero, List.map_nil, List.sum_nil, Nat.add_zero]
        rw [h3 a hnodup.1]
        simp
      | succ i =>
        simp only [List.length_cons] at hi
        simp only [List.getD_cons_succ, List.take_succ_cons, List.map_cons, List.sum_cons]
        rw [h2 i (by omega), Nat.add_assoc]
    · intro s hs
      rw [List.mem_cons, not_or] at hs
      rw [h3 s hs.2, Function.update_noteq hs.1]
/-! ### Reassembly of the ICC profile: the third pass -/

/-- A store outside the copied range commutes with the copy. -/
theorem icc_copy_set_comm (buf : List Nat) (pos : Nat) (src : List Nat) (n k x : Nat)
    (h : k < pos ∨ pos + n ≤ k) :
    (icc_copy buf pos src n).set k x = icc_copy (buf.set k x) pos src n := by
  induction n generalizing buf pos src with
  | zero => rfl
  | succ n ih =>
    simp only [icc_copy]
    rw [ih _ _ _ (by omega)]
    rw [List.set_comm _ _ buf (by omega : pos ≠ k)]

/-- Copies into disjoint ranges commute. -/
theorem icc_copy_comm (buf : List Nat) (p1 : Nat) (s1 : List Nat) (n1 : Nat) (p2 : Nat)
    (s2 : List Nat) (n2 : Nat) (h : p1 + n1 ≤ p2 ∨ p2 + n2 ≤ p1) :
    icc_copy (icc_copy buf p1 s1 n1) p2 s2 n2 = icc_copy (icc_copy buf p2 s2 n2) p1 s1 n1 := by
  induction n2 generalizing buf p2 s2 with
  | zero => rfl
  | succ n2 ih =>
    simp only [icc_copy]
    rw [icc_copy_set_comm _ _ _ _ _ _ (by omega)]
    rw [ih _ _ _ (by omega)]

/-- A copy of a whole source right after a prefix of the destination. -/
theorem icc_copy_append (pre src rest : List Nat) (h : src.length ≤ rest.length) :
    icc_copy (pre ++ rest) pre.length src src.length = pre ++ src ++ rest.drop src.length := by
  induction src generalizing pre rest with
  | nil => simp [icc_copy]
  | cons x src ih =>
    cases rest with
    | nil => simp at h
    | cons r rest =>
      simp only [List.length_cons] at h
      simp only [icc_copy, List.length_cons, List.headD_cons, List.tail_cons, List.drop_succ_cons]
      have e : (pre ++ r :: rest).set pre.length x = (pre ++ [x]) ++ rest := by
        rw [List.set_append_right _ _ (le_refl _)]
        simp
      rw [e]
      have := ih (pre ++ [x]) rest (by omega)
      simp only [List.length_append, List.length_singleton] at this
      rw [this]
      simp

/-- The third pass is a fold of copies over the ICC markers. -/
theorem icc_third_pass_eq (st : IccScan) (off : Nat → Nat) (ms : List SavedMarker)
    (buf : List Nat) :
    icc_third_pass st off ms buf =
      (icc_markers ms).foldl
        (fun b m => icc_copy b (off (icc_seq_no m)) (icc_payload m)
          (st.data_length (icc_seq_no m))) buf := by
  induction ms generalizing buf with
  | nil => rfl
  | cons m rest ih =>
    by_cases hm : marker_is_icc m = true
    · simp only [icc_third_pass, hm, if_true, icc_markers, List.filter_cons, List.foldl_cons]
      rw [ih]
      rfl
    · have hm' : marker_is_icc m = false := by
        cases hmm : marker_is_icc m
        · rfl
        · exact absurd hmm hm
      simp only [icc_third_pass, hm', Bool.false_eq_true, if_false, icc_markers,
        List.filter_cons]
      rw [ih]
      rfl

/-- Copying the payloads of a list of markers one after the other, each to the end of what has
been assembled, gives the concatenation of the payloads. -/
theorem icc_fold_sequential (off len : Nat → Nat) (todo : List SavedMarker) :
    ∀ (pre rest : List Nat) (done : List SavedMarker),
    pre.length = (done.flatMap icc_payload).length →
    rest.length = (todo.flatMap icc_payload).length →
    (∀ (d1 : List SavedMarker) (m : SavedMarker) (d2 : List SavedMarker),
      done ++ todo = d1 ++ m :: d2 →
      off (icc_seq_no m) = (d1.flatMap icc_payload).length ∧
      len (icc_seq_no m) = (icc_payload m).length) →
    todo.foldl (fun b m => icc_copy b (off (icc_seq_no m)) (icc_payload m)
      (len (icc_seq_no m))) (pre ++ rest) = pre ++ todo.flatMap icc_payload := by
  induction todo with
  | nil =>
    intro pre rest done _ hrest _
    simp only [List.flatMap_nil, List.length_nil, List.length_eq_zero] at hrest
    simp [hrest]
  | cons m todo ih =>
    intro pre rest done hpre hrest hoff
    obtain ⟨ho, hl⟩ := hoff done m todo rfl
    simp only [List.flatMap_cons, List.length_append] at hrest
    simp only [List.foldl_cons, List.flatMap_cons]
    rw [ho, hl, ← hpre, icc_copy_append pre (icc_payload m) rest (by omega)]
    have := ih (pre ++ icc_payload m) (rest.drop (icc_payload m).length) (done ++ [m])
      (by simp [List.flatMap_append, hpre])
      (by simp only [List.length_drop]; omega)
      (by
        intro d1 m' d2 he
        apply hoff d1 m' d2
        rw [← he]
        simp)
    rw [this]
    simp
/-! ### Reassembly of the ICC profile: the result -/

theorem sum_take_succ_getD (l : List Nat) (f : Nat → Nat) (i : Nat) (h : i < l.length) :
    ((l.take (i + 1)).map f).sum = ((l.take i).map f).sum + f (l.getD i 0) := by
  induction l generalizing i with
  | nil => simp at h
  | cons a l ih =>
    cases i with
    | zero => simp
    | succ i =>
      simp only [List.length_cons] at h
      simp only [List.take_succ_cons, List.map_cons, List.sum_cons, List.getD_cons_succ]
      rw [ih i (by omega)]
      omega

theorem sum_take_mono (l : List Nat) (f : Nat → Nat) (i j : Nat) (h : i ≤ j) :
    ((l.take i).map f).sum ≤ ((l.take j).map f).sum := by
  induction j with
  | zero =>
    have : i = 0 := by omega
    subst this; exact le_refl _
  | succ j ih =>
    by_cases hij : i = j + 1
    · subst hij; exact le_refl _
    · have h1 := ih (by omega)
      by_cases hj : j < l.length
      · rw [sum_take_succ_getD l f j hj]
        omega
      · have e1 : l.take (j + 1) = l.take j := by
          rw [List.take_of_length_le (by omega), List.take_of_length_le (by omega)]
        rw [e1]
        exact h1

theorem getD_append_length (a b : List Nat) (x : Nat) : (a ++ x :: b).getD a.length 0 = x := by
  induction a with
  | nil => rfl
  | cons y a ih => simpa using ih

theorem length_flatMap_payload (l : List SavedMarker) :
    (l.flatMap icc_payload).length = (l.map (fun m => (icc_payload m).length)).sum := by
  induction l with
  | nil => rfl
  | cons a l ih => simp [List.flatMap_cons, ih]

/-- Reassembly from a sorted view of the ICC markers: when the ICC markers of the list are,
in some order, the list `sorted` whose sequence numbers are `1, ..., n` in this order, all
declaring the count `n`, and the payloads are not all empty, `jpeg_read_icc_profile` returns
the concatenation of the payloads of `sorted`. -/
theorem jpeg_read_icc_profile_sorted (ms sorted : List SavedMarker) (n : Nat)
    (hperm : (icc_markers ms).Perm sorted)
    (hseq : sorted.map icc_seq_no = List.range' 1 n)
    (hcnt : ∀ m ∈ sorted, icc_count m = n)
    (hpos : 0 < (sorted.flatMap icc_payload).length) :
    jpeg_read_icc_profile ms =
      ⟨true, some (sorted.flatMap icc_payload), (sorted.flatMap icc_payload).length⟩ := by
  -- the sequence numbers of the ICC markers
  have hpseq : ((icc_markers ms).map icc_seq_no).Perm (List.range' 1 n) := by
    rw [← hseq]; exact hperm.map _
  have hnodup : ((icc_markers ms).map icc_seq_no).Nodup :=
    hpseq.nodup_iff.mpr (List.nodup_range' 1 n)
  have hmem : ∀ s, s ∈ (icc_markers ms).map icc_seq_no ↔ 1 ≤ s ∧ s < 1 + n := by
    intro s
    rw [hpseq.mem_iff, List.mem_range'_1]
  have hlen : sorted.length = n := by
    have := congrArg List.length hseq
    simpa using this
  have hne : sorted ≠ [] := by
    intro h; rw [h] at hpos; simp at hpos
  have hn : n ≠ 0 := by
    intro h
    rw [h] at hlen
    exact hne (List.length_eq_zero.mp hlen)
  -- first pass
  obtain ⟨st1, hst1⟩ := icc_first_pass_ok n ms IccScan.init (Or.inl rfl)
    (by
      intro m hm
      have hs := (hmem (icc_seq_no m)).mp (List.mem_map_of_mem _ hm)
      exact ⟨hcnt m (hperm.mem_iff.mp hm), hs.1, by omega, rfl⟩)
    hnodup
  obtain ⟨a1, _, a3, a4, _, _, _⟩ := icc_first_pass_some ms IccScan.init st1 hst1
  have hnum : st1.num_markers = n := by
    obtain ⟨m, hm⟩ := List.exists_mem_of_ne_nil sorted hne
    have hm' := hperm.mem_iff.mpr hm
    rw [← (a1 m hm').1]
    exact hcnt m hm
  have hdlen : ∀ m ∈ sorted, st1.data_length (icc_seq_no m) = (icc_payload m).length :=
    fun m hm => a4 m (hperm.mem_iff.mpr hm)
  have hmapd : ∀ l : List SavedMarker, (∀ m ∈ l, m ∈ sorted) →
      (l.map icc_seq_no).map st1.data_length = l.map (fun m => (icc_payload m).length) := by
    intro l hl
    rw [List.map_map]
    apply List.map_congr_left
    intro m hm
    exact hdlen m (hl m hm)
  -- second pass
  obtain ⟨off1, hsec, hoff, _⟩ := icc_second_pass_ok st1 (List.range' 1 n) (fun _ => 0) 0
    (by
      intro s hs
      rw [a3 s]
      have : s ∈ (icc_markers ms).map icc_seq_no := by
        rw [hmem s]; exact List.mem_range'_1.mp hs
      simp [this, IccScan.init])
    (List.nodup_range' 1 n)
  have htotal : 0 + ((List.range' 1 n).map st1.data_length).sum =
      (sorted.flatMap icc_payload).length := by
    rw [← hseq, hmapd sorted (fun m hm => hm), length_flatMap_payload, Nat.zero_add]
  rw [htotal] at hsec
  -- offsets
  have hoffs : ∀ (d1 : List SavedMarker) (m : SavedMarker) (d2 : List SavedMarker),
      [] ++ sorted = d1 ++ m :: d2 →
      off1 (icc_seq_no m) = (d1.flatMap icc_payload).length ∧
      st1.data_length (icc_seq_no m) = (icc_payload m).length := by
    intro d1 m d2 he
    rw [List.nil_append] at he
    have hm : m ∈ sorted := by rw [he]; simp
    refine ⟨?_, hdlen m hm⟩
    have hi : d1.length < (List.range' 1 n).length := by
      rw [List.length_range', ← hlen, he]
      simp
    have hget : (List.range' 1 n).getD d1.length 0 = icc_seq_no m := by
      rw [← hseq, he, List.map_append, List.map_cons]
      have := getD_append_length (d1.map icc_seq_no) (d2.map icc_seq_no) (icc_seq_no m)
      rw [List.length_map] at this
      exact this
    have htake : (List.range' 1 n).take d1.length = d1.map icc_seq_no := by
      rw [← hseq, he]
      simp
    have := hoff d1.length hi
    rw [hget, htake, hmapd d1 (by intro x hx; rw [he]; simp [hx]), Nat.zero_add,
      ← length_flatMap_payload] at this
    exact this
  -- disjoint ranges
  have hQ : ∀ i, i < n → off1 (1 + i) = (((List.range' 1 n).take i).map st1.data_length).sum := by
    intro i hi
    have := hoff i (by simpa using hi)
    rw [List.getD_eq_getElem _ _ (by simpa using hi), List.getElem_range', Nat.zero_add,
      Nat.one_mul] at this
    exact this
  have hdisj : ∀ s s', 1 ≤ s → s < s' → s' < 1 + n →
      off1 s + st1.data_length s ≤ off1 s' := by
    intro s s' h1 h2 h3
    have e1 := hQ (s - 1) (by omega)
    have e2 := hQ (s' - 1) (by omega)
    have e3 := sum_take_succ_getD (List.range' 1 n) st1.data_length (s - 1) (by simp; omega)
    rw [List.getD_eq_getElem _ _ (by simp; omega), List.getElem_range', Nat.one_mul] at e3
    have e4 := sum_take_mono (List.range' 1 n) st1.data_length (s - 1 + 1) (s' - 1) (by omega)
    have f1 : 1 + (s - 1) = s := by omega
    have f2 : 1 + (s' - 1) = s' := by omega
    rw [f1] at e1 e3
    rw [f2] at e2
    omega
  -- third pass
  have hthird : icc_third_pass st1 off1 ms
      (List.replicate (sorted.flatMap icc_payload).length 0) = sorted.flatMap icc_payload := by
    rw [icc_third_pass_eq]
    rw [List.Perm.foldl_eq' hperm]
    · have := icc_fold_sequential off1 st1.data_length sorted []
        (List.replicate (sorted.flatMap icc_payload).length 0) [] rfl (by simp) hoffs
      simpa using this
    · intro x hx y hy z
      have hsx := (hmem (icc_seq_no x)).mp (List.mem_map_of_mem _ hx)
      have hsy := (hmem (icc_seq_no y)).mp (List.mem_map_of_mem _ hy)
      by_cases he : icc_seq_no x = icc_seq_no y
      · have := List.inj_on_of_nodup_map hnodup hx hy he
        subst this
        rfl
      · apply icc_copy_comm
        rcases Nat.lt_or_gt_of_ne he with hlt | hgt
        · exact Or.inl (hdisj _ _ hsx.1 hlt hsy.2)
        · exact Or.inr (hdisj _ _ hsy.1 hgt hsx.2)
  unfold jpeg_read_icc_profile
  simp only [hst1, hnum, hn, if_false, hsec]
  rw [if_neg (by omega), hthird]
/-- The total recorded by the second pass is the total payload length. -/
theorem icc_total_of_perm (ms : List SavedMarker) (n : Nat) (dlen : Nat → Nat)
    (hperm : ((icc_markers ms).map icc_seq_no).Perm (List.range' 1 n))
    (hd : ∀ m ∈ icc_markers ms, dlen (icc_seq_no m) = (icc_payload m).length) :
    ((List.range' 1 n).map dlen).sum = icc_total ms := by
  rw [← (hperm.map dlen).sum_eq, List.map_map]
  unfold icc_total
  congr 1
  apply List.map_congr_left
  intro m hm
  exact hd m hm

/-- Whenever `jpeg_read_icc_profile` does not return `FALSE`, the ICC markers of the list are
consistently numbered: they declare one count `n`, their sequence numbers are a permutation
of `1..n`, and their payloads are not all empty. -/
theorem jpeg_read_icc_profile_found (ms : List SavedMarker)
    (h : jpeg_read_icc_profile ms ≠ IccResult.notFound) :
    ∃ n, n ≠ 0 ∧ (∀ m ∈ icc_markers ms, icc_count m = n) ∧
      ((icc_markers ms).map icc_seq_no).Perm (List.range' 1 n) ∧ 0 < icc_total ms := by
  unfold jpeg_read_icc_profile at h
  cases h1 : icc_first_pass ms IccScan.init with
  | none => simp only [h1] at h; exact absurd rfl h
  | some st1 =>
    simp only [h1] at h
    by_cases hn : st1.num_markers = 0
    · rw [if_pos hn] at h; exact absurd rfl h
    rw [if_neg hn] at h
    obtain ⟨a1, a2, a3, a4, _, _, _⟩ := icc_first_pass_some ms IccScan.init st1 h1
    have hpres : ∀ s ∈ List.range' 1 st1.num_markers, st1.marker_present s = true := by
      intro s hs
      by_contra hc
      have hf : st1.marker_present s = false := by
        cases hp : st1.marker_present s
        · rfl
        · exact absurd hp hc
      rw [icc_second_pass_none st1 _ _ ⟨s, hs, hf⟩] at h
      exact h rfl
    have hperm : ((icc_markers ms).map icc_seq_no).Perm (List.range' 1 st1.num_markers) := by
      rw [List.perm_ext_iff_of_nodup a2 (List.nodup_range' 1 _)]
      intro s
      rw [List.mem_range'_1]
      constructor
      · intro hs
        obtain ⟨m, hm, rfl⟩ := List.mem_map.mp hs
        have := a1 m hm
        omega
      · intro hs
        have := hpres s (List.mem_range'_1.mpr hs)
        rw [a3 s] at this
        simpa [IccScan.init] using this
    obtain ⟨off1, hsec, _, _⟩ := icc_second_pass_ok st1 (List.range' 1 st1.num_markers)
      (fun _ => 0) 0 hpres (List.nodup_range' 1 _)
    rw [icc_total_of_perm ms st1.num_markers st1.data_length hperm a4, Nat.zero_add] at hsec
    simp only [hsec] at h
    refine ⟨st1.num_markers, hn, fun m hm => (a1 m hm).1, hperm, ?_⟩
    by_contra hz
    rw [if_pos (by omega)] at h
    exact h rfl

/-- A permutation of sequence numbers gives a sorted view of the ICC markers. -/
theorem icc_sorted_view (ms : List SavedMarker) (n : Nat)
    (hperm : ((icc_markers ms).map icc_seq_no).Perm (List.range' 1 n)) :
    (icc_markers ms).Perm
      ((List.range' 1 n).map (fun s => (icc_find ms s).getD ⟨0, []⟩)) ∧
    ((List.range' 1 n).map (fun s => (icc_find ms s).getD ⟨0, []⟩)).map icc_seq_no =
      List.range' 1 n ∧
    ((List.range' 1 n).map (fun s => (icc_find ms s).getD ⟨0, []⟩)).flatMap icc_payload =
      icc_in_order ms n := by
  have hnodup : ((icc_markers ms).map icc_seq_no).Nodup :=
    hperm.nodup_iff.mpr (List.nodup_range' 1 n)
  have hfind : ∀ s ∈ List.range' 1 n, ∃ m, icc_find ms s = some m ∧ m ∈ icc_markers ms ∧
      icc_seq_no m = s := by
    intro s hs
    have hin : s ∈ (icc_markers ms).map icc_seq_no := hperm.mem_iff.mpr hs
    obtain ⟨m0, hm0, he0⟩ := List.mem_map.mp hin
    cases hf : icc_find ms s with
    | none =>
      unfold icc_find at hf
      rw [List.find?_eq_none] at hf
      exact absurd (by simpa using he0) (hf m0 hm0)
    | some m =>
      refine ⟨m, rfl, ?_, ?_⟩
      · exact List.mem_of_find?_eq_some hf
      · have := List.find?_some hf
        simpa using this
  have hmapseq : ((List.range' 1 n).map (fun s => (icc_find ms s).getD ⟨0, []⟩)).map icc_seq_no =
      List.range' 1 n := by
    rw [List.map_map]
    conv_rhs => rw [← List.map_id (List.range' 1 n)]
    apply List.map_congr_left
    intro s hs
    obtain ⟨m, h1, _, h3⟩ := hfind s hs
    simp only [Function.comp, h1, Option.getD_some, id]
    exact h3
  refine ⟨?_, hmapseq, ?_⟩
  · rw [List.perm_ext_iff_of_nodup (List.Nodup.of_map _ hnodup)
      (List.Nodup.of_map icc_seq_no (by rw [hmapseq]; exact List.nodup_range' 1 n))]
    intro m
    constructor
    · intro hm
      have hs : icc_seq_no m ∈ List.range' 1 n := hperm.mem_iff.mp (List.mem_map_of_mem _ hm)
      obtain ⟨m', h1, h2, h3⟩ := hfind _ hs
      have : m' = m := List.inj_on_of_nodup_map hnodup h2 hm h3
      subst this
      apply List.mem_map.mpr
      exact ⟨icc_seq_no m', hs, by simp [h1]⟩
    · intro hm
      obtain ⟨s, hs, rfl⟩ := List.mem_map.mp hm
      obtain ⟨m', h1, h2, _⟩ := hfind s hs
      simp only [h1, Option.getD_some]
      exact h2
  · unfold icc_in_order
    rw [List.flatMap_map]
    congr 1
    funext s
    cases icc_find ms s with
    | none => simp [icc_payload]
    | some m => simp

/-- C4: when all ICC markers of a marker list declare the same count `n`, their sequence
numbers form a permutation of `1..n` and the total payload length is positive,
`jpeg_read_icc_profile` returns the payloads (marker data from byte 14 on) concatenated in the
order of the sequence numbers `1..n`, with length the sum of the payload lengths; the result
is the same for every marker list with the same ICC markers in any order, whatever other
markers are interleaved. -/
theorem C4_icc_reassembly (ms : List SavedMarker) (n : Nat)
    (hcount : ∀ m ∈ icc_markers ms, icc_count m = n)
    (hperm : ((icc_markers ms).map icc_seq_no).Perm (List.range' 1 n))
    (hpos : 0 < icc_total ms) :
    jpeg_read_icc_profile ms = ⟨true, some (icc_in_order ms n), icc_total ms⟩ ∧
    (icc_in_order ms n).length = icc_total ms ∧
    (∀ ms1 : List SavedMarker, (icc_markers ms1).Perm (icc_markers ms) →
      jpeg_read_icc_profile ms1 = jpeg_read_icc_profile ms) := by
  obtain ⟨hp, hseq, hflat⟩ := icc_sorted_view ms n hperm
  have hlen : (icc_in_order ms n).length = icc_total ms := by
    rw [← hflat, length_flatMap_payload]
    unfold icc_total
    exact ((hp.map (fun m => (icc_payload m).length)).sum_eq).symm
  have hcnt : ∀ m ∈ (List.range' 1 n).map (fun s => (icc_find ms s).getD ⟨0, []⟩),
      icc_count m = n := fun m hm => hcount m (hp.mem_iff.mpr hm)
  have hres : ∀ ms1 : List SavedMarker, (icc_markers ms1).Perm (icc_markers ms) →
      jpeg_read_icc_profile ms1 = ⟨true, some (icc_in_order ms n), icc_total ms⟩ := by
    intro ms1 h1
    have := jpeg_read_icc_profile_sorted ms1 _ n (h1.trans hp) hseq hcnt
      (by rw [hflat, hlen]; exact hpos)
    rw [hflat, hlen] at this
    exact this
  refine ⟨hres ms (List.Perm.refl _), hlen, ?_⟩
  intro ms1 h1
  rw [hres ms1 h1, hres ms (List.Perm.refl _)]
/-- C4 witness: scenario C, the markers `(3,3,[5])`, `(1,3,[1,2])`, `(2,3,[3,4])` in this
discovery order with an APP1 marker in between. -/
theorem C4_icc_reassembly_witness :
    icc_in_order
      [⟨0xE2, icc_signature ++ [3, 3] ++ [5]⟩, ⟨0xE1, [1, 2, 3]⟩,
        ⟨0xE2, icc_signature ++ [1, 3] ++ [1, 2]⟩, ⟨0xE2, icc_signature ++ [2, 3] ++ [3, 4]⟩] 3 =
      [1, 2, 3, 4, 5] ∧
    (jpeg_read_icc_profile
      [⟨0xE2, icc_signature ++ [3, 3] ++ [5]⟩, ⟨0xE1, [1, 2, 3]⟩,
        ⟨0xE2, icc_signature ++ [1, 3] ++ [1, 2]⟩, ⟨0xE2, icc_signature ++ [2, 3] ++ [3, 4]⟩] =
      ⟨true, some (icc_in_order
        [⟨0xE2, icc_signature ++ [3, 3] ++ [5]⟩, ⟨0xE1, [1, 2, 3]⟩,
          ⟨0xE2, icc_signature ++ [1, 3] ++ [1, 2]⟩,
          ⟨0xE2, icc_signature ++ [2, 3] ++ [3, 4]⟩] 3),
        icc_total
          [⟨0xE2, icc_signature ++ [3, 3] ++ [5]⟩, ⟨0xE1, [1, 2, 3]⟩,
            ⟨0xE2, icc_signature ++ [1, 3] ++ [1, 2]⟩,
            ⟨0xE2, icc_signature ++ [2, 3] ++ [3, 4]⟩]⟩ ∧
    (icc_in_order
      [⟨0xE2, icc_signature ++ [3, 3] ++ [5]⟩, ⟨0xE1, [1, 2, 3]⟩,
        ⟨0xE2, icc_signature ++ [1, 3] ++ [1, 2]⟩,
        ⟨0xE2, icc_signature ++ [2, 3] ++ [3, 4]⟩] 3).length =
      icc_total
        [⟨0xE2, icc_signature ++ [3, 3] ++ [5]⟩, ⟨0xE1, [1, 2, 3]⟩,
          ⟨0xE2, icc_signature ++ [1, 3] ++ [1, 2]⟩,
          ⟨0xE2, icc_signature ++ [2, 3] ++ [3, 4]⟩] ∧
    (∀ ms1 : List SavedMarker,
      (icc_markers ms1).Perm
        (icc_markers
          [⟨0xE2, icc_signature ++ [3, 3] ++ [5]⟩, ⟨0xE1, [1, 2, 3]⟩,
            ⟨0xE2, icc_signature ++ [1, 3] ++ [1, 2]⟩,
            ⟨0xE2, icc_signature ++ [2, 3] ++ [3, 4]⟩]) →
      jpeg_read_icc_profile ms1 =
        jpeg_read_icc_profile
          [⟨0xE2, icc_signature ++ [3, 3] ++ [5]⟩, ⟨0xE1, [1, 2, 3]⟩,
            ⟨0xE2, icc_signature ++ [1, 3] ++ [1, 2]⟩,
            ⟨0xE2, icc_signature ++ [2, 3] ++ [3, 4]⟩])) :=
  ⟨by decide,
    C4_icc_reassembly
      [⟨0xE2, icc_signature ++ [3, 3] ++ [5]⟩, ⟨0xE1, [1, 2, 3]⟩,
        ⟨0xE2, icc_signature ++ [1, 3] ++ [1, 2]⟩, ⟨0xE2, icc_signature ++ [2, 3] ++ [3, 4]⟩] 3
      (by decide) (by decide) (by decide)⟩

/-- C5: `jpeg_read_icc_profile` returns `FALSE` with a `NULL` pointer and length 0 for every
marker list in which two ICC markers declare different total counts, or two ICC markers carry
the same sequence number, or some sequence number in `1..N` (`N` a declared count) has no
marker, or a sequence number lies outside `1..N`, or there is no ICC marker, or the total
payload length is 0. -/
theorem C5_icc_rejection (ms : List SavedMarker)
    (h : (∃ m1 ∈ icc_markers ms, ∃ m2 ∈ icc_markers ms, icc_count m1 ≠ icc_count m2) ∨
      ¬ ((icc_markers ms).map icc_seq_no).Nodup ∨
      (∃ m ∈ icc_markers ms, ∃ s, 1 ≤ s ∧ s ≤ icc_count m ∧
        s ∉ (icc_markers ms).map icc_seq_no) ∨
      (∃ m ∈ icc_markers ms, icc_seq_no m < 1 ∨ icc_count m < icc_seq_no m) ∨
      icc_markers ms = [] ∨
      icc_total ms = 0) :
    jpeg_read_icc_profile ms = ⟨false, none, 0⟩ := by
  by_contra hc
  obtain ⟨n, hn, hcnt, hperm, hpos⟩ := jpeg_read_icc_profile_found ms hc
  rcases h with ⟨m1, h1, m2, h2, hne⟩ | hdup | ⟨m, hm, s, hs1, hs2, hs3⟩ | ⟨m, hm, hs⟩ |
    hnil | hzero
  · exact hne (by rw [hcnt m1 h1, hcnt m2 h2])
  · exact hdup (hperm.nodup_iff.mpr (List.nodup_range' 1 n))
  · apply hs3
    rw [hperm.mem_iff, List.mem_range'_1]
    rw [hcnt m hm] at hs2
    omega
  · have := hperm.mem_iff.mp (List.mem_map_of_mem icc_seq_no hm)
    rw [List.mem_range'_1] at this
    rw [hcnt m hm] at hs
    omega
  · rw [hnil] at hperm
    have := hperm.length_eq
    simp at this
    exact hn this.symm
  · omega

/-- C5 witness: two ICC markers that declare the counts 2 and 3. -/
theorem C5_icc_rejection_witness :
    jpeg_read_icc_profile
      [⟨0xE2, icc_signature ++ [1, 2] ++ [5]⟩, ⟨0xE2, icc_signature ++ [2, 3] ++ [6]⟩] =
      ⟨false, none, 0⟩ :=
  C5_icc_rejection
    [⟨0xE2, icc_signature ++ [1, 2] ++ [5]⟩, ⟨0xE2, icc_signature ++ [2, 3] ++ [6]⟩]
    (Or.inl ⟨⟨0xE2, icc_signature ++ [1, 2] ++ [5]⟩, by decide,
      ⟨0xE2, icc_signature ++ [2, 3] ++ [6]⟩, by decide, by decide⟩)
/-! ### Writing and reading back the ICC profile -/

/-- The payloads of the markers written concatenate to the profile. -/
theorem write_payloads_concat (data : List Nat) :
    (jpeg_write_icc_profile data).2.flatMap icc_payload = data := by
  rw [write_markers_eq, List.flatMap_map]
  have h : ∀ k, icc_payload (icc_marker_at data data.length (k * MAX_DATA_BYTES_IN_MARKER)) =
      (data.drop (k * MAX_DATA_BYTES_IN_MARKER)).take MAX_DATA_BYTES_IN_MARKER := by
    intro k
    unfold icc_payload
    simp only [ICC_HEADER_SIZE]
    rw [icc_marker_at_payload, List.take_eq_take]
    simp only [List.length_drop]
    omega
  simp only [Function.comp, h]
  rw [flatMap_chunks]
  apply List.take_of_length_le
  simp only [MAX_DATA_BYTES_IN_MARKER]
  omega

/-- A callback that never cancels lets every progress step go on. -/
theorem Step.progress_neverCancels (s : Step) (p : FIProgress) (h : p.neverCancels) :
    (s.progress p).1 = true ∧ (s.progress p).2.2.neverCancels := by
  unfold Step.progress
  by_cases hs : s._sdelta = (s._step + 1) % 2 ^ 64
  · simp only [if_pos hs]
    unfold FreeImageCBWrapper.onProgress
    cases hcb : p._cb.onProgressCb with
    | none =>
      simp only
      exact ⟨h.1, h.1, fun f hf => h.2 f hf⟩
    | some f =>
      simp only
      refine ⟨h.2 f hcb _, h.2 f hcb _, ?_⟩
      intro g hg
      simp only [hcb, Option.some.injEq] at hg
      subst hg
      exact h.2 f hcb
  · simp only [if_neg hs]
    exact ⟨trivial, h⟩

/-! ### The encoded line as a token sequence -/

theorem RLE_tokens_append (t1 p1 t2 p2 : List Nat) (h1 : RLE_tokens t1 p1)
    (h2 : RLE_tokens t2 p2) : RLE_tokens (t1 ++ t2) (p1 ++ p2) := by
  induction h1 with
  | nil => exact h2
  | run c v t p a b _ ih =>
    have := RLE_tokens.run c v _ _ a b ih
    simpa using this
  | abs bs pad t p a b c _ ih =>
    have := RLE_tokens.abs bs pad _ _ a b c ih
    simpa using this

theorem RLE_tokens_run1 (v : Nat) : RLE_tokens [1, v] [v] := by
  have := RLE_tokens.run 1 v [] [] (le_refl 1) (by norm_num) RLE_tokens.nil
  simpa using this

theorem RLE_tokens_abs1 (bs pad : List Nat) (h3 : 3 ≤ bs.length) (h254 : bs.length ≤ 254)
    (hpad : pad.length = bs.length % 2) :
    RLE_tokens ([0, bs.length] ++ bs ++ pad) bs := by
  have := RLE_tokens.abs bs pad [] [] h3 h254 hpad RLE_tokens.nil
  simpa using this

/-- The bytes written when the pool is flushed stand for the pooled pixels. -/
theorem RLE_flush_tokens (target : Nat → Nat) (buffer out px : List Nat)
    (hb : buffer.length < 254) (h : RLE_tokens out px) :
    RLE_tokens (RLE_flush target buffer out) (px ++ buffer) := by
  unfold RLE_flush
  simp only [RLE_DELTA, RLE_ENDOFBITMAP, RLE_COMMAND]
  split_ifs with h0 h2 h1 hodd
  · rw [List.length_eq_zero.mp h0]; simpa using h
  · obtain ⟨a, b, rfl⟩ := List.length_eq_two.mp h2
    have := RLE_tokens_append _ _ _ _ h
      (RLE_tokens_append _ _ _ _ (RLE_tokens_run1 a) (RLE_tokens_run1 b))
    simpa using this
  · obtain ⟨a, rfl⟩ := List.length_eq_one.mp h1
    have := RLE_tokens_append _ _ _ _ h (RLE_tokens_run1 a)
    simpa using this
  · have hlen : buffer.length % 256 = buffer.length := Nat.mod_eq_of_lt (by omega)
    rw [hlen]
    have := RLE_tokens_append _ _ _ _ h
      (RLE_tokens_abs1 buffer [target (out ++ [0, buffer.length] ++ buffer).length]
        (by omega) (by omega) (by simp [hodd]))
    simpa using this
  · have hlen : buffer.length % 256 = buffer.length := Nat.mod_eq_of_lt (by omega)
    rw [hlen]
    have := RLE_tokens_append _ _ _ _ h
      (RLE_tokens_abs1 buffer [] (by omega) (by omega) (by simp; omega))
    simpa using this

/-- Pooling bytes keeps the output a token sequence; output and pool together stand for the
pixels seen so far. -/
theorem RLE_push_tokens (xs : List Nat) :
    ∀ (buffer out px : List Nat), buffer.length < 254 → RLE_tokens out px →
    ∃ px1, RLE_tokens (RLE_push (buffer, out) xs).2 px1 ∧
      px1 ++ (RLE_push (buffer, out) xs).1 = px ++ buffer ++ xs := by
  induction xs with
  | nil =>
    intro buffer out px _ h
    exact ⟨px, h, by simp [RLE_push_nil]⟩
  | cons x xs ih =>
    intro buffer out px hb h
    rw [RLE_push_cons]
    by_cases h254 : (buffer ++ [x]).length = 254
    · rw [RLE_flush_full_of_eq _ _ h254]
      have ht : RLE_tokens (out ++ [0, 254] ++ (buffer ++ [x])) (px ++ (buffer ++ [x])) := by
        have := RLE_tokens_append _ _ _ _ h
          (RLE_tokens_abs1 (buffer ++ [x]) [] (by omega) (by omega) (by rw [h254]; rfl))
        rw [h254] at this
        simpa using this
      obtain ⟨px1, a, b⟩ := ih [] _ _ (by simp) ht
      exact ⟨px1, a, by rw [b]; simp⟩
    · rw [RLE_flush_full_of_ne _ _ h254]
      obtain ⟨px1, a, b⟩ := ih (buffer ++ [x]) out px
        (by simp only [List.length_append, List.length_singleton] at h254 ⊢; omega) h
      exact ⟨px1, a, by rw [b]; simp⟩

/-- The bytes of a solid block are copies of its first byte. -/
theorem map_block_eq_replicate (s : List Nat) (i r : Nat)
    (h : ∀ k, i ≤ k → k < i + r → s.getD k 0 = s.getD i 0) :
    (List.range' 0 r).map (fun t => s.getD (i + t) 0) = List.replicate r (s.getD i 0) := by
  apply List.ext_getElem
  · simp
  · intro k h1 h2
    simp only [List.length_map, List.length_range'] at h1
    simp only [List.getElem_map, List.getElem_range', List.getElem_replicate]
    apply h <;> omega

/-- The encoded line is a token sequence that stands for the pixels of the line, followed by
the end-of-line pair. -/
theorem RLEEncodeLine_tokens (target : Nat → Nat) (s : List Nat) :
    ∃ toks, RLEEncodeLine target s s.length = toks ++ [0, 0] ∧ RLE_tokens toks s := by
  have hinv := RLEEncodeLine_loop_inv target s s.length
    (fun i buffer out => i ≤ s.length ∧ buffer.length < 254 ∧
      ∃ px, RLE_tokens out px ∧ px ++ buffer = s.take i)
    (by
      intro i buffer out hi ⟨_, hb, px, ht, hpx⟩
      obtain ⟨h1, h2, h3, h4⟩ := RLE_scan_spec s s.length (254 + i) s.length (i + 1)
      rw [RLE_iter_eq _ _ _ _ _ _ hb]
      split_ifs with hc hr <;> dsimp only
      · have hj := h2 hc.1
        have hjmax := h3 (by omega)
        refine ⟨by omega, by simp, ?_⟩
        refine ⟨px ++ buffer ++ List.replicate
          (RLE_scan s s.length (254 + i) s.length (i + 1) - i + 1) (s.getD i 0), ?_, ?_⟩
        · have hr255 : RLE_scan s s.length (254 + i) s.length (i + 1) - i + 1 ≤ 255 := by omega
          rw [Nat.mod_eq_of_lt (by omega)]
          have := RLE_tokens_append _ _ _ _ (RLE_flush_tokens target buffer out px hb ht)
            (RLE_tokens.run _ (s.getD i 0) [] [] (by omega) hr255 RLE_tokens.nil)
          simpa using this
        · rw [List.append_nil, hpx, ← map_block_eq_replicate s i _
            (fun k hk1 hk2 => RLE_scan_block s s.length (254 + i) s.length i hc.2 k hk1
              (by omega)),
            take_add_getD s i _ (by omega)]
          congr 1
          omega
      · have hj := h2 hc.1
        refine ⟨by omega, RLE_push_length_lt _ _ hb, ?_⟩
        obtain ⟨px1, a, b⟩ := RLE_push_tokens
          ((List.range' 0 (RLE_scan s s.length (254 + i) s.length (i + 1) - i + 1)).map
            (fun t => s.getD (i + t) 0)) buffer out px hb ht
        refine ⟨px1, a, ?_⟩
        rw [b, hpx, take_add_getD s i _ (by omega)]
        congr 1
        omega
      · refine ⟨by omega, RLE_push_length_lt _ _ hb, ?_⟩
        obtain ⟨px1, a, b⟩ := RLE_push_tokens [s.getD i 0] buffer out px hb ht
        refine ⟨px1, a, ?_⟩
        rw [b, hpx]
        have := take_add_getD s i 1 (by omega)
        simp only [List.range'_one, List.map_cons, List.map_nil, Nat.add_zero] at this
        exact this)
    s.length 0 [] [] (by omega) (by omega)
    ⟨by omega, by simp, [], RLE_tokens.nil, by simp⟩
  obtain ⟨_, hb, px, ht, hpx⟩ := hinv
  rw [List.take_length] at hpx
  refine ⟨RLE_flush target
    (RLEEncodeLine_loop target s s.length s.length 0 [] []).1
    (RLEEncodeLine_loop target s s.length s.length 0 [] []).2, rfl, ?_⟩
  have := RLE_flush_tokens target _ _ px hb ht
  rw [hpx] at this
  exact this
/-! ### Decoding a token sequence -/

theorem RLE8_fill_eq_store (dib : List Nat) (pos v c : Nat) :
    RLE8_fill dib pos v c = RLE8_store dib pos (List.replicate c v) := by
  induction c generalizing dib pos with
  | zero => rfl
  | succ c ih => simp only [RLE8_fill, List.replicate_succ, RLE8_store, ih]

theorem RLE8_store_append (dib : List Nat) (pos : Nat) (a b : List Nat) :
    RLE8_store dib pos (a ++ b) = RLE8_store (RLE8_store dib pos a) (pos + a.length) b := by
  induction a generalizing dib pos with
  | nil => rfl
  | cons x a ih =>
    show RLE8_store (dib.set pos x) (pos + 1) (a ++ b) =
      RLE8_store (RLE8_store (dib.set pos x) (pos + 1) a) (pos + (a.length + 1)) b
    rw [ih, Nat.add_assoc, Nat.add_comm 1]

theorem RLE8_store_length (dib : List Nat) (pos : Nat) (src : List Nat) :
    (RLE8_store dib pos src).length = dib.length := by
  induction src generalizing dib pos with
  | nil => rfl
  | cons x src ih => simp only [RLE8_store, ih, List.length_set]

/-- An `int` value within range is not changed by the reduction. -/
theorem int32_eq (x : Int) (h1 : -2 ^ 31 ≤ x) (h2 : x < 2 ^ 31) : int32 x = x := by
  unfold int32
  omega

theorem RLE8_store_at_natCast (dib : List Nat) (n : Nat) (src : List Nat) :
    RLE8_store_at dib (n : Int) src = RLE8_store dib n src := by
  unfold RLE8_store_at
  have e : (-(n : Int)).toNat = 0 := by omega
  rw [e, Int.toNat_ofNat, List.drop_zero]

theorem RLE8_fill_at_natCast (dib : List Nat) (n v c : Nat) :
    RLE8_fill_at dib (n : Int) v c = RLE8_fill dib n v c := by
  unfold RLE8_fill_at
  have e : (-(n : Int)).toNat = 0 := by omega
  rw [e, Int.toNat_ofNat, Nat.sub_zero]

/-- One iteration of the decoding loop. -/
theorem LoadPixelDataRLE8_loop_succ (width : Int) (height pitch fuel : Nat) (stream : List Nat)
    (scanline bits : Int) (dib : List Nat) (step : Step) (progress : FIProgress) :
    LoadPixelDataRLE8_loop width height pitch (fuel + 1) stream scanline bits dib step progress =
    (
    if scanline < height then
      match stream with
      | [] => .error .errmsgRLE8
      | status_byte :: stream1 =>
        if status_byte = RLE_COMMAND then
          match stream1 with
          | [] => .error .errmsgRLE8
          | status_byte :: stream2 =>
            if status_byte = RLE_ENDOFLINE then
              let r := step.progress progress
              if r.1 = false then .ok none
              else LoadPixelDataRLE8_loop width height pitch fuel stream2 (int32 (scanline + 1))
                0 dib r.2.1 r.2.2
            else if status_byte = RLE_ENDOFBITMAP then .ok (some dib)
            else if status_byte = RLE_DELTA then
              match stream2 with
              | delta_x :: delta_y :: stream3 =>
                match RLE8_delta_steps delta_y step progress with
                | none => .ok none
                | some r =>
                  LoadPixelDataRLE8_loop width height pitch fuel stream3
                    (int32 (scanline + delta_y)) (int32 (bits + delta_x)) dib r.1 r.2
              | _ => .error .errmsgRLE8
            else
              -- absolute mode
              let count : Int := min (status_byte : Int) (int32 (width - bits))
              if count < 0 then .error .errmsgRLE8
              else if count = 0 ∨ stream2.length < count.toNat then .error .errmsgRLE8
              else
                let dib1 := RLE8_store_at dib (pitch * scanline + bits) (stream2.take count.toNat)
                let stream3 := stream2.drop count.toNat
                if status_byte % 2 = 1 then
                  match stream3 with
                  | [] => .error .errmsgRLE8
                  | _ :: stream4 =>
                    LoadPixelDataRLE8_loop width height pitch fuel stream4 scanline
                      (int32 (bits + status_byte)) dib1 step progress
                else
                  LoadPixelDataRLE8_loop width height pitch fuel stream3 scanline
                    (int32 (bits + status_byte)) dib1 step progress
        else
          let count : Int := min (status_byte : Int) (int32 (width - bits))
          if count < 0 then .error .errmsgRLE8
          else
            match stream1 with
            | [] => .error .errmsgRLE8
            | second_byte :: stream2 =>
              LoadPixelDataRLE8_loop width height pitch fuel stream2 scanline
                (int32 (bits + count))
                (RLE8_fill_at dib (pitch * scanline + bits) second_byte count.toNat) step progress
    else .ok (some dib)) := by
  rfl

theorem LoadPixelDataRLE8_loop_exit (width : Int) (height pitch fuel : Nat) (stream : List Nat)
    (scanline bits : Int) (dib : List Nat) (step : Step) (progress : FIProgress)
    (h : ¬ scanline < height) :
    LoadPixelDataRLE8_loop width height pitch (fuel + 1) stream scanline bits dib step progress =
      .ok (some dib) := by
  rw [LoadPixelDataRLE8_loop_succ]
  rw [if_neg h]

/-- A repeat token that fits in the row writes `c` copies of the value. -/
theorem LoadPixelDataRLE8_loop_run (w height pitch fuel c v : Nat) (rest : List Nat)
    (scanline bits : Nat) (dib : List Nat) (step : Step) (progress : FIProgress)
    (hw : w < 2 ^ 31)
    (hs : scanline < height) (hc : 1 ≤ c) (hfit : bits + c ≤ w) :
    LoadPixelDataRLE8_loop (w : Int) height pitch (fuel + 1) (c :: v :: rest) (scanline : Nat)
        (bits : Nat) dib step progress =
      LoadPixelDataRLE8_loop (w : Int) height pitch fuel rest (scanline : Nat)
        ((bits + c : Nat) : Int)
        (RLE8_store dib (pitch * scanline + bits) (List.replicate c v)) step progress := by
  rw [LoadPixelDataRLE8_loop_succ]
  have hne : ¬ c = RLE_COMMAND := by simp only [RLE_COMMAND]; omega
  have hwb : int32 ((w : Int) - (bits : Int)) = (w : Int) - (bits : Int) :=
    int32_eq _ (by omega) (by omega)
  have hmin : min (c : Int) ((w : Int) - (bits : Int)) = (c : Int) := by omega
  have hbits : int32 ((bits : Int) + (c : Int)) = ((bits + c : Nat) : Int) := by
    rw [int32_eq _ (by omega) (by omega)]
    push_cast
    rfl
  have haddr : (pitch : Int) * (scanline : Int) + (bits : Int) =
      ((pitch * scanline + bits : Nat) : Int) := by
    push_cast
    rfl
  have hs1 : ((scanline : Nat) : Int) < ((height : Nat) : Int) := by omega
  simp only [if_pos hs1, if_neg hne, hwb, hmin]
  rw [if_neg (by omega)]
  simp only [Int.toNat_ofNat, hbits, haddr, RLE8_fill_at_natCast, RLE8_fill_eq_store]

/-- An absolute-run token that fits in the row writes its literal bytes and skips the pad. -/
theorem LoadPixelDataRLE8_loop_abs (w height pitch fuel : Nat) (bs pad rest : List Nat)
    (scanline bits : Nat) (dib : List Nat) (step : Step) (progress : FIProgress)
    (hw : w < 2 ^ 31)
    (hs : scanline < height) (h3 : 3 ≤ bs.length) (hpad : pad.length = bs.length % 2)
    (hfit : bits + bs.length ≤ w) :
    LoadPixelDataRLE8_loop (w : Int) height pitch (fuel + 1)
        (0 :: bs.length :: (bs ++ pad ++ rest)) (scanline : Nat) (bits : Nat) dib step
        progress =
      LoadPixelDataRLE8_loop (w : Int) height pitch fuel rest (scanline : Nat)
        ((bits + bs.length : Nat) : Int)
        (RLE8_store dib (pitch * scanline + bits) bs) step progress := by
  rw [LoadPixelDataRLE8_loop_succ]
  have hwb : int32 ((w : Int) - (bits : Int)) = (w : Int) - (bits : Int) :=
    int32_eq _ (by omega) (by omega)
  have hmin : min ((bs.length : Nat) : Int) ((w : Int) - (bits : Int)) = (bs.length : Int) := by
    omega
  have hbits : int32 ((bits : Int) + ((bs.length : Nat) : Int)) =
      ((bits + bs.length : Nat) : Int) := by
    rw [int32_eq _ (by omega) (by omega)]
    push_cast
    rfl
  have haddr : (pitch : Int) * (scanline : Int) + (bits : Int) =
      ((pitch * scanline + bits : Nat) : Int) := by
    push_cast
    rfl
  have hs1 : ((scanline : Nat) : Int) < ((height : Nat) : Int) := by omega
  have h0 : ¬ bs.length = RLE_ENDOFLINE := by simp only [RLE_ENDOFLINE]; omega
  have h1 : ¬ bs.length = RLE_ENDOFBITMAP := by simp only [RLE_ENDOFBITMAP]; omega
  have h2 : ¬ bs.length = RLE_DELTA := by simp only [RLE_DELTA]; omega
  simp only [if_pos hs1, RLE_COMMAND, if_true, if_neg h0, if_neg h1, if_neg h2, hwb, hmin]
  rw [if_neg (by omega)]
  simp only [Int.toNat_ofNat]
  rw [if_neg (by
    simp only [List.length_append]
    omega)]
  have htake : (bs ++ pad ++ rest).take bs.length = bs := by
    rw [List.append_assoc, List.take_left']
    rfl
  have hdrop : (bs ++ pad ++ rest).drop bs.length = pad ++ rest := by
    rw [List.append_assoc, List.drop_left']
    rfl
  rw [htake, hdrop, hbits, haddr, RLE8_store_at_natCast]
  by_cases hodd : bs.length % 2 = 1
  · rw [if_pos hodd]
    rw [hodd] at hpad
    obtain ⟨x, rfl⟩ := List.length_eq_one.mp hpad
    rfl
  · rw [if_neg hodd]
    have : pad.length = 0 := by omega
    rw [List.length_eq_zero.mp this]
    rfl

/-- The end-of-line pair moves to the start of the next row when the callback does not
cancel. -/
theorem LoadPixelDataRLE8_loop_eol (width : Int) (height pitch fuel : Nat) (rest : List Nat)
    (scanline : Nat) (bits : Int) (dib : List Nat) (step : Step) (progress : FIProgress)
    (hh : height < 2 ^ 31)
    (hs : scanline < height) (hnc : progress.neverCancels) :
    LoadPixelDataRLE8_loop width height pitch (fuel + 1) (0 :: 0 :: rest) (scanline : Nat) bits
        dib step progress =
      LoadPixelDataRLE8_loop width height pitch fuel rest ((scanline + 1 : Nat) : Int) 0 dib
        (step.progress progress).2.1 (step.progress progress).2.2 := by
  rw [LoadPixelDataRLE8_loop_succ]
  have hp := (Step.progress_neverCancels step progress hnc).1
  have hs1 : ((scanline : Nat) : Int) < ((height : Nat) : Int) := by omega
  have hsc : int32 ((scanline : Int) + 1) = ((scanline + 1 : Nat) : Int) := by
    rw [int32_eq _ (by omega) (by omega)]
    push_cast
    rfl
  simp only [if_pos hs1, RLE_COMMAND, RLE_ENDOFLINE, if_true, hp, Bool.true_eq_false,
    if_false, hsc]

/-- Decoding a token sequence that fits in the current row: the tokens take `k` iterations,
write their pixels from the cursor on and leave the cursor behind them. -/
theorem LoadPixelDataRLE8_loop_tokens (w height pitch : Nat) (hw : w < 2 ^ 31)
    (toks px : List Nat) (h : RLE_tokens toks px) :
    ∃ k, k ≤ toks.length ∧
      ∀ (fuel : Nat) (rest : List Nat) (scanline bits : Nat) (dib : List Nat) (step : Step)
        (progress : FIProgress), scanline < height → bits + px.length ≤ w →
        LoadPixelDataRLE8_loop (w : Int) height pitch (fuel + k) (toks ++ rest)
            (scanline : Nat) (bits : Nat) dib step progress =
          LoadPixelDataRLE8_loop (w : Int) height pitch fuel rest (scanline : Nat)
            ((bits + px.length : Nat) : Int)
            (RLE8_store dib (pitch * scanline + bits) px) step progress := by
  induction h with
  | nil =>
    refine ⟨0, le_refl _, ?_⟩
    intro fuel rest scanline bits dib step progress _ _
    rfl
  | run c v t p h1 h2 _ ih =>
    obtain ⟨k, hk, hdec⟩ := ih
    refine ⟨k + 1, by simp only [List.length_cons]; omega, ?_⟩
    intro fuel rest scanline bits dib step progress hs hfit
    simp only [List.length_append, List.length_replicate] at hfit
    rw [← Nat.add_assoc, List.cons_append, List.cons_append,
      LoadPixelDataRLE8_loop_run w height pitch (fuel + k) c v (t ++ rest) scanline bits dib
        step progress hw hs h1 (by omega),
      hdec fuel rest scanline (bits + c) _ step progress hs (by omega)]
    simp only [RLE8_store_append, List.length_append, List.length_replicate, Nat.add_assoc]
  | abs bs pad t p h3 h254 hpad _ ih =>
    obtain ⟨k, hk, hdec⟩ := ih
    refine ⟨k + 1, by simp only [List.length_cons, List.length_append]; omega, ?_⟩
    intro fuel rest scanline bits dib step progress hs hfit
    simp only [List.length_append] at hfit
    have e : 0 :: bs.length :: (bs ++ pad ++ t) ++ rest =
        0 :: bs.length :: (bs ++ pad ++ (t ++ rest)) := by simp
    rw [← Nat.add_assoc, e,
      LoadPixelDataRLE8_loop_abs w height pitch (fuel + k) bs pad (t ++ rest) scanline bits dib
        step progress hw hs h3 hpad (by omega),
      hdec fuel rest scanline (bits + bs.length) _ step progress hs (by omega)]
    simp only [RLE8_store_append, List.length_append, Nat.add_assoc]

/-! ### The round trip -/

theorem RLE8_store_getElem?_lt (dib : List Nat) (pos : Nat) (src : List Nat) (k : Nat)
    (h : k < pos) : (RLE8_store dib pos src)[k]? = dib[k]? := by
  induction src generalizing dib pos with
  | nil => rfl
  | cons x src ih =>
    simp only [RLE8_store]
    rw [ih _ _ (by omega), List.getElem?_set_ne (by omega)]

theorem RLE8_store_getElem?_ge (dib : List Nat) (pos : Nat) (src : List Nat) (j : Nat)
    (hfit : pos + src.length ≤ dib.length) (hj : j < src.length) :
    (RLE8_store dib pos src)[pos + j]? = src[j]? := by
  induction src generalizing dib pos j with
  | nil => simp at hj
  | cons x src ih =>
    simp only [List.length_cons] at hfit hj
    simp only [RLE8_store]
    cases j with
    | zero =>
      have hlt : pos < dib.length := by omega
      rw [Nat.add_zero, RLE8_store_getElem?_lt _ _ _ _ (by omega)]
      simp [hlt]
    | succ j =>
      have := ih (dib.set pos x) (pos + 1) j (by rw [List.length_set]; omega) (by omega)
      rw [show pos + (j + 1) = pos + 1 + j by omega, this]
      simp

/-- A segment of a list is determined by its entries. -/
theorem drop_take_eq_of_getElem? (l s : List Nat) (a : Nat)
    (h : ∀ j, j < s.length → l[a + j]? = s[j]?) : (l.drop a).take s.length = s := by
  apply List.ext_getElem?
  intro n
  rw [List.getElem?_take]
  by_cases hn : n < s.length
  · rw [if_pos hn, List.getElem?_drop, h n hn]
  · rw [if_neg hn, List.getElem?_eq_none (by omega)]

theorem drop_take_congr (l1 l2 : List Nat) (a b : Nat)
    (h : ∀ k, k < a + b → l1[k]? = l2[k]?) : (l1.drop a).take b = (l2.drop a).take b := by
  apply List.ext_getElem?
  intro n
  rw [List.getElem?_take, List.getElem?_take]
  by_cases hn : n < b
  · rw [if_pos hn, if_pos hn, List.getElem?_drop, List.getElem?_drop, h _ (by omega)]
  · rw [if_neg hn, if_neg hn]

/-- The stored bytes can be read back from the place they were stored at. -/
theorem RLE8_store_segment (dib : List Nat) (pos : Nat) (src : List Nat)
    (hfit : pos + src.length ≤ dib.length) :
    ((RLE8_store dib pos src).drop pos).take src.length = src :=
  drop_take_eq_of_getElem? _ _ _ (fun j hj => RLE8_store_getElem?_ge dib pos src j hfit hj)

theorem RLE8_rows_length (pitch : Nat) (lines : List (List Nat)) (r : Nat) (dib : List Nat) :
    (RLE8_rows pitch lines r dib).length = dib.length := by
  induction lines generalizing r dib with
  | nil => rfl
  | cons l ls ih => simp only [RLE8_rows, ih, RLE8_store_length]

/-- Storing rows from row `r` on leaves the bytes below row `r` as they are. -/
theorem RLE8_rows_getElem?_lt (pitch : Nat) (lines : List (List Nat)) (r : Nat)
    (dib : List Nat) (k : Nat) (h : k < pitch * r) :
    (RLE8_rows pitch lines r dib)[k]? = dib[k]? := by
  induction lines generalizing r dib with
  | nil => rfl
  | cons l ls ih =>
    simp only [RLE8_rows]
    rw [ih _ _ (by rw [Nat.mul_add]; omega), RLE8_store_getElem?_lt _ _ _ _ h]

/-- Each stored row can be read back from the start of its row. -/
theorem RLE8_rows_segment (pitch w : Nat) (lines : List (List Nat)) (r : Nat) (dib : List Nat)
    (hlines : ∀ l ∈ lines, l.length = w) (hpitch : w ≤ pitch)
    (hdib : pitch * (r + lines.length) ≤ dib.length) (i : Nat) (hi : i < lines.length) :
    ((RLE8_rows pitch lines r dib).drop (pitch * (r + i))).take w = lines.getD i [] := by
  induction lines generalizing r dib i with
  | nil => simp at hi
  | cons l ls ih =>
    simp only [List.length_cons] at hi hdib
    have hl : l.length = w := hlines l (List.mem_cons_self _ _)
    have hmul : pitch * (r + (ls.length + 1)) = pitch * r + pitch * ls.length + pitch := by
      rw [Nat.mul_add, Nat.mul_add, Nat.mul_one, Nat.add_assoc]
    simp only [RLE8_rows]
    cases i with
    | zero =>
      simp only [Nat.add_zero, List.getD_cons_zero]
      rw [drop_take_congr _ (RLE8_store dib (pitch * r) l) _ _
        (fun k hk => RLE8_rows_getElem?_lt pitch ls (r + 1) _ k
          (by rw [Nat.mul_add, Nat.mul_one]; omega))]
      rw [← hl]
      exact RLE8_store_segment dib (pitch * r) l (by omega)
    | succ i =>
      simp only [List.getD_cons_succ]
      have := ih (r + 1) (RLE8_store dib (pitch * r) l)
        (fun l' hl' => hlines l' (List.mem_cons_of_mem _ hl'))
        (by
          rw [RLE8_store_length]
          have e : r + 1 + ls.length = r + (ls.length + 1) := by omega
          rw [e]
          exact hdib)
        i (by omega)
      rw [show r + (i + 1) = r + 1 + i by omega]
      exact this

/-- Decoding one encoded line: its tokens and the end-of-line pair take `k` iterations, store
the line at the start of the current row and move to the next row. -/
theorem LoadPixelDataRLE8_loop_line (target : Nat → Nat) (height pitch : Nat) (s : List Nat)
    (hw : s.length < 2 ^ 31) (hh : height < 2 ^ 31) :
    ∃ k, k + 1 ≤ (RLEEncodeLine target s s.length).length ∧
      ∀ (fuel : Nat) (rest : List Nat) (scanline : Nat) (dib : List Nat) (step : Step)
        (progress : FIProgress), scanline < height → progress.neverCancels →
        LoadPixelDataRLE8_loop (s.length : Int) height pitch (fuel + k)
            (RLEEncodeLine target s s.length ++ rest) (scanline : Nat) 0 dib step progress =
          LoadPixelDataRLE8_loop (s.length : Int) height pitch fuel rest
            ((scanline + 1 : Nat) : Int) 0
            (RLE8_store dib (pitch * scanline) s) (step.progress progress).2.1
            (step.progress progress).2.2 := by
  obtain ⟨toks, henc, htoks⟩ := RLEEncodeLine_tokens target s
  obtain ⟨k, hk, hdec⟩ := LoadPixelDataRLE8_loop_tokens s.length height pitch hw toks s htoks
  refine ⟨k + 1, ?_, ?_⟩
  · rw [henc]
    simp only [List.length_append, List.length_cons, List.length_nil]
    omega
  · intro fuel rest scanline dib step progress hs hnc
    have h0 := hdec (fuel + 1) ([0, 0] ++ rest) scanline 0 dib step progress hs (by omega)
    simp only [Nat.cast_zero, Nat.add_zero] at h0
    rw [henc, List.append_assoc, show fuel + (k + 1) = fuel + 1 + k by omega, h0]
    have e : [0, 0] ++ rest = 0 :: 0 :: rest := rfl
    rw [e, LoadPixelDataRLE8_loop_eol _ _ _ _ _ _ _ _ _ _ hh hs hnc]

/-- C1: for every scanline `S` of length `w >= 1`, the bytes produced by `RLEEncodeLine(S, w)`,
whatever the target buffer held at the pad position, are decoded by `LoadPixelDataRLE8` with
width `w`, height 1 and bit count 8 into a bitmap whose scanline equals `S` (the bitmap has
one row of `pitch >= w` bytes; `w` is an `int`, below `2 ^ 31`; the progress callback does
not cancel). -/
theorem C1_rle8_scanline_round_trip (target : Nat → Nat) (s : List Nat) (hw : 1 ≤ s.length)
    (hint : s.length < 2 ^ 31) (pitch : Nat) (hpitch : s.length ≤ pitch) (dib : List Nat) (hdib : dib.length = pitch)
    (progress : FIProgress) (hnc : progress.neverCancels) :
    ∃ dib1,
      LoadPixelDataRLE8 (RLEEncodeLine target s s.length) (s.length : Int) 1 8 dib pitch
        progress = .ok (some dib1) ∧
      dib1.take s.length = s := by
  obtain ⟨k, hk, hdec⟩ := LoadPixelDataRLE8_loop_line target 1 pitch s hint (by norm_num)
  refine ⟨RLE8_store dib (pitch * 0) s, ?_, ?_⟩
  · unfold LoadPixelDataRLE8
    rw [if_neg (by decide)]
    simp only [Int.natAbs_one]
    rw [show (RLEEncodeLine target s s.length).length + 1 =
      ((RLEEncodeLine target s s.length).length - k) + 1 + k by omega]
    have h2 := hdec ((RLEEncodeLine target s s.length).length - k + 1) [] 0 dib
      (progress.getStepProgress 1 FI_MAX_PROGRESS) progress (by omega) hnc
    rw [List.append_nil, Nat.cast_zero] at h2
    rw [h2, LoadPixelDataRLE8_loop_exit _ _ _ _ _ _ _ _ _ _ (by omega)]
  · have := RLE8_store_segment dib (pitch * 0) s (by omega)
    simpa using this

/-- C1 witness: the scanline `[1, 2, 3]` in a row of 4 bytes, without a progress callback. -/
theorem C1_rle8_scanline_round_trip_witness :
    ∃ dib1,
      LoadPixelDataRLE8 (RLEEncodeLine (fun _ => 77) [1, 2, 3] [1, 2, 3].length)
        ([1, 2, 3].length : Int) 1 8 [0, 0, 0, 0] 4 (FIProgress.create 0 none) =
        .ok (some dib1) ∧
      dib1.take [1, 2, 3].length = [1, 2, 3] :=
  C1_rle8_scanline_round_trip (fun _ => 77) [1, 2, 3] (by decide) (by decide) 4 (by decide)
    [0, 0, 0, 0] rfl
    (FIProgress.create 0 none) ⟨rfl, fun f hf => by simp [FIProgress.create] at hf⟩

theorem Save_RLE_out (buffer : Nat → Nat) (lines : List (List Nat)) (out : List Nat) :
    Save_RLE buffer lines out = out ++ Save_RLE buffer lines [] := by
  induction lines generalizing buffer out with
  | nil => simp [Save_RLE]
  | cons l ls ih =>
    simp only [Save_RLE]
    rw [ih _ (out ++ _), ih _ ([] ++ _)]
    simp

theorem Save_RLE_cons (buffer : Nat → Nat) (l : List Nat) (ls : List (List Nat)) :
    Save_RLE buffer (l :: ls) [] =
      RLEEncodeLine buffer l l.length ++
        Save_RLE (fun p => if p < (RLEEncodeLine buffer l l.length).length then
          (RLEEncodeLine buffer l l.length).getD p 0 else buffer p) ls [] := by
  simp only [Save_RLE]
  rw [Save_RLE_out]
  simp

/-- Repeated progress steps under a callback that never cancels. -/
theorem neverCancels_progress (step : Step) (progress : FIProgress)
    (h : progress.neverCancels) : (step.progress progress).2.2.neverCancels :=
  (Step.progress_neverCancels step progress h).2

/-- Decoding the pixel stream of `Save`: the lines are stored in consecutive rows and the
loop then stands before the end-of-bitmap pair. -/
theorem LoadPixelDataRLE8_loop_lines (w height pitch : Nat) (lines : List (List Nat))
    (hw : w < 2 ^ 31) (hh : height < 2 ^ 31) (hlines : ∀ l ∈ lines, l.length = w) :
    ∀ (buffer : Nat → Nat), ∃ k, k + 2 ≤ (Save_RLE buffer lines []).length ∧
      ∀ (fuel scanline : Nat) (dib : List Nat) (step : Step) (progress : FIProgress),
        scanline + lines.length ≤ height → progress.neverCancels →
        ∃ step1 progress1,
          LoadPixelDataRLE8_loop (w : Int) height pitch (fuel + k) (Save_RLE buffer lines [])
              (scanline : Nat) 0 dib step progress =
            LoadPixelDataRLE8_loop (w : Int) height pitch fuel [0, 1]
              ((scanline + lines.length : Nat) : Int) 0 (RLE8_rows pitch lines scanline dib)
              step1 progress1 := by
  induction lines with
  | nil =>
    intro buffer
    refine ⟨0, by simp [Save_RLE], ?_⟩
    intro fuel scanline dib step progress _ _
    exact ⟨step, progress, rfl⟩
  | cons l ls ih =>
    intro buffer
    have hl : l.length = w := hlines l (List.mem_cons_self _ _)
    subst hl
    obtain ⟨k1, hk1, hdec1⟩ := LoadPixelDataRLE8_loop_line buffer height pitch l hw hh
    obtain ⟨k2, hk2, hdec2⟩ := ih (fun l' hl' => hlines l' (List.mem_cons_of_mem _ hl'))
      (fun p => if p < (RLEEncodeLine buffer l l.length).length then
        (RLEEncodeLine buffer l l.length).getD p 0 else buffer p)
    refine ⟨k2 + k1, ?_, ?_⟩
    · rw [Save_RLE_cons, List.length_append]
      omega
    · intro fuel scanline dib step progress hs hnc
      simp only [List.length_cons] at hs
      obtain ⟨step1, progress1, h2⟩ := hdec2 fuel (scanline + 1)
        (RLE8_store dib (pitch * scanline) l) (step.progress progress).2.1
        (step.progress progress).2.2 (by omega) (neverCancels_progress step progress hnc)
      refine ⟨step1, progress1, ?_⟩
      rw [Save_RLE_cons, ← Nat.add_assoc,
        hdec1 (fuel + k2) _ scanline dib step progress (by omega) hnc, h2]
      simp only [RLE8_rows, List.length_cons]
      rw [show scanline + 1 + ls.length = scanline + (ls.length + 1) by omega]

/-- C2: for every 8-bit image of width `w >= 1` and height `h >= 1`, the pixel stream that
`Save` writes with the RLE flag (the encoded scanlines `0, ..., h-1` in this order, then the
end-of-bitmap pair) is decoded by `LoadPixelDataRLE8` with width `w` and height `h` into a
bitmap whose scanline `i` equals the original scanline `i` for every `i < h` (rows of
`pitch >= w` bytes; `w` and `h` are `int`s, below `2 ^ 31`; the progress callback does not
cancel). -/
theorem C2_rle8_image_round_trip (buffer : Nat → Nat) (lines : List (List Nat)) (w : Nat)
    (hw : 1 ≤ w) (hh : 1 ≤ lines.length) (hwint : w < 2 ^ 31) (hhint : lines.length < 2 ^ 31)
    (hlines : ∀ l ∈ lines, l.length = w)
    (pitch : Nat) (hpitch : w ≤ pitch) (dib : List Nat)
    (hdib : dib.length = pitch * lines.length)
    (progress : FIProgress) (hnc : progress.neverCancels) :
    ∃ dib1,
      LoadPixelDataRLE8 (Save_RLE buffer lines []) (w : Int) (lines.length : Int) 8 dib pitch
        progress = .ok (some dib1) ∧
      ∀ i, i < lines.length → (dib1.drop (pitch * i)).take w = lines.getD i [] := by
  obtain ⟨k, hk, hdec⟩ :=
    LoadPixelDataRLE8_loop_lines w lines.length pitch lines hwint hhint hlines buffer
  refine ⟨RLE8_rows pitch lines 0 dib, ?_, ?_⟩
  · unfold LoadPixelDataRLE8
    rw [if_neg (by decide)]
    simp only [Int.natAbs_ofNat]
    obtain ⟨step1, progress1, h2⟩ := hdec ((Save_RLE buffer lines []).length - k) 0 dib
      (progress.getStepProgress lines.length FI_MAX_PROGRESS) progress (by omega) hnc
    rw [show (Save_RLE buffer lines []).length + 1 =
      ((Save_RLE buffer lines []).length - k) + 1 + k by omega]
    obtain ⟨step2, progress2, h3⟩ := hdec ((Save_RLE buffer lines []).length - k + 1) 0 dib
      (progress.getStepProgress lines.length FI_MAX_PROGRESS) progress (by omega) hnc
    rw [Nat.cast_zero] at h3
    rw [h3, LoadPixelDataRLE8_loop_exit _ _ _ _ _ _ _ _ _ _ (by omega)]
  · intro i hi
    have := RLE8_rows_segment pitch w lines 0 dib hlines hpitch (by rw [hdib]; simp) i hi
    rw [Nat.zero_add] at this
    exact this

/-- C2 witness: a 3x2 image in rows of 4 bytes, without a progress callback. -/
theorem C2_rle8_image_round_trip_witness :
    ∃ dib1,
      LoadPixelDataRLE8 (Save_RLE (fun _ => 77) [[1, 2, 3], [4, 4, 4]] []) ((3 : Nat) : Int)
        (([[1, 2, 3], [4, 4, 4]] : List (List Nat)).length : Int) 8
        [0, 0, 0, 0, 0, 0, 0, 0] 4 (FIProgress.create 0 none) = .ok (some dib1) ∧
      ∀ i, i < ([[1, 2, 3], [4, 4, 4]] : List (List Nat)).length →
        (dib1.drop (4 * i)).take 3 = ([[1, 2, 3], [4, 4, 4]] : List (List Nat)).getD i [] :=
  C2_rle8_image_round_trip (fun _ => 77) [[1, 2, 3], [4, 4, 4]] 3 (by decide) (by decide)
    (by decide) (by decide) (by decide) 4 (by decide) [0, 0, 0, 0, 0, 0, 0, 0] rfl
    (FIProgress.create 0 none) ⟨rfl, fun f hf => by simp [FIProgress.create] at hf⟩

/-! ### The signature check -/

theorem getD_drop_take (l : List Nat) (p n k : Nat) (hk : k < n) :
    ((l.drop p).take n).getD k 0 = if p + k < l.length then l.getD (p + k) 0 else 0 := by
  rw [List.getD_eq_getElem?_getD, List.getElem?_take, if_pos hk, List.getElem?_drop]
  split_ifs with h
  · rw [List.getD_eq_getElem?_getD]
  · rw [List.getElem?_eq_none (by omega)]
    rfl

/-- The two bytes that `Validate` compares. -/
theorem Validate_eq (io : Stream) :
    (Validate io).1 =
      decide (io.pos + 2 ≤ io.data.length ∧ io.data.getD io.pos 0 = 0x42 ∧
        (io.data.getD (io.pos + 1) 0 = 0x4D ∨ io.data.getD (io.pos + 1) 0 = 0x41)) := by
  unfold Validate read_proc
  simp only [Nat.one_mul]
  have h0 := getD_drop_take io.data io.pos (min 2 (io.data.length - io.pos)) 0
  have h1 := getD_drop_take io.data io.pos (min 2 (io.data.length - io.pos)) 1
  by_cases hlen : io.pos + 2 ≤ io.data.length
  · have hm : min 2 (io.data.length - io.pos) = 2 := by omega
    rw [hm] at h0 h1 ⊢
    have h0 := h0 (by omega)
    have h1 := h1 (by omega)
    rw [if_pos (by omega)] at h0 h1
    rw [h0, h1, Nat.add_zero]
    generalize io.data.getD io.pos 0 = a
    generalize io.data.getD (io.pos + 1) 0 = b
    by_cases ha : a = 0x42
    · by_cases hb : b = 0x4D
      · simp [ha, hb, hlen]
      · by_cases hc : b = 0x41
        · simp [ha, hc, hlen]
        · simp [ha, hb, hc, hlen]
    · simp [ha, hlen]
  · have hd : ((io.data.drop io.pos).take (min 2 (io.data.length - io.pos))).getD 1 0 = 0 := by
      rw [List.getD_eq_getElem?_getD, List.getElem?_eq_none]
      · rfl
      · rw [List.length_take, List.length_drop]
        omega
    rw [hd]
    simp [hlen]

/-- C28: `Validate` returns TRUE exactly when the stream holds at least two bytes at the read
position and they are `0x42 0x4D` or `0x42 0x41`; it asks for two bytes, so the position moves
by at most two and the stream content is left alone; and on a stream of bytes the signature
test of `LoadAdv` on the field `bfType` of a complete file header passes exactly when
`Validate` returns TRUE, so that `LoadAdv` returns `NULL` on whatever `Validate` rejects. -/
theorem C28_signature_validation (io : Stream) :
    ((Validate io).1 = true ↔
      (io.pos + 2 ≤ io.data.length ∧ io.data.getD io.pos 0 = 0x42 ∧
        (io.data.getD (io.pos + 1) 0 = 0x4D ∨ io.data.getD (io.pos + 1) 0 = 0x41))) ∧
    (Validate io).2 = (read_proc io 1 2).2.2 ∧
    (Validate io).2.pos ≤ io.pos + 2 ∧ (Validate io).2.data = io.data ∧
    ((∀ b ∈ io.data, b < 256) → io.pos + sizeof_BITMAPFILEHEADER ≤ io.data.length →
      ((Validate io).1 = true ↔
        (le16 (read_proc io sizeof_BITMAPFILEHEADER 1).1 0 = 0x4D42 ∨
          le16 (read_proc io sizeof_BITMAPFILEHEADER 1).1 0 = 0x4142))) ∧
    ((∀ b ∈ io.data, b < 256) → (Validate io).1 = false →
      ∀ (env : BmpEnv) (header_only : Bool) (cbOption : Nat) (cb : Option FreeImageCB),
        LoadAdv env (some io) header_only cbOption cb = none) := by
  have hpos : (Validate io).2 = (read_proc io 1 2).2.2 := by
    unfold Validate
    simp only
    split_ifs <;> rfl
  have hbyte : ∀ k, (∀ b ∈ io.data, b < 256) → io.data.getD k 0 < 256 := by
    intro k hb
    rw [List.getD_eq_getElem?_getD]
    cases hk : io.data[k]? with
    | none => simp
    | some v =>
      simp only [Option.getD_some]
      obtain ⟨hlt, hv⟩ := List.getElem?_eq_some.mp hk
      rw [← hv]
      exact hb _ (List.getElem_mem hlt)
  have hbf : io.pos + sizeof_BITMAPFILEHEADER ≤ io.data.length →
      le16 (read_proc io sizeof_BITMAPFILEHEADER 1).1 0 =
        io.data.getD io.pos 0 + 256 * io.data.getD (io.pos + 1) 0 := by
    intro hlen
    simp only [sizeof_BITMAPFILEHEADER] at hlen
    unfold le16 read_proc
    simp only [sizeof_BITMAPFILEHEADER, Nat.mul_one]
    have hm : min 14 (io.data.length - io.pos) = 14 := by omega
    rw [hm, getD_drop_take _ _ _ _ (by omega), getD_drop_take _ _ _ _ (by omega),
      if_pos (by omega), if_pos (by omega), Nat.add_zero]
  have hiff : (∀ b ∈ io.data, b < 256) → io.pos + sizeof_BITMAPFILEHEADER ≤ io.data.length →
      ((Validate io).1 = true ↔
        (le16 (read_proc io sizeof_BITMAPFILEHEADER 1).1 0 = 0x4D42 ∨
          le16 (read_proc io sizeof_BITMAPFILEHEADER 1).1 0 = 0x4142)) := by
    intro hb hlen
    rw [hbf hlen, Validate_eq, decide_eq_true_iff]
    have h0 := hbyte io.pos hb
    have h1 := hbyte (io.pos + 1) hb
    simp only [sizeof_BITMAPFILEHEADER] at hlen
    constructor
    · rintro ⟨_, ha, hc⟩
      omega
    · intro h
      refine ⟨by omega, by omega, by omega⟩
  refine ⟨?_, hpos, ?_, ?_, hiff, ?_⟩
  · rw [Validate_eq, decide_eq_true_iff]
  · rw [hpos]
    unfold read_proc
    simp only
    omega
  · rw [hpos]
    rfl
  · intro hb hv env header_only cbOption cb
    have hsel : LoadAdv_select (some io) (FIProgress.create cbOption cb) = none := by
      unfold LoadAdv_select
      simp only
      by_cases h1 : (FIProgress.create cbOption cb).isCanceled = true
      · rw [if_pos h1]
      rw [if_neg h1]
      by_cases h2 : (read_proc io sizeof_BITMAPFILEHEADER 1).2.1 ≠ 1
      · rw [if_pos h2]
      rw [if_neg h2]
      have hlen : io.pos + sizeof_BITMAPFILEHEADER ≤ io.data.length := by
        by_contra hc
        apply h2
        unfold read_proc
        simp only [sizeof_BITMAPFILEHEADER, Nat.mul_one] at hc ⊢
        have hm : min 14 (io.data.length - io.pos) < 14 := by omega
        simp only [show ¬ (14 = 0) by decide, if_false]
        intro h14
        have := Nat.div_eq_of_lt hm
        omega
      have h3 : le16 (read_proc io sizeof_BITMAPFILEHEADER 1).1 0 ≠ 0x4D42 ∧
          le16 (read_proc io sizeof_BITMAPFILEHEADER 1).1 0 ≠ 0x4142 := by
        by_contra hc
        have := (hiff hb hlen).mpr (by
          by_contra hc2
          apply hc
          push_neg at hc2
          exact hc2)
        rw [this] at hv
        exact absurd hv (by decide)
      rw [if_pos h3]
    unfold LoadAdv
    simp only [hsel]

/-- C28 witness: the stream `BM` followed by twelve zero bytes. -/
theorem C28_signature_validation_witness :
    (Validate ⟨[0x42, 0x4D, 0, 0, 0, 0, 0, 0, 0, 0, 0, 0, 0, 0], 0⟩).1 = true ∧
    (le16 (read_proc ⟨[0x42, 0x4D, 0, 0, 0, 0, 0, 0, 0, 0, 0, 0, 0, 0], 0⟩
      sizeof_BITMAPFILEHEADER 1).1 0 = 0x4D42 ∨
     le16 (read_proc ⟨[0x42, 0x4D, 0, 0, 0, 0, 0, 0, 0, 0, 0, 0, 0, 0], 0⟩
      sizeof_BITMAPFILEHEADER 1).1 0 = 0x4142) :=
  ⟨by decide,
    ((C28_signature_validation ⟨[0x42, 0x4D, 0, 0, 0, 0, 0, 0, 0, 0, 0, 0, 0, 0], 0⟩).2.2.2.2.1
      (by decide) (by decide)).mp (by decide)⟩

/-! ### Short read of raw pixels -/

/-- A read of one item of `size` bytes returns the count 0 when fewer bytes are left. -/
theorem read_proc_short (io : Stream) (size : Nat) (h : io.data.length - io.pos < size) :
    (read_proc io size 1).2.1 = 0 := by
  unfold read_proc
  simp only [Nat.mul_one]
  split_ifs with h0
  · rfl
  · exact Nat.div_eq_of_lt (by omega)

/-- A read of one item of `size` bytes returns the count 1 when the bytes are there, and moves
the position by `size`. -/
theorem read_proc_full (io : Stream) (size : Nat) (h0 : 0 < size)
    (h : size ≤ io.data.length - io.pos) :
    (read_proc io size 1).2.1 = 1 ∧ (read_proc io size 1).2.2 = ⟨io.data, io.pos + size⟩ := by
  unfold read_proc
  simp only [Nat.mul_one]
  have hm : min size (io.data.length - io.pos) = size := by omega
  rw [hm, if_neg (by omega), Nat.div_self h0]
  exact ⟨rfl, rfl⟩

/-- The row loop of `LoadPixelData` on a stream that is too short: it stops at the first row
it cannot read, with `ok` cleared, and does not return `NULL`. -/
theorem LoadPixelData_rows_short (positiveHeight pitch : Nat) (n c : Nat) (io : Stream)
    (dib : List Nat) (step : Step) (progress : FIProgress)
    (hshort : io.data.length - io.pos < n * pitch) (hnc : progress.neverCancels) :
    (LoadPixelData_rows positiveHeight pitch n c io dib step progress).2 = (false, false) := by
  induction n generalizing c io dib step progress with
  | zero => simp at hshort
  | succ n ih =>
    unfold LoadPixelData_rows
    simp only
    by_cases hrow : io.data.length - io.pos < pitch
    · rw [if_pos (by rw [read_proc_short io pitch hrow]; decide)]
    · have hp : 0 < pitch := by
        by_contra h0
        have : pitch = 0 := by omega
        rw [this] at hshort
        simp at hshort
      obtain ⟨h1, h2⟩ := read_proc_full io pitch hp (by omega)
      rw [if_neg (by rw [h1]; decide)]
      obtain ⟨hs1, hs2⟩ := Step.progress_neverCancels step progress hnc
      rw [if_neg (by rw [hs1]; decide), h2]
      apply ih
      · simp only
        rw [Nat.succ_mul] at hshort
        omega
      · exact hs2

/-- C29 counterexample: with three bytes left for a bottom-up image of one row of stride 4,
`LoadPixelData` returns the bitmap, holding the three bytes, with `ok` cleared; and `LoadAdv`
returns a bitmap for a 16-bit file of one pixel whose pixel data is cut after two of the four
bytes of its row. -/
theorem C29_counterexample :
    LoadPixelData ⟨[1, 2, 3], 0⟩ [0, 0, 0, 0] 1 4 8 (FIProgress.create 0 none) =
      some ([1, 2, 3, 0], false) ∧
    (LoadAdv BmpEnv.sample
      (some ⟨[0x42, 0x4D, 0, 0, 0, 0, 0, 0, 0, 0, 54, 0, 0, 0,
              40, 0, 0, 0, 1, 0, 0, 0, 1, 0, 0, 0, 1, 0, 16, 0, 0, 0, 0, 0, 0, 0, 0, 0,
              0, 0, 0, 0, 0, 0, 0, 0, 0, 0, 0, 0, 0, 0, 0, 0,
              0xAA, 0xBB], 0⟩) false 0 none).map (fun d => d.bits) =
      some [0xAA, 0xBB, 0, 0] := by
  constructor
  · decide
  · decide

/-- C29 (amended): for every uncompressed image of height `h` and stride `p` with `|h| * p`
below `2 ^ 32`, if the stream holds fewer than `|h| * p` bytes at the pixel-data position
(so that `h != 0`) and the progress callback does not cancel, `LoadPixelData` still returns the bitmap:
the short read only clears the flag `ok`, which selects the message "Failed to read image
data". -/
theorem C29_short_read_raw (io : Stream) (dib : List Nat) (height : Int) (pitch bit_count : Nat)
    (progress : FIProgress)
    (hshort : io.data.length - io.pos < height.natAbs * pitch)
    (hfit : height.natAbs * pitch < 2 ^ 32) (hnc : progress.neverCancels) :
    ∃ bits, LoadPixelData io dib height pitch bit_count progress = some (bits, false) := by
  unfold LoadPixelData
  by_cases hpos : height > 0
  · rw [if_pos hpos]
    have e : height.toNat = height.natAbs := by omega
    rw [e, Nat.mod_eq_of_lt hfit]
    simp only
    rw [read_proc_short io _ hshort]
    exact ⟨_, rfl⟩
  · rw [if_neg hpos]
    have := LoadPixelData_rows_short height.natAbs pitch height.natAbs 0 io dib
      (progress.getStepProgress height.natAbs FI_MAX_PROGRESS) progress hshort hnc
    simp only
    rw [show (LoadPixelData_rows height.natAbs pitch height.natAbs 0 io dib
      (progress.getStepProgress height.natAbs FI_MAX_PROGRESS) progress) =
      ((LoadPixelData_rows height.natAbs pitch height.natAbs 0 io dib
      (progress.getStepProgress height.natAbs FI_MAX_PROGRESS) progress).1,
      (LoadPixelData_rows height.natAbs pitch height.natAbs 0 io dib
      (progress.getStepProgress height.natAbs FI_MAX_PROGRESS) progress).2) from rfl, this]
    exact ⟨_, rfl⟩

/-- C29 witness: a top-down image of two rows of stride 4 with five bytes left. -/
theorem C29_short_read_raw_witness :
    ∃ bits, LoadPixelData ⟨[1, 2, 3, 4, 5], 0⟩ [0, 0, 0, 0, 0, 0, 0, 0] (-2) 4 8
      (FIProgress.create 0 none) = some (bits, false) :=
  C29_short_read_raw ⟨[1, 2, 3, 4, 5], 0⟩ [0, 0, 0, 0, 0, 0, 0, 0] (-2) 4 8
    (FIProgress.create 0 none) (by decide) (by decide)
    ⟨rfl, fun f hf => by simp [FIProgress.create] at hf⟩

/-! ### The parse of an encoded line -/

/-- One step of the parse on two bytes or more. -/
theorem RLE_parse_cons (fuel c v : Nat) (t : List Nat) :
    RLE_parse (fuel + 1) (c :: v :: t) =
    (
    if c ≠ 0 then (RLE_parse fuel t).map (fun l => RLE_token.repeat c v :: l)
    else if v = 0 then (RLE_parse fuel t).map (fun l => RLE_token.endOfLine :: l)
    else if v = 1 then (RLE_parse fuel t).map (fun l => RLE_token.endOfBitmap :: l)
    else if v = 2 then
      match t with
      | dx :: dy :: t2 => (RLE_parse fuel t2).map (fun l => RLE_token.delta dx dy :: l)
      | _ => none
    else if t.length < v + v % 2 then none
    else
      (RLE_parse fuel (t.drop (v + v % 2))).map (fun l => RLE_token.absolute (t.take v) :: l)) := by
  rfl

/-- A token sequence parses into run tokens, whatever follows it. -/
theorem RLE_parse_tokens (toks px : List Nat) (h : RLE_tokens toks px) :
    ∃ k ts, k ≤ toks.length ∧ (∀ t ∈ ts, RLE_token.isRun t) ∧
      ∀ (fuel : Nat) (rest : List Nat),
        RLE_parse (fuel + k) (toks ++ rest) = (RLE_parse fuel rest).map (fun l => ts ++ l) := by
  induction h with
  | nil =>
    refine ⟨0, [], le_refl _, by simp, ?_⟩
    intro fuel rest
    simp
  | run c v t p h1 h2 _ ih =>
    obtain ⟨k, ts, hk, hts, hp⟩ := ih
    refine ⟨k + 1, RLE_token.repeat c v :: ts, by simp only [List.length_cons]; omega, ?_, ?_⟩
    · intro x hx
      rcases List.mem_cons.mp hx with rfl | hx
      · exact ⟨h1, h2⟩
      · exact hts x hx
    · intro fuel rest
      rw [← Nat.add_assoc, List.cons_append, List.cons_append, RLE_parse_cons,
        if_pos (by omega), hp fuel rest]
      cases RLE_parse fuel rest <;> simp
  | abs bs pad t p h3 h254 hpad _ ih =>
    obtain ⟨k, ts, hk, hts, hp⟩ := ih
    refine ⟨k + 1, RLE_token.absolute bs :: ts,
      by simp only [List.length_cons, List.length_append]; omega, ?_, ?_⟩
    · intro x hx
      rcases List.mem_cons.mp hx with rfl | hx
      · exact ⟨h3, h254⟩
      · exact hts x hx
    · intro fuel rest
      have e : 0 :: bs.length :: (bs ++ pad ++ t) ++ rest =
          0 :: bs.length :: (bs ++ (pad ++ (t ++ rest))) := by simp
      rw [← Nat.add_assoc, e, RLE_parse_cons, if_neg (by simp), if_neg (by omega), if_neg (by omega),
        if_neg (by omega), if_neg (by simp only [List.length_append]; omega)]
      have hd : (bs ++ (pad ++ (t ++ rest))).drop (bs.length + bs.length % 2) = t ++ rest := by
        rw [← hpad, ← List.length_append, ← List.append_assoc, List.drop_left']
        rfl
      have ht : (bs ++ (pad ++ (t ++ rest))).take bs.length = bs := by
        rw [List.take_left']
        rfl
      rw [hd, ht, hp fuel rest]
      cases RLE_parse fuel rest <;> simp

/-- C21: the bytes written by `RLEEncodeLine` for a scanline parse, from the start, as a
sequence of repeat tokens `(count, value)` with `1 <= count <= 255` and of absolute runs
`(0, n, n literals, pad if n is odd)` with `3 <= n <= 254`, followed by one end-of-line token,
whose pair `(0, 0)` is the last two bytes; no other escape occurs in the parse. -/
theorem C21_encoded_line_well_formed (target : Nat → Nat) (s : List Nat) :
    ∃ ts, RLE_parse (RLEEncodeLine target s s.length).length (RLEEncodeLine target s s.length) =
        some (ts ++ [RLE_token.endOfLine]) ∧
      (∀ t ∈ ts, RLE_token.isRun t) ∧
      (RLEEncodeLine target s s.length).drop ((RLEEncodeLine target s s.length).length - 2) =
        [0, 0] := by
  obtain ⟨toks, henc, htoks⟩ := RLEEncodeLine_tokens target s
  obtain ⟨k, ts, hk, hts, hp⟩ := RLE_parse_tokens toks s htoks
  refine ⟨ts, ?_, hts, ?_⟩
  · rw [henc]
    have e : (toks ++ [0, 0]).length = (toks.length - k + 1) + 1 + k := by
      simp only [List.length_append, List.length_cons, List.length_nil]
      omega
    rw [e, hp, RLE_parse_cons]
    simp [RLE_parse]
  · rw [henc]
    simp

/-! ### The position of the pixel data -/

theorem read_proc_data (io : Stream) (size count : Nat) :
    (read_proc io size count).2.2.data = io.data := rfl

theorem LoadOS21XBMP_palette_data (n : Nat) (io : Stream) (pal : List Nat) :
    (LoadOS21XBMP_palette n io pal).2.data = io.data := by
  induction n generalizing io pal with
  | zero => rfl
  | succ n ih =>
    unfold LoadOS21XBMP_palette
    simp only
    rw [ih, read_proc_data]

theorem seek_set_eq (io : Stream) (offset : Nat) : seek_set io offset = ⟨io.data, offset⟩ := rfl

theorem seek_cur_data (io : Stream) (offset : Int) : (seek_cur io offset).data = io.data := rfl

/-- The Windows loader enters its pixel loader with the stream at `bitmap_bits_offset`. -/
theorem LoadWindowsBMP_io (env : BmpEnv) (io : Stream) (bitmap_bits_offset type : Nat)
    (progress : FIProgress)
    (hread : (read_proc io sizeof_BITMAPINFOHEADER 1).2.1 = 1)
    (hcheck : CheckBitmapInfoHeader
      (BITMAPINFOHEADER.ofBytes (read_proc io sizeof_BITMAPINFOHEADER 1).1) = true)
    (halloc : ∀ w h bc m, env.AllocateHeader false w h bc m ≠ none) :
    (LoadWindowsBMP env io false bitmap_bits_offset type progress).io =
      ⟨io.data, bitmap_bits_offset⟩ := by
  have hbc := ((CheckBitmapInfoHeader_eq_true_iff _).mp hcheck).2.2.2.2.1
  unfold LoadWindowsBMP
  simp only [hread, hcheck, ne_eq, not_true_eq_false, if_false, Bool.true_eq_false,
    Bool.false_eq_true]
  generalize BITMAPINFOHEADER.ofBytes (read_proc io sizeof_BITMAPINFOHEADER 1).1 = bih at hbc ⊢
  by_cases h1 : bih.biBitCount = 1 ∨ bih.biBitCount = 4 ∨ bih.biBitCount = 8
  · rw [if_pos h1]
    split
    · exact absurd (by assumption) (halloc _ _ _ _)
    · simp only [seek_set_eq, read_proc_data, seek_cur_data]
      split_ifs <;> (try split) <;> simp only [read_proc_data, seek_cur_data]
  · rw [if_neg h1]
    have h2 : bih.biBitCount = 16 ∨ bih.biBitCount = 24 ∨ bih.biBitCount = 32 := by omega
    rw [if_pos h2]
    split
    · exact absurd (by assumption) (halloc _ _ _ _)
    · simp only [seek_set_eq, read_proc_data, seek_cur_data]
      split_ifs <;> (try split) <;> simp only [read_proc_data, seek_cur_data]

/-- The OS/2 1.x loader enters its pixel loader with the stream at `bitmap_bits_offset` when
the depth is 1, 4 or 8. -/
theorem LoadOS21XBMP_io (env : BmpEnv) (io : Stream) (bitmap_bits_offset : Nat)
    (progress : FIProgress)
    (hread : (read_proc io sizeof_BITMAPINFOOS2_1X_HEADER 1).2.1 = 1)
    (hbc : (BITMAPINFOOS2_1X_HEADER.ofBytes
        (read_proc io sizeof_BITMAPINFOOS2_1X_HEADER 1).1).biBitCount = 1 ∨
      (BITMAPINFOOS2_1X_HEADER.ofBytes
        (read_proc io sizeof_BITMAPINFOOS2_1X_HEADER 1).1).biBitCount = 4 ∨
      (BITMAPINFOOS2_1X_HEADER.ofBytes
        (read_proc io sizeof_BITMAPINFOOS2_1X_HEADER 1).1).biBitCount = 8)
    (halloc : ∀ w h bc m, env.AllocateHeader false w h bc m ≠ none) :
    (LoadOS21XBMP env io false bitmap_bits_offset progress).io =
      ⟨io.data, bitmap_bits_offset⟩ := by
  unfold LoadOS21XBMP
  simp only [hread, ne_eq, not_true_eq_false, if_false, Bool.false_eq_true]
  generalize BITMAPINFOOS2_1X_HEADER.ofBytes
    (read_proc io sizeof_BITMAPINFOOS2_1X_HEADER 1).1 = bios at hbc ⊢
  rw [if_pos hbc]
  split
  · exact absurd (by assumption) (halloc _ _ _ _)
  · simp only [seek_set_eq, LoadOS21XBMP_palette_data, read_proc_data]
    split <;> rfl

/-- The offset that `LoadAdv` hands to the loader: the start position plus the field
`bfOffBits`, as `unsigned`. -/
theorem LoadAdv_select_offset (io : Stream) (progress : FIProgress) (ldr : Loader)
    (io1 : Stream) (off : Nat)
    (h : LoadAdv_select (some io) progress = some (ldr, io1, off)) :
    off = (io.pos + le32 (io.data.drop io.pos) 10) % 2 ^ 32 := by
  unfold LoadAdv_select at h
  simp only at h
  split_ifs at h with h1 h2 h3 h4 h5 h6
  all_goals
    have hr : (read_proc io sizeof_BITMAPFILEHEADER 1).2.1 = 1 := by
      by_contra hc; exact h2 hc
    obtain ⟨_, hbytes, _⟩ := read_proc_one io sizeof_BITMAPFILEHEADER (by decide) hr
    have hoff : le32 (read_proc io sizeof_BITMAPFILEHEADER 1).1 10 =
        le32 (io.data.drop io.pos) 10 := by
      rw [hbytes]
      unfold le32
      simp only [sizeof_BITMAPFILEHEADER]
      rw [getD_take_of_lt _ 14 10 (by omega), getD_take_of_lt _ 14 (10 + 1) (by omega),
        getD_take_of_lt _ 14 (10 + 2) (by omega), getD_take_of_lt _ 14 (10 + 3) (by omega)]
    simp only [Option.some.injEq, Prod.mk.injEq] at h
    rw [← h.2.2, hoff]

/-- C30 counterexample: an OS/2 1.x file of depth 24 declares its pixel data at offset 30, four
bytes after the headers, and `LoadAdv` returns the four bytes of the gap as the pixel row; and
for a file that starts at position 2 of its stream and declares `bfOffBits = 0xFFFFFFFF`, the
offset handed to the loader is 1, not `2 + 0xFFFFFFFF`. -/
theorem C30_counterexample :
    (LoadAdv BmpEnv.sample
      (some ⟨[0x42, 0x4D, 0, 0, 0, 0, 0, 0, 0, 0, 30, 0, 0, 0,
              12, 0, 0, 0, 1, 0, 1, 0, 1, 0, 24, 0,
              9, 9, 9, 9,
              1, 2, 3, 0], 0⟩) false 0 none).map (fun d => d.bits) = some [9, 9, 9, 9] ∧
    (LoadAdv_select
      (some ⟨[7, 7, 0x42, 0x4D, 0, 0, 0, 0, 0, 0, 0, 0, 0xFF, 0xFF, 0xFF, 0xFF,
              40, 0, 0, 0], 2⟩) (FIProgress.create 0 none)).map (fun x => x.2.2) = some 1 := by
  constructor
  · decide
  · decide

/-- C30 (amended): the offset that `LoadAdv` hands to the loader it selects is the position at
decode start plus the declared `bfOffBits`, reduced modulo `2 ^ 32`; the loader for the 40-byte
header family (any accepted depth) and the loader for the legacy 12-byte header at the depths
1, 4 and 8 seek to that offset before they load pixels, so that their pixel loader starts
reading there. -/
theorem C30_pixel_data_offset (env : BmpEnv) (handle : Stream) (progress : FIProgress)
    (ldr : Loader) (io1 : Stream) (off : Nat)
    (hsel : LoadAdv_select (some handle) progress = some (ldr, io1, off))
    (halloc : ∀ w h bc m, env.AllocateHeader false w h bc m ≠ none) :
    off = (handle.pos + le32 (handle.data.drop handle.pos) 10) % 2 ^ 32 ∧
    (∀ type, ldr = Loader.Windows type →
      (read_proc io1 sizeof_BITMAPINFOHEADER 1).2.1 = 1 →
      CheckBitmapInfoHeader
        (BITMAPINFOHEADER.ofBytes (read_proc io1 sizeof_BITMAPINFOHEADER 1).1) = true →
      (LoadWindowsBMP env io1 false off type progress).io = ⟨handle.data, off⟩) ∧
    (ldr = Loader.OS21X →
      (read_proc io1 sizeof_BITMAPINFOOS2_1X_HEADER 1).2.1 = 1 →
      (BITMAPINFOOS2_1X_HEADER.ofBytes
          (read_proc io1 sizeof_BITMAPINFOOS2_1X_HEADER 1).1).biBitCount ∈ [1, 4, 8] →
      (LoadOS21XBMP env io1 false off progress).io = ⟨handle.data, off⟩) := by
  have hdata := (LoadAdv_select_some handle progress ldr io1 off hsel).2.2.1
  refine ⟨LoadAdv_select_offset handle progress ldr io1 off hsel, ?_, ?_⟩
  · intro type _ hread hcheck
    rw [LoadWindowsBMP_io env io1 off type progress hread hcheck halloc, hdata]
  · intro _ hread hbc
    rw [LoadOS21XBMP_io env io1 off progress hread (by simpa using hbc) halloc, hdata]

/-- C30 witness: an 8-bit file of one pixel with the 40-byte header that declares its pixel
data at offset 60, six bytes after the headers. -/
theorem C30_pixel_data_offset_witness :
    (LoadWindowsBMP BmpEnv.sample
      ⟨[0x42, 0x4D, 0, 0, 0, 0, 0, 0, 0, 0, 60, 0, 0, 0,
        40, 0, 0, 0, 1, 0, 0, 0, 1, 0, 0, 0, 1, 0, 8, 0, 0, 0, 0, 0, 0, 0, 0, 0,
        0, 0, 0, 0, 0, 0, 0, 0, 0, 0, 0, 0, 0, 0, 0, 0], 14⟩ false 60 40
      (FIProgress.create 0 none)).io =
    ⟨[0x42, 0x4D, 0, 0, 0, 0, 0, 0, 0, 0, 60, 0, 0, 0,
      40, 0, 0, 0, 1, 0, 0, 0, 1, 0, 0, 0, 1, 0, 8, 0, 0, 0, 0, 0, 0, 0, 0, 0,
      0, 0, 0, 0, 0, 0, 0, 0, 0, 0, 0, 0, 0, 0, 0, 0], 60⟩ :=
  (C30_pixel_data_offset BmpEnv.sample
    ⟨[0x42, 0x4D, 0, 0, 0, 0, 0, 0, 0, 0, 60, 0, 0, 0,
      40, 0, 0, 0, 1, 0, 0, 0, 1, 0, 0, 0, 1, 0, 8, 0, 0, 0, 0, 0, 0, 0, 0, 0,
      0, 0, 0, 0, 0, 0, 0, 0, 0, 0, 0, 0, 0, 0, 0, 0], 0⟩
    (FIProgress.create 0 none) (Loader.Windows 40)
    ⟨[0x42, 0x4D, 0, 0, 0, 0, 0, 0, 0, 0, 60, 0, 0, 0,
      40, 0, 0, 0, 1, 0, 0, 0, 1, 0, 0, 0, 1, 0, 8, 0, 0, 0, 0, 0, 0, 0, 0, 0,
      0, 0, 0, 0, 0, 0, 0, 0, 0, 0, 0, 0, 0, 0, 0, 0], 14⟩ 60 (by decide)
    (by intro w h bc m; simp [BmpEnv.sample, AllocateHeader_zero])).2.1 40 rfl (by decide)
    (by decide)

/-! ### Single steps of the two RLE decoders -/

theorem int32_add_int32 (x y : Int) : int32 (int32 x + y) = int32 (x + y) := by
  unfold int32
  omega

/-- Under a callback that never cancels the progress steps of a delta escape all go on. -/
theorem RLE8_delta_steps_neverCancels (delta_y : Nat) (step : Step) (progress : FIProgress)
    (h : progress.neverCancels) :
    ∃ r, RLE8_delta_steps delta_y step progress = some r ∧ r.2.neverCancels := by
  induction delta_y generalizing step progress with
  | zero => exact ⟨(step, progress), rfl, h⟩
  | succ n ih =>
    obtain ⟨h1, h2⟩ := Step.progress_neverCancels step progress h
    obtain ⟨r, hr, hr2⟩ := ih (step.progress progress).2.1 (step.progress progress).2.2 h2
    refine ⟨r, ?_, hr2⟩
    unfold RLE8_delta_steps
    simp only [h1, Bool.true_eq_false, if_false]
    exact hr

/-- One iteration of the RLE-4 decoding loop. -/
theorem LoadPixelDataRLE4_loop_succ (width : Int) (height : Nat) (end_ : Int) (fuel : Nat)
    (stream : List Nat) (scanline bits q : Int) (pixels : List Nat) (step : Step)
    (progress : FIProgress) :
    LoadPixelDataRLE4_loop width height end_ (fuel + 1) stream scanline bits q pixels step
      progress =
    (
    if scanline < height then
      if q ≥ end_ then
        let r := step.progress progress
        if r.1 = false then .ok none else .ok (some pixels)
      else
        match stream with
        | [] => .error .errmsgRLE4
        | status_byte :: stream1 =>
          if status_byte ≠ 0 then
            let status_byte : Int := min (status_byte : Int) (end_ - q)
            -- Encoded mode
            match stream1 with
            | [] => .error .errmsgRLE4
            | second_byte :: stream2 =>
              LoadPixelDataRLE4_loop width height end_ fuel stream2 scanline
                (int32 (bits + status_byte)) (q + status_byte)
                (RLE4_fill second_byte status_byte.toNat 0 q pixels) step progress
          else
            -- Escape mode
            match stream1 with
            | [] => .error .errmsgRLE4
            | status_byte :: stream2 =>
              if status_byte = RLE_ENDOFLINE then
                let r := step.progress progress
                if r.1 = false then .ok none
                else
                  LoadPixelDataRLE4_loop width height end_ fuel stream2 (int32 (scanline + 1)) 0
                    (int32 (int32 (scanline + 1) * width)) pixels r.2.1 r.2.2
              else if status_byte = RLE_ENDOFBITMAP then
                LoadPixelDataRLE4_loop width height end_ fuel stream2 scanline bits end_ pixels
                  step progress
              else if status_byte = RLE_DELTA then
                match stream2 with
                | delta_x :: delta_y :: stream3 =>
                  match RLE8_delta_steps delta_y step progress with
                  | none => .ok none
                  | some r =>
                    LoadPixelDataRLE4_loop width height end_ fuel stream3
                      (int32 (scanline + delta_y)) (int32 (bits + delta_x))
                      (int32 (int32 (scanline + delta_y) * width) + int32 (bits + delta_x))
                      pixels r.1 r.2
                | _ => .error .errmsgRLE4
              else
                -- Absolute mode
                let status_byte : Int := min (status_byte : Int) (end_ - q)
                match RLE4_absolute status_byte.toNat 0 q 0 stream2 pixels with
                | none => .error .errmsgRLE4
                | some (pixels1, stream3) =>
                  if status_byte % 4 = 1 ∨ status_byte % 4 = 2 then
                    -- Read pad byte
                    match stream3 with
                    | [] => .error .errmsgRLE4
                    | _ :: stream4 =>
                      LoadPixelDataRLE4_loop width height end_ fuel stream4 scanline
                        (int32 (bits + status_byte)) (q + status_byte) pixels1 step progress
                  else
                    LoadPixelDataRLE4_loop width height end_ fuel stream3 scanline
                      (int32 (bits + status_byte)) (q + status_byte) pixels1 step progress
    else .ok (some pixels)) := by
  rfl

/-- The end-of-bitmap pair ends the RLE-8 loop with the bitmap as it is. -/
theorem LoadPixelDataRLE8_loop_eob (width : Int) (height pitch fuel : Nat) (rest : List Nat)
    (scanline bits : Int) (dib : List Nat) (step : Step) (progress : FIProgress)
    (hs : scanline < height) :
    LoadPixelDataRLE8_loop width height pitch (fuel + 1) (0 :: 1 :: rest) scanline bits dib step
      progress = .ok (some dib) := by
  rw [LoadPixelDataRLE8_loop_succ]
  simp only [if_pos hs, RLE_COMMAND, RLE_ENDOFLINE, RLE_ENDOFBITMAP, if_true, one_ne_zero,
    if_false]

/-- The delta escape of the RLE-8 loop moves the cursor and leaves the bitmap as it is. -/
theorem LoadPixelDataRLE8_loop_delta (width : Int) (height pitch fuel : Nat) (rest : List Nat)
    (delta_x delta_y : Nat) (scanline bits : Int) (dib : List Nat) (step : Step)
    (progress : FIProgress) (r : Step × FIProgress) (hs : scanline < height)
    (hr : RLE8_delta_steps delta_y step progress = some r) :
    LoadPixelDataRLE8_loop width height pitch (fuel + 1) (0 :: 2 :: delta_x :: delta_y :: rest)
        scanline bits dib step progress =
      LoadPixelDataRLE8_loop width height pitch fuel rest (int32 (scanline + delta_y))
        (int32 (bits + delta_x)) dib r.1 r.2 := by
  rw [LoadPixelDataRLE8_loop_succ]
  simp only [if_pos hs, RLE_COMMAND, RLE_ENDOFLINE, RLE_ENDOFBITMAP, RLE_DELTA, if_true,
    show ¬ (2 = 0) by decide, show ¬ (2 = 1) by decide, if_false, hr]

/-- A repeat token of the RLE-8 loop: the count is cut to the room left in the row. -/
theorem LoadPixelDataRLE8_loop_repeat (width : Int) (height pitch fuel : Nat) (rest : List Nat)
    (c v : Nat) (scanline bits : Int) (dib : List Nat) (step : Step) (progress : FIProgress)
    (hs : scanline < height) (hc : c ≠ 0) (hroom : 0 ≤ int32 (width - bits)) :
    LoadPixelDataRLE8_loop width height pitch (fuel + 1) (c :: v :: rest) scanline bits dib step
        progress =
      LoadPixelDataRLE8_loop width height pitch fuel rest scanline
        (int32 (bits + min (c : Int) (int32 (width - bits))))
        (RLE8_fill_at dib (pitch * scanline + bits) v (min (c : Int) (int32 (width - bits))).toNat)
        step progress := by
  rw [LoadPixelDataRLE8_loop_succ]
  have hne : ¬ c = RLE_COMMAND := by simp only [RLE_COMMAND]; exact hc
  simp only [if_pos hs, if_neg hne]
  rw [if_neg (by omega)]

/-- An absolute run of the RLE-8 loop: the number of literal bytes is cut to the room left in
the row, the pad byte follows the parity of the declared length. -/
theorem LoadPixelDataRLE8_loop_absolute (width : Int) (height pitch fuel : Nat) (n : Nat)
    (stream2 : List Nat) (scanline bits : Int) (dib : List Nat) (step : Step)
    (progress : FIProgress) (hs : scanline < height) (h3 : 3 ≤ n) (count : Nat)
    (hcount : (count : Int) = min (n : Int) (int32 (width - bits))) (h1 : 1 ≤ count)
    (hlen : count + n % 2 ≤ stream2.length) :
    LoadPixelDataRLE8_loop width height pitch (fuel + 1) (0 :: n :: stream2) scanline bits dib
        step progress =
      LoadPixelDataRLE8_loop width height pitch fuel (stream2.drop (count + n % 2)) scanline
        (int32 (bits + n)) (RLE8_store_at dib (pitch * scanline + bits) (stream2.take count))
        step progress := by
  rw [LoadPixelDataRLE8_loop_succ]
  have h0 : ¬ n = RLE_ENDOFLINE := by simp only [RLE_ENDOFLINE]; omega
  have h1' : ¬ n = RLE_ENDOFBITMAP := by simp only [RLE_ENDOFBITMAP]; omega
  have h2 : ¬ n = RLE_DELTA := by simp only [RLE_DELTA]; omega
  simp only [if_pos hs, RLE_COMMAND, if_true, if_neg h0, if_neg h1', if_neg h2, ← hcount,
    Int.toNat_ofNat]
  rw [if_neg (by omega), if_neg (by omega)]
  by_cases hodd : n % 2 = 1
  · rw [if_pos hodd, hodd]
    have hl : count < stream2.length := by omega
    rw [← List.drop_drop, show List.drop count stream2 =
      (List.drop count stream2).head (by simp; omega) :: (List.drop count stream2).tail from
        (List.head_cons_tail _ _).symm]
    simp only [List.drop_one, List.tail_cons]
  · rw [if_neg hodd]
    have : n % 2 = 0 := by omega
    rw [this, Nat.add_zero]

/-- The absolute-mode loop of the RLE-4 decoder reads one byte for every even index: with
enough bytes it consumes `(n + 1) / 2` of them when it starts at an even index. -/
theorem RLE4_absolute_some (n i : Nat) (q : Int) (second_byte : Nat) (stream pixels : List Nat)
    (hlen : (n + (i + 1) % 2) / 2 ≤ stream.length) :
    ∃ pixels1, RLE4_absolute n i q second_byte stream pixels =
      some (pixels1, stream.drop ((n + (i + 1) % 2) / 2)) := by
  induction n generalizing i q second_byte stream pixels with
  | zero =>
    refine ⟨pixels, ?_⟩
    have : (0 + (i + 1) % 2) / 2 = 0 := by omega
    rw [this]
    rfl
  | succ n ih =>
    unfold RLE4_absolute
    by_cases hi : i % 2 = 0
    · rw [if_pos hi]
      cases stream with
      | nil =>
        simp only [List.length_nil] at hlen
        omega
      | cons b s1 =>
        simp only [List.length_cons] at hlen
        obtain ⟨p1, hp1⟩ := ih (i + 1) (q + 1) b s1 (RLE4_put pixels q (RLE4_sample b i))
          (by omega)
        refine ⟨p1, ?_⟩
        simp only [hp1]
        have e : (n + 1 + (i + 1) % 2) / 2 = (n + (i + 1 + 1) % 2) / 2 + 1 := by omega
        rw [e, List.drop_succ_cons]
    · rw [if_neg hi]
      obtain ⟨p1, hp1⟩ := ih (i + 1) (q + 1) second_byte stream
        (RLE4_put pixels q (RLE4_sample second_byte i)) (by omega)
      refine ⟨p1, ?_⟩
      rw [hp1]
      have e : (n + 1 + (i + 1) % 2) / 2 = (n + (i + 1 + 1) % 2) / 2 := by omega
      rw [e]

/-- The absolute-mode loop of the RLE-4 decoder fails when the stream ends before its last
literal byte. -/
theorem RLE4_absolute_none (n i : Nat) (q : Int) (second_byte : Nat) (stream pixels : List Nat)
    (hlen : stream.length < (n + (i + 1) % 2) / 2) :
    RLE4_absolute n i q second_byte stream pixels = none := by
  induction n generalizing i q second_byte stream pixels with
  | zero => omega
  | succ n ih =>
    unfold RLE4_absolute
    by_cases hi : i % 2 = 0
    · rw [if_pos hi]
      cases stream with
      | nil => rfl
      | cons b s1 =>
        simp only [List.length_cons] at hlen
        exact ih (i + 1) (q + 1) b s1 _ (by omega)
    · rw [if_neg hi]
      exact ih (i + 1) (q + 1) second_byte stream _ (by omega)

/-- The end-of-bitmap pair ends the RLE-4 loop: the pointer is set to `end` and the next turn
leaves the loop after one progress step. -/
theorem LoadPixelDataRLE4_loop_eob (width : Int) (height : Nat) (end_ : Int) (fuel : Nat)
    (rest : List Nat) (scanline bits q : Int) (pixels : List Nat) (step : Step)
    (progress : FIProgress) (hs : scanline < height) (hq : q < end_)
    (hnc : progress.neverCancels) :
    LoadPixelDataRLE4_loop width height end_ (fuel + 2) (0 :: 1 :: rest) scanline bits q pixels
      step progress = .ok (some pixels) := by
  rw [LoadPixelDataRLE4_loop_succ]
  have hp := (Step.progress_neverCancels step progress hnc).1
  simp only [if_pos hs, if_neg (not_le.mpr hq), ne_eq, not_true_eq_false, if_false,
    RLE_ENDOFLINE, RLE_ENDOFBITMAP, one_ne_zero, if_true]
  rw [LoadPixelDataRLE4_loop_succ]
  simp only [if_pos hs, ge_iff_le, le_refl, if_true, hp, Bool.true_eq_false, if_false]

/-- The end-of-line pair of the RLE-4 loop moves to the start of the next row. -/
theorem LoadPixelDataRLE4_loop_eol (width : Int) (height : Nat) (end_ : Int) (fuel : Nat)
    (rest : List Nat) (scanline bits q : Int) (pixels : List Nat) (step : Step)
    (progress : FIProgress) (hs : scanline < height) (hq : q < end_)
    (hnc : progress.neverCancels) :
    LoadPixelDataRLE4_loop width height end_ (fuel + 1) (0 :: 0 :: rest) scanline bits q pixels
        step progress =
      LoadPixelDataRLE4_loop width height end_ fuel rest (int32 (scanline + 1)) 0
        (int32 (int32 (scanline + 1) * width)) pixels (step.progress progress).2.1
        (step.progress progress).2.2 := by
  rw [LoadPixelDataRLE4_loop_succ]
  have hp := (Step.progress_neverCancels step progress hnc).1
  simp only [if_pos hs, if_neg (not_le.mpr hq), ne_eq, not_true_eq_false, if_false,
    RLE_ENDOFLINE, if_true, hp, Bool.true_eq_false]

/-- The delta escape of the RLE-4 loop moves the cursor and leaves the scratch buffer as it
is. -/
theorem LoadPixelDataRLE4_loop_delta (width : Int) (height : Nat) (end_ : Int) (fuel : Nat)
    (rest : List Nat) (delta_x delta_y : Nat) (scanline bits q : Int) (pixels : List Nat)
    (step : Step) (progress : FIProgress) (r : Step × FIProgress) (hs : scanline < height)
    (hq : q < end_) (hr : RLE8_delta_steps delta_y step progress = some r) :
    LoadPixelDataRLE4_loop width height end_ (fuel + 1) (0 :: 2 :: delta_x :: delta_y :: rest)
        scanline bits q pixels step progress =
      LoadPixelDataRLE4_loop width height end_ fuel rest (int32 (scanline + delta_y))
        (int32 (bits + delta_x))
        (int32 (int32 (scanline + delta_y) * width) + int32 (bits + delta_x)) pixels r.1 r.2 := by
  rw [LoadPixelDataRLE4_loop_succ]
  simp only [if_pos hs, if_neg (not_le.mpr hq), ne_eq, not_true_eq_false, if_false,
    RLE_ENDOFLINE, RLE_ENDOFBITMAP, RLE_DELTA, show ¬ (2 = 0) by decide,
    show ¬ (2 = 1) by decide, if_true, hr]

/-- A repeat token of the RLE-4 loop: the count is cut to the room left in the scratch
buffer. -/
theorem LoadPixelDataRLE4_loop_repeat (width : Int) (height : Nat) (end_ : Int) (fuel : Nat)
    (rest : List Nat) (c v : Nat) (scanline bits q : Int) (pixels : List Nat) (step : Step)
    (progress : FIProgress) (hs : scanline < height) (hq : q < end_) (hc : c ≠ 0) :
    LoadPixelDataRLE4_loop width height end_ (fuel + 1) (c :: v :: rest) scanline bits q pixels
        step progress =
      LoadPixelDataRLE4_loop width height end_ fuel rest scanline
        (int32 (bits + min (c : Int) (end_ - q))) (q + min (c : Int) (end_ - q))
        (RLE4_fill v (min (c : Int) (end_ - q)).toNat 0 q pixels) step progress := by
  rw [LoadPixelDataRLE4_loop_succ]
  simp only [if_pos hs, if_neg (not_le.mpr hq), ne_eq, hc, not_false_eq_true, if_true]

/-- An absolute run of the RLE-4 loop: the run is cut to the room left in the scratch buffer,
`m` samples; it reads `(m + 1) / 2` literal bytes, and one pad byte when that number is
odd. -/
theorem LoadPixelDataRLE4_loop_absolute (width : Int) (height : Nat) (end_ : Int) (fuel : Nat)
    (n : Nat) (stream2 : List Nat) (scanline bits q : Int) (pixels : List Nat) (step : Step)
    (progress : FIProgress) (hs : scanline < height) (hq : q < end_) (h3 : 3 ≤ n) (m : Nat)
    (hm : (m : Int) = min (n : Int) (end_ - q))
    (hlen : (m + 1) / 2 + ((m + 1) / 2) % 2 ≤ stream2.length) :
    ∃ pixels1,
      RLE4_absolute m 0 q 0 stream2 pixels = some (pixels1, stream2.drop ((m + 1) / 2)) ∧
      LoadPixelDataRLE4_loop width height end_ (fuel + 1) (0 :: n :: stream2) scanline bits q
          pixels step progress =
        LoadPixelDataRLE4_loop width height end_ fuel
          (stream2.drop ((m + 1) / 2 + ((m + 1) / 2) % 2)) scanline (int32 (bits + m)) (q + m)
          pixels1 step progress := by
  obtain ⟨pixels1, hp⟩ := RLE4_absolute_some m 0 q 0 stream2 pixels (by
    simp only [Nat.zero_add, Nat.one_mod]
    omega)
  simp only [Nat.zero_add, Nat.one_mod] at hp
  refine ⟨pixels1, hp, ?_⟩
  rw [LoadPixelDataRLE4_loop_succ]
  have h0 : ¬ n = RLE_ENDOFLINE := by simp only [RLE_ENDOFLINE]; omega
  have h1 : ¬ n = RLE_ENDOFBITMAP := by simp only [RLE_ENDOFBITMAP]; omega
  have h2 : ¬ n = RLE_DELTA := by simp only [RLE_DELTA]; omega
  simp only [if_pos hs, if_neg (not_le.mpr hq), ne_eq, not_true_eq_false, if_false,
    if_neg h0, if_neg h1, if_neg h2, ← hm, Int.toNat_ofNat, hp]
  by_cases hpad : (m : Int) % 4 = 1 ∨ (m : Int) % 4 = 2
  · rw [if_pos hpad]
    have hodd : ((m + 1) / 2) % 2 = 1 := by omega
    rw [hodd] at hlen ⊢
    have hl : (m + 1) / 2 < stream2.length := by omega
    rw [← List.drop_drop, show List.drop ((m + 1) / 2) stream2 =
      (List.drop ((m + 1) / 2) stream2).head (by simp; omega) ::
        (List.drop ((m + 1) / 2) stream2).tail from (List.head_cons_tail _ _).symm]
    simp only [List.drop_one, List.tail_cons]
  · rw [if_neg hpad]
    have heven : ((m + 1) / 2) % 2 = 0 := by omega
    rw [heven]
    rfl

/-! ### The column cursor of the RLE-8 decoder -/

theorem int32_range (x : Int) : -2 ^ 31 ≤ int32 x ∧ int32 x < 2 ^ 31 := by
  unfold int32
  omega

theorem RLE8_deltas_length (n : Nat) : (RLE8_deltas n).length = 4 * n := by
  induction n with
  | zero => rfl
  | succ n ih =>
    simp only [RLE8_deltas, List.length_cons, ih]
    omega

/-- Delta escapes without a row change only add to the column cursor, an `int` that is
never compared with the width on this path. -/
theorem LoadPixelDataRLE8_loop_deltas (width : Int) (height pitch : Nat) (n fuel : Nat)
    (rest : List Nat) (scanline bits : Int) (dib : List Nat) (step : Step)
    (progress : FIProgress) (hs : scanline < height) (h1 : -2 ^ 31 ≤ scanline)
    (h2 : scanline < 2 ^ 31) (hb1 : -2 ^ 31 ≤ bits) (hb2 : bits < 2 ^ 31) :
    LoadPixelDataRLE8_loop width height pitch (fuel + n) (RLE8_deltas n ++ rest) scanline bits
        dib step progress =
      LoadPixelDataRLE8_loop width height pitch fuel rest scanline (int32 (bits + 255 * n)) dib
        step progress := by
  induction n generalizing bits with
  | zero =>
    simp only [RLE8_deltas, List.nil_append, Nat.add_zero, Nat.cast_zero, Int.mul_zero,
      Int.add_zero]
    rw [int32_eq bits hb1 hb2]
  | succ n ih =>
    have hsc : int32 (scanline + ((0 : Nat) : Int)) = scanline := by
      rw [Nat.cast_zero, Int.add_zero, int32_eq scanline h1 h2]
    have hstep := LoadPixelDataRLE8_loop_delta width height pitch (fuel + n)
      (RLE8_deltas n ++ rest) 255 0 scanline bits dib step progress (step, progress) hs rfl
    rw [hsc] at hstep
    have e : RLE8_deltas (n + 1) ++ rest = 0 :: 2 :: 255 :: 0 :: (RLE8_deltas n ++ rest) := rfl
    rw [e, ← Nat.add_assoc, hstep,
      ih (int32 (bits + ((255 : Nat) : Int))) (int32_range _).1 (int32_range _).2,
      int32_add_int32]
    congr 2
    push_cast
    ring

/-- After enough delta escapes the column cursor is negative, and the next repeat token is
carried out with it: its store goes before the start of the row. -/
theorem LoadPixelDataRLE8_loop_wraps (n : Nat) (b : Int) (hb : int32 (255 * n) = b)
    (hneg : -2 ^ 31 + 2 ≤ b ∧ b < 0) (v pitch fuel : Nat) (rest dib : List Nat) (step : Step)
    (progress : FIProgress) :
    LoadPixelDataRLE8_loop 1 1 pitch (fuel + 1 + n) (RLE8_deltas n ++ 1 :: v :: rest) 0 0 dib
        step progress =
      LoadPixelDataRLE8_loop 1 1 pitch fuel rest 0 (int32 (b + 1))
        (RLE8_fill_at dib (pitch * 0 + b) v 1) step progress := by
  rw [LoadPixelDataRLE8_loop_deltas 1 1 pitch n (fuel + 1) (1 :: v :: rest) 0 0 dib step progress
    (by norm_num) (by norm_num) (by norm_num) (by norm_num) (by norm_num), Int.zero_add, hb,
    LoadPixelDataRLE8_loop_repeat 1 1 pitch fuel rest 1 v 0 b dib step progress (by norm_num)
      (by norm_num) (by rw [int32_eq _ (by omega) (by omega)]; omega)]
  have hroom : int32 (1 - b) = 1 - b := int32_eq _ (by omega) (by omega)
  have hmin : min ((1 : Nat) : Int) (int32 (1 - b)) = 1 := by
    rw [hroom]
    omega
  rw [hmin]
  rfl

/-- C25 (divergence): for an image of one pixel, the stream of 8421505 delta escapes
`(0, 2, 255, 0)` followed by the repeat token `(1, v)` drives the `int` column cursor of
`LoadPixelDataRLE8` past `2 ^ 31 - 1`, where it wraps to -2147483521; the repeat token is then
neither cut nor rejected but stored at that column, before the start of the bitmap, and with
the end-of-bitmap pair behind it the decoder returns the bitmap without the pixel. -/
theorem C25_store_out_of_range (v pitch fuel : Nat) (rest dib : List Nat) (step : Step)
    (progress : FIProgress) :
    LoadPixelDataRLE8_loop 1 1 pitch (fuel + 1 + 8421505) (RLE8_deltas 8421505 ++ 1 :: v :: rest)
        0 0 dib step progress =
      LoadPixelDataRLE8_loop 1 1 pitch fuel rest 0 (-2147483520)
        (RLE8_fill_at dib (pitch * 0 + -2147483521) v 1) step progress ∧
    LoadPixelDataRLE8 (RLE8_deltas 8421505 ++ [1, v, 0, 1]) 1 1 8 dib pitch progress =
      .ok (some dib) := by
  have hb : int32 (255 * ((8421505 : Nat) : Int)) = -2147483521 := by
    unfold int32
    norm_num
  have h1 : int32 (-2147483521 + 1) = -2147483520 := by
    unfold int32
    norm_num
  have hw := fun fuel rest step progress =>
    LoadPixelDataRLE8_loop_wraps 8421505 (-2147483521) hb (by norm_num) v pitch fuel rest dib
      step progress
  simp only [h1] at hw
  refine ⟨hw fuel rest step progress, ?_⟩
  unfold LoadPixelDataRLE8
  rw [if_neg (by decide)]
  simp only [Int.natAbs_one, List.length_append, RLE8_deltas_length, List.length_cons,
    List.length_nil]
  have e : 4 * 8421505 + (0 + 1 + 1 + 1 + 1) + 1 = (3 * 8421505 + 3 + 1) + 1 + 8421505 := by
    norm_num
  rw [e, hw, LoadPixelDataRLE8_loop_eob _ _ _ _ _ _ _ _ _ _ (by norm_num)]
  have hf : RLE8_fill_at dib ((pitch : Int) * 0 + -2147483521) v 1 = dib := by
    unfold RLE8_fill_at
    have e1 : (-((pitch : Int) * 0 + -2147483521)).toNat = 2147483521 := by
      simp
    rw [e1]
    rfl
  rw [hf]

/-! ### The pad byte of an absolute run -/

/-- C27 counterexample: in a row of three pixels the absolute run `(0, 4)` is cut to three
literal bytes, an odd number, and no pad byte is consumed after them: the pair `(0, 1)` right
behind the three literals is read as the end of the bitmap, and with a pad byte `9` in between
the decoder takes `9` for the next status byte and fails. -/
theorem C27_counterexample :
    LoadPixelDataRLE8 [0, 4, 1, 2, 3, 0, 1] 3 1 8 [0, 0, 0, 0] 4 (FIProgress.create 0 none) =
      .ok (some [1, 2, 3, 0]) ∧
    LoadPixelDataRLE8 [0, 4, 1, 2, 3, 9, 0, 1] 3 1 8 [0, 0, 0, 0] 4 (FIProgress.create 0 none) =
      .error .errmsgRLE8 := by
  constructor
  · rfl
  · rfl

/-- C27 (amended): for an absolute run `(0, n)` with `n >= 3`, `LoadPixelDataRLE8` consumes
`count = min(n, width - column)` literal bytes (one at least) and then one pad byte exactly
when the declared length `n` is odd, which is the parity of the literal bytes consumed when
the run is not cut (`count = n`); `LoadPixelDataRLE4` cuts the run to the `m` samples that the
scratch buffer has room for, consumes `(m + 1) / 2` literal bytes and then one pad byte
exactly when that number of literal bytes is odd. -/
theorem C27_absolute_run_padding (width : Int) (height : Nat) (n : Nat) (stream2 : List Nat)
    (scanline bits : Int) (step : Step) (progress : FIProgress) (hs : scanline < height)
    (h3 : 3 ≤ n) :
    (∀ (pitch fuel count : Nat) (dib : List Nat),
      (count : Int) = min (n : Int) (int32 (width - bits)) → 1 ≤ count →
      count + n % 2 ≤ stream2.length →
      LoadPixelDataRLE8_loop width height pitch (fuel + 1) (0 :: n :: stream2) scanline bits dib
          step progress =
        LoadPixelDataRLE8_loop width height pitch fuel (stream2.drop (count + n % 2)) scanline
          (int32 (bits + n)) (RLE8_store_at dib (pitch * scanline + bits) (stream2.take count))
          step progress) ∧
    (∀ (end_ q : Int) (fuel m : Nat) (pixels : List Nat), q < end_ →
      (m : Int) = min (n : Int) (end_ - q) →
      (m + 1) / 2 + ((m + 1) / 2) % 2 ≤ stream2.length →
      ∃ pixels1,
        RLE4_absolute m 0 q 0 stream2 pixels = some (pixels1, stream2.drop ((m + 1) / 2)) ∧
        LoadPixelDataRLE4_loop width height end_ (fuel + 1) (0 :: n :: stream2) scanline bits q
            pixels step progress =
          LoadPixelDataRLE4_loop width height end_ fuel
            (stream2.drop ((m + 1) / 2 + ((m + 1) / 2) % 2)) scanline (int32 (bits + m))
            (q + m) pixels1 step progress) := by
  constructor
  · intro pitch fuel count dib hcount h1 hlen
    exact LoadPixelDataRLE8_loop_absolute width height pitch fuel n stream2 scanline bits dib
      step progress hs h3 count hcount h1 hlen
  · intro end_ q fuel m pixels hq hm hlen
    exact LoadPixelDataRLE4_loop_absolute width height end_ fuel n stream2 scanline bits q pixels
      step progress hs hq h3 m hm hlen

/-- C27 witness: the absolute run `(0, 3)` with its literals `1 2 3` and the pad byte `9` at
the start of a row of four pixels. -/
theorem C27_absolute_run_padding_witness :
    LoadPixelDataRLE8_loop 4 1 4 (0 + 1) (0 :: 3 :: [1, 2, 3, 9, 0, 1]) 0 0 [0, 0, 0, 0]
        (FIProgress.getStepProgress (FIProgress.create 0 none) 1 FI_MAX_PROGRESS)
        (FIProgress.create 0 none) =
      LoadPixelDataRLE8_loop 4 1 4 0 (([1, 2, 3, 9, 0, 1] : List Nat).drop (3 + 3 % 2)) 0
        (int32 (0 + (3 : Nat)))
        (RLE8_store_at [0, 0, 0, 0] (((4 : Nat) : Int) * 0 + 0)
          (([1, 2, 3, 9, 0, 1] : List Nat).take 3))
        (FIProgress.getStepProgress (FIProgress.create 0 none) 1 FI_MAX_PROGRESS)
        (FIProgress.create 0 none) :=
  (C27_absolute_run_padding 4 1 3 [1, 2, 3, 9, 0, 1] 0 0
    (FIProgress.getStepProgress (FIProgress.create 0 none) 1 FI_MAX_PROGRESS)
    (FIProgress.create 0 none) (by decide) (by decide)).1 4 0 3 [0, 0, 0, 0] (by decide)
    (by decide) (by decide)

/-! ### Streams that end inside a token -/

theorem LoadPixelDataRLE8_loop_cut (width : Int) (height pitch fuel : Nat) (stream : List Nat)
    (scanline bits : Int) (dib : List Nat) (step : Step) (progress : FIProgress)
    (hs : scanline < height) (hcut : RLE8_cut (int32 (width - bits)) stream) :
    LoadPixelDataRLE8_loop width height pitch (fuel + 1) stream scanline bits dib step progress =
      .error .errmsgRLE8 := by
  rw [LoadPixelDataRLE8_loop_succ, if_pos hs]
  cases hcut with
  | status => rfl
  | second c =>
    by_cases hc : c = RLE_COMMAND
    · simp only [hc, if_true]
    · simp only [hc, if_false]
      split_ifs <;> rfl
  | delta_x => simp [RLE_COMMAND, RLE_ENDOFLINE, RLE_ENDOFBITMAP, RLE_DELTA]
  | delta_y dx => simp [RLE_COMMAND, RLE_ENDOFLINE, RLE_ENDOFBITMAP, RLE_DELTA]
  | literal n lits h3 h =>
    have h0 : ¬ n = RLE_ENDOFLINE := by simp only [RLE_ENDOFLINE]; omega
    have h1 : ¬ n = RLE_ENDOFBITMAP := by simp only [RLE_ENDOFBITMAP]; omega
    have h2 : ¬ n = RLE_DELTA := by simp only [RLE_DELTA]; omega
    simp only [RLE_COMMAND, if_true, if_neg h0, if_neg h1, if_neg h2]
    by_cases ha : min (n : Int) (int32 (width - bits)) < 0
    · rw [if_pos ha]
    · rw [if_neg ha, if_pos (Or.inr h)]
  | pad n lits h3 hodd h =>
    have h0 : ¬ n = RLE_ENDOFLINE := by simp only [RLE_ENDOFLINE]; omega
    have h1 : ¬ n = RLE_ENDOFBITMAP := by simp only [RLE_ENDOFBITMAP]; omega
    have h2 : ¬ n = RLE_DELTA := by simp only [RLE_DELTA]; omega
    simp only [RLE_COMMAND, if_true, if_neg h0, if_neg h1, if_neg h2, if_pos hodd]
    by_cases ha : min (n : Int) (int32 (width - bits)) < 0
    · rw [if_pos ha]
    · rw [if_neg ha]
      by_cases hb : min (n : Int) (int32 (width - bits)) = 0 ∨
          lits.length < (min (n : Int) (int32 (width - bits))).toNat
      · rw [if_pos hb]
      · rw [if_neg hb, ← h, List.drop_length]

theorem LoadPixelDataRLE4_loop_cut (width : Int) (height : Nat) (end_ : Int) (fuel : Nat)
    (stream : List Nat) (scanline bits q : Int) (pixels : List Nat) (step : Step)
    (progress : FIProgress) (hs : scanline < height) (hq : q < end_)
    (hcut : RLE4_cut (end_ - q) stream) :
    LoadPixelDataRLE4_loop width height end_ (fuel + 1) stream scanline bits q pixels step
      progress = .error .errmsgRLE4 := by
  rw [LoadPixelDataRLE4_loop_succ, if_pos hs, if_neg (not_le.mpr hq)]
  cases hcut with
  | status => rfl
  | second c =>
    by_cases hc : c = 0
    · simp only [hc, ne_eq, not_true_eq_false, if_false]
    · simp only [ne_eq, hc, not_false_eq_true, if_true]
  | delta_x => simp [RLE_ENDOFLINE, RLE_ENDOFBITMAP, RLE_DELTA]
  | delta_y dx => simp [RLE_ENDOFLINE, RLE_ENDOFBITMAP, RLE_DELTA]
  | literal n lits h3 h =>
    have h0 : ¬ n = RLE_ENDOFLINE := by simp only [RLE_ENDOFLINE]; omega
    have h1 : ¬ n = RLE_ENDOFBITMAP := by simp only [RLE_ENDOFBITMAP]; omega
    have h2 : ¬ n = RLE_DELTA := by simp only [RLE_DELTA]; omega
    simp only [ne_eq, not_true_eq_false, if_false, if_neg h0, if_neg h1, if_neg h2]
    rw [RLE4_absolute_none _ 0 q 0 lits pixels (by simpa using h)]
  | pad n lits h3 hodd h =>
    have h0 : ¬ n = RLE_ENDOFLINE := by simp only [RLE_ENDOFLINE]; omega
    have h1 : ¬ n = RLE_ENDOFBITMAP := by simp only [RLE_ENDOFBITMAP]; omega
    have h2 : ¬ n = RLE_DELTA := by simp only [RLE_DELTA]; omega
    simp only [ne_eq, not_true_eq_false, if_false, if_neg h0, if_neg h1, if_neg h2]
    obtain ⟨p1, hp1⟩ := RLE4_absolute_some (min (n : Int) (end_ - q)).toNat 0 q 0 lits pixels
      (by simp only [Nat.zero_add, Nat.one_mod]; omega)
    simp only [Nat.zero_add, Nat.one_mod] at hp1
    rw [hp1]
    simp only
    have hm : ((min (n : Int) (end_ - q)).toNat : Int) = min (n : Int) (end_ - q) :=
      Int.toNat_of_nonneg (by omega)
    rw [if_pos (by omega), ← h, List.drop_length]

/-- C22: when the bytes left for `LoadPixelDataRLE8` or `LoadPixelDataRLE4` end inside a token
while the decoding loop still runs (before the status byte, the run value, the escape code, a
delta operand, a literal byte or the pad byte), the decoder throws its error message, so no
image is returned; in particular both fail on the empty stream for every width and height of
1 or more (for the RLE-4 decoder: whose product is an `int`). -/
theorem C22_rle_short_read (width : Int) (height fuel : Nat) (stream : List Nat)
    (scanline bits : Int) (step : Step) (progress : FIProgress) (hs : scanline < height) :
    (∀ (pitch : Nat) (dib : List Nat), RLE8_cut (int32 (width - bits)) stream →
      LoadPixelDataRLE8_loop width height pitch (fuel + 1) stream scanline bits dib step
        progress = .error .errmsgRLE8) ∧
    (∀ (end_ q : Int) (pixels : List Nat), q < end_ → RLE4_cut (end_ - q) stream →
      LoadPixelDataRLE4_loop width height end_ (fuel + 1) stream scanline bits q pixels step
        progress = .error .errmsgRLE4) ∧
    (∀ (w h : Int) (pitch : Nat) (dib : List Nat), h ≠ 0 →
      LoadPixelDataRLE8 [] w h 8 dib pitch progress = .error .errmsgRLE8) ∧
    (∀ (w h : Int) (pitch : Nat) (dib : List Nat), 1 ≤ w → h ≠ 0 → w * h.natAbs < 2 ^ 31 →
      LoadPixelDataRLE4 [] w h 4 dib pitch progress = .error .errmsgRLE4) := by
  refine ⟨?_, ?_, ?_, ?_⟩
  · intro pitch dib hcut
    exact LoadPixelDataRLE8_loop_cut width height pitch fuel stream scanline bits dib step
      progress hs hcut
  · intro end_ q pixels hq hcut
    exact LoadPixelDataRLE4_loop_cut width height end_ fuel stream scanline bits q pixels step
      progress hs hq hcut
  · intro w h pitch dib hh
    unfold LoadPixelDataRLE8
    rw [if_neg (by decide)]
    exact LoadPixelDataRLE8_loop_cut w h.natAbs pitch 0 [] 0 0 dib _ progress (by omega)
      RLE8_cut.status
  · intro w h pitch dib hw hh hwh
    unfold LoadPixelDataRLE4
    rw [if_neg (by decide)]
    have hpos : (1 : Int) ≤ w * h.natAbs := by
      have h1 : (1 : Int) ≤ h.natAbs := by omega
      nlinarith
    have hsize : int32 (w * h.natAbs) = w * h.natAbs := int32_eq _ (by omega) hwh
    simp only [hsize]
    rw [if_neg (by omega)]
    rw [show ([] : List Nat).length + 1 = 0 + 1 from rfl,
      LoadPixelDataRLE4_loop_cut w h.natAbs (w * h.natAbs) 0 [] 0 0 0 _ _ progress (by omega)
        (by omega) RLE4_cut.status]

/-- C22 witness: the RLE-8 decoder on a stream that ends after the count byte of a repeat
token. -/
theorem C22_rle_short_read_witness :
    LoadPixelDataRLE8_loop 4 1 4 (0 + 1) [5] 0 0 [0, 0, 0, 0]
      (FIProgress.getStepProgress (FIProgress.create 0 none) 1 FI_MAX_PROGRESS)
      (FIProgress.create 0 none) = .error .errmsgRLE8 :=
  (C22_rle_short_read 4 1 0 [5] 0 0
    (FIProgress.getStepProgress (FIProgress.create 0 none) 1 FI_MAX_PROGRESS)
    (FIProgress.create 0 none) (by decide)).1 4 [0, 0, 0, 0] (RLE8_cut.second 5)

/-! ### The delta escape -/

/-- C24: the delta escape `(0, 2, dx, dy)` adds `dx` to the column and `dy` to the row of the
cursor and changes no pixel, in `LoadPixelDataRLE8` and in `LoadPixelDataRLE4` (whose write
pointer goes to row `row + dy`, column `column + dx` of the scratch buffer); a repeat token
that follows it and fits in the image is written from column `column + dx` of row `row + dy`
on. The cursor is an `int` (the sums are below `2 ^ 31`) and the progress callback does not
cancel. -/
theorem C24_delta_escape (w height scanline bits dx dy : Nat) (rest : List Nat) (step : Step)
    (progress : FIProgress) (hs : scanline < height) (hnc : progress.neverCancels)
    (hrow : scanline + dy < 2 ^ 31) (hcol : bits + dx < 2 ^ 31) :
    ∃ r : Step × FIProgress, RLE8_delta_steps dy step progress = some r ∧
      (∀ (pitch fuel : Nat) (dib : List Nat),
        LoadPixelDataRLE8_loop (w : Int) height pitch (fuel + 1) (0 :: 2 :: dx :: dy :: rest)
            (scanline : Nat) (bits : Nat) dib step progress =
          LoadPixelDataRLE8_loop (w : Int) height pitch fuel rest ((scanline + dy : Nat) : Int)
            ((bits + dx : Nat) : Int) dib r.1 r.2) ∧
      (∀ (pitch fuel c v : Nat) (rest1 dib : List Nat), rest = c :: v :: rest1 → 1 ≤ c →
        scanline + dy < height → bits + dx + c ≤ w → w < 2 ^ 31 →
        LoadPixelDataRLE8_loop (w : Int) height pitch (fuel + 1 + 1)
            (0 :: 2 :: dx :: dy :: rest) (scanline : Nat) (bits : Nat) dib step progress =
          LoadPixelDataRLE8_loop (w : Int) height pitch fuel rest1 ((scanline + dy : Nat) : Int)
            ((bits + dx + c : Nat) : Int)
            (RLE8_store dib (pitch * (scanline + dy) + (bits + dx)) (List.replicate c v))
            r.1 r.2) ∧
      (∀ (end_ q : Int) (fuel : Nat) (pixels : List Nat), q < end_ →
        (scanline + dy) * w < 2 ^ 31 →
        LoadPixelDataRLE4_loop (w : Int) height end_ (fuel + 1) (0 :: 2 :: dx :: dy :: rest)
            (scanline : Nat) (bits : Nat) q pixels step progress =
          LoadPixelDataRLE4_loop (w : Int) height end_ fuel rest ((scanline + dy : Nat) : Int)
            ((bits + dx : Nat) : Int) (((scanline + dy) * w + (bits + dx) : Nat) : Int) pixels
            r.1 r.2) ∧
      (∀ (end_ q : Int) (fuel c v : Nat) (rest1 pixels : List Nat), rest = c :: v :: rest1 →
        1 ≤ c → scanline + dy < height → q < end_ → end_ < 2 ^ 31 →
        (((scanline + dy) * w + (bits + dx) + c : Nat) : Int) ≤ end_ →
        LoadPixelDataRLE4_loop (w : Int) height end_ (fuel + 1 + 1)
            (0 :: 2 :: dx :: dy :: rest) (scanline : Nat) (bits : Nat) q pixels step progress =
          LoadPixelDataRLE4_loop (w : Int) height end_ fuel rest1 ((scanline + dy : Nat) : Int)
            ((bits + dx + c : Nat) : Int) (((scanline + dy) * w + (bits + dx) + c : Nat) : Int)
            (RLE4_fill v c 0 (((scanline + dy) * w + (bits + dx) : Nat) : Int) pixels)
            r.1 r.2) := by
  obtain ⟨r, hr, _⟩ := RLE8_delta_steps_neverCancels dy step progress hnc
  have hs1 : ((scanline : Nat) : Int) < ((height : Nat) : Int) := by omega
  have hsc : int32 ((scanline : Int) + (dy : Int)) = ((scanline + dy : Nat) : Int) := by
    rw [int32_eq _ (by omega) (by omega)]
    push_cast
    rfl
  have hbi : int32 ((bits : Int) + (dx : Int)) = ((bits + dx : Nat) : Int) := by
    rw [int32_eq _ (by omega) (by omega)]
    push_cast
    rfl
  have h8 : ∀ (pitch fuel : Nat) (dib : List Nat),
      LoadPixelDataRLE8_loop (w : Int) height pitch (fuel + 1) (0 :: 2 :: dx :: dy :: rest)
          (scanline : Nat) (bits : Nat) dib step progress =
        LoadPixelDataRLE8_loop (w : Int) height pitch fuel rest ((scanline + dy : Nat) : Int)
          ((bits + dx : Nat) : Int) dib r.1 r.2 := by
    intro pitch fuel dib
    rw [LoadPixelDataRLE8_loop_delta (w : Int) height pitch fuel rest dx dy scanline bits dib
      step progress r hs1 hr, hsc, hbi]
  have h4 : ∀ (end_ q : Int) (fuel : Nat) (pixels : List Nat), q < end_ →
      (scanline + dy) * w < 2 ^ 31 →
      LoadPixelDataRLE4_loop (w : Int) height end_ (fuel + 1) (0 :: 2 :: dx :: dy :: rest)
          (scanline : Nat) (bits : Nat) q pixels step progress =
        LoadPixelDataRLE4_loop (w : Int) height end_ fuel rest ((scanline + dy : Nat) : Int)
          ((bits + dx : Nat) : Int) (((scanline + dy) * w + (bits + dx) : Nat) : Int) pixels
          r.1 r.2 := by
    intro end_ q fuel pixels hq hmul
    have hq1 : int32 (((scanline + dy : Nat) : Int) * (w : Int)) =
        (((scanline + dy) * w : Nat) : Int) := by
      rw [← Nat.cast_mul]
      exact int32_eq _ (by omega) (by exact_mod_cast hmul)
    rw [LoadPixelDataRLE4_loop_delta (w : Int) height end_ fuel rest dx dy scanline bits q
      pixels step progress r hs1 hq hr, hsc, hbi, hq1, ← Nat.cast_add]
  refine ⟨r, hr, h8, ?_, h4, ?_⟩
  · intro pitch fuel c v rest1 dib hrest hc hs2 hfit hw
    subst hrest
    rw [h8, LoadPixelDataRLE8_loop_run w height pitch fuel c v rest1 (scanline + dy) (bits + dx)
      dib r.1 r.2 hw hs2 hc hfit]
  · intro end_ q fuel c v rest1 pixels hrest hc hs2 hq hend hfit
    subst hrest
    have hmul : (scanline + dy) * w < 2 ^ 31 := by
      have : (((scanline + dy) * w + (bits + dx) + c : Nat) : Int) < 2 ^ 31 := by omega
      have h2 : (scanline + dy) * w + (bits + dx) + c < 2 ^ 31 := by exact_mod_cast this
      omega
    have hs3 : (((scanline + dy : Nat)) : Int) < ((height : Nat) : Int) := by omega
    have hq2 : (((scanline + dy) * w + (bits + dx) : Nat) : Int) < end_ := by
      push_cast at hfit ⊢
      omega
    rw [h4 end_ q (fuel + 1) pixels hq hmul,
      LoadPixelDataRLE4_loop_repeat (w : Int) height end_ fuel rest1 c v _ _ _ pixels r.1 r.2
        hs3 hq2 (by omega)]
    have hmin : min (c : Int) (end_ - (((scanline + dy) * w + (bits + dx) : Nat) : Int)) =
        (c : Int) := by
      push_cast at hfit ⊢
      omega
    rw [hmin, Int.toNat_ofNat]
    have hb2 : int32 (((bits + dx : Nat) : Int) + (c : Int)) = ((bits + dx + c : Nat) : Int) := by
      rw [int32_eq _ (by omega) (by push_cast at hfit hend ⊢; nlinarith [Nat.zero_le ((scanline + dy) * w)])]
      push_cast
      rfl
    rw [hb2, ← Nat.cast_add]

/-- C24 witness: the delta `(0, 2, 1, 1)` at the start of an image of 4 by 2 pixels, followed
by the repeat token `(2, 7)`: the two pixels go to the columns 1 and 2 of row 1. -/
theorem C24_delta_escape_witness :
    ∃ r : Step × FIProgress,
      LoadPixelDataRLE8_loop ((4 : Nat) : Int) 2 4 (0 + 1 + 1) (0 :: 2 :: 1 :: 1 :: [2, 7, 0, 1])
          ((0 : Nat) : Int) ((0 : Nat) : Int) [0, 0, 0, 0, 0, 0, 0, 0]
          (FIProgress.getStepProgress (FIProgress.create 0 none) 2 FI_MAX_PROGRESS)
          (FIProgress.create 0 none) =
        LoadPixelDataRLE8_loop ((4 : Nat) : Int) 2 4 0 [0, 1] ((0 + 1 : Nat) : Int)
          ((0 + 1 + 2 : Nat) : Int)
          (RLE8_store [0, 0, 0, 0, 0, 0, 0, 0] (4 * (0 + 1) + (0 + 1)) (List.replicate 2 7))
          r.1 r.2 :=
  let ⟨r, _, _, h, _⟩ := C24_delta_escape 4 2 0 0 1 1 [2, 7, 0, 1]
    (FIProgress.getStepProgress (FIProgress.create 0 none) 2 FI_MAX_PROGRESS)
    (FIProgress.create 0 none) (by decide)
    ⟨rfl, fun f hf => by simp [FIProgress.create] at hf⟩ (by decide) (by decide)
  ⟨r, h 4 0 2 7 [0, 1] [0, 0, 0, 0, 0, 0, 0, 0] rfl (by decide) (by decide) (by decide)
    (by decide)⟩

/-! ### The scratch buffer of the RLE-4 decoder -/

theorem RLE4_sample_lt (second_byte i : Nat) : RLE4_sample second_byte i < 16 := by
  unfold RLE4_sample
  split_ifs <;> omega

theorem RLE4_put_length (pixels : List Nat) (q : Int) (v : Nat) :
    (RLE4_put pixels q v).length = pixels.length := by
  unfold RLE4_put
  split_ifs
  · rw [List.length_set]
  · rfl

theorem RLE4_put_getD_ne (pixels : List Nat) (q : Int) (v k : Nat) (h : (k : Int) ≠ q) :
    (RLE4_put pixels q v).getD k 0 = pixels.getD k 0 := by
  unfold RLE4_put
  split_ifs with h0
  · rw [List.getD_eq_getElem?_getD, List.getD_eq_getElem?_getD,
      List.getElem?_set_ne (by omega)]
  · rfl

theorem RLE4_put_getD_eq (pixels : List Nat) (q : Int) (v k : Nat) (h : (k : Int) = q)
    (hk : k < pixels.length) : (RLE4_put pixels q v).getD k 0 = v := by
  unfold RLE4_put
  rw [if_pos (by omega)]
  have e : q.toNat = k := by omega
  rw [e, List.getD_eq_getElem?_getD, List.getElem?_set_self hk]
  rfl

theorem RLE4_put_small (pixels : List Nat) (q : Int) (v : Nat) (hv : v < 16)
    (h : RLE4_small pixels) : RLE4_small (RLE4_put pixels q v) := by
  intro k
  by_cases hk : (k : Int) = q
  · by_cases hl : k < pixels.length
    · rw [RLE4_put_getD_eq pixels q v k hk hl]
      exact hv
    · rw [List.getD_eq_getElem?_getD, List.getElem?_eq_none (by rw [RLE4_put_length]; omega)]
      decide
  · rw [RLE4_put_getD_ne pixels q v k hk]
    exact h k

theorem RLE4_fill_length (v n i : Nat) (q : Int) (pixels : List Nat) :
    (RLE4_fill v n i q pixels).length = pixels.length := by
  induction n generalizing i q pixels with
  | zero => rfl
  | succ n ih => rw [RLE4_fill, ih, RLE4_put_length]

/-- The encoded-mode loop leaves the scratch buffer below its write pointer as it is. -/
theorem RLE4_fill_getD_lt (v n i : Nat) (q : Int) (pixels : List Nat) (k : Nat)
    (h : (k : Int) < q) : (RLE4_fill v n i q pixels).getD k 0 = pixels.getD k 0 := by
  induction n generalizing i q pixels with
  | zero => rfl
  | succ n ih => rw [RLE4_fill, ih _ _ _ (by omega), RLE4_put_getD_ne _ _ _ _ (by omega)]

theorem RLE4_fill_small (v n i : Nat) (q : Int) (pixels : List Nat) (h : RLE4_small pixels) :
    RLE4_small (RLE4_fill v n i q pixels) := by
  induction n generalizing i q pixels with
  | zero => exact h
  | succ n ih =>
    rw [RLE4_fill]
    exact ih _ _ _ (RLE4_put_small _ _ _ (RLE4_sample_lt _ _) h)

/-- The samples that the encoded-mode loop writes: sample `j` of the run is at offset
`q + j`. -/
theorem RLE4_fill_getD (v n i : Nat) (q : Nat) (pixels : List Nat) (j : Nat) (hj : j < n)
    (hfit : q + n ≤ pixels.length) :
    (RLE4_fill v n i (q : Int) pixels).getD (q + j) 0 = RLE4_sample v (i + j) := by
  induction n generalizing i q pixels j with
  | zero => omega
  | succ n ih =>
    rw [RLE4_fill]
    cases j with
    | zero =>
      rw [RLE4_fill_getD_lt _ _ _ _ _ _ (by omega)]
      exact RLE4_put_getD_eq pixels (q : Int) _ (q + 0) (by omega) (by omega)
    | succ j =>
      have := ih (i + 1) (q + 1) (RLE4_put pixels q (RLE4_sample v i)) j (by omega)
        (by rw [RLE4_put_length]; omega)
      rw [show q + (j + 1) = q + 1 + j by omega, show i + (j + 1) = i + 1 + j by omega, ← this]
      rfl

/-- The absolute-mode loop keeps the length of the scratch buffer, leaves it below its write
pointer as it is, and writes 4-bit samples. -/
theorem RLE4_absolute_spec (n i : Nat) (q : Int) (second_byte : Nat) (stream pixels : List Nat)
    (pixels1 stream1 : List Nat)
    (h : RLE4_absolute n i q second_byte stream pixels = some (pixels1, stream1)) :
    pixels1.length = pixels.length ∧
    (∀ k : Nat, (k : Int) < q → pixels1.getD k 0 = pixels.getD k 0) ∧
    (RLE4_small pixels → RLE4_small pixels1) ∧
    (∀ x ∈ stream1, x ∈ stream) := by
  induction n generalizing i q second_byte stream pixels with
  | zero =>
    simp only [RLE4_absolute, Option.some.injEq, Prod.mk.injEq] at h
    rw [← h.1, ← h.2]
    exact ⟨rfl, fun _ _ => rfl, fun hs => hs, fun _ hx => hx⟩
  | succ n ih =>
    unfold RLE4_absolute at h
    by_cases hi : i % 2 = 0
    · rw [if_pos hi] at h
      cases stream with
      | nil => simp at h
      | cons b s1 =>
        simp only at h
        obtain ⟨h1, h2, h3, h4⟩ := ih _ _ _ _ _ h
        refine ⟨by rw [h1, RLE4_put_length], ?_, ?_, ?_⟩
        · intro k hk
          rw [h2 k (by omega), RLE4_put_getD_ne _ _ _ _ (by omega)]
        · intro hs
          exact h3 (RLE4_put_small _ _ _ (RLE4_sample_lt _ _) hs)
        · intro x hx
          exact List.mem_cons_of_mem _ (h4 x hx)
    · rw [if_neg hi] at h
      obtain ⟨h1, h2, h3, h4⟩ := ih _ _ _ _ _ h
      refine ⟨by rw [h1, RLE4_put_length], ?_, ?_, h4⟩
      · intro k hk
        rw [h2 k (by omega), RLE4_put_getD_ne _ _ _ _ (by omega)]
      · intro hs
        exact h3 (RLE4_put_small _ _ _ (RLE4_sample_lt _ _) hs)

/-- A schema for the RLE-4 decoding loop: a property of the cursor and the scratch buffer that
every kind of token keeps holds when the loop ends. -/
theorem LoadPixelDataRLE4_loop_inv (width : Int) (height : Nat) (end_ : Int)
    (Inv : Int → Int → Int → List Nat → Prop)
    (hrep : ∀ (s b q : Int) (px : List Nat) (c v : Nat), Inv s b q px → s < height → q < end_ →
      c ≠ 0 →
      Inv s (int32 (b + min (c : Int) (end_ - q))) (q + min (c : Int) (end_ - q))
        (RLE4_fill v (min (c : Int) (end_ - q)).toNat 0 q px))
    (heol : ∀ (s b q : Int) (px : List Nat), Inv s b q px → s < height → q < end_ →
      Inv (int32 (s + 1)) 0 (int32 (int32 (s + 1) * width)) px)
    (heob : ∀ (s b q : Int) (px : List Nat), Inv s b q px → s < height → q < end_ →
      Inv s b end_ px)
    (hdelta : ∀ (s b q : Int) (px : List Nat) (dx dy : Nat), dx < 256 → dy < 256 →
      Inv s b q px → s < height → q < end_ →
      Inv (int32 (s + dy)) (int32 (b + dx)) (int32 (int32 (s + dy) * width) + int32 (b + dx)) px)
    (habs : ∀ (s b q : Int) (px : List Nat) (n : Nat) (stream2 px1 stream3 : List Nat),
      Inv s b q px → s < height → q < end_ → 3 ≤ n →
      RLE4_absolute (min (n : Int) (end_ - q)).toNat 0 q 0 stream2 px = some (px1, stream3) →
      Inv s (int32 (b + min (n : Int) (end_ - q))) (q + min (n : Int) (end_ - q)) px1) :
    ∀ (fuel : Nat) (stream : List Nat) (s b q : Int) (px : List Nat) (step : Step)
      (progress : FIProgress) (res : List Nat), (∀ x ∈ stream, x < 256) → Inv s b q px →
      LoadPixelDataRLE4_loop width height end_ fuel stream s b q px step progress =
        .ok (some res) →
      ∃ s1 b1 q1, Inv s1 b1 q1 res := by
  intro fuel
  induction fuel with
  | zero =>
    intro stream s b q px step progress res _ _ h
    simp [LoadPixelDataRLE4_loop] at h
  | succ fuel ih =>
    intro stream s b q px step progress res hb hinv h
    rw [LoadPixelDataRLE4_loop_succ] at h
    by_cases hs : s < height
    swap
    · rw [if_neg hs] at h
      simp only [Except.ok.injEq, Option.some.injEq] at h
      exact ⟨s, b, q, h ▸ hinv⟩
    rw [if_pos hs] at h
    by_cases hq : q ≥ end_
    · rw [if_pos hq] at h
      simp only at h
      split_ifs at h
      · simp at h
      · simp only [Except.ok.injEq, Option.some.injEq] at h
        exact ⟨s, b, q, h ▸ hinv⟩
    rw [if_neg hq] at h
    have hq1 : q < end_ := not_le.mp hq
    cases stream with
    | nil => simp at h
    | cons c stream1 =>
      simp only at h
      by_cases hc : c ≠ 0
      · rw [if_pos hc] at h
        cases stream1 with
        | nil => simp at h
        | cons v stream2 =>
          simp only at h
          exact ih _ _ _ _ _ _ _ _ (fun x hx => hb x (by simp [hx])) (hrep s b q px c v hinv hs hq1 hc) h
      · rw [if_neg hc] at h
        cases stream1 with
        | nil => simp at h
        | cons n stream2 =>
          simp only at h
          by_cases h0 : n = RLE_ENDOFLINE
          · rw [if_pos h0] at h
            split_ifs at h
            · simp at h
            · exact ih _ _ _ _ _ _ _ _ (fun x hx => hb x (by simp [hx])) (heol s b q px hinv hs hq1) h
          rw [if_neg h0] at h
          by_cases h1 : n = RLE_ENDOFBITMAP
          · rw [if_pos h1] at h
            exact ih _ _ _ _ _ _ _ _ (fun x hx => hb x (by simp [hx])) (heob s b q px hinv hs hq1) h
          rw [if_neg h1] at h
          by_cases h2 : n = RLE_DELTA
          · rw [if_pos h2] at h
            cases stream2 with
            | nil => simp at h
            | cons dx stream3 =>
              cases stream3 with
              | nil => simp at h
              | cons dy stream4 =>
                simp only at h
                cases hr : RLE8_delta_steps dy step progress with
                | none =>
                  rw [hr] at h
                  simp at h
                | some r =>
                  rw [hr] at h
                  simp only at h
                  exact ih _ _ _ _ _ _ _ _ (fun x hx => hb x (by simp [hx]))
                    (hdelta s b q px dx dy (hb dx (by simp)) (hb dy (by simp)) hinv hs hq1) h
          rw [if_neg h2] at h
          have h3 : 3 ≤ n := by
            simp only [RLE_ENDOFLINE, RLE_ENDOFBITMAP, RLE_DELTA] at h0 h1 h2
            omega
          cases ha : RLE4_absolute (min (n : Int) (end_ - q)).toNat 0 q 0 stream2 px with
          | none =>
            rw [ha] at h
            simp at h
          | some r =>
            obtain ⟨px1, stream3⟩ := r
            rw [ha] at h
            simp only at h
            have hinv1 := habs s b q px n stream2 px1 stream3 hinv hs hq1 h3 ha
            have hmem := (RLE4_absolute_spec _ _ _ _ _ _ _ _ ha).2.2.2
            have hb3 : ∀ x ∈ stream3, x < 256 := fun x hx => hb x (by simp [hmem x hx])
            split_ifs at h
            · cases stream3 with
              | nil => simp at h
              | cons pad stream4 =>
                simp only at h
                exact ih _ _ _ _ _ _ _ _ (fun x hx => hb3 x (by simp [hx])) hinv1 h
            · exact ih _ _ _ _ _ _ _ _ hb3 hinv1 h

/-! ### The conversion of the scratch buffer to 4 bits -/

theorem RLE4_get_lt (pixels : List Nat) (q : Int) (h : RLE4_small pixels) :
    RLE4_get pixels q < 16 := by
  unfold RLE4_get
  split_ifs
  · exact h _
  · decide

theorem lor_nibbles (a v : Nat) (_ha : a < 16) (hv : v < 16) : 16 * a ||| v = 16 * a + v :=
  (Nat.mul_add_lt_is_or (show v < 2 ^ 4 from hv) a).symm

theorem getD_set_self (l : List Nat) (k v : Nat) (h : k < l.length) :
    (l.set k v).getD k 0 = v := by
  rw [List.getD_eq_getElem?_getD, List.getElem?_set_self h]
  rfl

theorem getD_set_ne (l : List Nat) (k j v : Nat) (h : k ≠ j) :
    (l.set k v).getD j 0 = l.getD j 0 := by
  rw [List.getD_eq_getElem?_getD, List.getD_eq_getElem?_getD, List.getElem?_set_ne h]

/-- The conversion of one row, from column `cols` on: the bytes outside the row stay, and the
nibbles of the row hold the samples of the scratch buffer. -/
theorem RLE4_convert_cols_spec (pixels : List Nat) (src : Int) (dst : Nat)
    (hsmall : RLE4_small pixels) :
    ∀ (n cols : Nat) (dib : List Nat), dst + (cols + n + 1) / 2 ≤ dib.length →
      (cols % 2 = 1 → ∃ a, a < 16 ∧ dib.getD (dst + cols / 2) 0 = 16 * a) →
      (RLE4_convert_cols pixels src dst n cols dib).length = dib.length ∧
      (∀ k, (k < dst + cols / 2 ∨ dst + (cols + n + 1) / 2 ≤ k) →
        (RLE4_convert_cols pixels src dst n cols dib).getD k 0 = dib.getD k 0) ∧
      (∀ x, cols ≤ x → x < cols + n →
        (if x % 2 = 0 then (RLE4_convert_cols pixels src dst n cols dib).getD (dst + x / 2) 0 / 16
         else (RLE4_convert_cols pixels src dst n cols dib).getD (dst + x / 2) 0 % 16) =
          RLE4_get pixels (src + x)) ∧
      (cols % 2 = 1 →
        (RLE4_convert_cols pixels src dst n cols dib).getD (dst + cols / 2) 0 / 16 =
          dib.getD (dst + cols / 2) 0 / 16) := by
  intro n
  induction n with
  | zero =>
    intro cols dib _ _
    refine ⟨rfl, fun _ _ => rfl, ?_, fun _ => rfl⟩
    intro x h1 h2
    omega
  | succ n ih =>
    intro cols dib hlen hodd
    have hv := RLE4_get_lt pixels (src + cols) hsmall
    rw [RLE4_convert_cols]
    by_cases hc : cols % 2 = 0
    · rw [if_pos hc]
      have hmod : RLE4_get pixels (src + cols) * 16 % 256 = 16 * RLE4_get pixels (src + cols) := by
        omega
      rw [hmod]
      have hcur : dst + cols / 2 < dib.length := by omega
      have e1 : (cols + 1) / 2 = cols / 2 := by omega
      obtain ⟨i1, i2, i3, i4⟩ := ih (cols + 1)
        (dib.set (dst + cols / 2) (16 * RLE4_get pixels (src + cols)))
        (by rw [List.length_set]; omega)
        (fun _ => ⟨RLE4_get pixels (src + cols), hv, by rw [e1, getD_set_self _ _ _ hcur]⟩)
      refine ⟨by rw [i1, List.length_set], ?_, ?_, fun h => by omega⟩
      · intro k hk
        rw [i2 k (by omega), getD_set_ne _ _ _ _ (by omega)]
      · intro x hx1 hx2
        by_cases hx : x = cols
        · subst hx
          rw [if_pos hc]
          have := i4 (by omega)
          rw [e1, getD_set_self _ _ _ hcur] at this
          rw [this]
          omega
        · exact i3 x (by omega) (by omega)
    · rw [if_neg hc]
      obtain ⟨a, ha, hbyte⟩ := hodd (by omega)
      rw [hbyte, lor_nibbles a _ ha hv]
      have hcur : dst + cols / 2 < dib.length := by omega
      obtain ⟨i1, i2, i3, _⟩ := ih (cols + 1)
        (dib.set (dst + cols / 2) (16 * a + RLE4_get pixels (src + cols)))
        (by rw [List.length_set]; omega) (fun h => by omega)
      have hres : (RLE4_convert_cols pixels src dst n (cols + 1)
          (dib.set (dst + cols / 2) (16 * a + RLE4_get pixels (src + cols)))).getD
            (dst + cols / 2) 0 = 16 * a + RLE4_get pixels (src + cols) := by
        rw [i2 _ (by omega), getD_set_self _ _ _ hcur]
      refine ⟨by rw [i1, List.length_set], ?_, ?_, ?_⟩
      · intro k hk
        rw [i2 k (by omega), getD_set_ne _ _ _ _ (by omega)]
      · intro x hx1 hx2
        by_cases hx : x = cols
        · subst hx
          rw [if_neg hc, hres]
          omega
        · exact i3 x (by omega) (by omega)
      · intro _
        rw [hres]
        omega

/-- The conversion of the rows from row `y` on. -/
theorem RLE4_convert_spec (pixels : List Nat) (width : Int) (pitch : Nat)
    (hsmall : RLE4_small pixels) (hpitch : (width.toNat + 1) / 2 ≤ pitch) :
    ∀ (n y : Nat) (dib : List Nat), pitch * (y + n) ≤ dib.length →
      (RLE4_convert pixels width pitch n y dib).length = dib.length ∧
      (∀ k, k < pitch * y → (RLE4_convert pixels width pitch n y dib).getD k 0 = dib.getD k 0) ∧
      (∀ yy x, y ≤ yy → yy < y + n → x < width.toNat →
        RLE4_pixel (RLE4_convert pixels width pitch n y dib) pitch x yy =
          RLE4_get pixels (int32 (yy * width) + x)) := by
  intro n
  induction n with
  | zero =>
    intro y dib _
    refine ⟨rfl, fun _ _ => rfl, ?_⟩
    intro yy x h1 h2
    omega
  | succ n ih =>
    intro y dib hlen
    rw [RLE4_convert]
    have hrow : pitch * (y + 1) = pitch * y + pitch := by rw [Nat.mul_add, Nat.mul_one]
    have hall : pitch * (y + 1) ≤ pitch * (y + (n + 1)) := Nat.mul_le_mul_left _ (by omega)
    obtain ⟨c1, c2, c3, _⟩ := RLE4_convert_cols_spec pixels (int32 (y * width)) (pitch * y)
      hsmall width.toNat 0 dib (by omega) (fun h => by omega)
    obtain ⟨i1, i2, i3⟩ := ih (y + 1)
      (RLE4_convert_cols pixels (int32 (y * width)) (pitch * y) width.toNat 0 dib)
      (by rw [c1, show y + 1 + n = y + (n + 1) by omega]; exact hlen)
    refine ⟨by rw [i1, c1], ?_, ?_⟩
    · intro k hk
      rw [i2 k (by omega), c2 k (by omega)]
    · intro yy x hy1 hy2 hx
      by_cases hy : yy = y
      · subst hy
        unfold RLE4_pixel
        rw [i2 _ (by omega)]
        exact c3 x (by omega) (by omega)
      · exact i3 yy x (by omega) (by omega) hx

/-- Every pixel of the converted bitmap is the sample that the scratch buffer holds for it. -/
theorem RLE4_convert_pixel (pixels : List Nat) (w h pitch : Nat) (dib : List Nat)
    (hsmall : RLE4_small pixels) (hpitch : (w + 1) / 2 ≤ pitch) (hdib : pitch * h ≤ dib.length)
    (hwh : w * h < 2 ^ 31) (x y : Nat) (hx : x < w) (hy : y < h) :
    RLE4_pixel (RLE4_convert pixels (w : Int) pitch h 0 dib) pitch x y =
      pixels.getD (y * w + x) 0 := by
  have hp : ((w : Int).toNat + 1) / 2 ≤ pitch := by
    rw [Int.toNat_ofNat]
    exact hpitch
  have hd : pitch * (0 + h) ≤ dib.length := by
    rw [Nat.zero_add]
    exact hdib
  obtain ⟨_, _, h3⟩ := RLE4_convert_spec pixels (w : Int) pitch hsmall hp h 0 dib hd
  have hxw : x < (w : Int).toNat := by
    rw [Int.toNat_ofNat]
    exact hx
  have h4 := h3 y x (Nat.zero_le _) (by rw [Nat.zero_add]; exact hy) hxw
  rw [h4]
  have hyw : y * w < 2 ^ 31 := by
    have h1 : y * w ≤ h * w := Nat.mul_le_mul_right _ (Nat.le_of_lt hy)
    have h2 : h * w = w * h := Nat.mul_comm h w
    omega
  have e : int32 ((y : Int) * (w : Int)) = ((y * w : Nat) : Int) := by
    rw [← Nat.cast_mul]
    apply int32_eq
    · have : (0 : Int) ≤ ((y * w : Nat) : Int) := Int.ofNat_nonneg _
      omega
    · exact_mod_cast hyw
  rw [e]
  unfold RLE4_get
  have hnn : (0 : Int) ≤ ((y * w : Nat) : Int) + (x : Int) :=
    Int.add_nonneg (Int.ofNat_nonneg _) (Int.ofNat_nonneg _)
  rw [if_pos hnn]
  have ht : (((y * w : Nat) : Int) + (x : Int)).toNat = y * w + x := by
    rw [← Nat.cast_add, Int.toNat_ofNat]
  rw [ht]

/-! ### What a token has written stays -/

/-- The arithmetic facts behind a state of the RLE-4 loop that is still inside the scratch
buffer: the dimensions and the cursor are `int`s. -/
theorem RLE4_kept_facts (w h sn bn : Nat) (hdims : (h + 255) * w + 255 < 2 ^ 31)
    (hlt : sn * w + bn < w * h) :
    1 ≤ w ∧ h + 255 < 2 ^ 31 ∧ w * h + 255 < 2 ^ 31 ∧ sn < h ∧ bn < w * h := by
  have hw : 1 ≤ w := by
    rcases Nat.eq_zero_or_pos w with h0 | h0
    · rw [h0, Nat.zero_mul] at hlt
      omega
    · exact h0
  have h1 : (h + 255) * 1 ≤ (h + 255) * w := Nat.mul_le_mul_left _ hw
  have h2 : h * w ≤ (h + 255) * w := Nat.mul_le_mul_right _ (by omega)
  have h3 : w * h = h * w := Nat.mul_comm w h
  have hsn : sn < h := by
    by_contra hc
    have h4 : h * w ≤ sn * w := Nat.mul_le_mul_right _ (by omega)
    omega
  refine ⟨hw, by omega, by omega, hsn, by omega⟩

theorem RLE4_kept_repeat (w h L : Nat) (P0 : List Nat) (hdims : (h + 255) * w + 255 < 2 ^ 31)
    (s b q : Int) (px : List Nat) (c v : Nat) (hk : RLE4_kept w h L P0 s b q px)
    (hqe : q < ((w * h : Nat) : Int)) :
    RLE4_kept w h L P0 s (int32 (b + min (c : Int) (((w * h : Nat) : Int) - q)))
      (q + min (c : Int) (((w * h : Nat) : Int) - q))
      (RLE4_fill v (min (c : Int) (((w * h : Nat) : Int) - q)).toNat 0 q px) := by
  obtain ⟨sn, bn, hs, hb, hq, hL, hrow, hlen, hsm, hkeep⟩ := hk
  have hq1 : q = ((sn * w + bn : Nat) : Int) := by
    rcases hq with hq | hq
    · exact hq
    · omega
  have hlt : sn * w + bn < w * h := by
    have : ((sn * w + bn : Nat) : Int) < ((w * h : Nat) : Int) := by omega
    exact_mod_cast this
  obtain ⟨_, _, hwh, _, _⟩ := RLE4_kept_facts w h sn bn hdims hlt
  obtain ⟨m, hm⟩ : ∃ m : Nat, (m : Int) = min (c : Int) (((w * h : Nat) : Int) - q) :=
    ⟨min c (w * h - (sn * w + bn)), by omega⟩
  rw [← hm, Int.toNat_ofNat]
  have hmle : sn * w + bn + m ≤ w * h := by omega
  refine ⟨sn, bn + m, hs, ?_, Or.inl (by rw [hq1]; push_cast; ring), by omega, hrow,
    by rw [RLE4_fill_length, hlen], RLE4_fill_small _ _ _ _ _ hsm, ?_⟩
  · rw [hb, int32_eq _ (by omega) (by omega)]
    push_cast
    rfl
  · intro k hk
    rw [RLE4_fill_getD_lt _ _ _ _ _ _ (by omega), hkeep k hk]

theorem RLE4_kept_eol (w h L : Nat) (P0 : List Nat) (hdims : (h + 255) * w + 255 < 2 ^ 31)
    (s b q : Int) (px : List Nat) (hk : RLE4_kept w h L P0 s b q px)
    (hqe : q < ((w * h : Nat) : Int)) :
    RLE4_kept w h L P0 (int32 (s + 1)) 0 (int32 (int32 (s + 1) * (w : Int))) px := by
  obtain ⟨sn, bn, hs, hb, hq, hL, hrow, hlen, hsm, hkeep⟩ := hk
  have hq1 : q = ((sn * w + bn : Nat) : Int) := by
    rcases hq with hq | hq
    · exact hq
    · omega
  have hlt : sn * w + bn < w * h := by
    have : ((sn * w + bn : Nat) : Int) < ((w * h : Nat) : Int) := by omega
    exact_mod_cast this
  obtain ⟨_, hh, hwh, hsn, _⟩ := RLE4_kept_facts w h sn bn hdims hlt
  have hmul : (sn + 1) * w ≤ h * w := Nat.mul_le_mul_right _ (by omega)
  have hcomm : w * h = h * w := Nat.mul_comm w h
  have hnext : (sn + 1) * w ≤ (sn + 1 + 1) * w := Nat.mul_le_mul_right _ (by omega)
  have hlt2 : (sn + 1) * w < 2 ^ 31 := by omega
  have e1 : int32 (s + 1) = ((sn + 1 : Nat) : Int) := by
    rw [hs, int32_eq _ (by omega) (by omega)]
    push_cast
    rfl
  have e2 : int32 (((sn + 1 : Nat) : Int) * (w : Int)) = (((sn + 1) * w : Nat) : Int) := by
    rw [← Nat.cast_mul]
    apply int32_eq
    · exact le_trans (by norm_num) (Int.ofNat_nonneg _)
    · exact_mod_cast hlt2
  rw [e1, e2]
  have hLq : (L : Int) ≤ (((sn + 1) * w : Nat) : Int) := by exact_mod_cast hrow
  exact ⟨sn + 1, 0, rfl, rfl, Or.inl rfl, hLq, le_trans hrow hnext, hlen,
    hsm, hkeep⟩

theorem RLE4_kept_eob (w h L : Nat) (P0 : List Nat) (s b q : Int) (px : List Nat)
    (hk : RLE4_kept w h L P0 s b q px) (hqe : q < ((w * h : Nat) : Int)) :
    RLE4_kept w h L P0 s b ((w * h : Nat) : Int) px := by
  obtain ⟨sn, bn, hs, hb, hq, hL, hrow, hlen, hsm, hkeep⟩ := hk
  exact ⟨sn, bn, hs, hb, Or.inr rfl, le_of_lt (lt_of_le_of_lt hL hqe), hrow, hlen, hsm, hkeep⟩

theorem RLE4_kept_delta (w h L : Nat) (P0 : List Nat) (hdims : (h + 255) * w + 255 < 2 ^ 31)
    (s b q : Int) (px : List Nat) (dx dy : Nat) (hdx : dx < 256) (hdy : dy < 256)
    (hk : RLE4_kept w h L P0 s b q px) (hqe : q < ((w * h : Nat) : Int)) :
    RLE4_kept w h L P0 (int32 (s + dy)) (int32 (b + dx))
      (int32 (int32 (s + dy) * (w : Int)) + int32 (b + dx)) px := by
  obtain ⟨sn, bn, hs, hb, hq, hL, hrow, hlen, hsm, hkeep⟩ := hk
  have hq1 : q = ((sn * w + bn : Nat) : Int) := by
    rcases hq with hq | hq
    · exact hq
    · omega
  have hlt : sn * w + bn < w * h := by
    have : ((sn * w + bn : Nat) : Int) < ((w * h : Nat) : Int) := by omega
    exact_mod_cast this
  obtain ⟨_, hh, hwh, hsn, hbn⟩ := RLE4_kept_facts w h sn bn hdims hlt
  have hmul : (sn + dy) * w ≤ (h + 255) * w := Nat.mul_le_mul_right _ (by omega)
  have hmono : sn * w ≤ (sn + dy) * w := Nat.mul_le_mul_right _ (by omega)
  have hmono1 : (sn + 1) * w ≤ (sn + dy + 1) * w := Nat.mul_le_mul_right _ (by omega)
  have hlt2 : (sn + dy) * w < 2 ^ 31 := by omega
  have hL2 : L ≤ sn * w + bn := by
    have : (L : Int) ≤ ((sn * w + bn : Nat) : Int) := by rw [← hq1]; exact hL
    exact_mod_cast this
  have hL3 : L ≤ (sn + dy) * w + (bn + dx) := by omega
  have r1 : sn + dy < 2 ^ 31 := by omega
  have r2 : bn + dx < 2 ^ 31 := by omega
  have e1 : int32 (s + (dy : Int)) = ((sn + dy : Nat) : Int) := by
    rw [hs, ← Nat.cast_add]
    apply int32_eq
    · exact le_trans (by norm_num) (Int.ofNat_nonneg _)
    · exact_mod_cast r1
  have e2 : int32 (b + (dx : Int)) = ((bn + dx : Nat) : Int) := by
    rw [hb, ← Nat.cast_add]
    apply int32_eq
    · exact le_trans (by norm_num) (Int.ofNat_nonneg _)
    · exact_mod_cast r2
  have e3 : int32 (((sn + dy : Nat) : Int) * (w : Int)) = (((sn + dy) * w : Nat) : Int) := by
    rw [← Nat.cast_mul]
    apply int32_eq
    · exact le_trans (by norm_num) (Int.ofNat_nonneg _)
    · exact_mod_cast hlt2
  rw [e1, e2, e3]
  have hLq : (L : Int) ≤ (((sn + dy) * w : Nat) : Int) + ((bn + dx : Nat) : Int) := by
    exact_mod_cast hL3
  exact ⟨sn + dy, bn + dx, rfl, rfl, Or.inl (Nat.cast_add _ _).symm, hLq,
    le_trans hrow hmono1, hlen, hsm, hkeep⟩

theorem RLE4_kept_absolute (w h L : Nat) (P0 : List Nat)
    (hdims : (h + 255) * w + 255 < 2 ^ 31) (s b q : Int) (px : List Nat) (n : Nat)
    (stream2 px1 stream3 : List Nat) (hk : RLE4_kept w h L P0 s b q px)
    (hqe : q < ((w * h : Nat) : Int))
    (ha : RLE4_absolute (min (n : Int) (((w * h : Nat) : Int) - q)).toNat 0 q 0 stream2 px =
      some (px1, stream3)) :
    RLE4_kept w h L P0 s (int32 (b + min (n : Int) (((w * h : Nat) : Int) - q)))
      (q + min (n : Int) (((w * h : Nat) : Int) - q)) px1 := by
  obtain ⟨sn, bn, hs, hb, hq, hL, hrow, hlen, hsm, hkeep⟩ := hk
  have hq1 : q = ((sn * w + bn : Nat) : Int) := by
    rcases hq with hq | hq
    · exact hq
    · omega
  have hlt : sn * w + bn < w * h := by
    have : ((sn * w + bn : Nat) : Int) < ((w * h : Nat) : Int) := by omega
    exact_mod_cast this
  obtain ⟨_, _, hwh, _, _⟩ := RLE4_kept_facts w h sn bn hdims hlt
  obtain ⟨m, hm⟩ : ∃ m : Nat, (m : Int) = min (n : Int) (((w * h : Nat) : Int) - q) :=
    ⟨min n (w * h - (sn * w + bn)), by omega⟩
  rw [← hm] at ha ⊢
  rw [Int.toNat_ofNat] at ha
  obtain ⟨a1, a2, a3, _⟩ := RLE4_absolute_spec _ _ _ _ _ _ _ _ ha
  have hmle : sn * w + bn + m ≤ w * h := by omega
  refine ⟨sn, bn + m, hs, ?_, Or.inl (by rw [hq1]; push_cast; ring), by omega, hrow,
    by rw [a1, hlen], a3 hsm, ?_⟩
  · rw [hb, int32_eq _ (by omega) (by omega)]
    push_cast
    rfl
  · intro k hk
    rw [a2 k (by omega), hkeep k hk]

/-- Later tokens do not write below the position that the decoder has left behind in a row:
when the loop ends, the scratch buffer below `L` is as it was. -/
theorem LoadPixelDataRLE4_loop_kept (w h L : Nat) (P0 : List Nat)
    (hdims : (h + 255) * w + 255 < 2 ^ 31) (fuel : Nat) (stream : List Nat) (s b q : Int)
    (px : List Nat) (step : Step) (progress : FIProgress) (res : List Nat)
    (hbytes : ∀ x ∈ stream, x < 256) (hinv : RLE4_kept w h L P0 s b q px)
    (hres : LoadPixelDataRLE4_loop (w : Int) h ((w * h : Nat) : Int) fuel stream s b q px step
      progress = .ok (some res)) :
    res.length = w * h ∧ RLE4_small res ∧ ∀ k, k < L → res.getD k 0 = P0.getD k 0 := by
  obtain ⟨s1, b1, q1, sn, bn, _, _, _, _, _, h1, h2, h3⟩ :=
    LoadPixelDataRLE4_loop_inv (w : Int) h ((w * h : Nat) : Int) (RLE4_kept w h L P0)
      (fun s b q px c v hk _ hqe _ => RLE4_kept_repeat w h L P0 hdims s b q px c v hk hqe)
      (fun s b q px hk _ hqe => RLE4_kept_eol w h L P0 hdims s b q px hk hqe)
      (fun s b q px hk _ hqe => RLE4_kept_eob w h L P0 s b q px hk hqe)
      (fun s b q px dx dy hdx hdy hk _ hqe =>
        RLE4_kept_delta w h L P0 hdims s b q px dx dy hdx hdy hk hqe)
      (fun s b q px n stream2 px1 stream3 hk _ hqe _ ha =>
        RLE4_kept_absolute w h L P0 hdims s b q px n stream2 px1 stream3 hk hqe ha)
      fuel stream s b q px step progress res hbytes hinv hres
  exact ⟨h1, h2, h3⟩

/-! ### The repeat token of the RLE-4 decoder -/

/-- The encoded-mode loop leaves the scratch buffer behind the end of its run as it is. -/
theorem RLE4_fill_getD_ge (v n i : Nat) (q : Int) (pixels : List Nat) (k : Nat)
    (h : q + n ≤ (k : Int)) : (RLE4_fill v n i q pixels).getD k 0 = pixels.getD k 0 := by
  induction n generalizing i q pixels with
  | zero => rfl
  | succ n ih =>
    rw [RLE4_fill, ih _ _ _ (by push_cast at h ⊢; omega),
      RLE4_put_getD_ne _ _ _ _ (by push_cast at h; omega)]

theorem RLE4_small_replicate (n : Nat) : RLE4_small (List.replicate n 0) := by
  intro k
  rw [List.getD_eq_getElem?_getD, List.getElem?_replicate]
  split_ifs <;> decide

/-- The sample of a run byte `v` is its high nibble at the even and its low nibble at the odd
indices. -/
theorem RLE4_sample_byte (v i : Nat) (hv : v < 256) :
    RLE4_sample v i = if i % 2 = 0 then v / 16 else v % 16 := by
  unfold RLE4_sample
  split_ifs <;> omega

/-- The repeat token `(c, v)` at the cursor `(scanline, bits)` of an image of `w` by `h`
pixels, with room for `c` pixels left in the row: the state after it, and the pixels of the
image that `LoadPixelDataRLE4` builds from the scratch buffer at the end. -/
theorem LoadPixelDataRLE4_loop_repeat_room (w h : Nat) (hdims : (h + 255) * w + 255 < 2 ^ 31)
    (scanline bits c v : Nat) (hc : 1 ≤ c) (hroom : bits + c ≤ w) (hs : scanline < h)
    (fuel : Nat) (rest pixels : List Nat) (step : Step) (progress : FIProgress)
    (hlen : pixels.length = w * h) (hsmall : RLE4_small pixels)
    (hrest : ∀ x ∈ rest, x < 256) :
    LoadPixelDataRLE4_loop (w : Int) h ((w * h : Nat) : Int) (fuel + 1) (c :: v :: rest)
        (scanline : Nat) (bits : Nat) ((scanline * w + bits : Nat) : Int) pixels step progress =
      LoadPixelDataRLE4_loop (w : Int) h ((w * h : Nat) : Int) fuel rest (scanline : Nat)
        ((bits + c : Nat) : Int) ((scanline * w + bits + c : Nat) : Int)
        (RLE4_fill v c 0 ((scanline * w + bits : Nat) : Int) pixels) step progress ∧
    ∀ res : List Nat,
      LoadPixelDataRLE4_loop (w : Int) h ((w * h : Nat) : Int) fuel rest (scanline : Nat)
        ((bits + c : Nat) : Int) ((scanline * w + bits + c : Nat) : Int)
        (RLE4_fill v c 0 ((scanline * w + bits : Nat) : Int) pixels) step progress =
          .ok (some res) →
      ∀ (pitch : Nat) (dib : List Nat), (w + 1) / 2 ≤ pitch → pitch * h ≤ dib.length →
        ∀ i, i < c →
          RLE4_pixel (RLE4_convert res (w : Int) pitch h 0 dib) pitch (bits + i) scanline =
            RLE4_sample v i := by
  have hrow : (scanline + 1) * w ≤ h * w := Nat.mul_le_mul_right _ (by omega)
  have hcomm : w * h = h * w := Nat.mul_comm w h
  have hexp : (scanline + 1) * w = scanline * w + w := by ring
  have hbig : h * w ≤ (h + 255) * w := Nat.mul_le_mul_right _ (by omega)
  have hfit : scanline * w + bits + c ≤ w * h := by omega
  have hwh : w * h < 2 ^ 31 := by omega
  have hbc : bits + c < 2 ^ 31 := by omega
  have hc0 : c ≠ 0 := by omega
  have hlt : scanline * w + bits < w * h := by omega
  have hnext : scanline * w + bits + c ≤ (scanline + 1) * w := by omega
  have hfit2 : scanline * w + bits + c ≤ pixels.length := by omega
  have hcast : ((scanline * w + bits + c : Nat) : Int) ≤ ((w * h : Nat) : Int) := by
    exact_mod_cast hfit
  have hmin : min (c : Int) (((w * h : Nat) : Int) - ((scanline * w + bits : Nat) : Int)) =
      (c : Int) := by
    rw [Nat.cast_add (scanline * w + bits) c] at hcast
    exact min_eq_left (by linarith)
  have hq : ((scanline * w + bits : Nat) : Int) < ((w * h : Nat) : Int) := by
    exact_mod_cast hlt
  have hsh : ((scanline : Nat) : Int) < ((h : Nat) : Int) := by exact_mod_cast hs
  have hxs : ∀ i, i < c → bits + i < w := fun i hi => by omega
  have hks : ∀ i, i < c → scanline * w + (bits + i) < scanline * w + bits + c :=
    fun i hi => by omega
  have hb : int32 (((bits : Nat) : Int) + (c : Int)) = ((bits + c : Nat) : Int) := by
    rw [← Nat.cast_add]
    apply int32_eq
    · exact le_trans (by norm_num) (Int.ofNat_nonneg _)
    · exact_mod_cast hbc
  have hstep := LoadPixelDataRLE4_loop_repeat (w : Int) h ((w * h : Nat) : Int) fuel rest c v
    (scanline : Nat) (bits : Nat) ((scanline * w + bits : Nat) : Int) pixels step progress
    hsh hq hc0
  rw [hmin, Int.toNat_ofNat, hb, ← Nat.cast_add] at hstep
  clear hb
  refine ⟨hstep, ?_⟩
  intro res hres pitch dib hpitch hdib i hi
  have hkept : RLE4_kept w h (scanline * w + bits + c)
      (RLE4_fill v c 0 ((scanline * w + bits : Nat) : Int) pixels) (scanline : Nat)
      ((bits + c : Nat) : Int) ((scanline * w + bits + c : Nat) : Int)
      (RLE4_fill v c 0 ((scanline * w + bits : Nat) : Int) pixels) :=
    ⟨scanline, bits + c, rfl, rfl, Or.inl (by rw [Nat.add_assoc]), le_refl _, hnext,
      by rw [RLE4_fill_length, hlen], RLE4_fill_small _ _ _ _ _ hsmall, fun _ _ => rfl⟩
  obtain ⟨h1, h2, h3⟩ := LoadPixelDataRLE4_loop_kept w h (scanline * w + bits + c) _ hdims fuel
    rest _ _ _ _ step progress res hrest hkept hres
  rw [RLE4_convert_pixel res w h pitch dib h2 hpitch hdib hwh (bits + i) scanline (hxs i hi) hs,
    h3 _ (hks i hi), ← Nat.add_assoc,
    RLE4_fill_getD v c 0 (scanline * w + bits) pixels i hi hfit2, Nat.zero_add]

/-- A bitmap returned by `LoadPixelDataRLE4` is the conversion of the scratch buffer that its
decoding loop ends with; the loop starts at the origin with a scratch buffer of zeros. -/
theorem LoadPixelDataRLE4_some (stream : List Nat) (w h : Nat) (dib : List Nat) (pitch : Nat)
    (progress : FIProgress) (out : List Nat) (hwh : w * h < 2 ^ 31)
    (hout : LoadPixelDataRLE4 stream (w : Int) (h : Int) 4 dib pitch progress = .ok (some out)) :
    ∃ res, LoadPixelDataRLE4_loop (w : Int) h ((w * h : Nat) : Int) (stream.length + 1) stream
        0 0 0 (List.replicate (w * h) 0) (progress.getStepProgress h 8917127262193582)
        progress = .ok (some res) ∧
      out = RLE4_convert res (w : Int) pitch h 0 dib := by
  have hnn : ¬ ((w * h : Nat) : Int) < 0 := not_lt.mpr (Int.ofNat_nonneg _)
  have hsize : int32 ((w : Int) * ((h : Nat) : Int)) = ((w * h : Nat) : Int) := by
    rw [← Nat.cast_mul]
    apply int32_eq
    · exact le_trans (by norm_num) (Int.ofNat_nonneg _)
    · exact_mod_cast hwh
  unfold LoadPixelDataRLE4 at hout
  rw [if_neg (by decide)] at hout
  simp only [Int.natAbs_ofNat, hsize, if_neg hnn, Int.toNat_ofNat] at hout
  split at hout
  · exact absurd hout (by simp)
  · exact absurd hout (by simp)
  · rename_i res hloop
    simp only [Except.ok.injEq, Option.some.injEq] at hout
    exact ⟨res, hloop, hout.symm⟩

/-- C26: the repeat token `(c, v)` with `c >= 1`, read by the loop of `LoadPixelDataRLE4` at
the cursor `(scanline, bits)` of an image of `w` by `h` pixels when `c` pixels of room are
left in the row. The loop goes on behind the token with the column advanced by `c`; the token
has written exactly `c` samples into the scratch buffer from the cursor on, sample `i` being
the high nibble of `v` for even `i` and the low nibble for odd `i`, and nothing else; and
whatever the rest of the stream is, the 4-bit image built at the end holds sample `i` at
column `bits + i` of row `scanline`, two pixels per byte with the even column in the high
nibble. The last part says the same of the bitmap that `LoadPixelDataRLE4` returns for a
stream that starts with the token. The dimensions are such that the cursor stays an `int`. -/
theorem C26_rle4_repeat_token (w h : Nat) (hdims : (h + 255) * w + 255 < 2 ^ 31)
    (scanline bits c v : Nat) (hc : 1 ≤ c) (hroom : bits + c ≤ w) (hs : scanline < h)
    (hv : v < 256) (fuel : Nat) (rest pixels : List Nat) (step : Step) (progress : FIProgress)
    (hlen : pixels.length = w * h) (hsmall : RLE4_small pixels)
    (hrest : ∀ x ∈ rest, x < 256) :
    LoadPixelDataRLE4_loop (w : Int) h ((w * h : Nat) : Int) (fuel + 1) (c :: v :: rest)
        (scanline : Nat) (bits : Nat) ((scanline * w + bits : Nat) : Int) pixels step progress =
      LoadPixelDataRLE4_loop (w : Int) h ((w * h : Nat) : Int) fuel rest (scanline : Nat)
        ((bits + c : Nat) : Int) ((scanline * w + bits + c : Nat) : Int)
        (RLE4_fill v c 0 ((scanline * w + bits : Nat) : Int) pixels) step progress ∧
    (∀ i, i < c →
      (RLE4_fill v c 0 ((scanline * w + bits : Nat) : Int) pixels).getD
        (scanline * w + bits + i) 0 = if i % 2 = 0 then v / 16 else v % 16) ∧
    (∀ k, k < scanline * w + bits ∨ scanline * w + bits + c ≤ k →
      (RLE4_fill v c 0 ((scanline * w + bits : Nat) : Int) pixels).getD k 0 =
        pixels.getD k 0) ∧
    (∀ res : List Nat,
      LoadPixelDataRLE4_loop (w : Int) h ((w * h : Nat) : Int) fuel rest (scanline : Nat)
        ((bits + c : Nat) : Int) ((scanline * w + bits + c : Nat) : Int)
        (RLE4_fill v c 0 ((scanline * w + bits : Nat) : Int) pixels) step progress =
          .ok (some res) →
      ∀ (pitch : Nat) (dib : List Nat), (w + 1) / 2 ≤ pitch → pitch * h ≤ dib.length →
        ∀ i, i < c →
          RLE4_pixel (RLE4_convert res (w : Int) pitch h 0 dib) pitch (bits + i) scanline =
            if i % 2 = 0 then v / 16 else v % 16) ∧
    (∀ (pitch : Nat) (dib out : List Nat), (w + 1) / 2 ≤ pitch → pitch * h ≤ dib.length →
      LoadPixelDataRLE4 (c :: v :: rest) (w : Int) (h : Int) 4 dib pitch progress =
        .ok (some out) →
      ∀ i, i < c → RLE4_pixel out pitch i 0 = if i % 2 = 0 then v / 16 else v % 16) := by
  have hrow : (scanline + 1) * w ≤ h * w := Nat.mul_le_mul_right _ (by omega)
  have hcomm : w * h = h * w := Nat.mul_comm w h
  have hexp : (scanline + 1) * w = scanline * w + w := by ring
  have hbig : h * w ≤ (h + 255) * w := Nat.mul_le_mul_right _ (by omega)
  have hfit2 : scanline * w + bits + c ≤ pixels.length := by omega
  have hwh : w * h < 2 ^ 31 := by omega
  have h0 : 0 < h := by omega
  have hc0 : 0 + c ≤ w := by omega
  obtain ⟨a1, a2⟩ := LoadPixelDataRLE4_loop_repeat_room w h hdims scanline bits c v hc hroom hs
    fuel rest pixels step progress hlen hsmall hrest
  refine ⟨a1, ?_, ?_, ?_, ?_⟩
  · intro i hi
    rw [RLE4_fill_getD v c 0 (scanline * w + bits) pixels i hi hfit2, Nat.zero_add,
      RLE4_sample_byte v i hv]
  · intro k hk
    rcases hk with hk | hk
    · exact RLE4_fill_getD_lt _ _ _ _ _ _ (by exact_mod_cast hk)
    · exact RLE4_fill_getD_ge _ _ _ _ _ _ (by exact_mod_cast hk)
  · intro res hres pitch dib hpitch hdib i hi
    rw [a2 res hres pitch dib hpitch hdib i hi, RLE4_sample_byte v i hv]
  · intro pitch dib out hpitch hdib hout i hi
    obtain ⟨res, hloop, hres⟩ := LoadPixelDataRLE4_some _ w h dib pitch progress out hwh hout
    obtain ⟨b1, b2⟩ := LoadPixelDataRLE4_loop_repeat_room w h hdims 0 0 c v hc hc0 h0
      (rest.length + 2) rest (List.replicate (w * h) 0)
      (progress.getStepProgress h 8917127262193582) progress (List.length_replicate _ _)
      (RLE4_small_replicate _) hrest
    simp only [Nat.zero_mul, Nat.zero_add, Nat.cast_zero] at b1 b2
    rw [show (c :: v :: rest).length + 1 = rest.length + 2 + 1 from rfl, b1] at hloop
    have := b2 res hloop pitch dib hpitch hdib i hi
    rw [hres, this, RLE4_sample_byte v i hv]

/-- C26 witness: the repeat token `(3, 0x12)` at the start of a row of four pixels writes the
samples 1, 2, 1; here the second of them. -/
theorem C26_rle4_repeat_token_witness :
    (RLE4_fill 18 3 0 ((0 * 4 + 0 : Nat) : Int) [0, 0, 0, 0]).getD (0 * 4 + 0 + 1) 0 =
      if 1 % 2 = 0 then 18 / 16 else 18 % 16 :=
  (C26_rle4_repeat_token 4 1 (by decide) 0 0 3 18 (by decide) (by decide) (by decide)
    (by decide) 0 [] [0, 0, 0, 0] (FIProgress.getStepProgress (FIProgress.create 0 none) 1 1)
    (FIProgress.create 0 none) rfl (RLE4_small_replicate 4)
    (fun _ hx => absurd hx (List.not_mem_nil _))).2.1 1 (by decide)

/-! ### The end of the bitmap -/

/-- The RLE-8 decoder on a stream that starts with the end-of-bitmap pair returns the bitmap
as it was allocated. -/
theorem LoadPixelDataRLE8_eob (rest : List Nat) (w h : Int) (dib : List Nat) (pitch : Nat)
    (progress : FIProgress) (hh : h ≠ 0) :
    LoadPixelDataRLE8 (0 :: 1 :: rest) w h 8 dib pitch progress = .ok (some dib) := by
  unfold LoadPixelDataRLE8
  rw [if_neg (by decide)]
  exact LoadPixelDataRLE8_loop_eob w h.natAbs pitch _ rest 0 0 dib _ progress (by omega)

/-- The RLE-4 decoder on a stream that starts with the end-of-bitmap pair returns the
conversion of the scratch buffer of zeros. -/
theorem LoadPixelDataRLE4_eob (rest : List Nat) (w h : Nat) (dib : List Nat) (pitch : Nat)
    (progress : FIProgress) (hw : 1 ≤ w) (hh : 1 ≤ h) (hwh : w * h < 2 ^ 31)
    (hnc : progress.neverCancels) :
    LoadPixelDataRLE4 (0 :: 1 :: rest) (w : Int) (h : Int) 4 dib pitch progress =
      .ok (some (RLE4_convert (List.replicate (w * h) 0) (w : Int) pitch h 0 dib)) := by
  have hnn : ¬ ((w * h : Nat) : Int) < 0 := not_lt.mpr (Int.ofNat_nonneg _)
  have hpos : 0 < w * h := Nat.mul_pos hw hh
  have hq : (0 : Int) < ((w * h : Nat) : Int) := by exact_mod_cast hpos
  have hs : (0 : Int) < ((h : Nat) : Int) := by exact_mod_cast hh
  have hsize : int32 ((w : Int) * ((h : Nat) : Int)) = ((w * h : Nat) : Int) := by
    rw [← Nat.cast_mul]
    apply int32_eq
    · exact le_trans (by norm_num) (Int.ofNat_nonneg _)
    · exact_mod_cast hwh
  unfold LoadPixelDataRLE4
  rw [if_neg (by decide)]
  simp only [Int.natAbs_ofNat, hsize, if_neg hnn, Int.toNat_ofNat]
  rw [show (0 :: 1 :: rest).length + 1 = rest.length + 1 + 2 from rfl,
    LoadPixelDataRLE4_loop_eob (w : Int) h ((w * h : Nat) : Int) (rest.length + 1) rest 0 0 0
      (List.replicate (w * h) 0) _ progress hs hq hnc]

/-- C23: the end-of-bitmap pair `(0, 1)` read at a token boundary, where the decoding loop
still runs. `LoadPixelDataRLE8` returns the bitmap as it stands, whatever bytes follow the
pair. The loop of `LoadPixelDataRLE4` ends with the scratch buffer as it stands, whatever
bytes follow (the progress callback, which is asked once more, does not cancel), and the image
built from the scratch buffer holds at every pixel the sample of the scratch buffer, which is
the zero of its initialisation where no token has written. In particular, for a stream that
starts with the pair, `LoadPixelDataRLE8` returns the allocated bitmap and `LoadPixelDataRLE4`
an image whose pixels are all zero. -/
theorem C23_end_of_bitmap (w height scanline : Nat) (hw : 1 ≤ w) (hs : scanline < height)
    (hwh : w * height < 2 ^ 31) (rest : List Nat) (bits : Int) (step : Step)
    (progress : FIProgress) (hnc : progress.neverCancels) :
    (∀ (pitch fuel : Nat) (dib : List Nat),
      LoadPixelDataRLE8_loop (w : Int) height pitch (fuel + 1) (0 :: 1 :: rest) scanline bits
        dib step progress = .ok (some dib)) ∧
    (∀ (end_ q : Int) (fuel : Nat) (pixels : List Nat), q < end_ →
      LoadPixelDataRLE4_loop (w : Int) height end_ (fuel + 2) (0 :: 1 :: rest) scanline bits q
        pixels step progress = .ok (some pixels)) ∧
    (∀ (pixels dib : List Nat) (pitch x y : Nat), RLE4_small pixels → (w + 1) / 2 ≤ pitch →
      pitch * height ≤ dib.length → x < w → y < height →
      RLE4_pixel (RLE4_convert pixels (w : Int) pitch height 0 dib) pitch x y =
        pixels.getD (y * w + x) 0) ∧
    (∀ (pitch : Nat) (dib : List Nat),
      LoadPixelDataRLE8 (0 :: 1 :: rest) (w : Int) (height : Int) 8 dib pitch progress =
        .ok (some dib)) ∧
    (∀ (pitch : Nat) (dib : List Nat), (w + 1) / 2 ≤ pitch → pitch * height ≤ dib.length →
      ∃ out, LoadPixelDataRLE4 (0 :: 1 :: rest) (w : Int) (height : Int) 4 dib pitch progress =
          .ok (some out) ∧
        ∀ x y, x < w → y < height → RLE4_pixel out pitch x y = 0) := by
  have hh : 1 ≤ height := by omega
  have hsi : ((scanline : Nat) : Int) < ((height : Nat) : Int) := by exact_mod_cast hs
  have hh0 : ((height : Nat) : Int) ≠ 0 := by omega
  refine ⟨?_, ?_, ?_, ?_, ?_⟩
  · intro pitch fuel dib
    exact LoadPixelDataRLE8_loop_eob (w : Int) height pitch fuel rest scanline bits dib step
      progress hsi
  · intro end_ q fuel pixels hq
    exact LoadPixelDataRLE4_loop_eob (w : Int) height end_ fuel rest scanline bits q pixels step
      progress hsi hq hnc
  · intro pixels dib pitch x y hsmall hpitch hdib hx hy
    exact RLE4_convert_pixel pixels w height pitch dib hsmall hpitch hdib hwh x y hx hy
  · intro pitch dib
    exact LoadPixelDataRLE8_eob rest (w : Int) (height : Int) dib pitch progress hh0
  · intro pitch dib hpitch hdib
    refine ⟨_, LoadPixelDataRLE4_eob rest w height dib pitch progress hw hh hwh hnc, ?_⟩
    intro x y hx hy
    rw [RLE4_convert_pixel _ w height pitch dib (RLE4_small_replicate _) hpitch hdib hwh x y hx
      hy, List.getD_eq_getElem?_getD, List.getElem?_replicate]
    split_ifs <;> rfl

/-- C23 witness: the end-of-bitmap pair behind one decoded row of an image of 2 by 2 pixels;
the bytes `7 7` that follow are not looked at. -/
theorem C23_end_of_bitmap_witness :
    LoadPixelDataRLE8_loop ((2 : Nat) : Int) 2 4 (0 + 1) (0 :: 1 :: [7, 7]) ((1 : Nat) : Int) 0
      [5, 6, 0, 0, 0, 0, 0, 0] (FIProgress.getStepProgress (FIProgress.create 0 none) 2 1)
      (FIProgress.create 0 none) = .ok (some [5, 6, 0, 0, 0, 0, 0, 0]) :=
  (C23_end_of_bitmap 2 2 1 (by decide) (by decide) (by decide) [7, 7] 0
    (FIProgress.getStepProgress (FIProgress.create 0 none) 2 1) (FIProgress.create 0 none)
    ⟨rfl, fun f hf => by simp [FIProgress.create] at hf⟩).1 4 0 [5, 6, 0, 0, 0, 0, 0, 0]

/-! ### The parity of the encoded length -/

/-- The tokens of a parse take up all the bytes, and each of them an even number. -/
theorem RLE_parse_bytes (fuel : Nat) : ∀ (l : List Nat) (ts : List RLE_token),
    RLE_parse fuel l = some ts →
    (ts.map RLE_token.bytes).sum = l.length ∧ ∀ t ∈ ts, t.bytes % 2 = 0 := by
  induction fuel with
  | zero =>
    intro l ts h
    cases l with
    | nil =>
      simp only [RLE_parse, Option.some.injEq] at h
      subst h
      simp
    | cons a l => simp [RLE_parse] at h
  | succ fuel ih =>
    intro l ts h
    match l, h with
    | [], h =>
      simp only [RLE_parse, Option.some.injEq] at h
      subst h
      simp
    | [_], h => simp [RLE_parse] at h
    | c :: v :: t, h =>
      rw [RLE_parse_cons] at h
      split_ifs at h with hc h0 h1 h2 hlen
      · obtain ⟨l1, hl1, rfl⟩ := Option.map_eq_some'.mp h
        obtain ⟨a, b⟩ := ih t l1 hl1
        refine ⟨by simp [RLE_token.bytes, a]; omega, ?_⟩
        intro x hx
        rcases List.mem_cons.mp hx with rfl | hx
        · simp [RLE_token.bytes]
        · exact b x hx
      · obtain ⟨l1, hl1, rfl⟩ := Option.map_eq_some'.mp h
        obtain ⟨a, b⟩ := ih t l1 hl1
        refine ⟨by simp [RLE_token.bytes, a]; omega, ?_⟩
        intro x hx
        rcases List.mem_cons.mp hx with rfl | hx
        · simp [RLE_token.bytes]
        · exact b x hx
      · obtain ⟨l1, hl1, rfl⟩ := Option.map_eq_some'.mp h
        obtain ⟨a, b⟩ := ih t l1 hl1
        refine ⟨by simp [RLE_token.bytes, a]; omega, ?_⟩
        intro x hx
        rcases List.mem_cons.mp hx with rfl | hx
        · simp [RLE_token.bytes]
        · exact b x hx
      · match t, h with
        | [], h => simp at h
        | [_], h => simp at h
        | dx :: dy :: t2, h =>
          simp only at h
          obtain ⟨l1, hl1, rfl⟩ := Option.map_eq_some'.mp h
          obtain ⟨a, b⟩ := ih t2 l1 hl1
          refine ⟨by simp [RLE_token.bytes, a]; omega, ?_⟩
          intro x hx
          rcases List.mem_cons.mp hx with rfl | hx
          · simp [RLE_token.bytes]
          · exact b x hx
      · obtain ⟨l1, hl1, rfl⟩ := Option.map_eq_some'.mp h
        obtain ⟨a, b⟩ := ih _ l1 hl1
        have htake : (t.take v).length = v := by
          rw [List.length_take]
          omega
        refine ⟨?_, ?_⟩
        · simp only [List.map_cons, List.sum_cons, RLE_token.bytes, htake, a, List.length_drop,
            List.length_cons]
          omega
        · intro x hx
          rcases List.mem_cons.mp hx with rfl | hx
          · simp only [RLE_token.bytes, htake]
            omega
          · exact b x hx

/-- A sum of even numbers is even. -/
theorem sum_even_of_forall (l : List Nat) (h : ∀ x ∈ l, x % 2 = 0) : l.sum % 2 = 0 := by
  induction l with
  | nil => rfl
  | cons a l ih =>
    have h1 := h a (List.mem_cons_self _ _)
    have h2 := ih (fun x hx => h x (List.mem_cons_of_mem _ hx))
    rw [List.sum_cons]
    omega

/-- The pixel stream that `Save` writes for the scanlines has an even length. -/
theorem Save_RLE_length_even (lines : List (List Nat)) : ∀ (buffer : Nat → Nat) (out : List Nat),
    out.length % 2 = 0 →
    (∀ (target : Nat → Nat) (s : List Nat), (RLEEncodeLine target s s.length).length % 2 = 0) →
    (Save_RLE buffer lines out).length % 2 = 0 := by
  induction lines with
  | nil =>
    intro buffer out h _
    simpa [Save_RLE] using h
  | cons l ls ih =>
    intro buffer out h henc
    simp only [Save_RLE]
    apply ih _ _ _ henc
    rw [List.length_append]
    have := henc buffer l
    omega

/-- C37: for a scanline of any length the number of bytes that `RLEEncodeLine` returns is even
and at least 2. The bytes parse into tokens of an even number of bytes each, which take up all
of the encoded line, so every token starts at an even offset of the line; and the pixel stream
that `Save` has written before a scanline has an even length, so the offset is even in that
stream too. -/
theorem C37_encoded_length_even (target : Nat → Nat) (s : List Nat) :
    (RLEEncodeLine target s s.length).length % 2 = 0 ∧
    2 ≤ (RLEEncodeLine target s s.length).length ∧
    (∃ ts, RLE_parse (RLEEncodeLine target s s.length).length (RLEEncodeLine target s s.length) =
        some ts ∧
      (ts.map RLE_token.bytes).sum = (RLEEncodeLine target s s.length).length ∧
      ∀ pre t post, ts = pre ++ t :: post → (pre.map RLE_token.bytes).sum % 2 = 0) ∧
    (∀ (buffer : Nat → Nat) (lines : List (List Nat)),
      (Save_RLE buffer lines []).length % 2 = 0) := by
  have hall : ∀ (target : Nat → Nat) (s : List Nat),
      ∃ ts, RLE_parse (RLEEncodeLine target s s.length).length
          (RLEEncodeLine target s s.length) = some ts ∧
        (ts.map RLE_token.bytes).sum = (RLEEncodeLine target s s.length).length ∧
        ∀ t ∈ ts, t.bytes % 2 = 0 := by
    intro target s
    obtain ⟨toks, henc, htoks⟩ := RLEEncodeLine_tokens target s
    obtain ⟨k, ts, hk, _, hp⟩ := RLE_parse_tokens toks s htoks
    have e : (toks ++ [0, 0]).length = (toks.length - k + 1) + 1 + k := by
      simp only [List.length_append, List.length_cons, List.length_nil]
      omega
    have hparse : RLE_parse (RLEEncodeLine target s s.length).length
        (RLEEncodeLine target s s.length) = some (ts ++ [RLE_token.endOfLine]) := by
      rw [henc, e, hp, RLE_parse_cons]
      simp [RLE_parse]
    obtain ⟨a, b⟩ := RLE_parse_bytes _ _ _ hparse
    exact ⟨_, hparse, a, b⟩
  have heven : ∀ (target : Nat → Nat) (s : List Nat),
      (RLEEncodeLine target s s.length).length % 2 = 0 := by
    intro target s
    obtain ⟨ts, _, a, b⟩ := hall target s
    rw [← a]
    exact sum_even_of_forall _ (fun x hx => by
      obtain ⟨t, ht, rfl⟩ := List.mem_map.mp hx
      exact b t ht)
  obtain ⟨ts, hparse, a, b⟩ := hall target s
  refine ⟨heven target s, ?_, ⟨ts, hparse, a, ?_⟩, ?_⟩
  · obtain ⟨toks, henc, _⟩ := RLEEncodeLine_tokens target s
    rw [henc, List.length_append]
    exact Nat.le_add_left _ _
  · intro pre t post hsplit
    apply sum_even_of_forall
    intro x hx
    obtain ⟨t1, ht1, rfl⟩ := List.mem_map.mp hx
    exact b t1 (by rw [hsplit]; exact List.mem_append_left _ ht1)
  · intro buffer lines
    exact Save_RLE_length_even lines buffer [] rfl heven

/-! ### The size of the markers written for comments, ICC and XMP profiles -/

theorem xmp_signature_length : xmp_signature.length = 29 := rfl

theorem iptc_header_length : iptc_header.length = 24 := rfl

/-- The markers of the comment loop are `JPEG_COM` markers of at most 65533 bytes each, and
their data concatenate to the rest of the string. -/
theorem comment_write_loop_spec (tag_value : List Nat) (i : Nat) :
    (∀ m ∈ comment_write_loop tag_value tag_value.length i,
      m.marker = JPEG_COM ∧ m.data.length ≤ 65533) ∧
    (comment_write_loop tag_value tag_value.length i).flatMap (fun m => m.data) =
      tag_value.drop i := by
  generalize h : tag_value.length - i = d
  induction d using Nat.strong_induction_on generalizing i with
  | _ d ih =>
    subst h
    rw [comment_write_loop]
    by_cases hlt : i < tag_value.length
    · rw [if_pos hlt]
      obtain ⟨h1, h2⟩ := ih (tag_value.length - (i + MAX_BYTES_IN_MARKER))
        (by simp only [MAX_BYTES_IN_MARKER]; omega) (i + MAX_BYTES_IN_MARKER) rfl
      constructor
      · intro m hm
        rcases List.mem_cons.mp hm with rfl | hm
        · refine ⟨rfl, ?_⟩
          simp only [List.length_take, MAX_BYTES_IN_MARKER]
          omega
        · exact h1 m hm
      · rw [List.flatMap_cons, h2]
        simp only [MAX_BYTES_IN_MARKER]
        rw [List.take_eq_take.mpr (show min (min (tag_value.length - i) 65533)
          (tag_value.drop i).length = min 65533 (tag_value.drop i).length by
            rw [List.length_drop]; omega), ← List.drop_drop, List.take_append_drop]
    · rw [if_neg hlt]
      refine ⟨by simp, ?_⟩
      rw [List.drop_eq_nil_of_le (by omega)]
      rfl

/-- The markers of the XMP loop for a packet of at most 4294966272 bytes, from a chunk
boundary on: APP1 markers of the signature and at most 65504 packet bytes each, whose packet
bytes concatenate to the rest of the packet. -/
theorem xmp_write_loop_spec (tag_value : List Nat) (hlen : tag_value.length ≤ 4294966272)
    (fuel : Nat) : ∀ i, i % 65504 = 0 → tag_value.length - i + 65504 ≤ fuel * 65504 →
    ∃ ms, xmp_write_loop tag_value tag_value.length fuel i = some ms ∧
      (∀ m ∈ ms, m.marker = EXIF_MARKER ∧ m.data.take 29 = xmp_signature ∧
        (m.data.drop 29).length ≤ 65504 ∧ m.data.length ≤ 65533) ∧
      ms.flatMap (fun m => m.data.drop 29) = tag_value.drop i := by
  induction fuel with
  | zero =>
    intro i _ hf
    omega
  | succ fuel ih =>
    intro i hmod hf
    rw [xmp_write_loop]
    by_cases hlt : i < tag_value.length
    · rw [if_pos hlt]
      have hwrap : (i + 65504) % 2 ^ 32 = i + 65504 := Nat.mod_eq_of_lt (by omega)
      obtain ⟨ms, h0, h1, h2⟩ := ih (i + 65504) (by omega) (by omega)
      rw [hwrap, h0]
      refine ⟨_, rfl, ?_, ?_⟩
      · intro m hm
        rcases List.mem_cons.mp hm with rfl | hm
        · refine ⟨rfl, ?_, ?_, ?_⟩
          · rw [List.take_append_of_le_length (by rw [xmp_signature_length]),
              List.take_of_length_le (by rw [xmp_signature_length])]
          · rw [List.drop_append_of_le_length (by rw [xmp_signature_length]),
              List.drop_of_length_le (by rw [xmp_signature_length]), List.nil_append,
              List.length_take]
            omega
          · rw [List.length_append, xmp_signature_length, List.length_take]
            omega
        · exact h1 m hm
      · rw [List.flatMap_cons, h2]
        simp only
        rw [List.drop_append_of_le_length (by rw [xmp_signature_length]),
          List.drop_of_length_le (by rw [xmp_signature_length]), List.nil_append,
          List.take_eq_take.mpr (show min (min (tag_value.length - i) 65504)
            (tag_value.drop i).length = min 65504 (tag_value.drop i).length by
              rw [List.length_drop]; omega), ← List.drop_drop, List.take_append_drop]
    · rw [if_neg hlt]
      refine ⟨[], rfl, by simp, ?_⟩
      rw [List.drop_eq_nil_of_le (by omega)]
      rfl

/-- One iteration of the XMP loop that has produced a result. -/
theorem xmp_write_loop_step (tag_value : List Nat) (tag_length fuel i : Nat)
    (ms : List SavedMarker) (hlt : i < tag_length)
    (h : xmp_write_loop tag_value tag_length fuel i = some ms) :
    ∃ f ms1, fuel = f + 1 ∧
      xmp_write_loop tag_value tag_length f ((i + 65504) % 2 ^ 32) = some ms1 ∧
      ms = ⟨EXIF_MARKER, xmp_signature ++
        (tag_value.drop i).take (min (tag_length - i) 65504)⟩ :: ms1 := by
  cases fuel with
  | zero => simp [xmp_write_loop] at h
  | succ f =>
    rw [xmp_write_loop, if_pos hlt] at h
    obtain ⟨ms1, h1, h2⟩ := Option.map_eq_some'.mp h
    exact ⟨f, ms1, rfl, h1, h2.symm⟩

/-- For a packet of 4294966273 bytes the index of the XMP loop wraps after the chunk at
offset 4294966272 and the loop goes on from offset 64480: whatever it returns holds more
packet bytes than the packet has. -/
theorem xmp_write_loop_wraps (tag_value : List Nat) (hlen : tag_value.length = 4294966273)
    (j : Nat) : ∀ k, k + j = 65568 → ∀ (fuel : Nat) (ms : List SavedMarker),
    xmp_write_loop tag_value 4294966273 fuel (k * 65504) = some ms →
    4294966273 - k * 65504 + 65504 ≤ (ms.flatMap (fun m => m.data.drop 29)).length := by
  have hpay : ∀ (i n : Nat) (ms1 : List SavedMarker),
      ((⟨EXIF_MARKER, xmp_signature ++ (tag_value.drop i).take n⟩ :: ms1 :
        List SavedMarker).flatMap (fun m => m.data.drop 29)).length =
      min n (tag_value.length - i) + (ms1.flatMap (fun m => m.data.drop 29)).length := by
    intro i n ms1
    rw [List.flatMap_cons, List.length_append]
    simp only
    rw [List.drop_append_of_le_length (by rw [xmp_signature_length]),
      List.drop_of_length_le (by rw [xmp_signature_length]), List.nil_append,
      List.length_take, List.length_drop]
  induction j with
  | zero =>
    intro k hk fuel ms h
    have hk1 : k = 65568 := by omega
    subst hk1
    obtain ⟨f, ms1, _, h1, rfl⟩ := xmp_write_loop_step _ _ _ _ _ (by norm_num) h
    rw [show (65568 * 65504 + 65504) % 2 ^ 32 = 64480 by norm_num] at h1
    obtain ⟨f2, ms2, _, _, rfl⟩ := xmp_write_loop_step _ _ _ _ _ (by norm_num) h1
    rw [hpay, hpay, hlen]
    omega
  | succ j ih =>
    intro k hk fuel ms h
    obtain ⟨f, ms1, _, h1, rfl⟩ := xmp_write_loop_step _ _ _ _ _ (by omega) h
    rw [Nat.mod_eq_of_lt (by omega), show k * 65504 + 65504 = (k + 1) * 65504 by ring] at h1
    have := ih (k + 1) (by omega) f ms1 h1
    rw [hpay, hlen]
    omega

/-- C32 counterexample: for an XMP packet of 4294966273 bytes the `DWORD` index of the loop of
`jpeg_write_xmp_profile` wraps after the chunk at offset 4294966272. However many iterations
are allowed, the function does not return with markers that hold fewer than 65504 packet
bytes more than the packet has; so it never returns with chunks that concatenate to the
packet. -/
theorem C32_counterexample :
    (¬ ∃ (fuel : Nat) (r : Bool × List SavedMarker),
      jpeg_write_xmp_profile fuel (some (List.replicate 4294966273 0)) = some r ∧
      (r.2.flatMap (fun m => m.data.drop 29)).length < 4294966273 + 65504) ∧
    (¬ ∃ (fuel : Nat) (r : Bool × List SavedMarker),
      jpeg_write_xmp_profile fuel (some (List.replicate 4294966273 0)) = some r ∧
      r.2.flatMap (fun m => m.data.drop 29) = List.replicate 4294966273 0) := by
  have hlong : ∀ (fuel : Nat) (r : Bool × List SavedMarker),
      jpeg_write_xmp_profile fuel (some (List.replicate 4294966273 0)) = some r →
      4294966273 + 65504 ≤ (r.2.flatMap (fun m => m.data.drop 29)).length := by
    intro fuel r hr
    unfold jpeg_write_xmp_profile at hr
    simp only [List.length_replicate] at hr
    rw [show 4294966273 % 2 ^ 32 = 4294966273 by norm_num] at hr
    obtain ⟨ms, h, rfl⟩ := Option.map_eq_some'.mp hr
    have h0 : xmp_write_loop (List.replicate 4294966273 0) 4294966273 fuel (0 * 65504) =
        some ms := by
      rw [Nat.zero_mul]
      exact h
    have := xmp_write_loop_wraps (List.replicate 4294966273 0) (List.length_replicate _ _) 65568
      0 (by norm_num) fuel ms h0
    simp only
    omega
  constructor
  · rintro ⟨fuel, r, hr, hlt⟩
    have := hlong fuel r hr
    omega
  · rintro ⟨fuel, r, hr, he⟩
    have := hlong fuel r hr
    rw [he, List.length_replicate] at this
    omega

/-- C32 (amended): every marker written by `jpeg_write_icc_profile` carries at most 65519
profile bytes behind its 14 header bytes, every marker written by `jpeg_write_comment` at most
65533 comment bytes, and, for an XMP packet of at most 4294966272 bytes, every marker written
by `jpeg_write_xmp_profile` (which then returns) at most 65504 packet bytes behind the 29
bytes of the signature; in all three cases the data length of a marker is at most
`MAX_BYTES_IN_MARKER`, and the chunks in write order concatenate to the payload. -/
theorem C32_segment_size_limits (icc comment xmp : List Nat)
    (hxmp : xmp.length ≤ 4294966272) :
    ((∀ m ∈ (jpeg_write_icc_profile icc).2,
        (m.data.drop ICC_HEADER_SIZE).length ≤ 65519 ∧ m.data.length ≤ MAX_BYTES_IN_MARKER) ∧
      (jpeg_write_icc_profile icc).2.flatMap (fun m => m.data.drop ICC_HEADER_SIZE) = icc) ∧
    ((∀ m ∈ (jpeg_write_comment (some comment)).2, m.data.length ≤ MAX_BYTES_IN_MARKER) ∧
      (jpeg_write_comment (some comment)).2.flatMap (fun m => m.data) = comment) ∧
    (∀ fuel, xmp.length < fuel →
      ∃ ms, jpeg_write_xmp_profile fuel (some xmp) = some (true, ms) ∧
        (∀ m ∈ ms, (m.data.drop 29).length ≤ 65504 ∧ m.data.length ≤ MAX_BYTES_IN_MARKER) ∧
        ms.flatMap (fun m => m.data.drop 29) = xmp) := by
  refine ⟨⟨?_, write_payloads_concat icc⟩, ⟨?_, ?_⟩, ?_⟩
  · intro m hm
    rw [write_markers_eq] at hm
    obtain ⟨k, _, rfl⟩ := List.mem_map.mp hm
    simp only [ICC_HEADER_SIZE, MAX_BYTES_IN_MARKER]
    rw [icc_marker_at_payload]
    simp only [icc_marker_at, icc_signature, List.length_append, List.length_cons,
      List.length_nil, List.length_take, List.length_drop, MAX_DATA_BYTES_IN_MARKER]
    omega
  · intro m hm
    exact ((comment_write_loop_spec comment 0).1 m hm).2
  · exact (comment_write_loop_spec comment 0).2
  · intro fuel hfuel
    have hmod : xmp.length % 2 ^ 32 = xmp.length := Nat.mod_eq_of_lt (by omega)
    obtain ⟨ms, h0, h1, h2⟩ := xmp_write_loop_spec xmp hxmp fuel 0 (by norm_num) (by omega)
    refine ⟨ms, ?_, ?_, h2⟩
    · unfold jpeg_write_xmp_profile
      simp only [hmod, h0, Option.map_some']
    · intro m hm
      obtain ⟨_, _, a, b⟩ := h1 m hm
      exact ⟨a, b⟩

/-- C32 witness: an XMP packet of three bytes. -/
theorem C32_segment_size_limits_witness :
    ∃ ms, jpeg_write_xmp_profile 4 (some [1, 2, 3]) = some (true, ms) ∧
      (∀ m ∈ ms, (m.data.drop 29).length ≤ 65504 ∧ m.data.length ≤ MAX_BYTES_IN_MARKER) ∧
      ms.flatMap (fun m => m.data.drop 29) = [1, 2, 3] :=
  (C32_segment_size_limits [] [] [1, 2, 3] (by decide)).2.2 4 (by decide)

/-! ### The markers written by `jpeg_write_iptc_profile` -/

/-- The first marker written for a profile: 26 header bytes, the first
`length = min (size, 65517)` profile bytes and the round-up byte of an odd `length`; the two
size bytes hold `length` in big-endian order. -/
theorem iptc_write_loop_first (profile : List Nat) (h : 0 < profile.length) :
    ∃ m rest, iptc_write_loop profile profile.length 0 = m :: rest ∧
      m.data.length = 26 + min profile.length 65517 + min profile.length 65517 % 2 ∧
      256 * m.data.getD 24 0 + m.data.getD 25 0 = min profile.length 65517 := by
  rw [iptc_write_loop, if_pos h]
  refine ⟨_, _, rfl, ?_, ?_⟩
  · simp only [List.length_append, iptc_header_length, List.length_cons, List.length_nil,
      List.length_take, List.length_drop, Nat.sub_zero, List.drop_zero]
    split_ifs <;> simp <;> omega
  · simp only [Nat.sub_zero, List.drop_zero, iptc_header, List.cons_append, List.nil_append,
      List.getD_cons_succ, List.getD_cons_zero]
    omega

/-- The data length of the one marker written for a profile of at most 65517 bytes. -/
theorem iptc_write_loop_single (profile : List Nat) (h1 : 0 < profile.length)
    (h2 : profile.length ≤ 65517) :
    (iptc_write_loop profile profile.length 0).map SavedMarker.data_length =
      [26 + profile.length + profile.length % 2] := by
  have e : min (profile.length - 0) 65517 = profile.length := by omega
  rw [iptc_write_loop, if_pos h1, iptc_write_loop, if_neg (by omega)]
  simp only [e, List.map_cons, List.map_nil, SavedMarker.data_length, List.length_append,
    iptc_header_length, List.length_cons, List.length_nil, List.length_take, List.length_drop,
    Nat.sub_zero, Nat.min_self]
  split_ifs <;> simp <;> omega

/-- C39 (divergence): for an IPTC profile of 65508 bytes `jpeg_write_iptc_profile` writes one
marker, whose data length `length + roundup + tag_length` is 65508 + 0 + 26 = 65534, more than
`MAX_BYTES_IN_MARKER` = 65533. -/
theorem C39_iptc_marker_too_long :
    (jpeg_write_iptc_profile 1 (some (List.replicate 65508 0))).2.map SavedMarker.data_length =
      [65534] ∧
    MAX_BYTES_IN_MARKER < 65534 := by
  refine ⟨?_, by decide⟩
  have h := iptc_write_loop_single (List.replicate 65508 0)
    (by rw [List.length_replicate]; norm_num) (by rw [List.length_replicate]; norm_num)
  rw [List.length_replicate] at h
  unfold jpeg_write_iptc_profile
  rw [if_pos (by decide)]
  simp only [List.length_replicate]
  exact h

/-! ### The number of palette entries -/

/-- The bytes that a read of one item transfers: the next `size` bytes, as far as the stream
holds them. -/
theorem read_proc_bytes (io : Stream) (size : Nat) :
    (read_proc io size 1).1 = (io.data.drop io.pos).take size := by
  unfold read_proc
  simp only [Nat.mul_one]
  rw [List.take_eq_take]
  simp only [List.length_drop]
  omega

theorem read_proc_pos (io : Stream) (size : Nat) :
    (read_proc io size 1).2.2 = ⟨io.data, io.pos + min size (io.data.length - io.pos)⟩ := by
  unfold read_proc
  simp only [Nat.mul_one]

/-- The count that `LoadWindowsBMP` derives from the colours used is the count of the
specification, for the depths 1, 4 and 8. -/
theorem used_colors_eq (c d : Nat) (hd : d = 1 ∨ d = 4 ∨ d = 8) :
    (if c = 0 ∨ c > CalculateUsedPaletteEntries d then CalculateUsedPaletteEntries d else c) =
      palette_count_spec c d ∧ palette_count_spec c d ≤ 256 := by
  unfold palette_count_spec CalculateUsedPaletteEntries
  rcases hd with rfl | rfl | rfl
  · norm_num
    split_ifs <;> omega
  · norm_num
    split_ifs <;> omega
  · norm_num
    split_ifs <;> omega

/-- The palette of a bitmap that `LoadWindowsBMP` returns for a 40-byte header of depth 1, 4
or 8, with or without pixels: the bytes of the read of `used_colors` entries of four bytes
that follows the header. -/
theorem LoadWindowsBMP_palette (env : BmpEnv) (io : Stream) (header_only : Bool)
    (bitmap_bits_offset : Nat) (progress : FIProgress) (bih : BITMAPINFOHEADER)
    (hread : (read_proc io sizeof_BITMAPINFOHEADER 1).2.1 = 1)
    (hbih : BITMAPINFOHEADER.ofBytes (read_proc io sizeof_BITMAPINFOHEADER 1).1 = bih)
    (hcheck : CheckBitmapInfoHeader bih = true)
    (hbc : bih.biBitCount = 1 ∨ bih.biBitCount = 4 ∨ bih.biBitCount = 8) (dib : FIBITMAP)
    (hres : (LoadWindowsBMP env io header_only bitmap_bits_offset 40 progress).result =
      .ok (some dib)) :
    dib.palette = (io.data.drop (io.pos + 40)).take
      (4 * palette_count_spec bih.biClrUsed bih.biBitCount) := by
  obtain ⟨hn, h256⟩ := used_colors_eq bih.biClrUsed bih.biBitCount hbc
  have hio : (read_proc io sizeof_BITMAPINFOHEADER 1).2.2 = ⟨io.data, io.pos + 40⟩ := by
    have hlen : sizeof_BITMAPINFOHEADER ≤ io.data.length - io.pos := by
      by_contra hc
      rw [read_proc_short io _ (by omega)] at hread
      exact absurd hread (by decide)
    exact (read_proc_full io sizeof_BITMAPINFOHEADER (by decide) hlen).2
  have hmod : palette_count_spec bih.biClrUsed bih.biBitCount * 4 % 2 ^ 32 =
      4 * palette_count_spec bih.biClrUsed bih.biBitCount := by omega
  have h40 : ¬ ((40 : Nat) = 52 ∨ (40 : Nat) = 56 ∨ (40 : Nat) = 108 ∨ (40 : Nat) = 124) := by
    decide
  unfold LoadWindowsBMP at hres
  simp only [hread, hbih, hcheck, ne_eq, not_true_eq_false, if_false, Bool.true_eq_false,
    if_pos hbc, hn, hio, if_neg h40, hmod] at hres
  simp only [read_proc_bytes] at hres
  split at hres
  · exact absurd hres (by simp)
  · by_cases hh : header_only = true
    · simp only [hh, if_true, Except.ok.injEq, Option.some.injEq] at hres
      rw [← hres]
    · simp only [hh, Bool.false_eq_true, if_false] at hres
      split_ifs at hres
      · split at hres
        · exact absurd hres (by simp)
        · simp only [Except.ok.injEq, Option.some.injEq] at hres
          rw [← hres]
      · unfold pixelOutcome at hres
        split at hres
        · exact absurd hres (by simp)
        · exact absurd hres (by simp)
        · simp only [Except.ok.injEq, Option.some.injEq] at hres
          rw [← hres]
      · unfold pixelOutcome at hres
        split at hres
        · exact absurd hres (by simp)
        · exact absurd hres (by simp)
        · simp only [Except.ok.injEq, Option.some.injEq] at hres
          rw [← hres]

/-- C31: for an accepted 40-byte header of depth `d` in 1, 4, 8 that declares `c` colours
used, the palette of the bitmap that `LoadWindowsBMP` returns, with or without pixels, is
what the read of `n` entries of four bytes behind the header gives, where `n = 2 ^ d` when
`c = 0` or `c > 2 ^ d` and `n = c` otherwise, which is `min (c, 2 ^ d)` for `c > 0`; in
header-only mode the bitmap is returned right after that read, with the stream `4 * n` bytes
behind the header (or at its end). `CalculateUsedPaletteEntries d` is `2 ^ d` for
`1 <= d <= 8` and 0 for every other `d`. -/
theorem C31_palette_entry_count (env : BmpEnv) (io : Stream) (bitmap_bits_offset : Nat)
    (progress : FIProgress) (bih : BITMAPINFOHEADER)
    (hread : (read_proc io sizeof_BITMAPINFOHEADER 1).2.1 = 1)
    (hbih : BITMAPINFOHEADER.ofBytes (read_proc io sizeof_BITMAPINFOHEADER 1).1 = bih)
    (hcheck : CheckBitmapInfoHeader bih = true)
    (hbc : bih.biBitCount = 1 ∨ bih.biBitCount = 4 ∨ bih.biBitCount = 8)
    (halloc : ∀ w h bc m, env.AllocateHeader true w h bc m ≠ none) :
    (∀ (header_only : Bool) (dib : FIBITMAP),
      (LoadWindowsBMP env io header_only bitmap_bits_offset 40 progress).result =
        .ok (some dib) →
      dib.palette = (io.data.drop (io.pos + 40)).take
        (4 * palette_count_spec bih.biClrUsed bih.biBitCount)) ∧
    (∃ dib, (LoadWindowsBMP env io true bitmap_bits_offset 40 progress).result =
      .ok (some dib)) ∧
    (LoadWindowsBMP env io true bitmap_bits_offset 40 progress).io =
      ⟨io.data, io.pos + 40 + min (4 * palette_count_spec bih.biClrUsed bih.biBitCount)
        (io.data.length - (io.pos + 40))⟩ ∧
    palette_count_spec bih.biClrUsed bih.biBitCount =
      (if bih.biClrUsed = 0 ∨ bih.biClrUsed > 2 ^ bih.biBitCount then 2 ^ bih.biBitCount
       else bih.biClrUsed) ∧
    (∀ d, CalculateUsedPaletteEntries d = if 1 ≤ d ∧ d ≤ 8 then 2 ^ d else 0) := by
  obtain ⟨hn, h256⟩ := used_colors_eq bih.biClrUsed bih.biBitCount hbc
  have hio : (read_proc io sizeof_BITMAPINFOHEADER 1).2.2 = ⟨io.data, io.pos + 40⟩ := by
    have hlen : sizeof_BITMAPINFOHEADER ≤ io.data.length - io.pos := by
      by_contra hc
      rw [read_proc_short io _ (by omega)] at hread
      exact absurd hread (by decide)
    exact (read_proc_full io sizeof_BITMAPINFOHEADER (by decide) hlen).2
  have hmod : palette_count_spec bih.biClrUsed bih.biBitCount * 4 % 2 ^ 32 =
      4 * palette_count_spec bih.biClrUsed bih.biBitCount := by omega
  have h40 : ¬ ((40 : Nat) = 52 ∨ (40 : Nat) = 56 ∨ (40 : Nat) = 108 ∨ (40 : Nat) = 124) := by
    decide
  have hcalc : ∀ d, CalculateUsedPaletteEntries d = if 1 ≤ d ∧ d ≤ 8 then 2 ^ d else 0 := by
    intro d
    unfold CalculateUsedPaletteEntries
    rw [Nat.shiftLeft_eq, Nat.one_mul]
  have hhead : ∃ dib0,
      LoadWindowsBMP env io true bitmap_bits_offset 40 progress =
        ⟨.ok (some dib0), (read_proc ⟨io.data, io.pos + 40⟩
          (4 * palette_count_spec bih.biClrUsed bih.biBitCount) 1).2.2⟩ := by
    unfold LoadWindowsBMP
    simp only [hread, hbih, hcheck, ne_eq, not_true_eq_false, if_false, Bool.true_eq_false,
      if_pos hbc, hn, hio, if_neg h40, hmod]
    split
    · exact absurd (by assumption) (halloc _ _ _ _)
    · exact ⟨_, rfl⟩
  obtain ⟨dib0, hd0⟩ := hhead
  refine ⟨?_, ⟨dib0, by rw [hd0]⟩, ?_, ?_, hcalc⟩
  · intro header_only dib hres
    exact LoadWindowsBMP_palette env io header_only bitmap_bits_offset progress bih hread hbih
      hcheck hbc dib hres
  · rw [hd0, read_proc_pos]
  · have hc := hcalc bih.biBitCount
    rw [if_pos (by omega)] at hc
    rw [← hn, hc]

/-- C31 witness: a header-only load of a 4-bit bitmap that declares 3 colours used; the three
palette entries are the 12 bytes behind the header. -/
theorem C31_palette_entry_count_witness :
    (LoadWindowsBMP ⟨fun ho w h bc m => some ⟨ho, w, h, bc, m, 0, 0, [], [], false, false⟩,
        (0, 0, 0), (0, 0, 0), fun _ => false, fun _ _ _ _ _ => .ok none⟩
      ⟨[40, 0, 0, 0, 1, 0, 0, 0, 1, 0, 0, 0, 1, 0, 4, 0, 0, 0, 0, 0, 0, 0, 0, 0, 0, 0, 0, 0,
        0, 0, 0, 0, 3, 0, 0, 0, 0, 0, 0, 0, 1, 2, 3, 0, 4, 5, 6, 0, 7, 8, 9, 0, 77], 0⟩
      true 52 40 (FIProgress.create 0 none)).io =
      ⟨[40, 0, 0, 0, 1, 0, 0, 0, 1, 0, 0, 0, 1, 0, 4, 0, 0, 0, 0, 0, 0, 0, 0, 0, 0, 0, 0, 0,
        0, 0, 0, 0, 3, 0, 0, 0, 0, 0, 0, 0, 1, 2, 3, 0, 4, 5, 6, 0, 7, 8, 9, 0, 77],
        0 + 40 + min (4 * palette_count_spec 3 4) (53 - (0 + 40))⟩ :=
  (C31_palette_entry_count
    ⟨fun ho w h bc m => some ⟨ho, w, h, bc, m, 0, 0, [], [], false, false⟩,
      (0, 0, 0), (0, 0, 0), fun _ => false, fun _ _ _ _ _ => .ok none⟩
    ⟨[40, 0, 0, 0, 1, 0, 0, 0, 1, 0, 0, 0, 1, 0, 4, 0, 0, 0, 0, 0, 0, 0, 0, 0, 0, 0, 0, 0,
      0, 0, 0, 0, 3, 0, 0, 0, 0, 0, 0, 0, 1, 2, 3, 0, 4, 5, 6, 0, 7, 8, 9, 0, 77], 0⟩
    52 (FIProgress.create 0 none)
    ⟨40, 1, 1, 1, 4, 0, 0, 0, 0, 3, 0⟩ (by decide) (by decide) (by decide) (by decide)
    (fun _ _ _ _ h => by simp at h)).2.2.1

/-! ### The row order of raw pixels -/

/-- Storing bytes leaves the buffer behind them as it is. -/
theorem RLE8_store_getElem?_after (dib : List Nat) (pos : Nat) (src : List Nat) (k : Nat)
    (h : pos + src.length ≤ k) : (RLE8_store dib pos src)[k]? = dib[k]? := by
  induction src generalizing dib pos with
  | nil => rfl
  | cons x src ih =>
    simp only [List.length_cons] at h
    simp only [RLE8_store]
    rw [ih _ _ (by omega), List.getElem?_set_ne (by omega)]

/-- Two buffers that agree on a window have the same bytes there. -/
theorem drop_take_congr_window (l1 l2 : List Nat) (a b : Nat)
    (h : ∀ k, a ≤ k → k < a + b → l1[k]? = l2[k]?) :
    (l1.drop a).take b = (l2.drop a).take b := by
  apply List.ext_getElem?
  intro n
  rw [List.getElem?_take, List.getElem?_take]
  by_cases hn : n < b
  · rw [if_pos hn, if_pos hn, List.getElem?_drop, List.getElem?_drop, h _ (by omega) (by omega)]
  · rw [if_neg hn, if_neg hn]

/-- The row loop of `LoadPixelData` on a stream that holds all the rows left, with a callback
that does not cancel: the loop ends with `ok` set, row `c + j` of the loop holds the `j`-th
group of `pitch` bytes of the stream, at scanline `positiveHeight - 1 - (c + j)`, and the
scanlines from `positiveHeight - c` on are as they were. -/
theorem LoadPixelData_rows_full (positiveHeight pitch : Nat) (hp : 0 < pitch) (n : Nat) :
    ∀ (c : Nat) (io : Stream) (dib : List Nat) (step : Step) (progress : FIProgress),
    c + n = positiveHeight → n * pitch ≤ io.data.length - io.pos →
    pitch * positiveHeight ≤ dib.length → progress.neverCancels →
    (LoadPixelData_rows positiveHeight pitch n c io dib step progress).2 = (true, false) ∧
    (LoadPixelData_rows positiveHeight pitch n c io dib step progress).1.length = dib.length ∧
    (∀ k, pitch * (positiveHeight - c) ≤ k →
      (LoadPixelData_rows positiveHeight pitch n c io dib step progress).1[k]? = dib[k]?) ∧
    ∀ j, j < n →
      ((LoadPixelData_rows positiveHeight pitch n c io dib step progress).1.drop
        (pitch * (positiveHeight - 1 - (c + j)))).take pitch =
      (io.data.drop (io.pos + j * pitch)).take pitch := by
  induction n with
  | zero =>
    intro c io dib step progress _ _ _ _
    exact ⟨rfl, rfl, fun _ _ => rfl, fun j hj => absurd hj (Nat.not_lt_zero _)⟩
  | succ n ih =>
    intro c io dib step progress hc hbytes hdib hnc
    have hmul : (n + 1) * pitch = n * pitch + pitch := by ring
    have hrow : pitch ≤ io.data.length - io.pos := by omega
    obtain ⟨hr1, hr2⟩ := read_proc_full io pitch hp hrow
    obtain ⟨hs1, hs2⟩ := Step.progress_neverCancels step progress hnc
    have hbytes1 : (read_proc io pitch 1).1 = (io.data.drop io.pos).take pitch :=
      read_proc_bytes io pitch
    have hlen1 : ((io.data.drop io.pos).take pitch).length = pitch := by
      rw [List.length_take, List.length_drop]
      omega
    have hoff : pitch * (positiveHeight - c - 1) + pitch = pitch * (positiveHeight - c) := by
      have : positiveHeight - c = (positiveHeight - c - 1) + 1 := by omega
      rw [this, Nat.mul_add, Nat.mul_one]
      simp
    have hle : pitch * (positiveHeight - c) ≤ pitch * positiveHeight :=
      Nat.mul_le_mul_left _ (by omega)
    unfold LoadPixelData_rows
    simp only [hr1, ne_eq, not_true_eq_false, if_false, hs1, Bool.true_eq_false, hr2, hbytes1]
    obtain ⟨a1, a2, a3, a4⟩ := ih (c + 1) ⟨io.data, io.pos + pitch⟩
      (RLE8_store dib (pitch * (positiveHeight - c - 1)) ((io.data.drop io.pos).take pitch))
      (step.progress progress).2.1 (step.progress progress).2.2 (by omega)
      (by simp only; omega) (by rw [RLE8_store_length]; exact hdib) hs2
    refine ⟨a1, by rw [a2, RLE8_store_length], ?_, ?_⟩
    · intro k hk
      have hle2 : pitch * (positiveHeight - (c + 1)) ≤ pitch * (positiveHeight - c) :=
        Nat.mul_le_mul_left _ (by omega)
      rw [a3 k (by omega), RLE8_store_getElem?_after _ _ _ _ (by rw [hlen1]; omega)]
    · intro j hj
      cases j with
      | zero =>
        rw [Nat.add_zero, Nat.zero_mul, Nat.add_zero,
          show positiveHeight - 1 - c = positiveHeight - c - 1 by omega]
        have hwin := drop_take_congr_window
          (LoadPixelData_rows positiveHeight pitch n (c + 1) ⟨io.data, io.pos + pitch⟩
            (RLE8_store dib (pitch * (positiveHeight - c - 1))
              ((io.data.drop io.pos).take pitch))
            (step.progress progress).2.1 (step.progress progress).2.2).1
          (RLE8_store dib (pitch * (positiveHeight - c - 1)) ((io.data.drop io.pos).take pitch))
          (pitch * (positiveHeight - c - 1)) pitch
          (fun k hk1 _ => a3 k (by
            rw [show positiveHeight - (c + 1) = positiveHeight - c - 1 by omega]
            exact hk1))
        rw [hwin]
        have hseg := RLE8_store_segment dib (pitch * (positiveHeight - c - 1))
          ((io.data.drop io.pos).take pitch) (by rw [hlen1]; omega)
        rw [hlen1] at hseg
        exact hseg
      | succ j =>
        have := a4 j (by omega)
        simp only at this
        rw [show positiveHeight - 1 - (c + (j + 1)) = positiveHeight - 1 - (c + 1 + j) by omega,
          this]
        congr 2
        ring

/-- C35: for an uncompressed image with row stride `pitch` whose stream supplies all the
pixel bytes. With a negative height `h`, `LoadPixelData` stores row `c` of the stream, for
every `c < |h|`, in scanline `|h| - 1 - c` of the buffer (the progress callback does not
cancel). With a positive height `h` it stores row `c` of the stream in scanline `c`: the
first `h * pitch` bytes of the buffer are the next `h * pitch` bytes of the stream in
order. -/
theorem C35_raw_row_order (io : Stream) (dib : List Nat) (height : Int) (pitch bit_count : Nat)
    (progress : FIProgress) (hp : 0 < pitch)
    (hbytes : height.natAbs * pitch ≤ io.data.length - io.pos)
    (hdib : pitch * height.natAbs ≤ dib.length) (hfit : height.natAbs * pitch < 2 ^ 32)
    (hnc : progress.neverCancels) :
    ∃ bits, LoadPixelData io dib height pitch bit_count progress = some (bits, true) ∧
      bits.length = dib.length ∧
      (height < 0 → ∀ c, c < height.natAbs →
        (bits.drop (pitch * (height.natAbs - 1 - c))).take pitch =
          (io.data.drop (io.pos + c * pitch)).take pitch) ∧
      (0 < height →
        bits.take (height.natAbs * pitch) =
          (io.data.drop io.pos).take (height.natAbs * pitch) ∧
        ∀ c, c < height.natAbs →
          (bits.drop (pitch * c)).take pitch =
            (io.data.drop (io.pos + c * pitch)).take pitch) := by
  unfold LoadPixelData
  by_cases hpos : height > 0
  · rw [if_pos hpos]
    have e : height.toNat = height.natAbs := by omega
    have hH : 0 < height.natAbs := by omega
    have hsz : 0 < height.natAbs * pitch := Nat.mul_pos hH hp
    rw [e, Nat.mod_eq_of_lt hfit]
    simp only
    obtain ⟨hr1, _⟩ := read_proc_full io (height.natAbs * pitch) hsz hbytes
    have hlen1 : ((io.data.drop io.pos).take (height.natAbs * pitch)).length =
        height.natAbs * pitch := by
      rw [List.length_take, List.length_drop]
      omega
    have hcomm : pitch * height.natAbs = height.natAbs * pitch := Nat.mul_comm _ _
    have hseg := RLE8_store_segment dib 0 ((io.data.drop io.pos).take (height.natAbs * pitch))
      (by rw [hlen1]; omega)
    rw [hlen1, List.drop_zero] at hseg
    rw [hr1, read_proc_bytes]
    refine ⟨_, by simp, RLE8_store_length _ _ _, fun hneg => absurd hneg (by omega),
      fun _ => ⟨hseg, ?_⟩⟩
    intro c hc
    have hrow : c * pitch + pitch ≤ height.natAbs * pitch := by
      have : (c + 1) * pitch ≤ height.natAbs * pitch := Nat.mul_le_mul_right _ (by omega)
      rw [Nat.add_mul, Nat.one_mul] at this
      exact this
    have h1 := congrArg (fun l => (l.drop (c * pitch)).take pitch) hseg
    simp only [List.drop_take, List.take_take, List.drop_drop] at h1
    rw [Nat.min_eq_left (by omega)] at h1
    rw [Nat.mul_comm pitch c, h1]
  · rw [if_neg hpos]
    simp only
    obtain ⟨a1, a2, _, a4⟩ := LoadPixelData_rows_full height.natAbs pitch hp height.natAbs 0 io
      dib (progress.getStepProgress height.natAbs FI_MAX_PROGRESS) progress (by omega) hbytes
      hdib hnc
    have hc : (LoadPixelData_rows height.natAbs pitch height.natAbs 0 io dib
        (progress.getStepProgress height.natAbs FI_MAX_PROGRESS) progress).2.2 = false := by
      rw [a1]
    have hok : (LoadPixelData_rows height.natAbs pitch height.natAbs 0 io dib
        (progress.getStepProgress height.natAbs FI_MAX_PROGRESS) progress).2.1 = true := by
      rw [a1]
    rw [hc, hok]
    refine ⟨_, by simp, a2, fun _ c hc => ?_, fun hpos2 => absurd hpos2 (by omega)⟩
    have := a4 c hc
    rw [Nat.zero_add] at this
    exact this

/-- C35 witness: a top-down image of two rows with stride 2; the first row of the stream goes
to scanline 1. -/
theorem C35_raw_row_order_witness :
    ∃ bits, LoadPixelData ⟨[1, 2, 3, 4], 0⟩ [0, 0, 0, 0] (-2) 2 8 (FIProgress.create 0 none) =
        some (bits, true) ∧
      bits.length = ([0, 0, 0, 0] : List Nat).length ∧
      ((-2 : Int) < 0 → ∀ c, c < (-2 : Int).natAbs →
        (bits.drop (2 * ((-2 : Int).natAbs - 1 - c))).take 2 =
          (([1, 2, 3, 4] : List Nat).drop (0 + c * 2)).take 2) ∧
      (0 < (-2 : Int) →
        bits.take ((-2 : Int).natAbs * 2) =
          (([1, 2, 3, 4] : List Nat).drop 0).take ((-2 : Int).natAbs * 2) ∧
        ∀ c, c < (-2 : Int).natAbs →
          (bits.drop (2 * c)).take 2 = (([1, 2, 3, 4] : List Nat).drop (0 + c * 2)).take 2) :=
  C35_raw_row_order ⟨[1, 2, 3, 4], 0⟩ [0, 0, 0, 0] (-2) 2 8 (FIProgress.create 0 none)
    (by decide) (by decide) (by decide) (by decide)
    ⟨rfl, fun f hf => by simp [FIProgress.create] at hf⟩

/-! ### Cancellation while raw pixels are loaded -/

/-- The row loop of `LoadPixelData` with a callback that answers `false` when it is asked:
if the rows up to the next call of the callback can be read, the loop leaves by
`return NULL`. -/
theorem LoadPixelData_rows_cancel (positiveHeight pitch : Nat) (hp : 0 < pitch)
    (progress : FIProgress) (hno : progress._cb.onProgress.1 = false) (k : Nat) :
    ∀ (n c : Nat) (io : Stream) (dib : List Nat) (step : Step),
    step._step + k + 1 = step._sdelta → step._sdelta < 2 ^ 64 → k < n →
    (k + 1) * pitch ≤ io.data.length - io.pos →
    (LoadPixelData_rows positiveHeight pitch n c io dib step progress).2.2 = true := by
  induction k with
  | zero =>
    intro n c io dib step hstep hd hn hbytes
    obtain ⟨n1, rfl⟩ : ∃ n1, n = n1 + 1 := ⟨n - 1, by omega⟩
    obtain ⟨hr1, _⟩ := read_proc_full io pitch hp (by omega)
    have hs : (step.progress progress).1 = false := by
      unfold Step.progress
      rw [if_pos (by rw [Nat.mod_eq_of_lt (by omega)]; omega)]
      exact hno
    unfold LoadPixelData_rows
    simp only [hr1, ne_eq, not_true_eq_false, if_false, hs, if_true]
  | succ k ih =>
    intro n c io dib step hstep hd hn hbytes
    obtain ⟨n1, rfl⟩ : ∃ n1, n = n1 + 1 := ⟨n - 1, by omega⟩
    have hmul : (k + 1 + 1) * pitch = (k + 1) * pitch + pitch := by ring
    obtain ⟨hr1, hr2⟩ := read_proc_full io pitch hp (by omega)
    have hmod : (step._step + 1) % 2 ^ 64 = step._step + 1 := Nat.mod_eq_of_lt (by omega)
    have hs : step.progress progress = (true, { step with _step := step._step + 1 }, progress) := by
      unfold Step.progress
      rw [if_neg (by rw [hmod]; omega), hmod]
    unfold LoadPixelData_rows
    simp only [hr1, ne_eq, not_true_eq_false, if_false, hs, Bool.true_eq_false, hr2]
    exact ih n1 (c + 1) _ _ _ (by simp only; omega) hd (by omega) (by simp only; omega)

/-- The step distance that `getStepProgress` computes for `stepsTotal >= 1` steps lies between
1 and `stepsTotal`. -/
theorem getStepProgress_sdelta (p : FIProgress) (stepsTotal endProgress_ : Nat)
    (hsteps : 1 ≤ p._steps) (htotal : 1 ≤ stepsTotal) :
    (p.getStepProgress stepsTotal endProgress_)._step = 0 ∧
    1 ≤ (p.getStepProgress stepsTotal endProgress_)._sdelta ∧
    (p.getStepProgress stepsTotal endProgress_)._sdelta ≤ stepsTotal := by
  unfold FIProgress.getStepProgress
  simp only
  split_ifs with h
  · exact ⟨trivial, (Nat.le_div_iff_mul_le (by omega)).mpr (by omega), Nat.div_le_self _ _⟩
  · exact ⟨trivial, le_refl _, htotal⟩

/-- C33 counterexample: for a bottom-up image (positive height) `LoadPixelData` returns the
loaded image although the callback answers `false` to every call: it is not consulted. -/
theorem C33_counterexample :
    LoadPixelData ⟨[1, 2, 3, 4], 0⟩ [0, 0, 0, 0] 1 4 8
      ⟨0, 20, ⟨false, some (fun _ => false), 0⟩⟩ = some ([1, 2, 3, 4], true) := by
  decide

/-- C33 (amended): for a top-down image (negative height) whose rows the stream supplies,
`LoadPixelData` consults the callback while it loads the rows: if the callback answers `false`
the call returns `NULL`, and if it never cancels the call returns the image. For a bottom-up
image (positive height) the pixel bytes are read in one piece and the result is the same for
every state of the callback: an image is returned. -/
theorem C33_cancellation_raw (io : Stream) (dib : List Nat) (height : Int)
    (pitch bit_count : Nat) (progress : FIProgress) (hp : 0 < pitch)
    (hint : height.natAbs < 2 ^ 32) (hsteps : 1 ≤ progress._steps)
    (hbytes : height.natAbs * pitch ≤ io.data.length - io.pos) :
    (height < 0 → progress._cb.onProgress.1 = false →
      LoadPixelData io dib height pitch bit_count progress = none) ∧
    (height < 0 → progress.neverCancels → pitch * height.natAbs ≤ dib.length →
      ∃ bits, LoadPixelData io dib height pitch bit_count progress = some (bits, true)) ∧
    (0 < height → ∀ progress1 : FIProgress,
      LoadPixelData io dib height pitch bit_count progress1 =
        LoadPixelData io dib height pitch bit_count progress ∧
      ∃ r, LoadPixelData io dib height pitch bit_count progress1 = some r) := by
  refine ⟨?_, ?_, ?_⟩
  · intro hneg hno
    have hH : 1 ≤ height.natAbs := by omega
    obtain ⟨s0, s1, s2⟩ := getStepProgress_sdelta progress height.natAbs FI_MAX_PROGRESS hsteps hH
    have hmono : (progress.getStepProgress height.natAbs FI_MAX_PROGRESS)._sdelta * pitch ≤
        height.natAbs * pitch := Nat.mul_le_mul_right _ s2
    have hc := LoadPixelData_rows_cancel height.natAbs pitch hp progress hno
      ((progress.getStepProgress height.natAbs FI_MAX_PROGRESS)._sdelta - 1) height.natAbs 0 io
      dib (progress.getStepProgress height.natAbs FI_MAX_PROGRESS) (by omega) (by omega)
      (by omega)
      (by
        rw [show (progress.getStepProgress height.natAbs FI_MAX_PROGRESS)._sdelta - 1 + 1 =
          (progress.getStepProgress height.natAbs FI_MAX_PROGRESS)._sdelta by omega]
        omega)
    unfold LoadPixelData
    rw [if_neg (by omega)]
    simp only [hc, if_true]
  · intro hneg hnc hdib
    obtain ⟨a1, _, _, _⟩ := LoadPixelData_rows_full height.natAbs pitch hp height.natAbs 0 io
      dib (progress.getStepProgress height.natAbs FI_MAX_PROGRESS) progress (by omega) hbytes
      hdib hnc
    unfold LoadPixelData
    rw [if_neg (by omega)]
    simp only [a1, Bool.false_eq_true, if_false]
    exact ⟨_, rfl⟩
  · intro hpos progress1
    unfold LoadPixelData
    rw [if_pos hpos, if_pos hpos]
    exact ⟨rfl, _, rfl⟩

/-- C33 witness: a top-down image of one row and a callback that answers `false`. -/
theorem C33_cancellation_raw_witness :
    LoadPixelData ⟨[1, 2, 3, 4], 0⟩ [0, 0, 0, 0] (-1) 4 8
      ⟨0, 20, ⟨false, some (fun _ => false), 0⟩⟩ = none :=
  (C33_cancellation_raw ⟨[1, 2, 3, 4], 0⟩ [0, 0, 0, 0] (-1) 4 8
    ⟨0, 20, ⟨false, some (fun _ => false), 0⟩⟩ (by decide) (by decide) (by decide)
    (by decide)).1 (by decide) rfl

/-! ### The row order of the RLE decoders -/

/-- C34 counterexample: two rows of two pixels, the first encoded row of colour 7 (RLE-8) or
of sample 1 (RLE-4), the second of colour 9 or sample 2. The pixels decoded on row 0 are in
scanline 0 of the returned buffer, those of row 1 in scanline 1: no row is stored in scanline
`h - 1 - k`. -/
theorem C34_counterexample :
    LoadPixelDataRLE8 [2, 7, 0, 0, 2, 9, 0, 1] 2 2 8 [0, 0, 0, 0, 0, 0, 0, 0] 4
      (FIProgress.create 0 none) = .ok (some [7, 7, 0, 0, 9, 9, 0, 0]) ∧
    LoadPixelDataRLE4 [2, 0x11, 0, 0, 2, 0x22, 0, 1] 2 2 4 [0, 0, 0, 0, 0, 0, 0, 0] 4
      (FIProgress.create 0 none) = .ok (some [0x11, 0, 0, 0, 0x22, 0, 0, 0]) :=
  ⟨rfl, rfl⟩

/-- The samples that the absolute-mode loop writes: sample `j` of the run is at offset
`q + j`, and it is the nibble of the literal byte read for the index pair of `i + j`: the
high nibble at an even index, the low nibble at an odd one. -/
theorem RLE4_absolute_getD (n : Nat) : ∀ (i : Nat) (q : Int) (qn : Nat) (second_byte : Nat)
    (stream pixels pixels1 stream1 : List Nat), q = (qn : Int) →
    RLE4_absolute n i q second_byte stream pixels = some (pixels1, stream1) →
    qn + n ≤ pixels.length → ∀ j, j < n →
    pixels1.getD (qn + j) 0 =
      RLE4_sample (if i % 2 = 1 ∧ j = 0 then second_byte
        else stream.getD ((j - i % 2) / 2) 0) (i + j) := by
  induction n with
  | zero =>
    intro i q qn second_byte stream pixels pixels1 stream1 _ _ _ j hj
    omega
  | succ n ih =>
    intro i q qn second_byte stream pixels pixels1 stream1 hq h hfit j hj
    have hq1 : q + 1 = ((qn + 1 : Nat) : Int) := by omega
    unfold RLE4_absolute at h
    by_cases hi : i % 2 = 0
    · rw [if_pos hi] at h
      cases stream with
      | nil => simp at h
      | cons b s1 =>
        simp only at h
        cases j with
        | zero =>
          obtain ⟨_, a2, _, _⟩ := RLE4_absolute_spec _ _ _ _ _ _ _ _ h
          rw [Nat.add_zero, a2 qn (by omega),
            RLE4_put_getD_eq pixels q _ qn hq.symm (by omega), if_neg (by omega)]
          simp
        | succ j =>
          have := ih (i + 1) (q + 1) (qn + 1) b s1 _ pixels1 stream1 hq1 h
            (by rw [RLE4_put_length]; omega) j (by omega)
          rw [show qn + (j + 1) = qn + 1 + j by omega, this,
            show i + (j + 1) = i + 1 + j by omega]
          congr 1
          by_cases hj0 : j = 0
          · subst hj0
            rw [if_pos ⟨by omega, rfl⟩, if_neg (by omega)]
            have e : (0 + 1 - i % 2) / 2 = 0 := by omega
            rw [e]
            rfl
          · rw [if_neg (by omega), if_neg (by omega)]
            have e1 : (j + 1 - i % 2) / 2 = (j - (i + 1) % 2) / 2 + 1 := by omega
            rw [e1, List.getD_cons_succ]
    · rw [if_neg hi] at h
      cases j with
      | zero =>
        obtain ⟨_, a2, _, _⟩ := RLE4_absolute_spec _ _ _ _ _ _ _ _ h
        rw [Nat.add_zero, a2 qn (by omega),
          RLE4_put_getD_eq pixels q _ qn hq.symm (by omega), if_pos ⟨by omega, rfl⟩,
          Nat.add_zero]
      | succ j =>
        have := ih (i + 1) (q + 1) (qn + 1) second_byte stream _ pixels1 stream1 hq1 h
          (by rw [RLE4_put_length]; omega) j (by omega)
        rw [show qn + (j + 1) = qn + 1 + j by omega, this,
          show i + (j + 1) = i + 1 + j by omega]
        congr 1
        rw [if_neg (by omega), if_neg (by omega)]
        have e1 : (j + 1 - i % 2) / 2 = (j - (i + 1) % 2) / 2 := by omega
        rw [e1]

/-- The absolute run `(0, n)` at the cursor `(scanline, bits)` of an image of `w` by `h`
pixels, with room for `n` pixels left in the row: when the decoder returns, the pixels of the
columns from `bits` on of row `scanline` of the image it has built are the samples of the
run. -/
theorem LoadPixelDataRLE4_loop_absolute_room (w h : Nat)
    (hdims : (h + 255) * w + 255 < 2 ^ 31) (scanline bits n : Nat) (h3 : 3 ≤ n)
    (hroom : bits + n ≤ w) (hs : scanline < h) (fuel : Nat) (stream2 pixels : List Nat)
    (step : Step) (progress : FIProgress) (hlen : pixels.length = w * h)
    (hsmall : RLE4_small pixels) (hbytes : ∀ x ∈ stream2, x < 256)
    (hlits : (n + 1) / 2 + ((n + 1) / 2) % 2 ≤ stream2.length) (res : List Nat)
    (hres : LoadPixelDataRLE4_loop (w : Int) h ((w * h : Nat) : Int) (fuel + 1)
      (0 :: n :: stream2) (scanline : Nat) (bits : Nat) ((scanline * w + bits : Nat) : Int)
      pixels step progress = .ok (some res))
    (pitch : Nat) (dib : List Nat) (hpitch : (w + 1) / 2 ≤ pitch)
    (hdib : pitch * h ≤ dib.length) (i : Nat) (hi : i < n) :
    RLE4_pixel (RLE4_convert res (w : Int) pitch h 0 dib) pitch (bits + i) scanline =
      RLE4_sample (stream2.getD (i / 2) 0) i := by
  have hrow : (scanline + 1) * w ≤ h * w := Nat.mul_le_mul_right _ (by omega)
  have hcomm : w * h = h * w := Nat.mul_comm w h
  have hexp : (scanline + 1) * w = scanline * w + w := by ring
  have hbig : h * w ≤ (h + 255) * w := Nat.mul_le_mul_right _ (by omega)
  have hfit : scanline * w + bits + n ≤ w * h := by omega
  have hwh : w * h < 2 ^ 31 := by omega
  have hbc : bits + n < 2 ^ 31 := by omega
  have hlt : scanline * w + bits < w * h := by omega
  have hnext : scanline * w + bits + n ≤ (scanline + 1) * w := by omega
  have hfit2 : scanline * w + bits + n ≤ pixels.length := by omega
  have hxs : bits + i < w := by omega
  have hks : scanline * w + (bits + i) < scanline * w + bits + n := by omega
  have hcast : ((scanline * w + bits + n : Nat) : Int) ≤ ((w * h : Nat) : Int) := by
    exact_mod_cast hfit
  have hmin : min (n : Int) (((w * h : Nat) : Int) - ((scanline * w + bits : Nat) : Int)) =
      (n : Int) := by
    rw [Nat.cast_add (scanline * w + bits) n] at hcast
    exact min_eq_left (by linarith)
  have hq : ((scanline * w + bits : Nat) : Int) < ((w * h : Nat) : Int) := by
    exact_mod_cast hlt
  have hsh : ((scanline : Nat) : Int) < ((h : Nat) : Int) := by exact_mod_cast hs
  obtain ⟨pixels1, hp, hstep⟩ := LoadPixelDataRLE4_loop_absolute (w : Int) h
    ((w * h : Nat) : Int) fuel n stream2 (scanline : Nat) (bits : Nat)
    ((scanline * w + bits : Nat) : Int) pixels step progress hsh hq h3 n hmin.symm hlits
  obtain ⟨a1, _, a3, _⟩ := RLE4_absolute_spec _ _ _ _ _ _ _ _ hp
  have hget := RLE4_absolute_getD n 0 ((scanline * w + bits : Nat) : Int) (scanline * w + bits)
    0 stream2 pixels pixels1 _ rfl hp hfit2 i hi
  rw [if_neg (by omega), Nat.zero_add, Nat.zero_mod, Nat.sub_zero] at hget
  have hrest : ∀ x ∈ stream2.drop ((n + 1) / 2 + ((n + 1) / 2) % 2), x < 256 :=
    fun x hx => hbytes x (List.mem_of_mem_drop hx)
  have hb : int32 (((bits : Nat) : Int) + (n : Int)) = ((bits + n : Nat) : Int) := by
    rw [← Nat.cast_add]
    apply int32_eq
    · exact le_trans (by norm_num) (Int.ofNat_nonneg _)
    · exact_mod_cast hbc
  rw [hstep, hb, ← Nat.cast_add] at hres
  clear hb
  have hkept : RLE4_kept w h (scanline * w + bits + n) pixels1 (scanline : Nat)
      ((bits + n : Nat) : Int) ((scanline * w + bits + n : Nat) : Int) pixels1 :=
    ⟨scanline, bits + n, rfl, rfl, Or.inl (by rw [Nat.add_assoc]), le_refl _, hnext,
      by rw [a1, hlen], a3 hsmall, fun _ _ => rfl⟩
  obtain ⟨_, h2, h4⟩ := LoadPixelDataRLE4_loop_kept w h (scanline * w + bits + n) _ hdims fuel
    _ _ _ _ _ step progress res hrest hkept hres
  rw [RLE4_convert_pixel res w h pitch dib h2 hpitch hdib hwh (bits + i) scanline hxs hs,
    h4 _ hks, ← Nat.add_assoc, hget]

/-- C34 (amended): rows are not reversed. For an image of `w` by `h` pixels (dimensions that
keep the `int` cursor in range) and a repeat token or an absolute run of `n` pixels read while
the decode cursor is on row `k`, column `bits`, with the run inside the row
(`bits + n <= w`): `LoadPixelDataRLE8` stores the pixels in scanline `k` of the buffer, from
the offset `pitch * k + bits` on, where they are when the token has been processed; and when
`LoadPixelDataRLE4` returns an image, the pixels of the columns from `bits` on of scanline
`k` of that image are the samples of the run (for an absolute run, the nibbles of its literal
bytes, high nibble first). -/
theorem C34_rle_row_order (w h k bits : Nat) (hk : k < h)
    (hdims : (h + 255) * w + 255 < 2 ^ 31) (fuel : Nat) (step : Step)
    (progress : FIProgress) :
    (∀ (c v pitch : Nat) (rest dib : List Nat), 1 ≤ c → bits + c ≤ w →
      pitch * k + bits + c ≤ dib.length →
      LoadPixelDataRLE8_loop (w : Int) h pitch (fuel + 1) (c :: v :: rest) (k : Nat)
          (bits : Nat) dib step progress =
        LoadPixelDataRLE8_loop (w : Int) h pitch fuel rest (k : Nat) ((bits + c : Nat) : Int)
          (RLE8_store dib (pitch * k + bits) (List.replicate c v)) step progress ∧
      ((RLE8_store dib (pitch * k + bits) (List.replicate c v)).drop (pitch * k + bits)).take
        c = List.replicate c v) ∧
    (∀ (pitch : Nat) (bs pad rest dib : List Nat), 3 ≤ bs.length →
      pad.length = bs.length % 2 → bits + bs.length ≤ w →
      pitch * k + bits + bs.length ≤ dib.length →
      LoadPixelDataRLE8_loop (w : Int) h pitch (fuel + 1)
          (0 :: bs.length :: (bs ++ pad ++ rest)) (k : Nat) (bits : Nat) dib step progress =
        LoadPixelDataRLE8_loop (w : Int) h pitch fuel rest (k : Nat)
          ((bits + bs.length : Nat) : Int) (RLE8_store dib (pitch * k + bits) bs) step
          progress ∧
      ((RLE8_store dib (pitch * k + bits) bs).drop (pitch * k + bits)).take bs.length = bs) ∧
    (∀ (c v : Nat) (rest pixels res : List Nat), 1 ≤ c → bits + c ≤ w →
      pixels.length = w * h → RLE4_small pixels → (∀ x ∈ rest, x < 256) →
      LoadPixelDataRLE4_loop (w : Int) h ((w * h : Nat) : Int) (fuel + 1) (c :: v :: rest)
        (k : Nat) (bits : Nat) ((k * w + bits : Nat) : Int) pixels step progress =
          .ok (some res) →
      ∀ (pitch : Nat) (dib : List Nat), (w + 1) / 2 ≤ pitch → pitch * h ≤ dib.length →
        ∀ i, i < c →
          RLE4_pixel (RLE4_convert res (w : Int) pitch h 0 dib) pitch (bits + i) k =
            RLE4_sample v i) ∧
    (∀ (n : Nat) (stream2 pixels res : List Nat), 3 ≤ n → bits + n ≤ w →
      pixels.length = w * h → RLE4_small pixels → (∀ x ∈ stream2, x < 256) →
      (n + 1) / 2 + ((n + 1) / 2) % 2 ≤ stream2.length →
      LoadPixelDataRLE4_loop (w : Int) h ((w * h : Nat) : Int) (fuel + 1)
        (0 :: n :: stream2) (k : Nat) (bits : Nat) ((k * w + bits : Nat) : Int) pixels step
        progress = .ok (some res) →
      ∀ (pitch : Nat) (dib : List Nat), (w + 1) / 2 ≤ pitch → pitch * h ≤ dib.length →
        ∀ i, i < n →
          RLE4_pixel (RLE4_convert res (w : Int) pitch h 0 dib) pitch (bits + i) k =
            RLE4_sample (stream2.getD (i / 2) 0) i) := by
  have hw : w < 2 ^ 31 := by
    have h1 : 1 * w ≤ (h + 255) * w := Nat.mul_le_mul_right _ (by omega)
    omega
  refine ⟨?_, ?_, ?_, ?_⟩
  · intro c v pitch rest dib hc hroom hfit
    refine ⟨LoadPixelDataRLE8_loop_run w h pitch fuel c v rest k bits dib step progress hw hk hc
      hroom, ?_⟩
    have := RLE8_store_segment dib (pitch * k + bits) (List.replicate c v)
      (by rw [List.length_replicate]; exact hfit)
    rw [List.length_replicate] at this
    exact this
  · intro pitch bs pad rest dib h3 hpad hroom2 hfit
    exact ⟨LoadPixelDataRLE8_loop_abs w h pitch fuel bs pad rest k bits dib step progress hw hk
      h3 hpad hroom2, RLE8_store_segment dib (pitch * k + bits) bs hfit⟩
  · intro c v rest pixels res hc hroom hlen hsmall hrest hres pitch dib hpitch hdib i hi
    obtain ⟨a1, a2⟩ := LoadPixelDataRLE4_loop_repeat_room w h hdims k bits c v hc hroom hk fuel
      rest pixels step progress hlen hsmall hrest
    rw [a1] at hres
    exact a2 res hres pitch dib hpitch hdib i hi
  · intro n stream2 pixels res h3 hroom hlen hsmall hbytes hlits hres pitch dib hpitch hdib i hi
    exact LoadPixelDataRLE4_loop_absolute_room w h hdims k bits n h3 hroom hk fuel stream2
      pixels step progress hlen hsmall hbytes hlits res hres pitch dib hpitch hdib i hi

/-- C34 witness: the repeat token `(2, 9)` read on row 1 of an image of 2 by 2 pixels with
stride 4 is stored from offset 4 on, in scanline 1. -/
theorem C34_rle_row_order_witness :
    LoadPixelDataRLE8_loop ((2 : Nat) : Int) 2 4 (0 + 1) (2 :: 9 :: [0, 1]) ((1 : Nat) : Int)
        ((0 : Nat) : Int) [7, 7, 0, 0, 0, 0, 0, 0]
        (FIProgress.getStepProgress (FIProgress.create 0 none) 2 FI_MAX_PROGRESS)
        (FIProgress.create 0 none) =
      LoadPixelDataRLE8_loop ((2 : Nat) : Int) 2 4 0 [0, 1] ((1 : Nat) : Int)
        ((0 + 2 : Nat) : Int)
        (RLE8_store [7, 7, 0, 0, 0, 0, 0, 0] (4 * 1 + 0) (List.replicate 2 9))
        (FIProgress.getStepProgress (FIProgress.create 0 none) 2 FI_MAX_PROGRESS)
        (FIProgress.create 0 none) ∧
    ((RLE8_store [7, 7, 0, 0, 0, 0, 0, 0] (4 * 1 + 0) (List.replicate 2 9)).drop
      (4 * 1 + 0)).take 2 = List.replicate 2 9 :=
  (C34_rle_row_order 2 2 1 0 (by decide) (by decide) 0
    (FIProgress.getStepProgress (FIProgress.create 0 none) 2 FI_MAX_PROGRESS)
    (FIProgress.create 0 none)).1 2 9 4 [0, 1] [7, 7, 0, 0, 0, 0, 0, 0] (by decide) (by decide)
    (by decide)

/-! ### Minimum and maximum of an array -/

theorem take_add_two {α : Type} (L : List α) (i : Nat) (hlt : i < L.length)
    (hlt1 : i + 1 < L.length) : L.take (i + 2) = L.take i ++ [L[i], L[i + 1]] := by
  have e : i + 2 = i + 1 + 1 := rfl
  rw [e, List.take_succ, List.take_succ, List.getElem?_eq_getElem hlt,
    List.getElem?_eq_getElem hlt1]
  simp only [Option.toList, List.append_assoc, List.cons_append, List.nil_append]

/-- The comparisons of one turn of the loop of `MAXMIN` as minimum and maximum. -/
theorem MAXMIN_turn {α : Type} [LinearOrder α] (a b mx mn : α) :
    (if (if a > b then b else a) < mn then (if a > b then b else a) else mn) =
      min (min a b) mn ∧
    (if (if a > b then a else b) > mx then (if a > b then a else b) else mx) =
      max (max a b) mx := by
  have h1 : (if a > b then b else a) = min a b := by
    split_ifs with h
    · exact (min_eq_right (le_of_lt h)).symm
    · exact (min_eq_left (not_lt.mp h)).symm
  have h2 : (if a > b then a else b) = max a b := by
    split_ifs with h
    · exact (max_eq_left (le_of_lt h)).symm
    · exact (max_eq_right (not_lt.mp h)).symm
  rw [h1, h2]
  constructor
  · split_ifs with h
    · exact (min_eq_left (le_of_lt h)).symm
    · exact (min_eq_right (not_lt.mp h)).symm
  · split_ifs with h
    · exact (max_eq_left (le_of_lt h)).symm
    · exact (max_eq_right (not_lt.mp h)).symm

/-- The loop of `MAXMIN` from an index `i` of the parity of `n`: it reads inside the array
only, and it ends with the greatest and the least of the values seen. -/
theorem MAXMIN_loop_spec {α : Type} [LinearOrder α] (L : List α) (fuel : Nat) :
    ∀ (i : Nat) (max min : α), (L.length - i) % 2 = 0 → i ≤ L.length →
    L.length ≤ i + 2 * fuel → max ∈ L → min ∈ L →
    (∀ x ∈ L.take i, min ≤ x ∧ x ≤ max) →
    ∃ mx mn, MAXMIN_loop L L.length fuel i max min = some (mx, mn) ∧ mx ∈ L ∧ mn ∈ L ∧
      ∀ x ∈ L, mn ≤ x ∧ x ≤ mx := by
  induction fuel with
  | zero =>
    intro i max min _ hi hf hmax hmin hinv
    have : i = L.length := by omega
    subst this
    rw [List.take_length] at hinv
    exact ⟨max, min, by simp [MAXMIN_loop], hmax, hmin, hinv⟩
  | succ fuel ih =>
    intro i max min hpar hi hf hmax hmin hinv
    by_cases hlt : i < L.length
    · have hlt1 : i + 1 < L.length := by omega
      rw [MAXMIN_loop, if_pos hlt, if_pos hlt1, List.getElem?_eq_getElem hlt,
        List.getElem?_eq_getElem hlt1]
      simp only
      obtain ⟨e1, e2⟩ := MAXMIN_turn L[i] L[i + 1] max min
      rw [e1, e2]
      have ha : L[i] ∈ L := List.getElem_mem hlt
      have hb : L[i + 1] ∈ L := List.getElem_mem hlt1
      apply ih (i + 2) _ _ (by omega) (by omega) (by omega)
      · rcases max_choice (Max.max L[i] L[i + 1]) max with h | h
        · rw [h]
          rcases max_choice L[i] L[i + 1] with h | h <;> rw [h] <;> assumption
        · rw [h]
          exact hmax
      · rcases min_choice (Min.min L[i] L[i + 1]) min with h | h
        · rw [h]
          rcases min_choice L[i] L[i + 1] with h | h <;> rw [h] <;> assumption
        · rw [h]
          exact hmin
      · intro x hx
        rw [take_add_two L i hlt hlt1] at hx
        rcases List.mem_append.mp hx with hx | hx
        · obtain ⟨h1, h2⟩ := hinv x hx
          exact ⟨le_trans (min_le_right _ _) h1, le_trans h2 (le_max_right _ _)⟩
        · have hx2 : x = L[i] ∨ x = L[i + 1] := by simpa using hx
          rcases hx2 with rfl | rfl
          · exact ⟨le_trans (min_le_left _ _) (min_le_left _ _),
              le_trans (le_max_left _ _) (le_max_left _ _)⟩
          · exact ⟨le_trans (min_le_left _ _) (min_le_right _ _),
              le_trans (le_max_right _ _) (le_max_left _ _)⟩
    · have : i = L.length := by omega
      subst this
      rw [List.take_length] at hinv
      refine ⟨max, min, ?_, hmax, hmin, hinv⟩
      rw [MAXMIN_loop, if_neg hlt]

/-- C36: for an array `L` of `n >= 1` elements of a totally ordered type, `MAXMIN (L, n)`
reads no index outside `[0, n)` (the model returns a result), and leaves in `max` the
greatest and in `min` the least element of `L`: both are elements of `L`, and every element
lies between them. -/
theorem C36_maxmin_correct {α : Type} [LinearOrder α] (L : List α) (hn : 1 ≤ L.length) :
    ∃ mx mn, MAXMIN L L.length = some (mx, mn) ∧ mx ∈ L ∧ mn ∈ L ∧
      ∀ x ∈ L, mn ≤ x ∧ x ≤ mx := by
  have h0 : 0 < L.length := hn
  have hmem : L[0] ∈ L := List.getElem_mem h0
  unfold MAXMIN
  rw [if_pos h0, List.getElem?_eq_getElem h0]
  simp only
  by_cases hodd : L.length % 2 ≠ 0
  · rw [if_pos hodd]
    apply MAXMIN_loop_spec L L.length 1 _ _ (by omega) (by omega) (by omega) hmem hmem
    intro x hx
    have : x = L[0] := by
      rw [List.take_succ, List.getElem?_eq_getElem h0] at hx
      simpa using hx
    rw [this]
    exact ⟨le_refl _, le_refl _⟩
  · rw [if_neg hodd]
    apply MAXMIN_loop_spec L L.length 0 _ _ (by omega) (by omega) (by omega) hmem hmem
    intro x hx
    simp at hx

/-- C36 witness: an array of five integers. -/
theorem C36_maxmin_correct_witness :
    ∃ mx mn, MAXMIN ([3, 9, 1, 4, 7] : List Int) ([3, 9, 1, 4, 7] : List Int).length =
        some (mx, mn) ∧
      mx ∈ ([3, 9, 1, 4, 7] : List Int) ∧ mn ∈ ([3, 9, 1, 4, 7] : List Int) ∧
      ∀ x ∈ ([3, 9, 1, 4, 7] : List Int), mn ≤ x ∧ x ≤ mx :=
  C36_maxmin_correct [3, 9, 1, 4, 7] (by decide)

/-! ### The encoded line in the buffer of `Save` -/

/-- The number of bytes that the flush of the pool writes. -/
theorem RLE_flush_length (target : Nat → Nat) (buffer out : List Nat) :
    (RLE_flush target buffer out).length =
      out.length + (if buffer.length ≤ 2 then 2 * buffer.length
        else 2 + buffer.length + buffer.length % 2) := by
  unfold RLE_flush
  simp only [RLE_DELTA, RLE_ENDOFBITMAP]
  split_ifs with h0 h2 h1 hodd hle hle hle hle <;>
    (try simp only [List.length_append, List.length_cons, List.length_nil]) <;> omega

/-- Pooling bytes either leaves the output as it is, or writes a full pool of 254 bytes as
an absolute run, which takes 256 bytes for 254 pixels. -/
theorem RLE_push_tight (xs : List Nat) : ∀ (buffer out : List Nat), buffer.length < 254 →
    RLE_push (buffer, out) xs = (buffer ++ xs, out) ∨
    (RLE_push (buffer, out) xs).2.length + 2 * (RLE_push (buffer, out) xs).1.length + 2 ≤
      out.length + 2 * buffer.length + 2 * xs.length := by
  induction xs with
  | nil =>
    intro buffer out _
    left
    simp [RLE_push_nil]
  | cons x xs ih =>
    intro buffer out hb
    rw [RLE_push_cons]
    by_cases h254 : (buffer ++ [x]).length = 254
    · right
      rw [RLE_flush_full_of_eq _ _ h254]
      have := RLE_push_measure ([], out ++ [0, 254] ++ (buffer ++ [x])) xs
      simp only [List.length_append, List.length_cons, List.length_nil] at this h254 ⊢
      omega
    · rw [RLE_flush_full_of_ne _ _ h254]
      simp only [List.length_append, List.length_singleton] at h254
      rcases ih (buffer ++ [x]) out
        (by simp only [List.length_append, List.length_singleton]; omega) with h | h
      · left
        rw [h]
        simp
      · right
        simp only [List.length_append, List.length_cons, List.length_nil] at h ⊢
        omega

/-- One iteration of the main loop keeps the pool below 254 bytes. -/
theorem RLE_iter_pool_lt (target : Nat → Nat) (source : List Nat) (size i : Nat)
    (buffer out : List Nat) (hb : buffer.length < 254) :
    (RLE_iter target source size i buffer out).2.1.length < 254 := by
  rw [RLE_iter_eq _ _ _ _ _ _ hb]
  split_ifs with hc hr <;> dsimp only
  · simp
  · exact RLE_push_length_lt _ _ hb
  · exact RLE_push_length_lt _ _ hb

/-- After any number of iterations of the main loop the pool holds fewer than 254 bytes. -/
theorem RLEEncodeLine_loop_pool_lt (target : Nat → Nat) (source : List Nat) (size fuel : Nat) :
    ∀ (i : Nat) (buffer out : List Nat), buffer.length < 254 →
    (RLEEncodeLine_loop target source size fuel i buffer out).1.length < 254 := by
  induction fuel with
  | zero =>
    intro i buffer out hb
    exact hb
  | succ fuel ih =>
    intro i buffer out hb
    by_cases hlt : i < size
    · simp only [RLEEncodeLine_loop, if_pos hlt]
      exact ih _ _ _ (RLE_iter_pool_lt target source size i buffer out hb)
    · rw [RLEEncodeLine_loop_exit _ _ _ _ _ _ _ hlt]
      exact hb

/-- The encoded line takes at most twice its length rounded up to a multiple of 4. -/
theorem RLEEncodeLine_length_le (target : Nat → Nat) (source : List Nat)
    (hn : 1 ≤ source.length) :
    (RLEEncodeLine target source source.length).length ≤ 2 * ((source.length + 3) / 4 * 4) := by
  unfold RLEEncodeLine
  have hinv := RLEEncodeLine_loop_inv target source source.length
    (fun i buffer out => buffer.length < 254 ∧
      ((out = [] ∧ buffer.length = i) ∨ out.length + 2 * buffer.length + 2 ≤ 2 * i))
    (by
      intro i buffer out hi ⟨hb, hm⟩
      obtain ⟨h1, h2, _, _⟩ := RLE_scan_spec source source.length (254 + i) source.length (i + 1)
      rw [RLE_iter_eq _ _ _ _ _ _ hb]
      split_ifs with hc hr <;> dsimp only
      · refine ⟨by simp, Or.inr ?_⟩
        have := RLE_flush_length_le target buffer out
        simp only [List.length_append, List.length_cons, List.length_nil]
        rcases hm with ⟨rfl, hk⟩ | hm
        · simp only [List.length_nil] at this
          omega
        · omega
      · refine ⟨RLE_push_length_lt _ _ hb, ?_⟩
        rcases RLE_push_tight
          ((List.range' 0 ((RLE_scan source source.length (254 + i) source.length (i + 1) - i)
            + 1)).map (fun t => source.getD (i + t) 0)) buffer out hb with h | h
        · rw [h]
          simp only [List.length_append, List.length_map, List.length_range']
          rcases hm with ⟨ho, hk⟩ | hm
          · exact Or.inl ⟨ho, by omega⟩
          · exact Or.inr (by omega)
        · right
          simp only [List.length_map, List.length_range'] at h
          rcases hm with ⟨rfl, hk⟩ | hm
          · simp only [List.length_nil] at h
            omega
          · omega
      · refine ⟨RLE_push_length_lt _ _ hb, ?_⟩
        rcases RLE_push_tight [source.getD i 0] buffer out hb with h | h
        · rw [h]
          simp only [List.length_append, List.length_cons, List.length_nil]
          rcases hm with ⟨ho, hk⟩ | hm
          · exact Or.inl ⟨ho, by omega⟩
          · exact Or.inr (by omega)
        · right
          simp only [List.length_cons, List.length_nil] at h
          rcases hm with ⟨rfl, hk⟩ | hm
          · simp only [List.length_nil] at h
            omega
          · omega)
    source.length 0 [] [] (by omega) (by omega) ⟨by simp, Or.inl ⟨rfl, rfl⟩⟩
  obtain ⟨hb, hm⟩ := hinv
  have hlen := RLE_flush_length target
    (RLEEncodeLine_loop target source source.length source.length 0 [] []).1
    (RLEEncodeLine_loop target source source.length source.length 0 [] []).2
  simp only [List.length_append, List.length_cons, List.length_nil, hlen]
  rcases hm with ⟨ho, hk⟩ | hm
  · rw [ho, hk]
    simp only [List.length_nil]
    split_ifs <;> omega
  · split_ifs <;> omega

/-- C38: for an 8-bit scanline of `n >= 1` bytes (an `int` below `2 ^ 31 - 255`) the bytes
that `RLEEncodeLine` writes or skips, at the target indices from 0 up to the returned size,
fit in the `2 * CalculatePitch (n)` bytes of the buffer that `Save` allocates (a product that
does not wrap); and the pool, the literal buffer of 256 bytes, holds fewer than 254 bytes
after any number of iterations and after every byte put into it, so it is indexed below 254
only. -/
theorem C38_encoder_fits_buffer (target : Nat → Nat) (source : List Nat)
    (hn : 1 ≤ source.length) (hint : source.length < 2 ^ 31 - 255) :
    (RLEEncodeLine target source source.length).length ≤ 2 * CalculatePitch source.length ∧
    2 * CalculatePitch source.length < 2 ^ 32 ∧
    (∀ fuel, (RLEEncodeLine_loop target source source.length fuel 0 [] []).1.length < 254) ∧
    (∀ (buffer out xs : List Nat) (k : Nat), buffer.length < 254 →
      (RLE_push (buffer, out) (xs.take k)).1.length < 254) := by
  have hp : CalculatePitch source.length = (source.length + 3) / 4 * 4 :=
    CalculatePitch_of_le _ (by omega)
  refine ⟨?_, ?_, ?_, ?_⟩
  · rw [hp]
    exact RLEEncodeLine_length_le target source hn
  · rw [hp]
    omega
  · intro fuel
    exact RLEEncodeLine_loop_pool_lt target source source.length fuel 0 [] [] (by simp)
  · intro buffer out xs k hb
    exact RLE_push_length_lt _ _ hb

/-- C38 witness: a scanline of three different bytes is encoded in 8 bytes, the size of the
buffer for a line of 3 bytes. -/
theorem C38_encoder_fits_buffer_witness :
    (RLEEncodeLine (fun _ => 0) [1, 2, 3] ([1, 2, 3] : List Nat).length).length ≤
      2 * CalculatePitch ([1, 2, 3] : List Nat).length :=
  (C38_encoder_fits_buffer (fun _ => 0) [1, 2, 3] (by decide) (by decide)).1

/-! ### Progress stepping -/

/-- The state after `k` calls of `Step::progress()`: the counter counts modulo the step
distance `d`, and the progress has grown by the delta once for every `d` calls. -/
theorem Step.progress_calls_spec (d pd : Nat) (hd : 1 ≤ d) (hd64 : d < 2 ^ 64) (k : Nat) :
    ∀ (s : Step) (p : FIProgress), s._sdelta = d → s._pdelta = pd → s._step < d →
    p._progress + ((s._step + k) / d) * pd < 2 ^ 64 →
    (Step.progress_calls k s p).1._step = (s._step + k) % d ∧
    (Step.progress_calls k s p).1._sdelta = d ∧
    (Step.progress_calls k s p).1._pdelta = pd ∧
    (Step.progress_calls k s p).2._progress = p._progress + ((s._step + k) / d) * pd := by
  induction k with
  | zero =>
    intro s p hsd hpd hlt _
    rw [Nat.add_zero, Nat.mod_eq_of_lt hlt, Nat.div_eq_of_lt hlt, Nat.zero_mul, Nat.add_zero]
    exact ⟨rfl, hsd, hpd, rfl⟩
  | succ k ih =>
    intro s p hsd hpd hlt hfit
    have hmod : (s._step + 1) % 2 ^ 64 = s._step + 1 := Nat.mod_eq_of_lt (by omega)
    rw [Step.progress_calls]
    by_cases hfull : s._step + 1 = d
    · have e : s._step + (k + 1) = d + k := by omega
      have hdiv : (d + k) / d = k / d + 1 := by
        rw [Nat.add_div_left _ (by omega)]
      have hmd : (d + k) % d = k % d := Nat.add_mod_left _ _
      rw [e, hdiv, Nat.add_mul, Nat.one_mul] at hfit
      have hs : (s.progress p).2.1._step = 0 ∧ (s.progress p).2.1._sdelta = d ∧
          (s.progress p).2.1._pdelta = pd ∧
          (s.progress p).2.2._progress = p._progress + pd := by
        unfold Step.progress
        rw [if_pos (by rw [hmod, hsd]; exact hfull.symm)]
        simp only [hpd]
        exact ⟨trivial, hsd, trivial, Nat.mod_eq_of_lt (by omega)⟩
      obtain ⟨a1, a2, a3, a4⟩ := ih (s.progress p).2.1 (s.progress p).2.2 hs.2.1 hs.2.2.1
        (by rw [hs.1]; exact hd) (by rw [hs.1, hs.2.2.2, Nat.zero_add]; omega)
      rw [hs.1, Nat.zero_add] at a1 a4
      rw [e, hdiv, hmd, Nat.add_mul, Nat.one_mul]
      refine ⟨a1, a2, a3, ?_⟩
      rw [a4, hs.2.2.2]
      omega
    · have e : s._step + (k + 1) = s._step + 1 + k := by omega
      have hs : s.progress p = (true, { s with _step := s._step + 1 }, p) := by
        unfold Step.progress
        rw [if_neg (by rw [hmod, hsd]; exact fun h => hfull h.symm), hmod]
      rw [e] at hfit ⊢
      rw [hs]
      exact ih { s with _step := s._step + 1 } p hsd hpd (by simp only; omega) hfit

/-- C40: for a progress object with a step count of 1 or more (the constructor gives a count
from 1 to 255), a progress value `P0 <= E` and `stepsTotal >= 1`, `getStepProgress` divides
by values of 1 or more only (the step count, and `stepsTotal / sdelta`); and after
`k <= stepsTotal` calls of `Step::progress()` the progress is `P0` plus the delta for every
`sdelta` calls made, which does not decrease with `k` and does not exceed `E`. -/
theorem C40_progress_stepping (p : FIProgress) (stepsTotal E : Nat) (hsteps : 1 ≤ p._steps)
    (htotal : 1 ≤ stepsTotal) (h64 : stepsTotal < 2 ^ 64) (hP : p._progress ≤ E)
    (hE : E < 2 ^ 64) :
    (∀ (cbOption : Nat) (cb : Option FreeImageCB),
      1 ≤ (FIProgress.create cbOption cb)._steps ∧
        (FIProgress.create cbOption cb)._steps ≤ 255) ∧
    1 ≤ (p.getStepProgress stepsTotal E)._sdelta ∧
    1 ≤ stepsTotal / (p.getStepProgress stepsTotal E)._sdelta ∧
    (p.getStepProgress stepsTotal E)._pdelta =
      (E - p._progress) / (stepsTotal / (p.getStepProgress stepsTotal E)._sdelta) ∧
    (∀ k, k ≤ stepsTotal →
      (Step.progress_calls k (p.getStepProgress stepsTotal E) p).2._progress =
        p._progress + (k / (p.getStepProgress stepsTotal E)._sdelta) *
          (p.getStepProgress stepsTotal E)._pdelta ∧
      (Step.progress_calls k (p.getStepProgress stepsTotal E) p).2._progress ≤ E) ∧
    (∀ k, k + 1 ≤ stepsTotal →
      (Step.progress_calls k (p.getStepProgress stepsTotal E) p).2._progress ≤
        (Step.progress_calls (k + 1) (p.getStepProgress stepsTotal E) p).2._progress) := by
  obtain ⟨s0, s1, s2⟩ := getStepProgress_sdelta p stepsTotal E hsteps htotal
  have hpd : (p.getStepProgress stepsTotal E)._pdelta =
      (E - p._progress) / (stepsTotal / (p.getStepProgress stepsTotal E)._sdelta) := rfl
  generalize (p.getStepProgress stepsTotal E) = s at s0 s1 s2 hpd ⊢
  have hn : 1 ≤ stepsTotal / s._sdelta := (Nat.le_div_iff_mul_le (by omega)).mpr (by omega)
  have hbound : ∀ k, k ≤ stepsTotal → (k / s._sdelta) * s._pdelta ≤ E - p._progress := by
    intro k hk
    have h1 : k / s._sdelta ≤ stepsTotal / s._sdelta := Nat.div_le_div_right hk
    have h2 : (k / s._sdelta) * s._pdelta ≤ (stepsTotal / s._sdelta) * s._pdelta :=
      Nat.mul_le_mul_right _ h1
    have h3 : (stepsTotal / s._sdelta) * s._pdelta ≤ E - p._progress := by
      rw [hpd]
      exact Nat.mul_div_le _ _
    exact le_trans h2 h3
  have hcalls : ∀ k, k ≤ stepsTotal →
      (Step.progress_calls k s p).2._progress = p._progress + (k / s._sdelta) * s._pdelta := by
    intro k hk
    have hb := hbound k hk
    have := (Step.progress_calls_spec s._sdelta s._pdelta s1 (by omega) k s p rfl rfl
      (by omega) (by rw [s0, Nat.zero_add]; omega)).2.2.2
    rw [s0, Nat.zero_add] at this
    exact this
  refine ⟨?_, s1, hn, hpd, ?_, ?_⟩
  · intro cbOption cb
    unfold FIProgress.create
    simp only
    split_ifs <;> omega
  · intro k hk
    have hb := hbound k hk
    rw [hcalls k hk]
    exact ⟨rfl, by omega⟩
  · intro k hk
    rw [hcalls k (by omega), hcalls (k + 1) hk]
    have h1 : k / s._sdelta ≤ (k + 1) / s._sdelta := Nat.div_le_div_right (by omega)
    have h2 := Nat.mul_le_mul_right s._pdelta h1
    omega

/-- C40 witness: 100 rows with the default of 20 steps: the callback is asked every 5 rows
and the progress after 10 calls is two deltas. -/
theorem C40_progress_stepping_witness :
    (Step.progress_calls 10
        ((FIProgress.create 0 none).getStepProgress 100 FI_MAX_PROGRESS)
        (FIProgress.create 0 none)).2._progress =
      (FIProgress.create 0 none)._progress +
        (10 / ((FIProgress.create 0 none).getStepProgress 100 FI_MAX_PROGRESS)._sdelta) *
          ((FIProgress.create 0 none).getStepProgress 100 FI_MAX_PROGRESS)._pdelta ∧
    (Step.progress_calls 10
        ((FIProgress.create 0 none).getStepProgress 100 FI_MAX_PROGRESS)
        (FIProgress.create 0 none)).2._progress ≤ FI_MAX_PROGRESS :=
  (C40_progress_stepping (FIProgress.create 0 none) 100 FI_MAX_PROGRESS (by decide) (by decide)
    (by decide) (by decide) (by decide)).2.2.2.2.1 10 (by decide)

end FreeImage
